import Mathlib

/-!
# LArContent: hierarchy helper and transverse association

A shallow embedding of
* `larpandoracontent/LArHelpers/LArHierarchyHelper.cc` (truth / reconstructed
  hierarchies, reconstructability, hierarchy matching), and
* `src/LArClusterAssociation/TransverseAssociationAlgorithm.cc`
  (cluster classification, merge maps and their pruning).

Pointers are modelled by the address they hold (a natural number); objects
that the code only reads through a pointer are given by the functions that
dereference it.  Containers are lists: a `std::list` / `std::vector` is the
list of its elements in order, a `std::set` / `std::map` is a list kept sorted
by address.
-/

namespace lar_content

/-! ## Data model of the hierarchy helper -/

/-- The detector view of a hit (`pandora::HitType`); `OTHER` stands for every
value that is not one of the three TPC views. -/
inductive HitType where
  | TPC_VIEW_U
  | TPC_VIEW_V
  | TPC_VIEW_W
  | OTHER
  deriving DecidableEq, Repr

/-- A `const CaloHit *`: the address of the hit. -/
abbrev CaloHit := Nat

/-- Status codes thrown as `StatusCodeException`. -/
inductive StatusCode where
  | STATUS_CODE_FAILURE
  | STATUS_CODE_NOT_FOUND
  | STATUS_CODE_NOT_INITIALIZED
  | STATUS_CODE_INVALID_PARAMETER
  deriving DecidableEq, Repr

/-- The members of `MCHierarchy::ReconstructabilityCriteria`; the defaults are
those of the default constructor. -/
structure ReconstructabilityCriteria where
  m_minHits : Nat := 15
  m_minHitsForGoodView : Nat := 5
  m_minGoodViews : Nat := 2
  m_removeNeutrons : Bool := true
  deriving DecidableEq, Repr

/-- A hierarchy node (`MCHierarchy::Node` and `RecoHierarchy::Node` have the same
members): the address of the node object, `m_pdg`, the addresses of the
constituent particles (`m_mcParticles` / `m_pfos`), `m_caloHits` and
`m_children`. -/
inductive Node where
  | mk (addr : Nat) (m_pdg : Int) (m_particles : List Nat) (m_caloHits : List CaloHit)
      (m_children : List Node)

namespace Node

/-- The address of the node object. -/
def addr : Node → Nat
  | mk a _ _ _ _ => a

/-- Model of `Node::GetParticleId`. -/
def GetParticleId : Node → Int
  | mk _ p _ _ _ => p

/-- Model of `Node::GetMCParticles` / `Node::GetRecoParticles`. -/
def GetParticles : Node → List Nat
  | mk _ _ ps _ _ => ps

/-- Model of `Node::GetCaloHits`. -/
def GetCaloHits : Node → List CaloHit
  | mk _ _ _ hs _ => hs

/-- Model of `Node::GetChildren`. -/
def GetChildren : Node → List Node
  | mk _ _ _ _ cs => cs

mutual
/-- Number of nodes of the tree rooted at a node. -/
def size : Node → Nat
  | mk _ _ _ _ cs => 1 + sizeList cs
/-- Number of nodes of a forest. -/
def sizeList : List Node → Nat
  | [] => 0
  | n :: ns => size n + sizeList ns
end

mutual
/-- All nodes of the tree rooted at a node, the node first (depth first). -/
def nodes : Node → List Node
  | mk a p ps hs cs => mk a p ps hs cs :: nodesList cs
/-- All nodes of a forest (depth first). -/
def nodesList : List Node → List Node
  | [] => []
  | n :: ns => nodes n ++ nodesList ns
end

end Node

/-- The state of an `MCHierarchy` that the modelled functions use. -/
structure MCHierarchy where
  m_recoCriteria : ReconstructabilityCriteria := {}
  m_rootNodes : List Node := []
  m_mcToHitsMap : List (Nat × List CaloHit) := []
  m_pNeutrino : Option Nat := none

/-- The state of a `RecoHierarchy` that the modelled functions use. -/
structure RecoHierarchy where
  m_rootNodes : List Node := []
  m_pNeutrino : Option Nat := none

/-! ## Flattening -/

/-- The `while (!queue.empty())` loop of `GetFlattenedNodes`: the front node is
popped and its children are appended both to the output vector and to the
queue.  Every iteration pops one node, so the loop is run with the number of
nodes of the forest as fuel. -/
def flattenLoop : Nat → List Node → List Node → List Node
  | 0, _, nodeVector => nodeVector
  | _ + 1, [], nodeVector => nodeVector
  | fuel + 1, front :: queue, nodeVector =>
      flattenLoop fuel (queue ++ front.GetChildren) (nodeVector ++ front.GetChildren)

/-- The body shared by `MCHierarchy::GetFlattenedNodes` and
`RecoHierarchy::GetFlattenedNodes`: the roots are appended to the vector and
to the queue, then the queue is drained. -/
def flattenForest (rootNodes : List Node) (nodeVector : List Node) : List Node :=
  flattenLoop (Node.sizeList rootNodes) rootNodes (nodeVector ++ rootNodes)

/-- Model of `MCHierarchy::GetFlattenedNodes`. -/
def MCHierarchy.GetFlattenedNodes (h : MCHierarchy) (nodeVector : List Node) : List Node :=
  flattenForest h.m_rootNodes nodeVector

/-- Model of `RecoHierarchy::GetFlattenedNodes`. -/
def RecoHierarchy.GetFlattenedNodes (h : RecoHierarchy) (nodeVector : List Node) : List Node :=
  flattenForest h.m_rootNodes nodeVector

/-! ## Reconstructability -/

/-- The loop of `MCHierarchy::Node::IsReconstructable` over the hits, with the
running counts `nHitsU`, `nHitsV`, `nHitsW`; the result is the final value of
`enoughGoodViews` (initially `false`, set on the `break`). -/
def goodViewsLoop (GetHitType : CaloHit → HitType) (crit : ReconstructabilityCriteria) :
    List CaloHit → Nat → Nat → Nat → Bool
  | [], _, _, _ => false
  | pCaloHit :: rest, nHitsU, nHitsV, nHitsW =>
      let nHitsU := if GetHitType pCaloHit = HitType.TPC_VIEW_U then nHitsU + 1 else nHitsU
      let nHitsV := if GetHitType pCaloHit = HitType.TPC_VIEW_V then nHitsV + 1 else nHitsV
      let nHitsW := if GetHitType pCaloHit = HitType.TPC_VIEW_W then nHitsW + 1 else nHitsW
      let nGoodViews :=
        (if nHitsU ≥ crit.m_minHitsForGoodView then 1 else 0)
          + (if nHitsV ≥ crit.m_minHitsForGoodView then 1 else 0)
          + (if nHitsW ≥ crit.m_minHitsForGoodView then 1 else 0)
      if nGoodViews ≥ crit.m_minGoodViews then true
      else goodViewsLoop GetHitType crit rest nHitsU nHitsV nHitsW

/-- Model of `MCHierarchy::Node::IsReconstructable`, as a function of the
criteria of the owning hierarchy and of the hit list of the node. -/
def IsReconstructable (GetHitType : CaloHit → HitType) (crit : ReconstructabilityCriteria)
    (m_caloHits : List CaloHit) : Bool :=
  let enoughHits := decide (m_caloHits.length ≥ crit.m_minHits)
  let enoughGoodViews := goodViewsLoop GetHitType crit m_caloHits 0 0 0
  enoughHits && enoughGoodViews

/-- Number of hits of a list in a given view. -/
def viewCount (GetHitType : CaloHit → HitType) (view : HitType) (hits : List CaloHit) : Nat :=
  (hits.filter (fun h => decide (GetHitType h = view))).length

/-- Number of views among U, V, W with at least `minHitsForGoodView` hits in the
whole list. -/
def goodViewCount (GetHitType : CaloHit → HitType) (crit : ReconstructabilityCriteria)
    (hits : List CaloHit) : Nat :=
  (if viewCount GetHitType HitType.TPC_VIEW_U hits ≥ crit.m_minHitsForGoodView then 1 else 0)
    + (if viewCount GetHitType HitType.TPC_VIEW_V hits ≥ crit.m_minHitsForGoodView then 1 else 0)
    + (if viewCount GetHitType HitType.TPC_VIEW_W hits ≥ crit.m_minHitsForGoodView then 1 else 0)

/-! ## Match records -/

/-- The members of `MCMatches`: the truth node and the two parallel vectors
`m_recoNodes`, `m_sharedHits`. -/
structure MCMatches where
  m_pMC : Node
  m_recoNodes : List Node := []
  m_sharedHits : List Int := []

namespace MCMatches

/-- Model of `MCMatches::GetMC`. -/
def GetMC (m : MCMatches) : Node := m.m_pMC

/-- Model of `MCMatches::GetRecoMatches`. -/
def GetRecoMatches (m : MCMatches) : List Node := m.m_recoNodes

/-- Model of `MCMatches::AddRecoMatch`. -/
def AddRecoMatch (m : MCMatches) (pReco : Node) (nSharedHits : Int) : MCMatches :=
  { m with m_recoNodes := m.m_recoNodes ++ [pReco], m_sharedHits := m.m_sharedHits ++ [nSharedHits] }

/-- The position `iter - m_recoNodes.begin()` that `std::find` yields for a node
pointer; it is the length of the vector when the pointer is not found. -/
def findIndex (m : MCMatches) (pReco : Node) : Nat :=
  (m.m_recoNodes.map Node.addr).indexOf pReco.addr

/-- Model of `MCMatches::GetSharedHits`. -/
def GetSharedHits (m : MCMatches) (pReco : Node) : Except StatusCode Int :=
  let index := m.findIndex pReco
  if index = m.m_recoNodes.length then Except.error StatusCode.STATUS_CODE_NOT_FOUND
  else Except.ok (m.m_sharedHits.getD index 0)

/-- Model of `MCMatches::GetPurity`; the `float` quotient is taken as the exact
rational. -/
def GetPurity (m : MCMatches) (pReco : Node) : Except StatusCode ℚ :=
  let index := m.findIndex pReco
  if index = m.m_recoNodes.length then Except.error StatusCode.STATUS_CODE_NOT_FOUND
  else Except.ok ((m.m_sharedHits.getD index 0 : ℚ) / (pReco.GetCaloHits.length : ℚ))

/-- Model of `MCMatches::GetCompleteness`; the `float` quotient is taken as the
exact rational. -/
def GetCompleteness (m : MCMatches) (pReco : Node) : Except StatusCode ℚ :=
  let index := m.findIndex pReco
  if index = m.m_recoNodes.length then Except.error StatusCode.STATUS_CODE_NOT_FOUND
  else Except.ok ((m.m_sharedHits.getD index 0 : ℚ) / (m.m_pMC.GetCaloHits.length : ℚ))

end MCMatches

/-! ## Hierarchy matching -/

/-- Model of `std::sort` with a strict comparator `comp`: the elements are put
in an order in which no element is followed by one that `comp` puts strictly
before it.  `std::sort` leaves the order of elements that `comp` does not
separate open; here they keep their input order, and the statements below
use only that the result is a rearrangement of the input in such an order. -/
def stdSort {α : Type} (comp : α → α → Bool) (l : List α) : List α :=
  l.insertionSort (fun a b => comp b a = false)

/-- The comparator of the three sorts in `MatchHierarchies`: more hits first. -/
def moreHits (lhs rhs : Node) : Bool :=
  decide (lhs.GetCaloHits.length > rhs.GetCaloHits.length)

/-- The loop of `std::set_intersection` over two ranges ordered by address: the
smaller front element is skipped, an element at the front of both ranges is
output and skipped in both.  Every iteration advances in one of the ranges. -/
def setIntersectionLoop : Nat → List CaloHit → List CaloHit → List CaloHit
  | 0, _, _ => []
  | _ + 1, [], _ => []
  | _ + 1, _ :: _, [] => []
  | fuel + 1, a :: as, b :: bs =>
      if a < b then setIntersectionLoop fuel as (b :: bs)
      else if b < a then setIntersectionLoop fuel (a :: as) bs
      else a :: setIntersectionLoop fuel as bs

/-- Model of `std::set_intersection` into an empty vector. -/
def set_intersection (mcHits recoHits : List CaloHit) : List CaloHit :=
  setIntersectionLoop (mcHits.length + recoHits.length) mcHits recoHits

/-- The inner loop of `MatchHierarchies` over the sorted truth nodes for one
reconstructed node, with the running `pBestNode` and `bestSharedHits`. -/
def bestMatchLoop (GetHitType : CaloHit → HitType) (crit : ReconstructabilityCriteria)
    (recoHits : List CaloHit) : List Node → Option Node → Nat → Option Node × Nat
  | [], pBestNode, bestSharedHits => (pBestNode, bestSharedHits)
  | pMCNode :: rest, pBestNode, bestSharedHits =>
      if IsReconstructable GetHitType crit pMCNode.GetCaloHits = false then
        bestMatchLoop GetHitType crit recoHits rest pBestNode bestSharedHits
      else
        let intersection := set_intersection pMCNode.GetCaloHits recoHits
        if intersection ≠ [] ∧ intersection.length > bestSharedHits then
          bestMatchLoop GetHitType crit recoHits rest (some pMCNode) intersection.length
        else
          bestMatchLoop GetHitType crit recoHits rest pBestNode bestSharedHits

/-- A `std::map<const MCHierarchy::Node *, MCMatches>`: the entries in
increasing order of the key address. -/
abbrev MatchMap := List (Nat × MCMatches)

/-- Model of `std::map::find`. -/
def MatchMap.find (m : MatchMap) (key : Nat) : Option MCMatches :=
  (List.find? (fun e => decide (e.1 = key)) m).map Prod.snd

/-- Model of `std::map::insert` of a pair: the pair is put at its place in key
order; nothing changes when the key is present. -/
def MatchMap.insert (key : Nat) (value : MCMatches) : MatchMap → MatchMap
  | [] => [(key, value)]
  | e :: rest =>
      if key < e.1 then (key, value) :: e :: rest
      else if key = e.1 then e :: rest
      else e :: MatchMap.insert key value rest

/-- The update `iter->second.AddRecoMatch(pReco, n)` through the iterator that
`find` returned for `key`. -/
def MatchMap.addRecoMatch (key : Nat) (pReco : Node) (nSharedHits : Int) : MatchMap → MatchMap
  | [] => []
  | e :: rest =>
      if e.1 = key then (e.1, e.2.AddRecoMatch pReco nSharedHits) :: rest
      else e :: MatchMap.addRecoMatch key pReco nSharedHits rest

/-- The body of the loop of `MatchHierarchies` over the reconstructed nodes:
the best truth node is looked for and, when there is one, the reconstructed
node is added to its entry of `mcToMatchMap`.  The count is narrowed with
`static_cast<int>`; hit lists are shorter than `2^31`, so the value is kept. -/
def matchRecoNode (GetHitType : CaloHit → HitType) (crit : ReconstructabilityCriteria)
    (mcNodes : List Node) (mcToMatchMap : MatchMap) (pRecoNode : Node) : MatchMap :=
  match bestMatchLoop GetHitType crit pRecoNode.GetCaloHits mcNodes none 0 with
  | (some pBestNode, bestSharedHits) =>
      match mcToMatchMap.find pBestNode.addr with
      | some _ => MatchMap.addRecoMatch pBestNode.addr pRecoNode (bestSharedHits : Int) mcToMatchMap
      | none =>
          MatchMap.insert pBestNode.addr
            (MCMatches.AddRecoMatch { m_pMC := pBestNode } pRecoNode (bestSharedHits : Int))
            mcToMatchMap
  | (none, _) => mcToMatchMap

/-- The loop of `MatchHierarchies` that appends a record without matches for
every truth node that is not a key of `mcToMatchMap`. -/
def appendUnmatched (mcToMatchMap : MatchMap) : List Node → List MCMatches → List MCMatches
  | [], matchVector => matchVector
  | pMCNode :: rest, matchVector =>
      match mcToMatchMap.find pMCNode.addr with
      | none => appendUnmatched mcToMatchMap rest (matchVector ++ [{ m_pMC := pMCNode }])
      | some _ => appendUnmatched mcToMatchMap rest matchVector

/-- The part of `MatchHierarchies` that fills and sorts `matchVector`. -/
def matchRecords (GetHitType : CaloHit → HitType) (mcHierarchy : MCHierarchy)
    (recoHierarchy : RecoHierarchy) (matchVector : List MCMatches) : List MCMatches :=
  let mcNodes := stdSort moreHits (mcHierarchy.GetFlattenedNodes [])
  let recoNodes := stdSort moreHits (recoHierarchy.GetFlattenedNodes [])
  let mcToMatchMap : MatchMap :=
    recoNodes.foldl (matchRecoNode GetHitType mcHierarchy.m_recoCriteria mcNodes) []
  let matchVector := matchVector ++ mcToMatchMap.map Prod.snd
  let matchVector := appendUnmatched mcToMatchMap mcNodes matchVector
  stdSort (fun lhs rhs => moreHits lhs.GetMC rhs.GetMC) matchVector

/-- The queries that the printing loop of `MatchHierarchies` makes for the
reconstructed nodes of one record. -/
def reportMatches (m : MCMatches) : List Node → Except StatusCode Unit
  | [] => Except.ok ()
  | pRecoNode :: rest =>
      match m.GetSharedHits pRecoNode, m.GetPurity pRecoNode, m.GetCompleteness pRecoNode with
      | Except.ok _, Except.ok _, Except.ok _ => reportMatches m rest
      | Except.error e, _, _ => Except.error e
      | _, Except.error e, _ => Except.error e
      | _, _, Except.error e => Except.error e

/-- The printing loop of `MatchHierarchies` over the records. -/
def reportRecords : List MCMatches → Except StatusCode Unit
  | [] => Except.ok ()
  | m :: rest =>
      match reportMatches m m.GetRecoMatches with
      | Except.ok _ => reportRecords rest
      | Except.error e => Except.error e

/-- Model of `LArHierarchyHelper::MatchHierarchies`: the final content of
`matchVector`, or the status code of an exception that leaves the function. -/
def MatchHierarchies (GetHitType : CaloHit → HitType) (mcHierarchy : MCHierarchy)
    (recoHierarchy : RecoHierarchy) (matchVector : List MCMatches) :
    Except StatusCode (List MCMatches) :=
  let matchVector := matchRecords GetHitType mcHierarchy recoHierarchy matchVector
  match reportRecords matchVector with
  | Except.ok _ => Except.ok matchVector
  | Except.error e => Except.error e

/-- The content of a record by address: the truth node, the reconstructed nodes
and the shared hit counts. -/
def MCMatches.summary (m : MCMatches) : Nat × List Nat × List Int :=
  (m.m_pMC.addr, m.m_recoNodes.map Node.addr, m.m_sharedHits)

/-! ## Data model of the transverse association algorithm

`float` quantities are taken as exact rationals. -/

/-- A `pandora::CartesianVector`. -/
structure CartesianVector where
  x : ℚ
  y : ℚ
  z : ℚ
  deriving DecidableEq

namespace CartesianVector

/-- Model of `CartesianVector::GetDotProduct`. -/
def GetDotProduct (a b : CartesianVector) : ℚ :=
  a.x * b.x + a.y * b.y + a.z * b.z

/-- Model of `CartesianVector::GetCrossProduct`. -/
def GetCrossProduct (a b : CartesianVector) : CartesianVector :=
  { x := a.y * b.z - b.y * a.z, y := a.z * b.x - b.z * a.x, z := a.x * b.y - b.x * a.y }

/-- Model of `CartesianVector::GetMagnitudeSquared`. -/
def GetMagnitudeSquared (a : CartesianVector) : ℚ :=
  a.x * a.x + a.y * a.y + a.z * a.z

/-- Model of `operator-` on two vectors. -/
def sub (a b : CartesianVector) : CartesianVector :=
  { x := a.x - b.x, y := a.y - b.y, z := a.z - b.z }

end CartesianVector

/-- What the algorithm reads of a `pandora::Cluster` through its pointer: the
address, `GetNCaloHits`, the positions of the hits in the order in which the
ordered calo hit list is walked, the result of the fit to all hits
(`IsFitSuccessful`, `GetDirection`), `LArClusterHelper::GetLengthSquared`, and
the centroids of the inner and of the outer pseudo layer. -/
structure Cluster where
  addr : Nat
  nCaloHits : Nat
  hitPositions : List CartesianVector
  fitSuccessful : Bool
  fitDirection : CartesianVector
  lengthSquared : ℚ
  innerCentroid : CartesianVector
  outerCentroid : CartesianVector

/-- The settings of `TransverseAssociationAlgorithm` (its data members). -/
structure TransverseAssociationAlgorithm where
  m_clusterWindow : ℚ
  m_clusterAngle : ℚ
  m_clusterCosAngle : ℚ
  m_clusterTanAngle : ℚ
  m_minCosRelativeAngle : ℚ
  m_maxTransverseSeparation : ℚ
  m_minTransverseDisplacement : ℚ
  m_maxLongitudinalDisplacement : ℚ
  m_transverseClusterMaxLength : ℚ
  m_transverseClusterMaxCaloHits : Nat
  m_longitudinalClusterMinLength : ℚ

/-- The members of `LArTransverseCluster`. -/
structure LArTransverseCluster where
  m_pSeedCluster : Cluster
  m_associatedClusters : List Cluster
  m_innerVertex : CartesianVector
  m_outerVertex : CartesianVector
  m_direction : CartesianVector

namespace LArTransverseCluster

/-- Model of `LArTransverseCluster::GetSeedCluster`. -/
def GetSeedCluster (t : LArTransverseCluster) : Cluster := t.m_pSeedCluster

/-- Model of `LArTransverseCluster::GetInnerVertex`. -/
def GetInnerVertex (t : LArTransverseCluster) : CartesianVector := t.m_innerVertex

/-- Model of `LArTransverseCluster::GetOuterVertex`. -/
def GetOuterVertex (t : LArTransverseCluster) : CartesianVector := t.m_outerVertex

/-- Model of `LArTransverseCluster::GetDirection`. -/
def GetDirection (t : LArTransverseCluster) : CartesianVector := t.m_direction

end LArTransverseCluster

/-- The value of `std::numeric_limits<float>::max()`. -/
def FLT_MAX : ℚ := 340282346638528859811704183484516925440

/-- A `ClusterList` (`std::set<Cluster *>`): addresses in increasing order. -/
abbrev ClusterList := List Nat

/-- A `LArClusterMergeMap` (`std::map<Cluster *, ClusterList>`): entries in
increasing order of the key address. -/
abbrev LArClusterMergeMap := List (Nat × ClusterList)

/-- Model of `std::set::insert`. -/
def ClusterList.insert (p : Nat) : ClusterList → ClusterList
  | [] => [p]
  | q :: rest =>
      if p < q then p :: q :: rest
      else if p = q then q :: rest
      else q :: ClusterList.insert p rest

namespace LArClusterMergeMap

/-- The set stored for a key; the empty set when the key is absent (the set
that `operator[]` would create). -/
def get : LArClusterMergeMap → Nat → ClusterList
  | [], _ => []
  | e :: rest, key => if e.1 = key then e.2 else LArClusterMergeMap.get rest key

/-- Model of `map[key].insert(value)`. -/
def insertInto (key value : Nat) : LArClusterMergeMap → LArClusterMergeMap
  | [] => [(key, [value])]
  | e :: rest =>
      if key < e.1 then (key, [value]) :: e :: rest
      else if key = e.1 then (e.1, ClusterList.insert value e.2) :: rest
      else e :: insertInto key value rest

/-- Model of `map[key].count(value)` being non-zero. -/
def hasEdge (m : LArClusterMergeMap) (key value : Nat) : Bool :=
  decide (value ∈ m.get key)

end LArClusterMergeMap

/-! ## Cluster classification -/

/-- The body of the loop of `SeparateInputClusters` for one cluster. -/
def separateCluster (alg : TransverseAssociationAlgorithm) (pCluster : Cluster)
    (vectors : List Cluster × List Cluster) : List Cluster × List Cluster :=
  if pCluster.nCaloHits ≤ alg.m_transverseClusterMaxCaloHits then
    (vectors.1 ++ [pCluster], vectors.2)
  else
    let longitudinalDirection : CartesianVector := { x := 0, y := 0, z := 1 }
    if pCluster.fitSuccessful then
      let fitDirection := pCluster.fitDirection
      let clusterLengthSquared := pCluster.lengthSquared
      if |fitDirection.GetDotProduct longitudinalDirection| < alg.m_clusterCosAngle then
        if clusterLengthSquared < alg.m_transverseClusterMaxLength * alg.m_transverseClusterMaxLength then
          (vectors.1 ++ [pCluster], vectors.2)
        else vectors
      else
        if clusterLengthSquared > alg.m_longitudinalClusterMinLength * alg.m_longitudinalClusterMinLength then
          (vectors.1, vectors.2 ++ [pCluster])
        else vectors
    else vectors

/-- Model of `TransverseAssociationAlgorithm::SeparateInputClusters`: the final
`transverseVector` and `longitudinalVector`. -/
def SeparateInputClusters (alg : TransverseAssociationAlgorithm) (inputVector : List Cluster)
    (transverseVector longitudinalVector : List Cluster) : List Cluster × List Cluster :=
  inputVector.foldl (fun vectors pCluster => separateCluster alg pCluster vectors)
    (transverseVector, longitudinalVector)

/-! ## Geometry predicates -/

/-- The loop of `GetExtremalCoordinatesXZ` over the hits, with the running
`minXZ` and `maxXZ`. -/
def extremalLoop (useX : Bool) : List CartesianVector → ℚ → ℚ → ℚ × ℚ
  | [], minXZ, maxXZ => (minXZ, maxXZ)
  | hit :: rest, minXZ, maxXZ =>
      let caloHitXZ := if useX then hit.x else hit.z
      let minXZ := if caloHitXZ < minXZ then caloHitXZ else minXZ
      let maxXZ := if caloHitXZ > maxXZ then caloHitXZ else maxXZ
      extremalLoop useX rest minXZ maxXZ

/-- Model of `TransverseAssociationAlgorithm::GetExtremalCoordinatesXZ`: the
pair `(minXZ, maxXZ)`, or the status code thrown. -/
def GetExtremalCoordinatesXZ (pCluster : Cluster) (useX : Bool) : Except StatusCode (ℚ × ℚ) :=
  let r := extremalLoop useX pCluster.hitPositions FLT_MAX (-FLT_MAX)
  if r.2 < r.1 then Except.error StatusCode.STATUS_CODE_FAILURE else Except.ok r

/-- Model of `TransverseAssociationAlgorithm::GetExtremalCoordinatesX`. -/
def GetExtremalCoordinatesX (pCluster : Cluster) : Except StatusCode (ℚ × ℚ) :=
  GetExtremalCoordinatesXZ pCluster true

/-- Model of `TransverseAssociationAlgorithm::GetExtremalCoordinatesZ`. -/
def GetExtremalCoordinatesZ (pCluster : Cluster) : Except StatusCode (ℚ × ℚ) :=
  GetExtremalCoordinatesXZ pCluster false

/-- Model of `TransverseAssociationAlgorithm::IsExtremalCluster`. -/
def IsExtremalCluster (isForward : Bool) (pCurrentCluster pTestCluster : Cluster) :
    Except StatusCode Bool :=
  match GetExtremalCoordinatesX pCurrentCluster with
  | Except.error e => Except.error e
  | Except.ok (currentMinX, currentMaxX) =>
      match GetExtremalCoordinatesX pTestCluster with
      | Except.error e => Except.error e
      | Except.ok (testMinX, testMaxX) =>
          if isForward then Except.ok (decide (testMaxX > currentMaxX))
          else Except.ok (decide (testMinX < currentMinX))

/-- Model of `IsTransverseAssociated(const LArTransverseCluster *, const CartesianVector &)`. -/
def IsTransverseAssociatedVertex (alg : TransverseAssociationAlgorithm)
    (pTransverseCluster : LArTransverseCluster) (testVertex : CartesianVector) : Bool :=
  let innerVertex := pTransverseCluster.GetInnerVertex
  let outerVertex := pTransverseCluster.GetOuterVertex
  let direction := pTransverseCluster.GetDirection
  if |(direction.GetCrossProduct (testVertex.sub innerVertex)).GetMagnitudeSquared|
      > alg.m_maxTransverseSeparation * alg.m_maxTransverseSeparation then false
  else if direction.GetDotProduct (testVertex.sub innerVertex) < -alg.m_clusterWindow
      ∨ direction.GetDotProduct (testVertex.sub outerVertex) > alg.m_clusterWindow then false
  else true

/-- Model of `IsTransverseAssociated(const LArTransverseCluster *, const LArTransverseCluster *)`. -/
def IsTransverseAssociated (alg : TransverseAssociationAlgorithm)
    (pInnerTransverseCluster pOuterTransverseCluster : LArTransverseCluster) : Bool :=
  if pInnerTransverseCluster.GetDirection.GetDotProduct pOuterTransverseCluster.GetDirection
      < alg.m_minCosRelativeAngle then false
  else if IsTransverseAssociatedVertex alg pInnerTransverseCluster
      pOuterTransverseCluster.GetInnerVertex = false then false
  else if IsTransverseAssociatedVertex alg pOuterTransverseCluster
      pInnerTransverseCluster.GetOuterVertex = false then false
  else true

/-! ## Merge maps -/

/-- The body of the inner loop of the first part of `FillClusterMergeMaps` for
one ordered pair of transverse clusters: the new `fullForwardMergeMap` and
`fullBackwardMergeMap`, or the status code thrown by an extremal-coordinate
query. -/
def fullMergeStep (alg : TransverseAssociationAlgorithm)
    (pInnerTransverseCluster pOuterTransverseCluster : LArTransverseCluster)
    (maps : LArClusterMergeMap × LArClusterMergeMap) :
    Except StatusCode (LArClusterMergeMap × LArClusterMergeMap) :=
  let pInnerCluster := pInnerTransverseCluster.GetSeedCluster
  let pOuterCluster := pOuterTransverseCluster.GetSeedCluster
  if pInnerCluster.addr = pOuterCluster.addr then Except.ok maps
  else
    match IsExtremalCluster true pInnerCluster pOuterCluster with
    | Except.error e => Except.error e
    | Except.ok false => Except.ok maps
    | Except.ok true =>
        match IsExtremalCluster false pOuterCluster pInnerCluster with
        | Except.error e => Except.error e
        | Except.ok false => Except.ok maps
        | Except.ok true =>
            if IsTransverseAssociated alg pInnerTransverseCluster pOuterTransverseCluster then
              Except.ok (LArClusterMergeMap.insertInto pInnerCluster.addr pOuterCluster.addr maps.1,
                LArClusterMergeMap.insertInto pOuterCluster.addr pInnerCluster.addr maps.2)
            else Except.ok maps

/-- The inner loop (over `iter2`) of the first part of `FillClusterMergeMaps`. -/
def fullMergeInner (alg : TransverseAssociationAlgorithm)
    (pInnerTransverseCluster : LArTransverseCluster) :
    List LArTransverseCluster → LArClusterMergeMap × LArClusterMergeMap →
      Except StatusCode (LArClusterMergeMap × LArClusterMergeMap)
  | [], maps => Except.ok maps
  | pOuterTransverseCluster :: rest, maps =>
      match fullMergeStep alg pInnerTransverseCluster pOuterTransverseCluster maps with
      | Except.error e => Except.error e
      | Except.ok maps => fullMergeInner alg pInnerTransverseCluster rest maps

/-- The outer loop (over `iter1`) of the first part of `FillClusterMergeMaps`. -/
def fullMergeOuter (alg : TransverseAssociationAlgorithm)
    (transverseClusterList : List LArTransverseCluster) :
    List LArTransverseCluster → LArClusterMergeMap × LArClusterMergeMap →
      Except StatusCode (LArClusterMergeMap × LArClusterMergeMap)
  | [], maps => Except.ok maps
  | pInnerTransverseCluster :: rest, maps =>
      match fullMergeInner alg pInnerTransverseCluster transverseClusterList maps with
      | Except.error e => Except.error e
      | Except.ok maps => fullMergeOuter alg transverseClusterList rest maps

/-- The first part of `FillClusterMergeMaps`: the dense maps
`(fullForwardMergeMap, fullBackwardMergeMap)`. -/
def fillFullMergeMaps (alg : TransverseAssociationAlgorithm)
    (transverseClusterList : List LArTransverseCluster) :
    Except StatusCode (LArClusterMergeMap × LArClusterMergeMap) :=
  fullMergeOuter alg transverseClusterList transverseClusterList ([], [])

/-- The loop over `iter3` that computes `isNeighbouringCluster`: `pFixed` is the
far end of the edge under test and `fullMap[pMiddleCluster].count(pFixed)` is
looked up for every other member of `clusterMerges`.  The empty entries that
`operator[]` may add to the dense map hold no edge and are not modelled. -/
def isNeighbouringLoop (fullMap : LArClusterMergeMap) (pFixed : Nat) : ClusterList → Bool
  | [] => true
  | pMiddleCluster :: rest =>
      if pMiddleCluster = pFixed then isNeighbouringLoop fullMap pFixed rest
      else if fullMap.hasEdge pMiddleCluster pFixed then false
      else isNeighbouringLoop fullMap pFixed rest

/-- The loop over `iter2` of the forward pruning pass for the entry
`(pInnerCluster, clusterMerges)` of the dense forward map; `maps` is
`(forwardMergeMap, backwardMergeMap)`. -/
def pruneForwardEntry (fullForwardMergeMap : LArClusterMergeMap) (pInnerCluster : Nat)
    (clusterMerges : ClusterList) :
    ClusterList → LArClusterMergeMap × LArClusterMergeMap →
      Except StatusCode (LArClusterMergeMap × LArClusterMergeMap)
  | [], maps => Except.ok maps
  | pOuterCluster :: rest, maps =>
      if pOuterCluster = pInnerCluster then
        Except.error StatusCode.STATUS_CODE_INVALID_PARAMETER
      else if isNeighbouringLoop fullForwardMergeMap pOuterCluster clusterMerges then
        pruneForwardEntry fullForwardMergeMap pInnerCluster clusterMerges rest
          (LArClusterMergeMap.insertInto pInnerCluster pOuterCluster maps.1,
            LArClusterMergeMap.insertInto pOuterCluster pInnerCluster maps.2)
      else pruneForwardEntry fullForwardMergeMap pInnerCluster clusterMerges rest maps

/-- The forward pruning pass of `FillClusterMergeMaps` (the loop over `iter1`
through the dense forward map). -/
def pruneForward (fullForwardMergeMap : LArClusterMergeMap) :
    LArClusterMergeMap → LArClusterMergeMap × LArClusterMergeMap →
      Except StatusCode (LArClusterMergeMap × LArClusterMergeMap)
  | [], maps => Except.ok maps
  | e :: rest, maps =>
      match pruneForwardEntry fullForwardMergeMap e.1 e.2 e.2 maps with
      | Except.error err => Except.error err
      | Except.ok maps => pruneForward fullForwardMergeMap rest maps

/-- The loop over `iter2` of the backward pruning pass for the entry
`(pOuterCluster, clusterMerges)` of the dense backward map. -/
def pruneBackwardEntry (fullBackwardMergeMap : LArClusterMergeMap) (pOuterCluster : Nat)
    (clusterMerges : ClusterList) :
    ClusterList → LArClusterMergeMap × LArClusterMergeMap →
      Except StatusCode (LArClusterMergeMap × LArClusterMergeMap)
  | [], maps => Except.ok maps
  | pInnerCluster :: rest, maps =>
      if pInnerCluster = pOuterCluster then
        Except.error StatusCode.STATUS_CODE_INVALID_PARAMETER
      else if isNeighbouringLoop fullBackwardMergeMap pInnerCluster clusterMerges then
        pruneBackwardEntry fullBackwardMergeMap pOuterCluster clusterMerges rest
          (LArClusterMergeMap.insertInto pInnerCluster pOuterCluster maps.1,
            LArClusterMergeMap.insertInto pOuterCluster pInnerCluster maps.2)
      else pruneBackwardEntry fullBackwardMergeMap pOuterCluster clusterMerges rest maps

/-- The backward pruning pass of `FillClusterMergeMaps` (the loop over `iter1`
through the dense backward map). -/
def pruneBackward (fullBackwardMergeMap : LArClusterMergeMap) :
    LArClusterMergeMap → LArClusterMergeMap × LArClusterMergeMap →
      Except StatusCode (LArClusterMergeMap × LArClusterMergeMap)
  | [], maps => Except.ok maps
  | e :: rest, maps =>
      match pruneBackwardEntry fullBackwardMergeMap e.1 e.2 e.2 maps with
      | Except.error err => Except.error err
      | Except.ok maps => pruneBackward fullBackwardMergeMap rest maps

/-- Model of `TransverseAssociationAlgorithm::FillClusterMergeMaps`: the final
`(forwardMergeMap, backwardMergeMap)`, or the status code thrown. -/
def FillClusterMergeMaps (alg : TransverseAssociationAlgorithm)
    (transverseClusterList : List LArTransverseCluster)
    (forwardMergeMap backwardMergeMap : LArClusterMergeMap) :
    Except StatusCode (LArClusterMergeMap × LArClusterMergeMap) :=
  match fillFullMergeMaps alg transverseClusterList with
  | Except.error e => Except.error e
  | Except.ok (fullForwardMergeMap, fullBackwardMergeMap) =>
      match pruneForward fullForwardMergeMap fullForwardMergeMap
          (forwardMergeMap, backwardMergeMap) with
      | Except.error e => Except.error e
      | Except.ok maps => pruneBackward fullBackwardMergeMap fullBackwardMergeMap maps

/-! ## Truth particles -/

/-- What the hierarchy helper reads of a `pandora::MCParticle` through its
pointer: the address, `GetParticleId` and `GetDaughterList`. -/
inductive MCParticle where
  | mk (addr : Nat) (pdg : Int) (daughters : List MCParticle)

namespace MCParticle

/-- The address of the particle object. -/
def addr : MCParticle → Nat
  | mk a _ _ => a

/-- Model of `MCParticle::GetParticleId`. -/
def GetParticleId : MCParticle → Int
  | mk _ p _ => p

/-- Model of `MCParticle::GetDaughterList`. -/
def GetDaughterList : MCParticle → List MCParticle
  | mk _ _ ds => ds

end MCParticle

/-- The PDG code `E_MINUS` of `Pandora/PdgTable.h`. -/
def E_MINUS : Int := 11

/-- The PDG code `PHOTON` of `Pandora/PdgTable.h`. -/
def PHOTON : Int := 22

/-- The PDG code `NEUTRON` of `Pandora/PdgTable.h`. -/
def NEUTRON : Int := 2112

/-- The test `isShower` of the hierarchy helper: `|pdg|` is `E_MINUS` or `PHOTON`. -/
def isShowerPdg (pdg : Int) : Bool :=
  decide (|pdg| = E_MINUS) || decide (|pdg| = PHOTON)

/-- The test `isNeutron` of the hierarchy helper: `|pdg|` is `NEUTRON`. -/
def isNeutronPdg (pdg : Int) : Bool :=
  decide (|pdg| = NEUTRON)

mutual
/-- The descendants of a particle: every daughter, followed by its own
descendants, in daughter order. -/
def MCParticle.descendents : MCParticle → List MCParticle
  | MCParticle.mk _ _ ds => MCParticle.descendentsList ds
/-- The particles of a list of daughters together with their descendants. -/
def MCParticle.descendentsList : List MCParticle → List MCParticle
  | [] => []
  | d :: ds => (d :: MCParticle.descendents d) ++ MCParticle.descendentsList ds
end

/-- Modelled from the spec: `LArMCParticleHelper::GetAllDescendentMCParticles`
(two arguments) is not among the sources.  It appends all descendants of the
particle to the list ("the primary and all descendants, flattened"). -/
def GetAllDescendentMCParticles (pMCParticle : MCParticle) (descendentMCParticleList : List MCParticle) :
    List MCParticle :=
  descendentMCParticleList ++ pMCParticle.descendents

/-- The list that a visited descendant goes to in the four-argument walk. -/
inductive DescendentKind where
  | track
  | leadingShower
  | leadingNeutron
  deriving DecidableEq, Repr

mutual
/-- The walk of the four-argument `GetAllDescendentMCParticles` at a daughter:
a shower-type daughter is a leading shower and a neutron-type daughter a
leading neutron, neither is descended into; any other daughter is a track
particle and is descended into. -/
def MCParticle.classified : MCParticle → List (DescendentKind × MCParticle)
  | MCParticle.mk a pdg dds =>
      if isShowerPdg pdg then [(DescendentKind.leadingShower, MCParticle.mk a pdg dds)]
      else if isNeutronPdg pdg then [(DescendentKind.leadingNeutron, MCParticle.mk a pdg dds)]
      else (DescendentKind.track, MCParticle.mk a pdg dds) :: MCParticle.classifiedList dds
/-- The walk over a daughter list: the visited descendants in order, each with
the list it goes to. -/
def MCParticle.classifiedList : List MCParticle → List (DescendentKind × MCParticle)
  | [] => []
  | d :: ds => MCParticle.classified d ++ MCParticle.classifiedList ds
end

/-- The walk of the four-argument `GetAllDescendentMCParticles` below a
particle: the visited descendants in order, each with the list it goes to. -/
def MCParticle.classifiedDescendents (p : MCParticle) : List (DescendentKind × MCParticle) :=
  MCParticle.classifiedList p.GetDaughterList

/-- The visited descendants that go to one of the given lists, in visiting order. -/
def MCParticle.descendentsOfKind (p : MCParticle) (kinds : List DescendentKind) : List MCParticle :=
  (p.classifiedDescendents.filter (fun e => decide (e.1 ∈ kinds))).map Prod.snd

/-- Modelled from the spec: `LArMCParticleHelper::GetAllDescendentMCParticles`
(four arguments: track particles, leading showers, leading neutrons) is not
among the sources.  Below the particle, "shower-type and neutron-type
descendants" are collected as leading showers and leading neutrons, to be
"collapsed into one flat child Node" each, and the other descendants reached
without passing through one of them are the track particles.  The result is
the three lists after the call. -/
def GetAllDescendentMCParticles4 (pMCParticle : MCParticle)
    (descendentTrackParticles leadingShowerParticles leadingNeutrons : List MCParticle) :
    List MCParticle × List MCParticle × List MCParticle :=
  (descendentTrackParticles ++ pMCParticle.descendentsOfKind [DescendentKind.track],
    leadingShowerParticles ++ pMCParticle.descendentsOfKind [DescendentKind.leadingShower],
    leadingNeutrons ++ pMCParticle.descendentsOfKind [DescendentKind.leadingNeutron])

/-- The four-argument `GetAllDescendentMCParticles` called with the same list
as track list and as leading shower list ("collect track-like and shower-like
particles together, but throw out neutrons and descendents"): the shared list
and the neutron list after the call. -/
def GetAllDescendentMCParticlesShared (pMCParticle : MCParticle)
    (allParticles leadingNeutrons : List MCParticle) : List MCParticle × List MCParticle :=
  (allParticles ++ pMCParticle.descendentsOfKind [DescendentKind.track, DescendentKind.leadingShower],
    leadingNeutrons ++ pMCParticle.descendentsOfKind [DescendentKind.leadingNeutron])

/-! ## Building the truth hierarchy -/

/-- The `m_mcToHitsMap` of a hierarchy, a map from particle address to hit list.
The helper only looks keys up, so the entries are kept in the order in which
their keys were first used. -/
abbrev MCToHitsMap := List (Nat × List CaloHit)

namespace MCToHitsMap

/-- Model of `find(pMC) != end()` followed by `at(pMC)`. -/
def find : MCToHitsMap → Nat → Option (List CaloHit)
  | [], _ => none
  | e :: rest, key => if e.1 = key then some e.2 else MCToHitsMap.find rest key

/-- Model of `map[pMC].emplace_back(pCaloHit)`. -/
def emplaceBack (key : Nat) (pCaloHit : CaloHit) : MCToHitsMap → MCToHitsMap
  | [] => [(key, [pCaloHit])]
  | e :: rest =>
      if e.1 = key then (e.1, e.2 ++ [pCaloHit]) :: rest
      else e :: emplaceBack key pCaloHit rest

/-- The hits that the loop over `allParticles` takes from the map for a
particle: the mapped list, nothing when the particle has no entry. -/
def hitsOf (m : MCToHitsMap) (key : Nat) : List CaloHit :=
  (m.find key).getD []

end MCToHitsMap

/-- The first loop of `MCHierarchy::FillHierarchy`: every hit with a main MC
particle is appended to the hit list of that particle; `GetMainMCParticle`
gives the address of the main MC particle of a hit, or nothing when
`MCParticleHelper::GetMainMCParticle` throws. -/
def fillMcToHitsMap (GetMainMCParticle : CaloHit → Option Nat) :
    List CaloHit → MCToHitsMap → MCToHitsMap
  | [], m => m
  | pCaloHit :: rest, m =>
      match GetMainMCParticle pCaloHit with
      | some pMC => fillMcToHitsMap GetMainMCParticle rest (MCToHitsMap.emplaceBack pMC pCaloHit m)
      | none => fillMcToHitsMap GetMainMCParticle rest m

/-- The loop that gathers `allHits` from `allParticles`: the hits of every
particle with an entry in the map are inserted at the front of `allHits`. -/
def collectHits (m : MCToHitsMap) : List MCParticle → List CaloHit → List CaloHit
  | [], allHits => allHits
  | pMC :: rest, allHits =>
      match m.find pMC.addr with
      | some caloHits => collectHits m rest (caloHits ++ allHits)
      | none => collectHits m rest allHits

/-- Model of `std::list::sort` on a list of pointers: increasing address. -/
def sortByAddress (l : List Nat) : List Nat :=
  l.insertionSort (fun a b => a ≤ b)

/-- Model of the constructor `Node(hierarchy, mcParticleList, caloHitList)` for
the object allocated at `addr`: no children yet. -/
def Node.create (addr : Nat) (mcParticleList : List MCParticle) (caloHitList : List CaloHit) : Node :=
  Node.mk addr
    (match mcParticleList with
      | [] => 0
      | front :: _ => front.GetParticleId)
    (sortByAddress (mcParticleList.map MCParticle.addr))
    (sortByAddress caloHitList)
    []

/-- The node after `emplace_back` of further children into `m_children`. -/
def Node.addChildren : Node → List Node → Node
  | Node.mk a p ps hs cs, children => Node.mk a p ps hs (cs ++ children)

/-- The end of `MCHierarchy::Node::FillHierarchy` once `allParticles` is known:
the hits are gathered and, unless `allParticles` is empty, a node is allocated
at `alloc` and appended; `children` is the outcome of the loop over the
daughters of `pRoot`, which is run when the node is not folded. -/
def finishNodeHierarchy (m : MCToHitsMap) (foldToLeadingShowers isShower isNeutron : Bool)
    (alloc : Nat) (allParticles : List MCParticle) (children : List Node × Nat) : List Node × Nat :=
  let allHits := collectHits m allParticles []
  if allParticles.isEmpty then ([], alloc)
  else
    let pNode := Node.create alloc allParticles allHits
    if !foldToLeadingShowers || (foldToLeadingShowers && !(isShower || isNeutron)) then
      ([pNode.addChildren children.1], children.2)
    else ([pNode], alloc + 1)

mutual
/-- Model of `MCHierarchy::Node::FillHierarchy(pRoot, foldToLeadingShowers)`:
the nodes appended to `m_children` of the node it is called on (none or one)
and the next free address; `new Node` takes the address `alloc`, and the
nodes of the daughters are allocated after it. -/
def fillNodeHierarchy (crit : ReconstructabilityCriteria) (m : MCToHitsMap)
    (foldToLeadingShowers : Bool) : MCParticle → Nat → List Node × Nat
  | MCParticle.mk a pdg ds, alloc =>
      let pRoot := MCParticle.mk a pdg ds
      let isShower := isShowerPdg pdg
      let isNeutron := isNeutronPdg pdg
      let children := fillChildrenHierarchy crit m foldToLeadingShowers ds (alloc + 1)
      if foldToLeadingShowers && (isShower || (isNeutron && !crit.m_removeNeutrons)) then
        finishNodeHierarchy m foldToLeadingShowers isShower isNeutron alloc
          (GetAllDescendentMCParticles pRoot [pRoot]) children
      else if crit.m_removeNeutrons && isNeutron then ([], alloc)
      else finishNodeHierarchy m foldToLeadingShowers isShower isNeutron alloc [pRoot] children
/-- The loop `for (pChild : children) pNode->FillHierarchy(pChild, ...)`: the
children appended to `pNode` and the next free address. -/
def fillChildrenHierarchy (crit : ReconstructabilityCriteria) (m : MCToHitsMap)
    (foldToLeadingShowers : Bool) : List MCParticle → Nat → List Node × Nat
  | [], alloc => ([], alloc)
  | pChild :: rest, alloc =>
      let r := fillNodeHierarchy crit m foldToLeadingShowers pChild alloc
      let s := fillChildrenHierarchy crit m foldToLeadingShowers rest r.2
      (r.1 ++ s.1, s.2)
end

/-- Model of `MCHierarchy::Node::FillFlat(pRoot)`: the node appended to
`m_children` of the node it is called on and the next free address. -/
def fillNodeFlat (crit : ReconstructabilityCriteria) (m : MCToHitsMap) (pRoot : MCParticle)
    (alloc : Nat) : List Node × Nat :=
  let allParticles :=
    if !crit.m_removeNeutrons then GetAllDescendentMCParticles pRoot [pRoot]
    else (GetAllDescendentMCParticlesShared pRoot [pRoot] []).1
  let allHits := collectHits m allParticles []
  if allParticles.isEmpty then ([], alloc)
  else ([Node.create alloc allParticles allHits], alloc + 1)

/-- The loops `for (pChild : ...) pNode->FillFlat(pChild)`. -/
def fillChildrenFlat (crit : ReconstructabilityCriteria) (m : MCToHitsMap) :
    List MCParticle → Nat → List Node × Nat
  | [], alloc => ([], alloc)
  | pChild :: rest, alloc =>
      let r := fillNodeFlat crit m pChild alloc
      let s := fillChildrenFlat crit m rest r.2
      (r.1 ++ s.1, s.2)

/-- Model of `std::set<const MCParticle *>::insert`: the set is kept in
increasing order of address without repetition. -/
def MCParticleSet.insert (p : MCParticle) : List MCParticle → List MCParticle
  | [] => [p]
  | q :: rest =>
      if p.addr < q.addr then p :: q :: rest
      else if p.addr = q.addr then q :: rest
      else q :: MCParticleSet.insert p rest

/-- Model of `LArHierarchyHelper::GetMCPrimaries`: the returned `pRoot` and the
final `primaries`.  `GetPrimaryMCParticle` and `IsNeutrino` stand for the
functions of `LArMCParticleHelper` of these names, which are not among the
sources; `GetPrimaryMCParticle` gives nothing when the helper throws. -/
def GetMCPrimaries (GetPrimaryMCParticle : MCParticle → Option MCParticle)
    (IsNeutrino : MCParticle → Bool) :
    List MCParticle → Option MCParticle × List MCParticle → Option MCParticle × List MCParticle
  | [], state => state
  | pMC :: rest, (pRoot, primaries) =>
      match GetPrimaryMCParticle pMC with
      | some pPrimary =>
          GetMCPrimaries GetPrimaryMCParticle IsNeutrino rest (pRoot, MCParticleSet.insert pPrimary primaries)
      | none =>
          if IsNeutrino pMC then
            GetMCPrimaries GetPrimaryMCParticle IsNeutrino rest (some pMC, primaries)
          else GetMCPrimaries GetPrimaryMCParticle IsNeutrino rest (pRoot, primaries)

/-- The lambda `predicate` of `MCHierarchy::FillHierarchy`:
`std::abs(pMC->GetParticleId() == NEUTRON)`, the absolute value of the result
of the comparison. -/
def neutronPredicate (pMC : MCParticle) : Bool :=
  decide (|(if pMC.GetParticleId = NEUTRON then (1 : Int) else 0)| ≠ 0)

/-- The body of the loop over the primaries in `MCHierarchy::FillHierarchy`
(one branch for each fold mode): the root nodes with the root node of the
primary appended, and the next free address. -/
def fillPrimary (crit : ReconstructabilityCriteria) (m : MCToHitsMap)
    (foldToPrimaries foldToLeadingShowers : Bool) (state : List Node × Nat) (pPrimary : MCParticle) :
    List Node × Nat :=
  let rootNodes := state.1
  let alloc := state.2
  let pdg := pPrimary.GetParticleId
  let isShower := isShowerPdg pdg
  let isNeutron := isNeutronPdg pdg
  if foldToPrimaries && !foldToLeadingShowers then
    let allParticles :=
      if !crit.m_removeNeutrons then GetAllDescendentMCParticles pPrimary [pPrimary]
      else (GetAllDescendentMCParticlesShared pPrimary [pPrimary] []).1
    let allHits := collectHits m allParticles []
    (rootNodes ++ [Node.create alloc allParticles allHits], alloc + 1)
  else if foldToPrimaries && foldToLeadingShowers then
    let lists : List MCParticle × List MCParticle × List MCParticle :=
      if isShower || isNeutron then
        if !crit.m_removeNeutrons then (GetAllDescendentMCParticles pPrimary [pPrimary], [], [])
        else ((GetAllDescendentMCParticlesShared pPrimary [pPrimary] []).1, [], [])
      else GetAllDescendentMCParticles4 pPrimary [pPrimary] [] []
    let allParticles := lists.1
    let showerParticles := lists.2.1
    let neutrons := lists.2.2
    let allHits := collectHits m allParticles []
    let pNode := Node.create alloc allParticles allHits
    let r := fillChildrenFlat crit m showerParticles (alloc + 1)
    let s :=
      if !crit.m_removeNeutrons && !neutrons.isEmpty then fillChildrenFlat crit m neutrons r.2
      else ([], r.2)
    (rootNodes ++ [pNode.addChildren (r.1 ++ s.1)], s.2)
  else if foldToLeadingShowers then
    let allParticles :=
      if isShower || (isNeutron && !crit.m_removeNeutrons) then
        GetAllDescendentMCParticles pPrimary [pPrimary]
      else [pPrimary]
    let allHits := collectHits m allParticles []
    let pNode := Node.create alloc allParticles allHits
    if !(isShower || isNeutron) then
      let r := fillChildrenHierarchy crit m foldToLeadingShowers pPrimary.GetDaughterList (alloc + 1)
      (rootNodes ++ [pNode.addChildren r.1], r.2)
    else (rootNodes ++ [pNode], alloc + 1)
  else
    let allParticles := [pPrimary]
    let allHits := collectHits m allParticles []
    let pNode := Node.create alloc allParticles allHits
    let r := fillChildrenHierarchy crit m foldToLeadingShowers pPrimary.GetDaughterList (alloc + 1)
    (rootNodes ++ [pNode.addChildren r.1], r.2)

/-- The list `primaries` that `MCHierarchy::FillHierarchy` loops over: the set
of primaries in address order, without those that `predicate` removes when
`m_removeNeutrons` is set. -/
def retainedPrimaries (crit : ReconstructabilityCriteria) (primarySet : List MCParticle) :
    List MCParticle :=
  if crit.m_removeNeutrons then primarySet.filter (fun pMC => !neutronPredicate pMC)
  else primarySet

/-- Model of `MCHierarchy::FillHierarchy`: the hierarchy after the call and the
next free address.  The four branches of the source start alike (primaries,
removal of neutrons) and differ in the body of the loop over the primaries. -/
def MCHierarchy.FillHierarchy (GetMainMCParticle : CaloHit → Option Nat)
    (GetPrimaryMCParticle : MCParticle → Option MCParticle) (IsNeutrino : MCParticle → Bool)
    (h : MCHierarchy) (mcParticleList : List MCParticle) (caloHitList : List CaloHit)
    (foldToPrimaries foldToLeadingShowers : Bool) (alloc : Nat) : MCHierarchy × Nat :=
  let m_mcToHitsMap := fillMcToHitsMap GetMainMCParticle caloHitList []
  let found := GetMCPrimaries GetPrimaryMCParticle IsNeutrino mcParticleList (none, [])
  let primaries := retainedPrimaries h.m_recoCriteria found.2
  let r := primaries.foldl
    (fillPrimary h.m_recoCriteria m_mcToHitsMap foldToPrimaries foldToLeadingShowers)
    (h.m_rootNodes, alloc)
  ({ h with m_mcToHitsMap := m_mcToHitsMap, m_pNeutrino := found.1.map MCParticle.addr,
            m_rootNodes := r.1 }, r.2)

/-- All hits of the nodes of a forest, node by node. -/
def forestHits (rootNodes : List Node) : List CaloHit :=
  (Node.nodesList rootNodes).flatMap Node.GetCaloHits

/-- All constituent particles of the nodes of a forest, node by node. -/
def forestParticles (rootNodes : List Node) : List Nat :=
  (Node.nodesList rootNodes).flatMap Node.GetParticles

/-! ## Reconstructed particles -/

/-- What the hierarchy helper reads of a `pandora::ParticleFlowObject` through
its pointer: the address, `GetParticleId` and `GetDaughterPfoList`. -/
inductive ParticleFlowObject where
  | mk (addr : Nat) (pdg : Int) (daughters : List ParticleFlowObject)

namespace ParticleFlowObject

/-- The address of the particle flow object. -/
def addr : ParticleFlowObject → Nat
  | mk a _ _ => a

/-- Model of `ParticleFlowObject::GetParticleId`. -/
def GetParticleId : ParticleFlowObject → Int
  | mk _ p _ => p

/-- Model of `ParticleFlowObject::GetDaughterPfoList`. -/
def GetDaughterPfoList : ParticleFlowObject → List ParticleFlowObject
  | mk _ _ ds => ds

end ParticleFlowObject

/-- The test `isShower` of the reconstructed hierarchy: `|pdg|` is `E_MINUS`. -/
def isShowerPfoPdg (pdg : Int) : Bool :=
  decide (|pdg| = E_MINUS)

mutual
/-- A particle flow object followed by everything downstream of it: each
daughter with its own downstream objects, in daughter order. -/
def ParticleFlowObject.downstream : ParticleFlowObject → List ParticleFlowObject
  | ParticleFlowObject.mk a pdg ds =>
      ParticleFlowObject.mk a pdg ds :: ParticleFlowObject.downstreamList ds
/-- The objects of a daughter list with everything downstream of them. -/
def ParticleFlowObject.downstreamList : List ParticleFlowObject → List ParticleFlowObject
  | [] => []
  | d :: ds => ParticleFlowObject.downstream d ++ ParticleFlowObject.downstreamList ds
end

/-- Modelled from the spec: `LArPfoHelper::GetAllDownstreamPfos` (two
arguments) is not among the sources.  It appends the object and everything
downstream of it to the list ("pPrimary gets added to the list of downstream
PFOs, not just the child PFOs"; "the primary and all descendants,
flattened"). -/
def GetAllDownstreamPfos (pPfo : ParticleFlowObject) (outputPfoList : List ParticleFlowObject) :
    List ParticleFlowObject :=
  outputPfoList ++ pPfo.downstream

mutual
/-- The walk of the three-argument `GetAllDownstreamPfos` at a daughter: a
shower-type daughter is a leading shower and is not descended into; any other
daughter is a track object and is descended into. -/
def ParticleFlowObject.classified : ParticleFlowObject → List (DescendentKind × ParticleFlowObject)
  | ParticleFlowObject.mk a pdg dds =>
      if isShowerPfoPdg pdg then [(DescendentKind.leadingShower, ParticleFlowObject.mk a pdg dds)]
      else (DescendentKind.track, ParticleFlowObject.mk a pdg dds)
        :: ParticleFlowObject.classifiedList dds
/-- The walk over a daughter list: the visited objects in order, each with the
list it goes to. -/
def ParticleFlowObject.classifiedList :
    List ParticleFlowObject → List (DescendentKind × ParticleFlowObject)
  | [] => []
  | d :: ds => ParticleFlowObject.classified d ++ ParticleFlowObject.classifiedList ds
end

/-- The walk of the three-argument `GetAllDownstreamPfos` below an object: the
visited objects in order, each with the list it goes to. -/
def ParticleFlowObject.classifiedDownstream (p : ParticleFlowObject) :
    List (DescendentKind × ParticleFlowObject) :=
  ParticleFlowObject.classifiedList p.GetDaughterPfoList

/-- The visited objects that go to the list of the given kind, in visiting order. -/
def ParticleFlowObject.downstreamOfKind (p : ParticleFlowObject) (kind : DescendentKind) :
    List ParticleFlowObject :=
  (p.classifiedDownstream.filter (fun e => decide (e.1 = kind))).map Prod.snd

/-- Modelled from the spec: `LArPfoHelper::GetAllDownstreamPfos` (three
arguments: track objects, leading showers) is not among the sources.  The
object itself goes to the track list ("pPrimary gets added to the list of
downstream PFOs"); below it, the shower-type objects are collected as leading
showers, to be "collapsed into one flat child Node" each, and the other
objects reached without passing through one of them are track objects.  The
result is the two lists after the call. -/
def GetAllDownstreamPfos3 (pPfo : ParticleFlowObject)
    (outputTrackPfos outputLeadingShowerPfos : List ParticleFlowObject) :
    List ParticleFlowObject × List ParticleFlowObject :=
  (outputTrackPfos ++ pPfo :: pPfo.downstreamOfKind DescendentKind.track,
    outputLeadingShowerPfos ++ pPfo.downstreamOfKind DescendentKind.leadingShower)

/-! ## Building the reconstructed hierarchy -/

/-- The six calls of `LArPfoHelper::GetCaloHits` and
`LArPfoHelper::GetIsolatedCaloHits` for one object.  The two helpers are not
among the sources: `GetCaloHits p view` and `GetIsolatedCaloHits p view` stand
for the hits that a call for the object at address `p` appends to the list. -/
def appendPfoHits (GetCaloHits GetIsolatedCaloHits : Nat → HitType → List CaloHit)
    (pPfo : ParticleFlowObject) (allHits : List CaloHit) : List CaloHit :=
  allHits ++ GetCaloHits pPfo.addr HitType.TPC_VIEW_U
    ++ GetCaloHits pPfo.addr HitType.TPC_VIEW_V
    ++ GetCaloHits pPfo.addr HitType.TPC_VIEW_W
    ++ GetIsolatedCaloHits pPfo.addr HitType.TPC_VIEW_U
    ++ GetIsolatedCaloHits pPfo.addr HitType.TPC_VIEW_V
    ++ GetIsolatedCaloHits pPfo.addr HitType.TPC_VIEW_W

/-- The loop that gathers `allHits` from `allParticles` in the reconstructed
hierarchy. -/
def collectPfoHits (GetCaloHits GetIsolatedCaloHits : Nat → HitType → List CaloHit) :
    List ParticleFlowObject → List CaloHit → List CaloHit
  | [], allHits => allHits
  | pPfo :: rest, allHits =>
      collectPfoHits GetCaloHits GetIsolatedCaloHits rest
        (appendPfoHits GetCaloHits GetIsolatedCaloHits pPfo allHits)

/-- Model of the constructor `Node(hierarchy, pfoList, caloHitList)` of
`RecoHierarchy::Node` for the object allocated at `addr`: no children yet. -/
def Node.createReco (addr : Nat) (pfoList : List ParticleFlowObject) (caloHitList : List CaloHit) :
    Node :=
  Node.mk addr
    (match pfoList with
      | [] => 0
      | front :: _ => front.GetParticleId)
    (sortByAddress (pfoList.map ParticleFlowObject.addr))
    (sortByAddress caloHitList)
    []

mutual
/-- Model of `RecoHierarchy::Node::FillHierarchy(pRoot, foldToLeadingShowers)`:
the node appended to `m_children` of the node it is called on and the next
free address; `new Node` takes the address `alloc`, and the nodes of the
daughters are allocated after it. -/
def fillRecoNodeHierarchy (GetCaloHits GetIsolatedCaloHits : Nat → HitType → List CaloHit)
    (foldToLeadingShowers : Bool) : ParticleFlowObject → Nat → List Node × Nat
  | ParticleFlowObject.mk a pdg ds, alloc =>
      let pRoot := ParticleFlowObject.mk a pdg ds
      let isShower := isShowerPfoPdg pdg
      let allParticles :=
        if foldToLeadingShowers && isShower then GetAllDownstreamPfos pRoot [] else [pRoot]
      let allHits := collectPfoHits GetCaloHits GetIsolatedCaloHits allParticles []
      let pNode := Node.createReco alloc allParticles allHits
      if !foldToLeadingShowers || (foldToLeadingShowers && !isShower) then
        let children :=
          fillRecoChildrenHierarchy GetCaloHits GetIsolatedCaloHits foldToLeadingShowers ds
            (alloc + 1)
        ([pNode.addChildren children.1], children.2)
      else ([pNode], alloc + 1)
/-- The loop `for (pChild : children) pNode->FillHierarchy(pChild, ...)` of the
reconstructed hierarchy: the children appended to `pNode` and the next free
address. -/
def fillRecoChildrenHierarchy (GetCaloHits GetIsolatedCaloHits : Nat → HitType → List CaloHit)
    (foldToLeadingShowers : Bool) : List ParticleFlowObject → Nat → List Node × Nat
  | [], alloc => ([], alloc)
  | pChild :: rest, alloc =>
      let r := fillRecoNodeHierarchy GetCaloHits GetIsolatedCaloHits foldToLeadingShowers pChild alloc
      let s := fillRecoChildrenHierarchy GetCaloHits GetIsolatedCaloHits foldToLeadingShowers rest r.2
      (r.1 ++ s.1, s.2)
end

/-- Model of `RecoHierarchy::Node::FillFlat(pRoot)`: the node appended to
`m_children` of the node it is called on and the next free address. -/
def fillRecoNodeFlat (GetCaloHits GetIsolatedCaloHits : Nat → HitType → List CaloHit)
    (pRoot : ParticleFlowObject) (alloc : Nat) : List Node × Nat :=
  let allParticles := GetAllDownstreamPfos pRoot []
  let allHits := collectPfoHits GetCaloHits GetIsolatedCaloHits allParticles []
  ([Node.createReco alloc allParticles allHits], alloc + 1)

/-- The loop `for (pChild : showerParticles) pNode->FillFlat(pChild)` of the
reconstructed hierarchy. -/
def fillRecoChildrenFlat (GetCaloHits GetIsolatedCaloHits : Nat → HitType → List CaloHit) :
    List ParticleFlowObject → Nat → List Node × Nat
  | [], alloc => ([], alloc)
  | pChild :: rest, alloc =>
      let r := fillRecoNodeFlat GetCaloHits GetIsolatedCaloHits pChild alloc
      let s := fillRecoChildrenFlat GetCaloHits GetIsolatedCaloHits rest r.2
      (r.1 ++ s.1, s.2)

/-- Model of `std::set<const ParticleFlowObject *>::insert`: the set is kept in
increasing order of address without repetition. -/
def PfoSet.insert (p : ParticleFlowObject) : List ParticleFlowObject → List ParticleFlowObject
  | [] => [p]
  | q :: rest =>
      if p.addr < q.addr then p :: q :: rest
      else if p.addr = q.addr then q :: rest
      else q :: PfoSet.insert p rest

/-- The first loop of `GetRecoPrimaries`: the value of `pRoot` when the loop is
left, nothing when it is still null.  `IsNeutrino` and `GetParentPfo` stand for
the functions of `LArPfoHelper` of these names, which are not among the
sources. -/
def findRecoRoot (IsNeutrino : ParticleFlowObject → Bool)
    (GetParentPfo : ParticleFlowObject → ParticleFlowObject) :
    List ParticleFlowObject → Option ParticleFlowObject
  | [] => none
  | pPfo :: rest =>
      if IsNeutrino pPfo then some pPfo
      else
        let pParent := GetParentPfo pPfo
        if IsNeutrino pParent then some pParent
        else findRecoRoot IsNeutrino GetParentPfo rest

/-- Model of `LArHierarchyHelper::GetRecoPrimaries`: the returned `pRoot` and
the final `primaries`.  When the first loop finds no neutrino the source
dereferences a null `pRoot`; the behaviour is then undefined and the model
gives nothing. -/
def GetRecoPrimaries (IsNeutrino : ParticleFlowObject → Bool)
    (GetParentPfo : ParticleFlowObject → ParticleFlowObject)
    (pfoList : List ParticleFlowObject) (primaries : List ParticleFlowObject) :
    Option (ParticleFlowObject × List ParticleFlowObject) :=
  match findRecoRoot IsNeutrino GetParentPfo pfoList with
  | none => none
  | some pRoot =>
      some (pRoot, pRoot.GetDaughterPfoList.foldl (fun set pPrimary => PfoSet.insert pPrimary set)
        primaries)

/-- The body of the loop over the primaries in `RecoHierarchy::FillHierarchy`
(one branch for each fold mode): the root nodes with the root node of the
primary appended, and the next free address. -/
def fillRecoPrimary (GetCaloHits GetIsolatedCaloHits : Nat → HitType → List CaloHit)
    (foldToPrimaries foldToLeadingShowers : Bool) (state : List Node × Nat)
    (pPrimary : ParticleFlowObject) : List Node × Nat :=
  let rootNodes := state.1
  let alloc := state.2
  let isShower := isShowerPfoPdg pPrimary.GetParticleId
  if foldToPrimaries && !foldToLeadingShowers then
    let allParticles := GetAllDownstreamPfos pPrimary []
    let allHits := collectPfoHits GetCaloHits GetIsolatedCaloHits allParticles []
    (rootNodes ++ [Node.createReco alloc allParticles allHits], alloc + 1)
  else if foldToPrimaries && foldToLeadingShowers then
    let lists : List ParticleFlowObject × List ParticleFlowObject :=
      if isShower then (GetAllDownstreamPfos pPrimary [], [])
      else GetAllDownstreamPfos3 pPrimary [] []
    let allParticles := lists.1
    let showerParticles := lists.2
    let allHits := collectPfoHits GetCaloHits GetIsolatedCaloHits allParticles []
    let pNode := Node.createReco alloc allParticles allHits
    let r := fillRecoChildrenFlat GetCaloHits GetIsolatedCaloHits showerParticles (alloc + 1)
    (rootNodes ++ [pNode.addChildren r.1], r.2)
  else if foldToLeadingShowers then
    let allParticles := if isShower then GetAllDownstreamPfos pPrimary [] else [pPrimary]
    let allHits := collectPfoHits GetCaloHits GetIsolatedCaloHits allParticles []
    let pNode := Node.createReco alloc allParticles allHits
    if !isShower then
      let r := fillRecoChildrenHierarchy GetCaloHits GetIsolatedCaloHits foldToLeadingShowers
        pPrimary.GetDaughterPfoList (alloc + 1)
      (rootNodes ++ [pNode.addChildren r.1], r.2)
    else (rootNodes ++ [pNode], alloc + 1)
  else
    let allParticles := [pPrimary]
    let allHits := collectPfoHits GetCaloHits GetIsolatedCaloHits allParticles []
    let pNode := Node.createReco alloc allParticles allHits
    let r := fillRecoChildrenHierarchy GetCaloHits GetIsolatedCaloHits foldToLeadingShowers
      pPrimary.GetDaughterPfoList (alloc + 1)
    (rootNodes ++ [pNode.addChildren r.1], r.2)

/-- Model of `RecoHierarchy::FillHierarchy`: the hierarchy after the call and
the next free address, or nothing when `GetRecoPrimaries` finds no neutrino
(undefined behaviour in the source).  The four branches of the source start
alike and differ in the body of the loop over the primaries. -/
def RecoHierarchy.FillHierarchy (GetCaloHits GetIsolatedCaloHits : Nat → HitType → List CaloHit)
    (IsNeutrino : ParticleFlowObject → Bool)
    (GetParentPfo : ParticleFlowObject → ParticleFlowObject)
    (h : RecoHierarchy) (pfoList : List ParticleFlowObject)
    (foldToPrimaries foldToLeadingShowers : Bool) (alloc : Nat) : Option (RecoHierarchy × Nat) :=
  match GetRecoPrimaries IsNeutrino GetParentPfo pfoList [] with
  | none => none
  | some (pRoot, primaries) =>
      let r := primaries.foldl
        (fillRecoPrimary GetCaloHits GetIsolatedCaloHits foldToPrimaries foldToLeadingShowers)
        (h.m_rootNodes, alloc)
      some ({ h with m_pNeutrino := some pRoot.addr, m_rootNodes := r.1 }, r.2)

/-! ## Rendering the hierarchies -/

mutual
/-- Model of `RecoHierarchy::Node::ToString(prefix)`; the argument `pre` is the
`prefix` of the source. -/
def Node.ToStringReco : String → Node → String
  | pre, Node.mk _ m_pdg _ m_caloHits m_children =>
      Node.childrenToStringReco (pre ++ "   ") m_children
        (pre ++ "PDG: " ++ toString m_pdg ++ " Hits: " ++ toString m_caloHits.length ++ "\n")
/-- The loop `for (pChild : m_children) str += pChild->ToString(prefix + "   ")`
of `RecoHierarchy::Node::ToString`, with the running `str`; `pre` is the
prefix handed to the children. -/
def Node.childrenToStringReco : String → List Node → String → String
  | _, [], str => str
  | pre, pChild :: rest, str =>
      Node.childrenToStringReco pre rest (str ++ Node.ToStringReco pre pChild)
end

/-- Model of `RecoHierarchy::ToString`. -/
def RecoHierarchy.ToString (h : RecoHierarchy) : String :=
  h.m_rootNodes.foldl (fun str pNode => str ++ (Node.ToStringReco "" pNode ++ "\n")) ""

mutual
/-- Model of `MCHierarchy::Node::ToString(prefix)`; the argument `pre` is the
`prefix` of the source, and `energyText p` stands for
`std::to_string(pMC->GetEnergy())` of the particle at the address `p`.  For a
node without constituents the source evaluates `m_mcParticles.front()` on an
empty list; the behaviour is then undefined and the model gives nothing. -/
def Node.ToStringMC (energyText : Nat → String) : String → Node → Option String
  | pre, Node.mk _ m_pdg m_mcParticles m_caloHits m_children =>
      match m_mcParticles with
      | [] => none
      | front :: _ =>
          Node.childrenToStringMC energyText (pre ++ "   ") m_children
            (pre ++ "PDG: " ++ toString m_pdg ++ " Energy: " ++ energyText front
              ++ " Hits: " ++ toString m_caloHits.length ++ "\n")
/-- The loop over `m_children` of `MCHierarchy::Node::ToString`, with the running
`str`. -/
def Node.childrenToStringMC (energyText : Nat → String) :
    String → List Node → String → Option String
  | _, [], str => some str
  | pre, pChild :: rest, str =>
      match Node.ToStringMC energyText pre pChild with
      | none => none
      | some childStr => Node.childrenToStringMC energyText pre rest (str ++ childStr)
end

/-- The loop of `MCHierarchy::ToString` over the root nodes, with the running
`str`. -/
def rootsToStringMC (energyText : Nat → String) : List Node → String → Option String
  | [], str => some str
  | pNode :: rest, str =>
      match Node.ToStringMC energyText "" pNode with
      | none => none
      | some nodeStr => rootsToStringMC energyText rest (str ++ (nodeStr ++ "\n"))

/-- Model of `MCHierarchy::ToString`. -/
def MCHierarchy.ToString (energyText : Nat → String) (h : MCHierarchy) : Option String :=
  rootsToStringMC energyText h.m_rootNodes ""

/-! ### The rendering in words -/

mutual
/-- The nodes of the tree rooted at a node in pre-order (a node before its
children, children in stored order), each with its depth when the root has
the depth `d`. -/
def Node.withDepth : Nat → Node → List (Nat × Node)
  | d, Node.mk a p ps hs cs => (d, Node.mk a p ps hs cs) :: Node.withDepthList (d + 1) cs
/-- The nodes of the trees rooted at the nodes of a list in pre-order, tree
after tree, each with its depth when the roots have the depth `d`. -/
def Node.withDepthList : Nat → List Node → List (Nat × Node)
  | _, [] => []
  | d, n :: ns => Node.withDepth d n ++ Node.withDepthList d ns
end

/-- The concatenation of a list of strings. -/
def concatLines : List String → String
  | [] => ""
  | line :: rest => line ++ concatLines rest

/-- The indentation of `spaces` spaces per level at depth `d`. -/
def indent (spaces d : Nat) : String :=
  String.mk (List.replicate (spaces * d) ' ')

/-- The line of a node of the reconstructed hierarchy after its indentation. -/
def recoLineBody (n : Node) : String :=
  "PDG: " ++ toString n.GetParticleId ++ " Hits: " ++ toString n.GetCaloHits.length ++ "\n"

/-- The line of a node of the truth hierarchy after its indentation. -/
def mcLineBody (energyText : Nat → String) (n : Node) : String :=
  "PDG: " ++ toString n.GetParticleId ++ " Energy: " ++ energyText (n.GetParticles.headD 0)
    ++ " Hits: " ++ toString n.GetCaloHits.length ++ "\n"

/-- The rendering of a forest with `spaces` spaces per level: for each root the
lines of its tree in pre-order, every line indented by `spaces` times the
depth of its node, followed by an empty line. -/
def renderForest (spaces : Nat) (lineBody : Node → String) (rootNodes : List Node) : String :=
  concatLines (rootNodes.map (fun root =>
    concatLines ((Node.withDepth 0 root).map (fun e => indent spaces e.1 ++ lineBody e.2)) ++ "\n"))

/-! ## Notions used in the statements about hierarchy matching -/

/-- The vector `mcNodes` of `MatchHierarchies` after the first `std::sort`. -/
def sortedMCNodes (mcHierarchy : MCHierarchy) : List Node :=
  stdSort moreHits (mcHierarchy.GetFlattenedNodes [])

/-- The vector `recoNodes` of `MatchHierarchies` after the second `std::sort`. -/
def sortedRecoNodes (recoHierarchy : RecoHierarchy) : List Node :=
  stdSort moreHits (recoHierarchy.GetFlattenedNodes [])

/-- The values of `pBestNode` and `bestSharedHits` with which the inner loop of
`MatchHierarchies` ends for a reconstructed node. -/
def bestMatch (GetHitType : CaloHit → HitType) (mcHierarchy : MCHierarchy) (pRecoNode : Node) :
    Option Node × Nat :=
  bestMatchLoop GetHitType mcHierarchy.m_recoCriteria pRecoNode.GetCaloHits
    (sortedMCNodes mcHierarchy) none 0

/-- The number of hits of a truth node that are hits of a reconstructed node. -/
def sharedCount (pMCNode pRecoNode : Node) : Nat :=
  (pMCNode.GetCaloHits.filter (fun h => decide (h ∈ pRecoNode.GetCaloHits))).length

/-- The reconstructed nodes of a list, in order, for which the inner loop ends
with a best node at the address `key`, each with its `bestSharedHits`. -/
def matchesOf (GetHitType : CaloHit → HitType) (mcHierarchy : MCHierarchy) (key : Nat)
    (recoNodes : List Node) : List (Node × Int) :=
  recoNodes.filterMap (fun pRecoNode =>
    match bestMatch GetHitType mcHierarchy pRecoNode with
    | (some pBestNode, bestSharedHits) =>
        if pBestNode.addr = key then some (pRecoNode, (bestSharedHits : Int)) else none
    | (none, _) => none)

/-- The record of a truth node that holds the reconstructed nodes of
`matchesOf` for its address. -/
def recordOf (GetHitType : CaloHit → HitType) (mcHierarchy : MCHierarchy)
    (recoNodes : List Node) (pMCNode : Node) : MCMatches :=
  { m_pMC := pMCNode,
    m_recoNodes := (matchesOf GetHitType mcHierarchy pMCNode.addr recoNodes).map Prod.fst,
    m_sharedHits := (matchesOf GetHitType mcHierarchy pMCNode.addr recoNodes).map Prod.snd }

/-- The invariant of the loop of `MatchHierarchies` over the reconstructed
nodes, after the nodes `done` have been handled: the keys of `mcToMatchMap` are
pairwise different, a key is present exactly when some handled node has its
best node at that address, and the entry is then the record of a truth node
with that address. -/
def MatchMapInv (GetHitType : CaloHit → HitType) (mcHierarchy : MCHierarchy)
    (mcToMatchMap : MatchMap) (done : List Node) : Prop :=
  (mcToMatchMap.map Prod.fst).Nodup
  ∧ ∀ key : Nat,
      (mcToMatchMap.find key = none ∧ matchesOf GetHitType mcHierarchy key done = [])
      ∨ ∃ pMCNode, pMCNode ∈ sortedMCNodes mcHierarchy ∧ pMCNode.addr = key
          ∧ matchesOf GetHitType mcHierarchy key done ≠ []
          ∧ mcToMatchMap.find key = some (recordOf GetHitType mcHierarchy done pMCNode)

/-! ## Notions used in the statements about merge maps -/

/-- The keys of a merge map are in strictly increasing order, as the keys of a
`std::map` are. -/
def LArClusterMergeMap.Ordered (m : LArClusterMergeMap) : Prop :=
  (m.map Prod.fst).Pairwise (· < ·)

/-- The invariant of the loops that fill the dense maps: the keys of both maps
are ordered, no cluster has an edge to itself, and the backward map holds the
edges of the forward map reversed. -/
def DenseInv (maps : LArClusterMergeMap × LArClusterMergeMap) : Prop :=
  maps.1.Ordered ∧ maps.2.Ordered
  ∧ (∀ p, maps.1.hasEdge p p = false)
  ∧ ∀ pInner pOuter, maps.2.hasEdge pOuter pInner = maps.1.hasEdge pInner pOuter

/-! ## Notions used in the statements about hierarchy building -/

/-- The addresses of a particle and of all its descendants. -/
def MCParticle.subtreeAddrs (p : MCParticle) : List Nat :=
  (p :: p.descendents).map MCParticle.addr

/-- What the building functions guarantee for the nodes they create from the
particles at the addresses `addrs`: the hit list of every node is a
rearrangement of the mapped hits of its constituents, and the constituents of
all nodes together are taken from `addrs`, none more often than it occurs
there. -/
def BuiltFrom (m : MCToHitsMap) (nodes : List Node) (addrs : List Nat) : Prop :=
  (∀ n ∈ Node.nodesList nodes, n.GetCaloHits.Perm (n.GetParticles.flatMap m.hitsOf))
  ∧ (forestParticles nodes).Subperm addrs

/-- Where the four-argument walk puts the particles below a visited
descendant: a track particle only stands for itself, a leading shower or
neutron for itself and all its descendants. -/
def expandClassified (e : DescendentKind × MCParticle) : List Nat :=
  if e.1 = DescendentKind.track then [e.2.addr] else e.2.subtreeAddrs

/-! ## Notions used in the statements about the shape of the hierarchies -/

/-- The list `allParticles` of `MCHierarchy::Node::FillFlat` for a particle:
the particle with all its descendants or, when neutrons are removed, with
what the walk puts on the list shared by tracks and leading showers. -/
def flatParticles (crit : ReconstructabilityCriteria) (pRoot : MCParticle) : List MCParticle :=
  if !crit.m_removeNeutrons then GetAllDescendentMCParticles pRoot [pRoot]
  else (GetAllDescendentMCParticlesShared pRoot [pRoot] []).1

/-- A property of nodes holds for every node that the truth hierarchy can
create: the constructor applied to a particle list and to the hits collected
for it, whatever children are appended afterwards. -/
def HoldsForCreated (m : MCToHitsMap) (P : Node → Prop) : Prop :=
  ∀ (a : Nat) (parts : List MCParticle) (cs : List Node),
    P ((Node.create a parts (collectHits m parts [])).addChildren cs)

/-- The list `allParticles` from which the loop body of
`MCHierarchy::FillHierarchy` makes the root node of a primary, in each fold
mode. -/
def rootParticles (crit : ReconstructabilityCriteria) (foldToPrimaries foldToLeadingShowers : Bool)
    (pPrimary : MCParticle) : List MCParticle :=
  let isShower := isShowerPdg pPrimary.GetParticleId
  let isNeutron := isNeutronPdg pPrimary.GetParticleId
  if foldToPrimaries && !foldToLeadingShowers then flatParticles crit pPrimary
  else if foldToPrimaries && foldToLeadingShowers then
    if isShower || isNeutron then flatParticles crit pPrimary
    else (GetAllDescendentMCParticles4 pPrimary [pPrimary] [] []).1
  else if foldToLeadingShowers then
    if isShower || (isNeutron && !crit.m_removeNeutrons) then
      GetAllDescendentMCParticles pPrimary [pPrimary]
    else [pPrimary]
  else [pPrimary]

/-- The children that the loop body of `MCHierarchy::FillHierarchy` gives to
the root node of a primary, in each fold mode, allocated from `alloc` on, and
the next free address. -/
def rootChildren (crit : ReconstructabilityCriteria) (m : MCToHitsMap)
    (foldToPrimaries foldToLeadingShowers : Bool) (pPrimary : MCParticle) (alloc : Nat) :
    List Node × Nat :=
  let isShower := isShowerPdg pPrimary.GetParticleId
  let isNeutron := isNeutronPdg pPrimary.GetParticleId
  if foldToPrimaries && !foldToLeadingShowers then ([], alloc)
  else if foldToPrimaries && foldToLeadingShowers then
    if isShower || isNeutron then ([], alloc)
    else
      let lists := GetAllDescendentMCParticles4 pPrimary [pPrimary] [] []
      let r := fillChildrenFlat crit m lists.2.1 alloc
      let s :=
        if !crit.m_removeNeutrons && !lists.2.2.isEmpty then fillChildrenFlat crit m lists.2.2 r.2
        else ([], r.2)
      (r.1 ++ s.1, s.2)
  else if foldToLeadingShowers then
    if !(isShower || isNeutron) then
      fillChildrenHierarchy crit m foldToLeadingShowers pPrimary.GetDaughterList alloc
    else ([], alloc)
  else fillChildrenHierarchy crit m foldToLeadingShowers pPrimary.GetDaughterList alloc

/-- The root node of a primary when it is allocated at `alloc`. -/
def rootNode (crit : ReconstructabilityCriteria) (m : MCToHitsMap)
    (foldToPrimaries foldToLeadingShowers : Bool) (pPrimary : MCParticle) (alloc : Nat) : Node :=
  (Node.create alloc (rootParticles crit foldToPrimaries foldToLeadingShowers pPrimary)
      (collectHits m (rootParticles crit foldToPrimaries foldToLeadingShowers pPrimary) [])).addChildren
    (rootChildren crit m foldToPrimaries foldToLeadingShowers pPrimary (alloc + 1)).1

/-- A property of nodes holds for every node that the reconstructed hierarchy
can create: the constructor applied to an object list and a hit list,
whatever children are appended afterwards. -/
def HoldsForCreatedReco (P : Node → Prop) : Prop :=
  ∀ (a : Nat) (parts : List ParticleFlowObject) (hits : List CaloHit) (cs : List Node),
    P ((Node.createReco a parts hits).addChildren cs)

/-- The list `allParticles` from which the loop body of
`RecoHierarchy::FillHierarchy` makes the root node of a primary, in each fold
mode. -/
def recoRootParticles (foldToPrimaries foldToLeadingShowers : Bool)
    (pPrimary : ParticleFlowObject) : List ParticleFlowObject :=
  let isShower := isShowerPfoPdg pPrimary.GetParticleId
  if foldToPrimaries && !foldToLeadingShowers then GetAllDownstreamPfos pPrimary []
  else if foldToPrimaries && foldToLeadingShowers then
    if isShower then GetAllDownstreamPfos pPrimary []
    else (GetAllDownstreamPfos3 pPrimary [] []).1
  else if foldToLeadingShowers then
    if isShower then GetAllDownstreamPfos pPrimary [] else [pPrimary]
  else [pPrimary]

/-- The children that the loop body of `RecoHierarchy::FillHierarchy` gives to
the root node of a primary, in each fold mode, allocated from `alloc` on, and
the next free address. -/
def recoRootChildren (GetCaloHits GetIsolatedCaloHits : Nat → HitType → List CaloHit)
    (foldToPrimaries foldToLeadingShowers : Bool) (pPrimary : ParticleFlowObject) (alloc : Nat) :
    List Node × Nat :=
  let isShower := isShowerPfoPdg pPrimary.GetParticleId
  if foldToPrimaries && !foldToLeadingShowers then ([], alloc)
  else if foldToPrimaries && foldToLeadingShowers then
    if isShower then ([], alloc)
    else fillRecoChildrenFlat GetCaloHits GetIsolatedCaloHits
      (GetAllDownstreamPfos3 pPrimary [] []).2 alloc
  else if foldToLeadingShowers then
    if !isShower then
      fillRecoChildrenHierarchy GetCaloHits GetIsolatedCaloHits foldToLeadingShowers
        pPrimary.GetDaughterPfoList alloc
    else ([], alloc)
  else
    fillRecoChildrenHierarchy GetCaloHits GetIsolatedCaloHits foldToLeadingShowers
      pPrimary.GetDaughterPfoList alloc

/-- The root node of a reconstructed primary when it is allocated at `alloc`. -/
def recoRootNode (GetCaloHits GetIsolatedCaloHits : Nat → HitType → List CaloHit)
    (foldToPrimaries foldToLeadingShowers : Bool) (pPrimary : ParticleFlowObject) (alloc : Nat) :
    Node :=
  (Node.createReco alloc (recoRootParticles foldToPrimaries foldToLeadingShowers pPrimary)
      (collectPfoHits GetCaloHits GetIsolatedCaloHits
        (recoRootParticles foldToPrimaries foldToLeadingShowers pPrimary) [])).addChildren
    (recoRootChildren GetCaloHits GetIsolatedCaloHits foldToPrimaries foldToLeadingShowers
      pPrimary (alloc + 1)).1

/-! ## The shape of the hierarchies, in the words of the fold modes -/

/-- The function `Node::FillHierarchy` folds a particle with this PDG code and
all its descendants into one node: leading showers are folded, and the
particle is shower-type, or neutron-type with neutrons kept. -/
def foldsParticle (crit : ReconstructabilityCriteria) (foldToLeadingShowers : Bool) (pdg : Int) :
    Bool :=
  foldToLeadingShowers && (isShowerPdg pdg || (isNeutronPdg pdg && !crit.m_removeNeutrons))

/-- A particle with this PDG code gets a node when it is met as a daughter:
it is not a neutron-type particle that `m_removeNeutrons` removes. -/
def keepsParticle (crit : ReconstructabilityCriteria) (pdg : Int) : Bool :=
  !(crit.m_removeNeutrons && isNeutronPdg pdg)

/-- The constituents of the node rooted at a particle when the hierarchy is
not folded to primaries: the particle with all its descendants when it is
folded, the particle alone otherwise; in address order. -/
def nodeConstituents (crit : ReconstructabilityCriteria) (foldToLeadingShowers : Bool)
    (p : MCParticle) : List Nat :=
  if foldsParticle crit foldToLeadingShowers p.GetParticleId then sortByAddress p.subtreeAddrs
  else [p.addr]

/-- A node is the node rooted at the particle `p` of a hierarchy that is not
folded to primaries: it has the PDG code of `p` and the constituents of
`nodeConstituents`; when `p` is folded it has no children, and otherwise it
has one child per daughter of `p` that gets a node, in daughter order, each
with the constituents of the node rooted at that daughter. -/
def NodeOfParticle (crit : ReconstructabilityCriteria) (foldToLeadingShowers : Bool)
    (p : MCParticle) (n : Node) : Prop :=
  n.GetParticleId = p.GetParticleId
  ∧ n.GetParticles = nodeConstituents crit foldToLeadingShowers p
  ∧ n.GetChildren.map Node.GetParticles
      = if foldsParticle crit foldToLeadingShowers p.GetParticleId then []
        else (p.GetDaughterList.filter (fun d => keepsParticle crit d.GetParticleId)).map
          (nodeConstituents crit foldToLeadingShowers)

/-- The constituents of the node rooted at a reconstructed object when the
hierarchy is not folded to primaries: the object with everything downstream
of it when leading showers are folded and it is shower-type, the object alone
otherwise; in address order. -/
def recoNodeConstituents (foldToLeadingShowers : Bool) (p : ParticleFlowObject) : List Nat :=
  if foldToLeadingShowers && isShowerPfoPdg p.GetParticleId then
    sortByAddress (p.downstream.map ParticleFlowObject.addr)
  else [p.addr]

/-- A node is the node rooted at the object `p` of a reconstructed hierarchy
that is not folded to primaries: it has the PDG code of `p` and the
constituents of `recoNodeConstituents`; when `p` is folded it has no children,
and otherwise it has one child per daughter of `p`, in daughter order, each
with the constituents of the node rooted at that daughter. -/
def NodeOfPfo (foldToLeadingShowers : Bool) (p : ParticleFlowObject) (n : Node) : Prop :=
  n.GetParticleId = p.GetParticleId
  ∧ n.GetParticles = recoNodeConstituents foldToLeadingShowers p
  ∧ n.GetChildren.map Node.GetParticles
      = if foldToLeadingShowers && isShowerPfoPdg p.GetParticleId then []
        else p.GetDaughterPfoList.map (recoNodeConstituents foldToLeadingShowers)

mutual
/-- A particle with everything below it, unless it is neutron-type: then
nothing. -/
def MCParticle.withoutNeutrons : MCParticle → List MCParticle
  | MCParticle.mk a pdg dds =>
      if isNeutronPdg pdg then []
      else MCParticle.mk a pdg dds :: MCParticle.withoutNeutronsList dds
/-- The particles of a daughter list and their descendants, without the
neutron-type particles and everything below them. -/
def MCParticle.withoutNeutronsList : List MCParticle → List MCParticle
  | [] => []
  | d :: ds => MCParticle.withoutNeutrons d ++ MCParticle.withoutNeutronsList ds
end

/-- In the words of the fold mode "primaries only" with neutrons removed: "all
descendants except neutrons and the neutrons' descendants". -/
def MCParticle.descendentsWithoutNeutrons (p : MCParticle) : List MCParticle :=
  MCParticle.withoutNeutronsList p.GetDaughterList

mutual
/-- What is reached at a daughter: a shower-type daughter is reached but
nothing below it, a neutron-type daughter is not reached, any other daughter
is reached and so is what is reached below it. -/
def MCParticle.reached : MCParticle → List MCParticle
  | MCParticle.mk a pdg dds =>
      if isShowerPdg pdg then [MCParticle.mk a pdg dds]
      else if isNeutronPdg pdg then []
      else MCParticle.mk a pdg dds :: MCParticle.reachedList dds
/-- The particles reached at and below the daughters of a list. -/
def MCParticle.reachedList : List MCParticle → List MCParticle
  | [] => []
  | d :: ds => MCParticle.reached d ++ MCParticle.reachedList ds
end

/-- The descendants that are reached from a particle without passing through a
shower-type or a neutron-type particle and are not neutron-type themselves. -/
def MCParticle.reachedDescendents (p : MCParticle) : List MCParticle :=
  MCParticle.reachedList p.GetDaughterList

/-! ## Notions used in the statement about repeated pruning -/

/-- The second part of `FillClusterMergeMaps`: the forward pruning pass over
the dense forward map followed by the backward pruning pass over the dense
backward map, both filling `(forwardMergeMap, backwardMergeMap)`. -/
def pruneFullMergeMaps (full : LArClusterMergeMap × LArClusterMergeMap)
    (forwardMergeMap backwardMergeMap : LArClusterMergeMap) :
    Except StatusCode (LArClusterMergeMap × LArClusterMergeMap) :=
  match pruneForward full.1 full.1 (forwardMergeMap, backwardMergeMap) with
  | Except.error e => Except.error e
  | Except.ok maps => pruneBackward full.2 full.2 maps

/-- A merge map as `operator[]` and `insert` build it from an empty map: the
keys are in strictly increasing order, and every stored set is in strictly
increasing order and not empty. -/
def LArClusterMergeMap.Canonical (m : LArClusterMergeMap) : Prop :=
  m.Ordered ∧ ∀ e ∈ m, e.2.Sorted (· < ·) ∧ e.2 ≠ []

/-- The function `FillClusterMergeMaps` without its backward pruning pass: the dense
maps are built and only the forward pass over `fullForwardMergeMap` fills
`(forwardMergeMap, backwardMergeMap)`. -/
def FillClusterMergeMapsForwardOnly (alg : TransverseAssociationAlgorithm)
    (transverseClusterList : List LArTransverseCluster)
    (forwardMergeMap backwardMergeMap : LArClusterMergeMap) :
    Except StatusCode (LArClusterMergeMap × LArClusterMergeMap) :=
  match fillFullMergeMaps alg transverseClusterList with
  | Except.error e => Except.error e
  | Except.ok (fullForwardMergeMap, _) =>
      pruneForward fullForwardMergeMap fullForwardMergeMap (forwardMergeMap, backwardMergeMap)

/-! ## Notions used in the statement about the dense edges -/

/-- Every edge of a merge map joins the seed clusters of two transverse
clusters of the list, and both the largest and the smallest X coordinate of
the hits are smaller for the seed at the inner end than for the seed at the
outer end. -/
def EdgesIncrease (transverseClusterList : List LArTransverseCluster) (m : LArClusterMergeMap) :
    Prop :=
  ∀ pInner pOuter, m.hasEdge pInner pOuter = true →
    ∃ tInner ∈ transverseClusterList, ∃ tOuter ∈ transverseClusterList,
      tInner.m_pSeedCluster.addr = pInner ∧ tOuter.m_pSeedCluster.addr = pOuter
      ∧ ∃ innerX outerX : ℚ × ℚ,
          GetExtremalCoordinatesX tInner.m_pSeedCluster = Except.ok innerX
          ∧ GetExtremalCoordinatesX tOuter.m_pSeedCluster = Except.ok outerX
          ∧ innerX.2 < outerX.2 ∧ innerX.1 < outerX.1

/-! ## The association map -/

/-- Modelled from the spec: the value type of `ClusterAssociationMap`, declared in a
header that is not among the sources: per cluster the set of forward and the
set of backward associated clusters, the two members that
`FillClusterAssociationMap` fills. -/
structure ClusterAssociation where
  m_forwardAssociations : ClusterList := []
  m_backwardAssociations : ClusterList := []
  deriving DecidableEq

/-- Modelled from the spec: a `ClusterAssociationMap`, a map from cluster to
`ClusterAssociation`: the entries in increasing order of the key address. -/
abbrev ClusterAssociationMap := List (Nat × ClusterAssociation)

/-- The access `map[key]` followed by a change of the value: a default value is
put at the place of the key when the key is absent. -/
def ClusterAssociationMap.update (key : Nat) (change : ClusterAssociation → ClusterAssociation) :
    ClusterAssociationMap → ClusterAssociationMap
  | [] => [(key, change {})]
  | e :: rest =>
      if key < e.1 then (key, change {}) :: e :: rest
      else if key = e.1 then (e.1, change e.2) :: rest
      else e :: ClusterAssociationMap.update key change rest

/-- The two statements
`clusterAssociationMap[pInnerCluster].m_forwardAssociations.insert(pOuterCluster)` and
`clusterAssociationMap[pOuterCluster].m_backwardAssociations.insert(pInnerCluster)`. -/
def addAssociation (pInnerCluster pOuterCluster : Nat)
    (clusterAssociationMap : ClusterAssociationMap) : ClusterAssociationMap :=
  ClusterAssociationMap.update pOuterCluster
    (fun a => { a with m_backwardAssociations := ClusterList.insert pInnerCluster a.m_backwardAssociations })
    (ClusterAssociationMap.update pInnerCluster
      (fun a => { a with m_forwardAssociations := ClusterList.insert pOuterCluster a.m_forwardAssociations })
      clusterAssociationMap)

/-- The loop over `iter2` of the first part of `FillClusterAssociationMap` for
the entry of `pInnerCluster` in the forward merge map: the content of
`clusterAssociationMap` when the loop is left, and the status code thrown, if
any. -/
def associateForwardEntry (pInnerCluster : Nat) :
    ClusterList → ClusterAssociationMap → ClusterAssociationMap × Option StatusCode
  | [], clusterAssociationMap => (clusterAssociationMap, none)
  | pOuterCluster :: rest, clusterAssociationMap =>
      if pOuterCluster = pInnerCluster then
        (clusterAssociationMap, some StatusCode.STATUS_CODE_INVALID_PARAMETER)
      else
        associateForwardEntry pInnerCluster rest
          (addAssociation pInnerCluster pOuterCluster clusterAssociationMap)

/-- The first part of `FillClusterAssociationMap`: the loop over `iter1` through
the forward merge map. -/
def associateForward :
    LArClusterMergeMap → ClusterAssociationMap → ClusterAssociationMap × Option StatusCode
  | [], clusterAssociationMap => (clusterAssociationMap, none)
  | e :: rest, clusterAssociationMap =>
      match associateForwardEntry e.1 e.2 clusterAssociationMap with
      | (clusterAssociationMap, some err) => (clusterAssociationMap, some err)
      | (clusterAssociationMap, none) => associateForward rest clusterAssociationMap

/-- The loop over `iter2` of the second part of `FillClusterAssociationMap` for
the entry of `pOuterCluster` in the backward merge map. -/
def associateBackwardEntry (pOuterCluster : Nat) :
    ClusterList → ClusterAssociationMap → ClusterAssociationMap × Option StatusCode
  | [], clusterAssociationMap => (clusterAssociationMap, none)
  | pInnerCluster :: rest, clusterAssociationMap =>
      if pInnerCluster = pOuterCluster then
        (clusterAssociationMap, some StatusCode.STATUS_CODE_INVALID_PARAMETER)
      else
        associateBackwardEntry pOuterCluster rest
          (addAssociation pInnerCluster pOuterCluster clusterAssociationMap)

/-- The second part of `FillClusterAssociationMap`: the loop over `iter1`
through the backward merge map. -/
def associateBackward :
    LArClusterMergeMap → ClusterAssociationMap → ClusterAssociationMap × Option StatusCode
  | [], clusterAssociationMap => (clusterAssociationMap, none)
  | e :: rest, clusterAssociationMap =>
      match associateBackwardEntry e.1 e.2 clusterAssociationMap with
      | (clusterAssociationMap, some err) => (clusterAssociationMap, some err)
      | (clusterAssociationMap, none) => associateBackward rest clusterAssociationMap

/-- Model of `TransverseAssociationAlgorithm::FillClusterAssociationMap`: the
content of `clusterAssociationMap` when the function is left, and the status
code of the exception that leaves it, nothing when it returns normally. -/
def FillClusterAssociationMap (forwardMergeMap backwardMergeMap : LArClusterMergeMap)
    (clusterAssociationMap : ClusterAssociationMap) : ClusterAssociationMap × Option StatusCode :=
  match associateForward forwardMergeMap clusterAssociationMap with
  | (clusterAssociationMap, some err) => (clusterAssociationMap, some err)
  | (clusterAssociationMap, none) => associateBackward backwardMergeMap clusterAssociationMap

/-- The value stored for a key of the association map; the default value when
the key is absent (the value that `operator[]` would create). -/
def ClusterAssociationMap.get : ClusterAssociationMap → Nat → ClusterAssociation
  | [], _ => {}
  | e :: rest, key => if e.1 = key then e.2 else ClusterAssociationMap.get rest key

/-- An association map holds a relation between clusters: its keys are in
strictly increasing order, and `b` is a forward association of `a` exactly
when `a` is related to `b`, which is exactly when `a` is a backward
association of `b`. -/
def ClusterAssociationMap.Represents (m : ClusterAssociationMap) (R : Nat → Nat → Prop) : Prop :=
  (m.map Prod.fst).Pairwise (· < ·)
  ∧ ∀ a b, (b ∈ (m.get a).m_forwardAssociations ↔ R a b)
      ∧ (a ∈ (m.get b).m_backwardAssociations ↔ R a b)

/-! ## Example inputs -/

/-- A view assignment for the examples: the view of a hit is given by its
address modulo three. -/
def exampleHitType : CaloHit → HitType := fun h =>
  if h % 3 = 0 then HitType.TPC_VIEW_U
  else if h % 3 = 1 then HitType.TPC_VIEW_V
  else HitType.TPC_VIEW_W

/-- The truth hierarchy of the scenario with one primary of 12 hits, under the
default criteria. -/
def scenarioMC : MCHierarchy :=
  { m_rootNodes := [Node.mk 1 13 [1] [10, 11, 12, 13, 14, 15, 16, 17, 18, 19, 20, 21] []] }

/-- The reconstructed hierarchy of the scenario: one node with the same 12 hits. -/
def scenarioReco : RecoHierarchy :=
  { m_rootNodes := [Node.mk 2 13 [5] [10, 11, 12, 13, 14, 15, 16, 17, 18, 19, 20, 21] []] }

/-- A truth hierarchy with a primary of 18 hits that has a daughter of 15 hits,
and a second primary of 3 hits. -/
def exampleMC : MCHierarchy :=
  { m_rootNodes :=
      [Node.mk 100 13 [1] [1, 2, 3, 4, 5, 6, 7, 8, 9, 10, 11, 12, 13, 14, 15, 16, 17, 18]
          [Node.mk 101 211 [2] [19, 20, 21, 22, 23, 24, 25, 26, 27, 28, 29, 30, 31, 32, 33] []],
        Node.mk 102 2212 [3] [34, 35, 36] []] }

/-- A reconstructed hierarchy with three nodes that overlap the nodes of
`exampleMC`. -/
def exampleReco : RecoHierarchy :=
  { m_rootNodes :=
      [Node.mk 200 13 [7] [1, 2, 3, 4, 5, 6, 7, 8, 9, 10, 11, 12, 19, 20]
          [Node.mk 201 11 [8] [13, 14, 15, 16, 17, 18, 21, 22, 23, 24, 25, 26, 27, 28, 29, 30] []],
        Node.mk 202 13 [9] [34, 35, 36, 40] []] }

/-- The settings that `ReadSettings` gives when the XML holds no value, with
`cos 45°` and `tan 45°` replaced by the rationals `7071 / 10000` and `1`. -/
def defaultSettings : TransverseAssociationAlgorithm :=
  { m_clusterWindow := 3
    m_clusterAngle := 45
    m_clusterCosAngle := 7071 / 10000
    m_clusterTanAngle := 1
    m_minCosRelativeAngle := 866 / 1000
    m_maxTransverseSeparation := 3 / 2
    m_minTransverseDisplacement := 3 / 2
    m_maxLongitudinalDisplacement := 3 / 2
    m_transverseClusterMaxLength := 15 / 2
    m_transverseClusterMaxCaloHits := 5
    m_longitudinalClusterMinLength := 5 }

/-- A cluster with exactly `m_transverseClusterMaxCaloHits = 5` hits whose fit
to all hits failed. -/
def boundaryCluster : Cluster :=
  { addr := 1
    nCaloHits := 5
    hitPositions := [⟨0, 0, 0⟩, ⟨0, 0, 1⟩, ⟨0, 0, 2⟩, ⟨0, 0, 3⟩, ⟨0, 0, 4⟩]
    fitSuccessful := false
    fitDirection := ⟨0, 0, 1⟩
    lengthSquared := 16
    innerCentroid := ⟨0, 0, 0⟩
    outerCentroid := ⟨0, 0, 4⟩ }

/-- A seed cluster of two hits on the line `z = 0`, at `x = x₀` and `x = x₀ + 1`. -/
def seedAt (addr : Nat) (x₀ : ℚ) : Cluster :=
  { addr := addr
    nCaloHits := 2
    hitPositions := [⟨x₀, 0, 0⟩, ⟨x₀ + 1, 0, 0⟩]
    fitSuccessful := true
    fitDirection := ⟨1, 0, 0⟩
    lengthSquared := 1
    innerCentroid := ⟨x₀, 0, 0⟩
    outerCentroid := ⟨x₀ + 1, 0, 0⟩ }

/-- The transverse cluster of `seedAt addr x₀` without associated clusters:
from `(x₀, 0, 0)` to `(x₀ + 1, 0, 0)` along the X axis. -/
def transverseAt (addr : Nat) (x₀ : ℚ) : LArTransverseCluster :=
  { m_pSeedCluster := seedAt addr x₀
    m_associatedClusters := []
    m_innerVertex := ⟨x₀, 0, 0⟩
    m_outerVertex := ⟨x₀ + 1, 0, 0⟩
    m_direction := ⟨1, 0, 0⟩ }

/-- The scenario of three transverse clusters X, Y, Z (addresses 1, 2, 3) in a
row, all pairs dense-associated in the forward direction. -/
def scenarioXYZ : List LArTransverseCluster :=
  [transverseAt 1 0, transverseAt 2 2, transverseAt 3 4]

/-- A neutron (PDG 2112) without daughters. -/
def neutronPrimary : MCParticle := MCParticle.mk 2 2112 []

/-- A neutrino (PDG 14) whose only daughter is `neutronPrimary`. -/
def neutrinoWithNeutron : MCParticle := MCParticle.mk 1 14 [neutronPrimary]

/-- The function `GetPrimaryMCParticle` for the particles of `neutrinoWithNeutron`: the
neutron is its own primary, the neutrino has none. -/
def neutronEventPrimary : MCParticle → Option MCParticle := fun p =>
  if p.addr = 2 then some neutronPrimary else none

/-- The function `GetMainMCParticle` for the hit list `[100]`: the hit 100 belongs to the
neutron. -/
def neutronEventOwner : CaloHit → Option Nat := fun h =>
  if h = 100 then some 2 else none

/-- A neutrino with three primaries: a muon (address 2) with an electron
daughter (5, which has a photon daughter 6) and a neutron daughter (7, with a
proton daughter 8); a neutron (3) with a pion daughter (9); and an
antineutron (4). -/
def exampleNeutrino : MCParticle :=
  MCParticle.mk 1 14
    [MCParticle.mk 2 13
        [MCParticle.mk 5 11 [MCParticle.mk 6 22 []], MCParticle.mk 7 2112 [MCParticle.mk 8 2212 []]],
      MCParticle.mk 3 2112 [MCParticle.mk 9 211 []],
      MCParticle.mk 4 (-2112) []]

/-- The function `GetPrimaryMCParticle` for the particles of `exampleNeutrino`: the
daughter of the neutrino above the particle. -/
def examplePrimaryOf : MCParticle → Option MCParticle := fun p =>
  if p.addr ∈ [2, 5, 6, 7, 8] then exampleNeutrino.GetDaughterList[0]?
  else if p.addr ∈ [3, 9] then exampleNeutrino.GetDaughterList[1]?
  else if p.addr = 4 then exampleNeutrino.GetDaughterList[2]?
  else none

/-- The function `GetMainMCParticle` for the example: the hit `100 * a + k` belongs to the
particle at address `a`, hits below 100 to no particle. -/
def exampleOwner : CaloHit → Option Nat := fun h =>
  if h ≥ 100 then some (h / 100) else none

/-- The hit list of the example. -/
def exampleHits : List CaloHit := [200, 201, 500, 600, 700, 800, 300, 900, 400, 50, 100]

/-- The cluster A of the two-cluster scenario: 3 hits, length 2, along the X axis. -/
def scenarioClusterA : Cluster :=
  { addr := 1
    nCaloHits := 3
    hitPositions := [⟨0, 0, 0⟩, ⟨1, 0, 0⟩, ⟨2, 0, 0⟩]
    fitSuccessful := true
    fitDirection := ⟨1, 0, 0⟩
    lengthSquared := 4
    innerCentroid := ⟨0, 0, 0⟩
    outerCentroid := ⟨2, 0, 0⟩ }

/-- The cluster B of the two-cluster scenario: 11 hits, length 10, along the
axis `(0, 0, 1)`. -/
def scenarioClusterB : Cluster :=
  { addr := 2
    nCaloHits := 11
    hitPositions := (List.range 11).map (fun k => ⟨5, 0, (k : ℚ)⟩)
    fitSuccessful := true
    fitDirection := ⟨0, 0, 1⟩
    lengthSquared := 100
    innerCentroid := ⟨5, 0, 0⟩
    outerCentroid := ⟨5, 0, 10⟩ }

/-- A reconstructed neutrino (address 1) with two primaries: a muon (2) with an
electron daughter (4, which has a photon-like daughter 5) and a pion daughter
(6), and an electron (3) with a daughter (7). -/
def examplePfoNeutrino : ParticleFlowObject :=
  ParticleFlowObject.mk 1 14
    [ParticleFlowObject.mk 2 13
        [ParticleFlowObject.mk 4 11 [ParticleFlowObject.mk 5 22 []],
          ParticleFlowObject.mk 6 211 []],
      ParticleFlowObject.mk 3 (-11) [ParticleFlowObject.mk 7 13 []]]

/-- The hits of the clusters of the example objects: the object at address `p`
has the hits `100 p + 20` and `100 p + 10` in the U view, `100 p + 1` in the V
view and none in the W view. -/
def examplePfoHits : Nat → HitType → List CaloHit := fun p view =>
  match view with
  | HitType.TPC_VIEW_U => [100 * p + 20, 100 * p + 10]
  | HitType.TPC_VIEW_V => [100 * p + 1]
  | _ => []

/-- The isolated hits of the example objects: one hit `100 p + 5` in the W view. -/
def examplePfoIsolatedHits : Nat → HitType → List CaloHit := fun p view =>
  match view with
  | HitType.TPC_VIEW_W => [100 * p + 5]
  | _ => []

/-- The function `IsNeutrino` for the example objects. -/
def examplePfoIsNeutrino : ParticleFlowObject → Bool := fun p =>
  decide (p.GetParticleId = 14)

/-- The function `GetParentPfo` for the example objects: the neutrino is above
every object. -/
def examplePfoParent : ParticleFlowObject → ParticleFlowObject := fun _ => examplePfoNeutrino

/-- The input list of the reconstructed example: all objects, the neutrino last. -/
def examplePfoList : List ParticleFlowObject := examplePfoNeutrino.downstream.reverse

/-- A neutrino (address 1) with two primaries: a muon (2) with an electron
daughter (5, which has a photon daughter 6) and a neutron daughter (7, with a
proton daughter 8); and a pion (3) with a muon daughter (9). -/
def showerEvent : MCParticle :=
  MCParticle.mk 1 14
    [MCParticle.mk 2 13
        [MCParticle.mk 5 11 [MCParticle.mk 6 22 []], MCParticle.mk 7 2112 [MCParticle.mk 8 2212 []]],
      MCParticle.mk 3 211 [MCParticle.mk 9 13 []]]

/-- The function `GetPrimaryMCParticle` for the particles of `showerEvent`: the
daughter of the neutrino above the particle. -/
def showerEventPrimaryOf : MCParticle → Option MCParticle := fun p =>
  if p.addr ∈ [2, 5, 6, 7, 8] then showerEvent.GetDaughterList[0]?
  else if p.addr ∈ [3, 9] then showerEvent.GetDaughterList[1]?
  else none

/-- The hit list of `showerEvent`: one hit `100 a` for each particle at address
`a` below the neutrino (the owner is given by `exampleOwner`). -/
def showerEventHits : List CaloHit := [200, 500, 600, 700, 800, 300, 900]

/-- A neutrino (address 1) with two primaries: an antineutron (2, PDG -2112)
with a pion daughter (3), and a neutron (4, PDG 2112) with a pion daughter (5). -/
def antineutronEvent : MCParticle :=
  MCParticle.mk 1 14
    [MCParticle.mk 2 (-2112) [MCParticle.mk 3 211 []],
      MCParticle.mk 4 2112 [MCParticle.mk 5 211 []]]

/-- The function `GetPrimaryMCParticle` for the particles of `antineutronEvent`:
the daughter of the neutrino above the particle. -/
def antineutronEventPrimaryOf : MCParticle → Option MCParticle := fun p =>
  if p.addr ∈ [2, 3] then antineutronEvent.GetDaughterList[0]?
  else if p.addr ∈ [4, 5] then antineutronEvent.GetDaughterList[1]?
  else none

/-- The hit list of `antineutronEvent`: one hit `100 a` for each particle at
address `a` below the neutrino (the owner is given by `exampleOwner`). -/
def antineutronEventHits : List CaloHit := [200, 300, 400, 500]

/-! ## Example inputs for the statements about match records -/

/-- A truth hierarchy with one node of 16 hits, reconstructable under the
default criteria with the views of `exampleHitType`. -/
def pureMC : MCHierarchy :=
  { m_rootNodes := [Node.mk 300 13 [1] [1, 2, 3, 4, 5, 6, 7, 8, 9, 10, 11, 12, 13, 14, 15, 16] []] }

/-- A reconstructed hierarchy with one node whose 8 hits are all hits of the
node of `pureMC`. -/
def pureReco : RecoHierarchy :=
  { m_rootNodes := [Node.mk 400 13 [7] [1, 2, 3, 4, 5, 6, 7, 8] []] }

/-- A record for the node of `pureMC` without recorded reconstructed nodes. -/
def emptyRecord : MCMatches :=
  { m_pMC := Node.mk 300 13 [1] [1, 2, 3, 4, 5, 6, 7, 8, 9, 10, 11, 12, 13, 14, 15, 16] [] }

/-- A reconstructed node that is recorded in no record. -/
def strayRecoNode : Node := Node.mk 401 13 [8] [1, 2, 3] []

/-! ## Example inputs for the statements about the association build -/

/-- A cluster without hits; with no more than `m_transverseClusterMaxCaloHits`
hits it is a transverse cluster. -/
def emptySeed : Cluster :=
  { addr := 7
    nCaloHits := 0
    hitPositions := []
    fitSuccessful := false
    fitDirection := ⟨0, 0, 0⟩
    lengthSquared := 0
    innerCentroid := ⟨0, 0, 0⟩
    outerCentroid := ⟨0, 0, 0⟩ }

/-- A stand-in for `std::sqrt` in the examples, none of which reaches the call. -/
def exampleSqrt : ℚ → ℚ := fun _ => 1

/-! ## Example input for the statement about the rendering -/

/-- A reconstructed hierarchy of two trees: a muon node with a pion child that
has an electron child, and a proton node. -/
def renderedReco : RecoHierarchy :=
  { m_rootNodes :=
      [Node.mk 500 13 [1] [1, 2]
          [Node.mk 501 211 [2] [3] [Node.mk 502 (-11) [3] [] []]],
        Node.mk 503 2212 [4] [4, 5, 6] []] }

/-- The truth hierarchy with the nodes of `renderedReco`. -/
def renderedMC : MCHierarchy := { m_rootNodes := renderedReco.m_rootNodes }

/-- A stand-in for the text of the energy of a particle: the same text for all. -/
def exampleEnergyText : Nat → String := fun _ => "1.000000"

/-! ## Building the transverse clusters -/

/-- The loop of `GetProjectedCoordinateX` over the hits, with the running
`deltaZ` and the value of `outputX` once `foundProjection` is set. -/
def projectionLoop (inputZ : ℚ) : List CartesianVector → ℚ → Option ℚ → Option ℚ
  | [], _, outputX => outputX
  | hit :: rest, deltaZ, outputX =>
      let newDeltaZ := |hit.z - inputZ|
      if newDeltaZ < deltaZ then projectionLoop inputZ rest newDeltaZ (some hit.x)
      else projectionLoop inputZ rest deltaZ outputX

/-- Model of `TransverseAssociationAlgorithm::GetProjectedCoordinateX`: the value
of `outputX`, or the status code thrown. -/
def GetProjectedCoordinateX (alg : TransverseAssociationAlgorithm) (pCluster : Cluster)
    (inputZ : ℚ) : Except StatusCode ℚ :=
  let minZ := pCluster.innerCentroid.z
  let maxZ := pCluster.outerCentroid.z
  if inputZ < minZ - alg.m_maxLongitudinalDisplacement
      ∨ inputZ > maxZ + alg.m_maxLongitudinalDisplacement then
    Except.error StatusCode.STATUS_CODE_NOT_FOUND
  else
    match projectionLoop inputZ pCluster.hitPositions alg.m_maxLongitudinalDisplacement none with
    | none => Except.error StatusCode.STATUS_CODE_NOT_FOUND
    | some outputX => Except.ok outputX

/-- One of the two `try` blocks in the loop of `GetAssociatedClusters` over the
longitudinal clusters: the new `(windowMinX, windowMaxX)`; an exception of
`GetProjectedCoordinateX` is caught and leaves the window as it is. -/
def updateWindow (alg : TransverseAssociationAlgorithm) (pLongitudinalCluster : Cluster)
    (inputZ clusterMinX clusterMaxX : ℚ) (window : ℚ × ℚ) : ℚ × ℚ :=
  match GetProjectedCoordinateX alg pLongitudinalCluster inputZ with
  | Except.error _ => window
  | Except.ok projectedX =>
      if projectedX < clusterMinX then (max window.1 projectedX, window.2)
      else if projectedX > clusterMaxX then (window.1, min window.2 projectedX)
      else window

/-- The loop of `GetAssociatedClusters` over the longitudinal clusters: the
final `(windowMinX, windowMaxX)`. -/
def windowLoop (alg : TransverseAssociationAlgorithm) (pCluster : Cluster)
    (clusterMinX clusterMaxX clusterMinZ clusterMaxZ : ℚ) : List Cluster → ℚ × ℚ → ℚ × ℚ
  | [], window => window
  | pLongitudinalCluster :: rest, window =>
      if pCluster.addr = pLongitudinalCluster.addr then
        windowLoop alg pCluster clusterMinX clusterMaxX clusterMinZ clusterMaxZ rest window
      else
        windowLoop alg pCluster clusterMinX clusterMaxX clusterMinZ clusterMaxZ rest
          (updateWindow alg pLongitudinalCluster clusterMaxZ clusterMinX clusterMaxX
            (updateWindow alg pLongitudinalCluster clusterMinZ clusterMinX clusterMaxX window))

/-- Model of `IsTransverseAssociated(const Cluster *, const Cluster *)`. -/
def IsTransverseAssociatedClusters (alg : TransverseAssociationAlgorithm)
    (pCluster1 pCluster2 : Cluster) : Bool :=
  let averageX1 := (1 / 2 : ℚ) * (pCluster1.innerCentroid.x + pCluster1.outerCentroid.x)
  let averageZ1 := (1 / 2 : ℚ) * (pCluster1.innerCentroid.z + pCluster1.outerCentroid.z)
  let averageX2 := (1 / 2 : ℚ) * (pCluster2.innerCentroid.x + pCluster2.outerCentroid.x)
  let averageZ2 := (1 / 2 : ℚ) * (pCluster2.innerCentroid.z + pCluster2.outerCentroid.z)
  decide (|averageX2 - averageX1| < alg.m_clusterWindow
    ∧ |averageZ2 - averageZ1| < alg.m_clusterWindow
    ∧ |averageZ2 - averageZ1| < |averageX2 - averageX1| * |alg.m_clusterTanAngle|)

/-- The loop of `GetAssociatedClusters` over the transverse clusters: the final
`associatedVector`, or the status code thrown by an extremal-coordinate
query. -/
def associatedLoop (alg : TransverseAssociationAlgorithm) (pCluster : Cluster)
    (windowMinX windowMaxX : ℚ) : List Cluster → List Cluster → Except StatusCode (List Cluster)
  | [], associatedVector => Except.ok associatedVector
  | pTransverseCluster :: rest, associatedVector =>
      if pCluster.addr = pTransverseCluster.addr then
        associatedLoop alg pCluster windowMinX windowMaxX rest associatedVector
      else
        match GetExtremalCoordinatesX pTransverseCluster with
        | Except.error e => Except.error e
        | Except.ok (clusterMinX, clusterMaxX) =>
            if clusterMinX > windowMaxX ∨ clusterMaxX < windowMinX then
              associatedLoop alg pCluster windowMinX windowMaxX rest associatedVector
            else if IsTransverseAssociatedClusters alg pCluster pTransverseCluster then
              associatedLoop alg pCluster windowMinX windowMaxX rest
                (associatedVector ++ [pTransverseCluster])
            else associatedLoop alg pCluster windowMinX windowMaxX rest associatedVector

/-- Model of `TransverseAssociationAlgorithm::GetAssociatedClusters`: the final
`associatedVector`, or the status code thrown. -/
def GetAssociatedClusters (alg : TransverseAssociationAlgorithm) (pCluster : Cluster)
    (transverseVector longitudinalVector associatedVector : List Cluster) :
    Except StatusCode (List Cluster) :=
  match GetExtremalCoordinatesX pCluster with
  | Except.error e => Except.error e
  | Except.ok (clusterMinX, clusterMaxX) =>
      match GetExtremalCoordinatesZ pCluster with
      | Except.error e => Except.error e
      | Except.ok (clusterMinZ, clusterMaxZ) =>
          let window := windowLoop alg pCluster clusterMinX clusterMaxX clusterMinZ clusterMaxZ
            longitudinalVector (-FLT_MAX, FLT_MAX)
          associatedLoop alg pCluster window.1 window.2 transverseVector associatedVector

/-- The loop of `GetTransverseLength` over the associated clusters, with the
running `(overallMinX, overallMaxX)`. -/
def transverseLengthLoop : List Cluster → ℚ × ℚ → Except StatusCode (ℚ × ℚ)
  | [], overall => Except.ok overall
  | pAssociatedCluster :: rest, overall =>
      match GetExtremalCoordinatesX pAssociatedCluster with
      | Except.error e => Except.error e
      | Except.ok (localMinX, localMaxX) =>
          transverseLengthLoop rest
            (if localMinX < overall.1 then localMinX else overall.1,
              if localMaxX > overall.2 then localMaxX else overall.2)

/-- Model of `TransverseAssociationAlgorithm::GetTransverseLength`. -/
def GetTransverseLength (pCentralCluster : Cluster) (associatedClusters : List Cluster) :
    Except StatusCode ℚ :=
  match GetExtremalCoordinatesX pCentralCluster with
  | Except.error e => Except.error e
  | Except.ok overall =>
      match transverseLengthLoop associatedClusters overall with
      | Except.error e => Except.error e
      | Except.ok overall => Except.ok (overall.2 - overall.1)

/-- Model of `std::set<Cluster *>::insert` on the clusters themselves: the set is
kept in increasing order of address without repetition. -/
def ClusterSet.insert (p : Cluster) : List Cluster → List Cluster
  | [] => [p]
  | q :: rest =>
      if p.addr < q.addr then p :: q :: rest
      else if p.addr = q.addr then q :: rest
      else q :: ClusterSet.insert p rest

/-- The sums that the constructor of `LArTransverseCluster` accumulates over the
hits, with the running `minX` and `maxX`. -/
structure FitSums where
  Swzz : ℚ := 0
  Swxx : ℚ := 0
  Swzx : ℚ := 0
  Swz : ℚ := 0
  Swx : ℚ := 0
  Sw : ℚ := 0
  minX : ℚ := FLT_MAX
  maxX : ℚ := -FLT_MAX

/-- The body of the innermost loop of the constructor for one hit. -/
def FitSums.addHit (s : FitSums) (hit : CartesianVector) : FitSums :=
  { Swzz := s.Swzz + hit.z * hit.z
    Swxx := s.Swxx + hit.x * hit.x
    Swzx := s.Swzx + hit.z * hit.x
    Swz := s.Swz + hit.z
    Swx := s.Swx + hit.x
    Sw := s.Sw + 1
    minX := if hit.x < s.minX then hit.x else s.minX
    maxX := if hit.x > s.maxX then hit.x else s.maxX }

/-- The loops of the constructor over the clusters of `clusterList` and their
hits. -/
def accumulateFit (clusterList : List Cluster) : FitSums :=
  clusterList.foldl (fun s pCluster => pCluster.hitPositions.foldl FitSums.addHit s) {}

/-- Model of the constructor `LArTransverseCluster(pSeedCluster, associatedClusters)`
in the exact arithmetic of the rationals: the new object, or the status code
thrown.  `sqrt` stands for `std::sqrt`.  The constructor over any arithmetic,
rounding included, is `LArTransverseCluster.createOver`. -/
def LArTransverseCluster.create (sqrt : ℚ → ℚ) (pSeedCluster : Cluster)
    (associatedClusters : List Cluster) : Except StatusCode LArTransverseCluster :=
  let clusterList :=
    associatedClusters.foldl (fun set pCluster => ClusterSet.insert pCluster set) [pSeedCluster]
  let s := accumulateFit clusterList
  if s.Sw > 0 then
    let averageX := s.Swx / s.Sw
    let averageZ := s.Swz / s.Sw
    if s.Sw * s.Swxx - s.Swx * s.Swx > 0 then
      let m := (s.Sw * s.Swzx - s.Swx * s.Swz) / (s.Sw * s.Swxx - s.Swx * s.Swx)
      let px := 1 / sqrt (1 + m * m)
      let pz := m / sqrt (1 + m * m)
      Except.ok
        { m_pSeedCluster := pSeedCluster
          m_associatedClusters := associatedClusters
          m_innerVertex := ⟨s.minX, 0, averageZ + m * (s.minX - averageX)⟩
          m_outerVertex := ⟨s.maxX, 0, averageZ + m * (s.maxX - averageX)⟩
          m_direction := ⟨px, 0, pz⟩ }
    else
      Except.ok
        { m_pSeedCluster := pSeedCluster
          m_associatedClusters := associatedClusters
          m_innerVertex := ⟨averageX, 0, averageZ⟩
          m_outerVertex := ⟨averageX, 0, averageZ⟩
          m_direction := ⟨1, 0, 0⟩ }
  else Except.error StatusCode.STATUS_CODE_NOT_INITIALIZED

/-- The loop of `FillTransverseClusterList` over the transverse clusters: the
final `transverseClusterList`, or the status code thrown.  The display block
after the loop changes none of the lists and is not modelled. -/
def fillTransverseLoop (alg : TransverseAssociationAlgorithm) (sqrt : ℚ → ℚ)
    (transverseVector longitudinalVector : List Cluster) :
    List Cluster → List LArTransverseCluster → Except StatusCode (List LArTransverseCluster)
  | [], transverseClusterList => Except.ok transverseClusterList
  | pCluster :: rest, transverseClusterList =>
      match GetAssociatedClusters alg pCluster transverseVector longitudinalVector [] with
      | Except.error e => Except.error e
      | Except.ok associatedClusters =>
          match GetTransverseLength pCluster associatedClusters with
          | Except.error e => Except.error e
          | Except.ok transverseLength =>
              if transverseLength < alg.m_minTransverseDisplacement then
                fillTransverseLoop alg sqrt transverseVector longitudinalVector rest
                  transverseClusterList
              else
                match LArTransverseCluster.create sqrt pCluster associatedClusters with
                | Except.error e => Except.error e
                | Except.ok pTransverseCluster =>
                    fillTransverseLoop alg sqrt transverseVector longitudinalVector rest
                      (transverseClusterList ++ [pTransverseCluster])

/-- Model of `TransverseAssociationAlgorithm::FillTransverseClusterList`. -/
def FillTransverseClusterList (alg : TransverseAssociationAlgorithm) (sqrt : ℚ → ℚ)
    (transverseVector longitudinalVector : List Cluster)
    (transverseClusterList : List LArTransverseCluster) :
    Except StatusCode (List LArTransverseCluster) :=
  fillTransverseLoop alg sqrt transverseVector longitudinalVector transverseVector
    transverseClusterList

/-- The `try` block of `PopulateClusterAssociationMap`: the content of
`clusterAssociationMap` when the block is left, and the status code of the
exception that leaves it, nothing when it runs to its end. -/
def populateTryBlock (alg : TransverseAssociationAlgorithm) (sqrt : ℚ → ℚ)
    (inputClusters : List Cluster) (clusterAssociationMap : ClusterAssociationMap) :
    ClusterAssociationMap × Option StatusCode :=
  let vectors := SeparateInputClusters alg inputClusters [] []
  match FillTransverseClusterList alg sqrt vectors.1 vectors.2 [] with
  | Except.error e => (clusterAssociationMap, some e)
  | Except.ok transverseClusterList =>
      match FillClusterMergeMaps alg transverseClusterList [] [] with
      | Except.error e => (clusterAssociationMap, some e)
      | Except.ok (forwardMergeMap, backwardMergeMap) =>
          FillClusterAssociationMap forwardMergeMap backwardMergeMap clusterAssociationMap

/-- Model of `TransverseAssociationAlgorithm::PopulateClusterAssociationMap`: the
content of `clusterAssociationMap` when the function returns.  The `catch`
block only writes the exception to the standard output, and the function has
no return value. -/
def PopulateClusterAssociationMap (alg : TransverseAssociationAlgorithm) (sqrt : ℚ → ℚ)
    (inputClusters : List Cluster) (clusterAssociationMap : ClusterAssociationMap) :
    ClusterAssociationMap :=
  (populateTryBlock alg sqrt inputClusters clusterAssociationMap).1

/-- The hits that the loops of the constructor of `LArTransverseCluster` visit,
in order: the hits of the clusters of `clusterList`, the set made of the seed
cluster and of the associated clusters. -/
def LArTransverseCluster.constituentHits (pSeedCluster : Cluster)
    (associatedClusters : List Cluster) : List CartesianVector :=
  (associatedClusters.foldl (fun set pCluster => ClusterSet.insert pCluster set)
    [pSeedCluster]).flatMap Cluster.hitPositions

/-- The value `transverseLength` in the loop body of `FillTransverseClusterList`
for a seed: `GetTransverseLength` on the seed and on the clusters that
`GetAssociatedClusters` returns for it, or the status code thrown. -/
def combinedExtent (alg : TransverseAssociationAlgorithm)
    (transverseVector longitudinalVector : List Cluster) (pCluster : Cluster) :
    Except StatusCode ℚ :=
  match GetAssociatedClusters alg pCluster transverseVector longitudinalVector [] with
  | Except.error e => Except.error e
  | Except.ok associatedClusters => GetTransverseLength pCluster associatedClusters

/-- The test of the loop body of `FillTransverseClusterList` on a seed: the
transverse length is computed and is not below `m_minTransverseDisplacement`. -/
def reachesMinTransverseDisplacement (alg : TransverseAssociationAlgorithm)
    (transverseVector longitudinalVector : List Cluster) (pCluster : Cluster) : Bool :=
  match combinedExtent alg transverseVector longitudinalVector pCluster with
  | Except.error _ => false
  | Except.ok transverseLength => !decide (transverseLength < alg.m_minTransverseDisplacement)

/-! ## Example inputs for the statements about the transverse clusters -/

/-- A cluster of six hits along the Z axis from `z = 100` to `z = 110`, far
from the seeds of the examples. -/
def farLongitudinal : Cluster :=
  { addr := 20
    nCaloHits := 6
    hitPositions := [⟨0, 0, 100⟩, ⟨0, 0, 102⟩, ⟨0, 0, 104⟩, ⟨0, 0, 106⟩, ⟨0, 0, 108⟩,
      ⟨0, 0, 110⟩]
    fitSuccessful := true
    fitDirection := ⟨0, 0, 1⟩
    lengthSquared := 100
    innerCentroid := ⟨0, 0, 100⟩
    outerCentroid := ⟨0, 0, 110⟩ }

/-- A cluster of two hits at `(0, 0, 0)` and `(4, 0, 3)`. -/
def slopedSeed : Cluster :=
  { addr := 5
    nCaloHits := 2
    hitPositions := [⟨0, 0, 0⟩, ⟨4, 0, 3⟩]
    fitSuccessful := true
    fitDirection := ⟨4 / 5, 0, 3 / 5⟩
    lengthSquared := 25
    innerCentroid := ⟨0, 0, 0⟩
    outerCentroid := ⟨4, 0, 3⟩ }

/-- A cluster of two hits with the same X coordinate, at `(2, 0, 0)` and
`(2, 0, 4)`. -/
def columnSeed : Cluster :=
  { addr := 6
    nCaloHits := 2
    hitPositions := [⟨2, 0, 0⟩, ⟨2, 0, 4⟩]
    fitSuccessful := true
    fitDirection := ⟨0, 0, 1⟩
    lengthSquared := 16
    innerCentroid := ⟨2, 0, 0⟩
    outerCentroid := ⟨2, 0, 4⟩ }

/-- A cluster of two hits at `(0, 0, 0)` and `(1, 0, 1)`: the fitted slope is 1
and `1 + m * m = 2` has no rational square root. -/
def diagonalSeed : Cluster :=
  { addr := 8
    nCaloHits := 2
    hitPositions := [⟨0, 0, 0⟩, ⟨1, 0, 1⟩]
    fitSuccessful := true
    fitDirection := ⟨1, 0, 1⟩
    lengthSquared := 2
    innerCentroid := ⟨0, 0, 0⟩
    outerCentroid := ⟨1, 0, 1⟩ }

/-- A stand-in for `std::sqrt` that is exact at `25 / 16` and at `1`. -/
def fitSqrt : ℚ → ℚ := fun q => if q = 25 / 16 then 5 / 4 else 1

/-! ## The fitted line in the words of the specification -/

/-- The mean X of a list of hits, weight 1 each: `sum(x) / n`. -/
def specMeanX (hits : List CartesianVector) : ℚ :=
  (hits.map (fun hit => hit.x)).sum / hits.length

/-- The mean Z of a list of hits, weight 1 each: `sum(z) / n`. -/
def specMeanZ (hits : List CartesianVector) : ℚ :=
  (hits.map (fun hit => hit.z)).sum / hits.length

/-- The slope of the specification for a list of hits, weight 1 each:
`(n * sum(zx) - sum(x) * sum(z)) / (n * sum(x^2) - (sum x)^2)`. -/
def specSlope (hits : List CartesianVector) : ℚ :=
  (hits.length * (hits.map (fun hit => hit.z * hit.x)).sum
      - (hits.map (fun hit => hit.x)).sum * (hits.map (fun hit => hit.z)).sum)
    / (hits.length * (hits.map (fun hit => hit.x * hit.x)).sum
      - (hits.map (fun hit => hit.x)).sum * (hits.map (fun hit => hit.x)).sum)

/-- The sum of the squared residuals in Z of a list of hits to the line
`z = a * x + b`, which a least-squares fit of z on x makes least; `a` and `b`
range over an ordered field `K`, the rationals or the reals. -/
def sumSquaredResiduals {K : Type} [LinearOrderedField K] (hits : List CartesianVector)
    (a b : K) : K :=
  (hits.map (fun hit => ((hit.z : K) - (a * (hit.x : K) + b))
    * ((hit.z : K) - (a * (hit.x : K) + b)))).sum

/-! ## The constructor of the transverse cluster over any arithmetic -/

/-- The arithmetic that the constructor of `LArTransverseCluster` uses, on values
of a type `F` that stands for `float`: the value of a literal or of a hit
coordinate, the four operations, the comparison `a < b` (also written
`b > a`) and `std::sqrt`.  All of them are parameters: in binary32 the
operations round, over the rationals and over the reals they are exact. -/
structure FloatArithmetic (F : Type) where
  ofRat : ℚ → F
  add : F → F → F
  sub : F → F → F
  mul : F → F → F
  div : F → F → F
  lt : F → F → Bool
  sqrt : F → F

/-- A `CartesianVector` with coordinates of type `F`. -/
structure FloatVector (F : Type) where
  x : F
  y : F
  z : F

/-- The data members of a `LArTransverseCluster` with vertices and direction
over `F`. -/
structure FloatTransverseCluster (F : Type) where
  m_pSeedCluster : Cluster
  m_associatedClusters : List Cluster
  m_innerVertex : FloatVector F
  m_outerVertex : FloatVector F
  m_direction : FloatVector F

/-- The local variables `Swzz`, `Swxx`, `Swzx`, `Swz`, `Swx`, `Sw`, `minX` and
`maxX` of the constructor, over `F`. -/
structure FloatFitSums (F : Type) where
  Swzz : F
  Swxx : F
  Swzx : F
  Swz : F
  Swx : F
  Sw : F
  minX : F
  maxX : F

/-- The initial values: the sums `0.f`, `minX` the greatest `float` and `maxX`
its negative. -/
def FloatFitSums.start {F : Type} (A : FloatArithmetic F) : FloatFitSums F :=
  { Swzz := A.ofRat 0
    Swxx := A.ofRat 0
    Swzx := A.ofRat 0
    Swz := A.ofRat 0
    Swx := A.ofRat 0
    Sw := A.ofRat 0
    minX := A.ofRat FLT_MAX
    maxX := A.ofRat (-FLT_MAX) }

/-- The body of the innermost loop of the constructor for one hit, over `F`. -/
def FloatFitSums.addHit {F : Type} (A : FloatArithmetic F) (s : FloatFitSums F)
    (hit : CartesianVector) : FloatFitSums F :=
  { Swzz := A.add s.Swzz (A.mul (A.ofRat hit.z) (A.ofRat hit.z))
    Swxx := A.add s.Swxx (A.mul (A.ofRat hit.x) (A.ofRat hit.x))
    Swzx := A.add s.Swzx (A.mul (A.ofRat hit.z) (A.ofRat hit.x))
    Swz := A.add s.Swz (A.ofRat hit.z)
    Swx := A.add s.Swx (A.ofRat hit.x)
    Sw := A.add s.Sw (A.ofRat 1)
    minX := if A.lt (A.ofRat hit.x) s.minX then A.ofRat hit.x else s.minX
    maxX := if A.lt s.maxX (A.ofRat hit.x) then A.ofRat hit.x else s.maxX }

/-- The values of the local variables after the loops of the constructor over
the clusters of `clusterList` and their hits, over `F`. -/
def LArTransverseCluster.sumsOver {F : Type} (A : FloatArithmetic F) (pSeedCluster : Cluster)
    (associatedClusters : List Cluster) : FloatFitSums F :=
  (associatedClusters.foldl (fun set pCluster => ClusterSet.insert pCluster set)
      [pSeedCluster]).foldl
    (fun s pCluster => pCluster.hitPositions.foldl (FloatFitSums.addHit A) s)
    (FloatFitSums.start A)

/-- Model of the constructor `LArTransverseCluster(pSeedCluster, associatedClusters)`
over the arithmetic `A`: the new object, or the status code thrown. -/
def LArTransverseCluster.createOver {F : Type} (A : FloatArithmetic F) (pSeedCluster : Cluster)
    (associatedClusters : List Cluster) : Except StatusCode (FloatTransverseCluster F) :=
  let s := LArTransverseCluster.sumsOver A pSeedCluster associatedClusters
  if A.lt (A.ofRat 0) s.Sw then
    let averageX := A.div s.Swx s.Sw
    let averageZ := A.div s.Swz s.Sw
    if A.lt (A.ofRat 0) (A.sub (A.mul s.Sw s.Swxx) (A.mul s.Swx s.Swx)) then
      let m := A.div (A.sub (A.mul s.Sw s.Swzx) (A.mul s.Swx s.Swz))
        (A.sub (A.mul s.Sw s.Swxx) (A.mul s.Swx s.Swx))
      let px := A.div (A.ofRat 1) (A.sqrt (A.add (A.ofRat 1) (A.mul m m)))
      let pz := A.div m (A.sqrt (A.add (A.ofRat 1) (A.mul m m)))
      Except.ok
        { m_pSeedCluster := pSeedCluster
          m_associatedClusters := associatedClusters
          m_innerVertex :=
            ⟨s.minX, A.ofRat 0, A.add averageZ (A.mul m (A.sub s.minX averageX))⟩
          m_outerVertex :=
            ⟨s.maxX, A.ofRat 0, A.add averageZ (A.mul m (A.sub s.maxX averageX))⟩
          m_direction := ⟨px, A.ofRat 0, pz⟩ }
    else
      Except.ok
        { m_pSeedCluster := pSeedCluster
          m_associatedClusters := associatedClusters
          m_innerVertex := ⟨averageX, A.ofRat 0, averageZ⟩
          m_outerVertex := ⟨averageX, A.ofRat 0, averageZ⟩
          m_direction := ⟨A.ofRat 1, A.ofRat 0, A.ofRat 0⟩ }
  else Except.error StatusCode.STATUS_CODE_NOT_INITIALIZED

/-- The exact arithmetic of the rationals, with a stand-in for `std::sqrt`. -/
def exactArithmetic (sqrt : ℚ → ℚ) : FloatArithmetic ℚ :=
  { ofRat := fun q => q
    add := fun a b => a + b
    sub := fun a b => a - b
    mul := fun a b => a * b
    div := fun a b => a / b
    lt := fun a b => decide (a < b)
    sqrt := sqrt }

/-- An arithmetic over an ordered field is exact: the value of a rational is
the rational, and the operations and the comparison are those of the field.
The square root is left open. -/
def FloatArithmetic.IsExact {K : Type} [LinearOrderedField K] (A : FloatArithmetic K) : Prop :=
  (∀ q : ℚ, A.ofRat q = (q : K))
  ∧ (∀ a b : K, A.add a b = a + b)
  ∧ (∀ a b : K, A.sub a b = a - b)
  ∧ (∀ a b : K, A.mul a b = a * b)
  ∧ (∀ a b : K, A.div a b = a / b)
  ∧ (∀ a b : K, A.lt a b = true ↔ a < b)

/-- The sums of the rational model as values of an ordered field. -/
def FitSums.toFloat (K : Type) [LinearOrderedField K] (s : FitSums) : FloatFitSums K :=
  { Swzz := (s.Swzz : K)
    Swxx := (s.Swxx : K)
    Swzx := (s.Swzx : K)
    Swz := (s.Swz : K)
    Swx := (s.Swx : K)
    Sw := (s.Sw : K)
    minX := (s.minX : K)
    maxX := (s.maxX : K) }

/-! # Theorems -/

/-! ## Reconstructability -/

/-- The number of good views for given per-view counts. -/
theorem goodViews_mono (t u v w u' v' w' : Nat) (hu : u ≤ u') (hv : v ≤ v') (hw : w ≤ w') :
    (if u ≥ t then 1 else 0) + (if v ≥ t then 1 else 0) + (if w ≥ t then 1 else 0)
      ≤ (if u' ≥ t then 1 else 0) + (if v' ≥ t then 1 else 0) + (if w' ≥ t then 1 else 0) := by
  have h1 : (if u ≥ t then 1 else 0) ≤ (if u' ≥ t then 1 else 0) := by
    split_ifs <;> omega
  have h2 : (if v ≥ t then 1 else 0) ≤ (if v' ≥ t then 1 else 0) := by
    split_ifs <;> omega
  have h3 : (if w ≥ t then 1 else 0) ≤ (if w' ≥ t then 1 else 0) := by
    split_ifs <;> omega
  omega

theorem viewCount_nil (g : CaloHit → HitType) (view : HitType) : viewCount g view [] = 0 := rfl

theorem viewCount_cons (g : CaloHit → HitType) (view : HitType) (h : CaloHit) (rest : List CaloHit) :
    viewCount g view (h :: rest) = (if g h = view then 1 else 0) + viewCount g view rest := by
  unfold viewCount
  by_cases hv : g h = view
  · simp [List.filter_cons, hv]; omega
  · simp [List.filter_cons, hv]

/-- The scan of `IsReconstructable` started with counts `u`, `v`, `w` succeeds
exactly when the list is not empty and the counts reached at its end give
enough good views. -/
theorem goodViewsLoop_iff (g : CaloHit → HitType) (crit : ReconstructabilityCriteria)
    (hits : List CaloHit) :
    ∀ u v w : Nat, goodViewsLoop g crit hits u v w = true ↔
      hits ≠ [] ∧
        (if u + viewCount g HitType.TPC_VIEW_U hits ≥ crit.m_minHitsForGoodView then 1 else 0)
          + (if v + viewCount g HitType.TPC_VIEW_V hits ≥ crit.m_minHitsForGoodView then 1 else 0)
          + (if w + viewCount g HitType.TPC_VIEW_W hits ≥ crit.m_minHitsForGoodView then 1 else 0)
          ≥ crit.m_minGoodViews := by
  induction hits with
  | nil => intro u v w; simp [goodViewsLoop]
  | cons h rest ih =>
    intro u v w
    have hU : u + viewCount g HitType.TPC_VIEW_U (h :: rest)
        = (if g h = HitType.TPC_VIEW_U then u + 1 else u) + viewCount g HitType.TPC_VIEW_U rest := by
      rw [viewCount_cons]; split_ifs <;> omega
    have hV : v + viewCount g HitType.TPC_VIEW_V (h :: rest)
        = (if g h = HitType.TPC_VIEW_V then v + 1 else v) + viewCount g HitType.TPC_VIEW_V rest := by
      rw [viewCount_cons]; split_ifs <;> omega
    have hW : w + viewCount g HitType.TPC_VIEW_W (h :: rest)
        = (if g h = HitType.TPC_VIEW_W then w + 1 else w) + viewCount g HitType.TPC_VIEW_W rest := by
      rw [viewCount_cons]; split_ifs <;> omega
    rw [hU, hV, hW]
    generalize hu' : (if g h = HitType.TPC_VIEW_U then u + 1 else u) = u'
    generalize hv' : (if g h = HitType.TPC_VIEW_V then v + 1 else v) = v'
    generalize hw' : (if g h = HitType.TPC_VIEW_W then w + 1 else w) = w'
    have hstep : goodViewsLoop g crit (h :: rest) u v w
        = if (if u' ≥ crit.m_minHitsForGoodView then 1 else 0)
              + (if v' ≥ crit.m_minHitsForGoodView then 1 else 0)
              + (if w' ≥ crit.m_minHitsForGoodView then 1 else 0) ≥ crit.m_minGoodViews then true
          else goodViewsLoop g crit rest u' v' w' := by
      simp only [goodViewsLoop, hu', hv', hw']
    rw [hstep]
    have hmono := goodViews_mono crit.m_minHitsForGoodView u' v' w'
      (u' + viewCount g HitType.TPC_VIEW_U rest) (v' + viewCount g HitType.TPC_VIEW_V rest)
      (w' + viewCount g HitType.TPC_VIEW_W rest) (by omega) (by omega) (by omega)
    by_cases hnow : (if u' ≥ crit.m_minHitsForGoodView then 1 else 0)
              + (if v' ≥ crit.m_minHitsForGoodView then 1 else 0)
              + (if w' ≥ crit.m_minHitsForGoodView then 1 else 0) ≥ crit.m_minGoodViews
    · rw [if_pos hnow]
      simp only [true_iff]
      exact ⟨List.cons_ne_nil _ _, le_trans hnow hmono⟩
    · rw [if_neg hnow, ih u' v' w']
      constructor
      · rintro ⟨_, h2⟩
        exact ⟨List.cons_ne_nil _ _, h2⟩
      · rintro ⟨_, h2⟩
        refine ⟨?_, h2⟩
        rintro rfl
        simp only [viewCount_nil, Nat.add_zero] at h2
        exact hnow h2

/-- C5 (as stated, refuted): with an empty hit list and all thresholds zero the
node has at least `minHits` hits and every view has at least
`minHitsForGoodView` hits, yet `IsReconstructable` returns false. -/
theorem C5_counterexample :
    IsReconstructable (fun _ => HitType.TPC_VIEW_U)
        { m_minHits := 0, m_minHitsForGoodView := 0, m_minGoodViews := 0, m_removeNeutrons := true } []
      = false
    ∧ ([] : List CaloHit).length ≥ 0
    ∧ goodViewCount (fun _ => HitType.TPC_VIEW_U)
        { m_minHits := 0, m_minHitsForGoodView := 0, m_minGoodViews := 0, m_removeNeutrons := true } []
      ≥ 0 := by
  decide

/-- C5 (amended): `IsReconstructable` returns true if and only if the hit list
is not empty, it has at least `minHits` hits, and the number of views among
U, V, W whose total hit count is at least `minHitsForGoodView` is at least
`minGoodViews`. -/
theorem C5_isReconstructable_iff (GetHitType : CaloHit → HitType)
    (crit : ReconstructabilityCriteria) (hits : List CaloHit) :
    IsReconstructable GetHitType crit hits = true ↔
      hits ≠ [] ∧ hits.length ≥ crit.m_minHits
        ∧ goodViewCount GetHitType crit hits ≥ crit.m_minGoodViews := by
  unfold IsReconstructable goodViewCount
  simp only [Bool.and_eq_true, decide_eq_true_eq]
  rw [goodViewsLoop_iff]
  simp only [Nat.zero_add]
  tauto

/-! ## Flattening -/

theorem Node.nodes_eq (n : Node) : Node.nodes n = n :: Node.nodesList n.GetChildren := by
  cases n with
  | mk a p ps hs cs => simp [Node.nodes, Node.GetChildren]

theorem Node.size_eq (n : Node) : Node.size n = 1 + Node.sizeList n.GetChildren := by
  cases n with
  | mk a p ps hs cs => simp [Node.size, Node.GetChildren]

theorem Node.nodesList_append (l₁ l₂ : List Node) :
    Node.nodesList (l₁ ++ l₂) = Node.nodesList l₁ ++ Node.nodesList l₂ := by
  induction l₁ with
  | nil => simp [Node.nodesList]
  | cons n ns ih => simp [Node.nodesList, ih]

theorem Node.sizeList_append (l₁ l₂ : List Node) :
    Node.sizeList (l₁ ++ l₂) = Node.sizeList l₁ + Node.sizeList l₂ := by
  induction l₁ with
  | nil => simp [Node.sizeList]
  | cons n ns ih => simp [Node.sizeList, ih]; omega

mutual
theorem Node.length_nodes (n : Node) : (Node.nodes n).length = Node.size n := by
  cases n with
  | mk a p ps hs cs =>
    simp only [Node.nodes, Node.size, List.length_cons]
    rw [Node.length_nodesList cs]; omega
theorem Node.length_nodesList (l : List Node) : (Node.nodesList l).length = Node.sizeList l := by
  cases l with
  | nil => simp [Node.nodesList, Node.sizeList]
  | cons n ns =>
    simp only [Node.nodesList, Node.sizeList, List.length_append]
    rw [Node.length_nodes n, Node.length_nodesList ns]
end

theorem Node.length_le_sizeList (l : List Node) : l.length ≤ Node.sizeList l := by
  induction l with
  | nil => simp
  | cons n ns ih =>
    simp only [Node.sizeList, List.length_cons]
    have := Node.size_eq n
    omega

/-- The nodes of a forest are its roots and the nodes of the forest of their
children. -/
theorem Node.nodesList_perm (l : List Node) :
    (Node.nodesList l).Perm (l ++ Node.nodesList (l.flatMap Node.GetChildren)) := by
  induction l with
  | nil => simp [Node.nodesList]
  | cons n ns ih =>
    simp only [Node.nodesList, Node.nodes_eq, List.flatMap_cons, Node.nodesList_append,
      List.cons_append]
    refine List.Perm.cons n ?_
    have h1 : (Node.nodesList n.GetChildren ++ Node.nodesList ns).Perm
        (Node.nodesList n.GetChildren ++ (ns ++ Node.nodesList (ns.flatMap Node.GetChildren))) :=
      List.Perm.append_left _ ih
    refine h1.trans ?_
    rw [← List.append_assoc, ← List.append_assoc]
    exact List.Perm.append_right _ List.perm_append_comm

theorem flattenLoop_append (fuel : Nat) :
    ∀ queue nodeVector : List Node,
      flattenLoop fuel queue nodeVector = nodeVector ++ flattenLoop fuel queue [] := by
  induction fuel with
  | zero => intro queue nodeVector; simp [flattenLoop]
  | succ fuel ih =>
    intro queue nodeVector
    cases queue with
    | nil => simp [flattenLoop]
    | cons front queue =>
      simp only [flattenLoop, List.nil_append]
      rw [ih _ (nodeVector ++ front.GetChildren), ih _ front.GetChildren, List.append_assoc]

/-- With the node count of the queue as fuel the loop outputs, up to order,
all nodes below the nodes of the queue. -/
theorem flattenLoop_perm (fuel : Nat) :
    ∀ queue : List Node, Node.sizeList queue ≤ fuel →
      (flattenLoop fuel queue []).Perm (Node.nodesList (queue.flatMap Node.GetChildren)) := by
  induction fuel with
  | zero =>
    intro queue h
    cases queue with
    | nil => simp [flattenLoop, Node.nodesList]
    | cons n ns =>
      have := Node.size_eq n
      simp only [Node.sizeList] at h
      omega
  | succ fuel ih =>
    intro queue h
    cases queue with
    | nil => simp [flattenLoop, Node.nodesList]
    | cons front queue =>
      simp only [flattenLoop, List.nil_append]
      rw [flattenLoop_append]
      have hsz : Node.sizeList (queue ++ front.GetChildren) ≤ fuel := by
        rw [Node.sizeList_append]
        have := Node.size_eq front
        simp only [Node.sizeList] at h
        omega
      have h1 := ih _ hsz
      simp only [List.flatMap_append, Node.nodesList_append, List.flatMap_cons] at h1 ⊢
      have h2 := Node.nodesList_perm front.GetChildren
      refine (List.Perm.append_left _ h1).trans ?_
      refine List.Perm.trans ?_ (List.Perm.append_right _ h2.symm)
      rw [List.append_assoc]
      exact List.Perm.append_left _ List.perm_append_comm

/-- Every node that the loop outputs is a child of a node of the queue or of a
node output before it. -/
theorem flattenLoop_parent (fuel : Nat) :
    ∀ queue pre post : List Node, ∀ x : Node,
      flattenLoop fuel queue [] = pre ++ x :: post →
        ∃ p, (p ∈ queue ∨ p ∈ pre) ∧ x ∈ p.GetChildren := by
  induction fuel with
  | zero =>
    intro queue pre post x h
    simp [flattenLoop] at h
  | succ fuel ih =>
    intro queue pre post x h
    cases queue with
    | nil => simp [flattenLoop] at h
    | cons front queue =>
      simp only [flattenLoop, List.nil_append] at h
      rw [flattenLoop_append] at h
      rcases List.append_eq_append_iff.mp h with ⟨a', h1, h2⟩ | ⟨c', h1, h2⟩
      · -- `pre = children ++ a'`
        obtain ⟨p, hp, hx⟩ := ih _ _ _ _ h2
        refine ⟨p, ?_, hx⟩
        rcases hp with hp | hp
        · rcases List.mem_append.mp hp with hp | hp
          · exact Or.inl (List.mem_cons_of_mem _ hp)
          · exact Or.inr (by rw [h1]; exact List.mem_append_left _ hp)
        · exact Or.inr (by rw [h1]; exact List.mem_append_right _ hp)
      · -- `children = pre ++ c'`
        cases c' with
        | nil =>
          simp only [List.nil_append] at h2
          obtain ⟨p, hp, hx⟩ := ih _ [] _ _ h2.symm
          simp only [List.append_nil] at h1
          refine ⟨p, ?_, hx⟩
          rcases hp with hp | hp
          · rcases List.mem_append.mp hp with hp | hp
            · exact Or.inl (List.mem_cons_of_mem _ hp)
            · exact Or.inr (by rw [← h1]; exact hp)
          · simp at hp
        | cons y c' =>
          simp only [List.cons_append, List.cons.injEq] at h2
          refine ⟨front, Or.inl (List.mem_cons_self _ _), ?_⟩
          rw [h1, ← h2.1]
          simp

/-- The properties of the vector that flattening a forest into an empty
vector yields. -/
theorem flattenForest_spec (rootNodes : List Node) :
    (flattenForest rootNodes []).Perm (Node.nodesList rootNodes)
    ∧ (flattenForest rootNodes []).length = Node.sizeList rootNodes
    ∧ rootNodes.length ≤ (flattenForest rootNodes []).length
    ∧ (flattenForest rootNodes []).take rootNodes.length = rootNodes
    ∧ (∀ (j : Nat) (c : Node), (flattenForest rootNodes [])[j]? = some c → rootNodes.length ≤ j →
        ∃ (i : Nat) (p : Node), i < j ∧ (flattenForest rootNodes [])[i]? = some p
          ∧ c ∈ p.GetChildren)
    ∧ (((Node.nodesList rootNodes).map Node.addr).Nodup →
        ((flattenForest rootNodes []).map Node.addr).Nodup) := by
  have hflat : flattenForest rootNodes []
      = rootNodes ++ flattenLoop (Node.sizeList rootNodes) rootNodes [] := by
    unfold flattenForest
    rw [flattenLoop_append]; simp
  have hperm : (flattenForest rootNodes []).Perm (Node.nodesList rootNodes) := by
    rw [hflat]
    exact (List.Perm.append_left _ (flattenLoop_perm _ _ (le_refl _))).trans
      (Node.nodesList_perm rootNodes).symm
  have hlen : (flattenForest rootNodes []).length = Node.sizeList rootNodes := by
    rw [hperm.length_eq, Node.length_nodesList]
  refine ⟨hperm, hlen, ?_, ?_, ?_, ?_⟩
  · rw [hlen]; exact Node.length_le_sizeList _
  · rw [hflat]; simp
  · intro j c hj hroot
    rw [hflat] at hj ⊢
    have hj' : (flattenLoop (Node.sizeList rootNodes) rootNodes [])[j - rootNodes.length]? = some c := by
      rw [List.getElem?_append_right hroot] at hj
      exact hj
    obtain ⟨hlt, hget⟩ := List.getElem?_eq_some_iff.mp hj'
    have hsplit : flattenLoop (Node.sizeList rootNodes) rootNodes []
        = (flattenLoop (Node.sizeList rootNodes) rootNodes []).take (j - rootNodes.length)
          ++ c :: (flattenLoop (Node.sizeList rootNodes) rootNodes []).drop (j - rootNodes.length + 1) := by
      rw [← hget]
      simp
    obtain ⟨p, hp, hc⟩ := flattenLoop_parent _ _ _ _ _ hsplit
    rcases hp with hp | hp
    · obtain ⟨i, hi, hpi⟩ := List.getElem_of_mem hp
      refine ⟨i, p, by omega, ?_, hc⟩
      rw [List.getElem?_append_left hi, List.getElem?_eq_getElem hi, hpi]
    · obtain ⟨i, hi, hpi⟩ := List.getElem_of_mem hp
      have hi' : i < j - rootNodes.length := by
        simp only [List.length_take] at hi
        omega
      refine ⟨rootNodes.length + i, p, by omega, ?_, hc⟩
      rw [List.getElem?_append_right (by omega)]
      simp only [Nat.add_sub_cancel_left]
      rw [List.getElem_take] at hpi
      rw [List.getElem?_eq_getElem (by omega), hpi]
  · intro hnd
    exact (hperm.map Node.addr).nodup_iff.mpr hnd

/-- C9: `GetFlattenedNodes` of a truth and of a reconstructed hierarchy, called
with an empty vector, lists every node of the forest exactly once (the result
is a rearrangement of the depth-first list of all nodes, so its length is the
node count, which is at least the root count, and the addresses in it are
pairwise different when those of the node objects are); the roots come first
in stored order; and every entry after the roots is a child of an entry at a
smaller index. -/
theorem C9_flattened_nodes (mcHierarchy : MCHierarchy) (recoHierarchy : RecoHierarchy) :
    ((mcHierarchy.GetFlattenedNodes []).Perm (Node.nodesList mcHierarchy.m_rootNodes)
      ∧ (mcHierarchy.GetFlattenedNodes []).length = Node.sizeList mcHierarchy.m_rootNodes
      ∧ mcHierarchy.m_rootNodes.length ≤ (mcHierarchy.GetFlattenedNodes []).length
      ∧ (mcHierarchy.GetFlattenedNodes []).take mcHierarchy.m_rootNodes.length
          = mcHierarchy.m_rootNodes
      ∧ (∀ (j : Nat) (c : Node), (mcHierarchy.GetFlattenedNodes [])[j]? = some c →
          mcHierarchy.m_rootNodes.length ≤ j →
          ∃ (i : Nat) (p : Node), i < j ∧ (mcHierarchy.GetFlattenedNodes [])[i]? = some p
            ∧ c ∈ p.GetChildren)
      ∧ (((Node.nodesList mcHierarchy.m_rootNodes).map Node.addr).Nodup →
          ((mcHierarchy.GetFlattenedNodes []).map Node.addr).Nodup))
    ∧ ((recoHierarchy.GetFlattenedNodes []).Perm (Node.nodesList recoHierarchy.m_rootNodes)
      ∧ (recoHierarchy.GetFlattenedNodes []).length = Node.sizeList recoHierarchy.m_rootNodes
      ∧ recoHierarchy.m_rootNodes.length ≤ (recoHierarchy.GetFlattenedNodes []).length
      ∧ (recoHierarchy.GetFlattenedNodes []).take recoHierarchy.m_rootNodes.length
          = recoHierarchy.m_rootNodes
      ∧ (∀ (j : Nat) (c : Node), (recoHierarchy.GetFlattenedNodes [])[j]? = some c →
          recoHierarchy.m_rootNodes.length ≤ j →
          ∃ (i : Nat) (p : Node), i < j ∧ (recoHierarchy.GetFlattenedNodes [])[i]? = some p
            ∧ c ∈ p.GetChildren)
      ∧ (((Node.nodesList recoHierarchy.m_rootNodes).map Node.addr).Nodup →
          ((recoHierarchy.GetFlattenedNodes []).map Node.addr).Nodup)) :=
  ⟨flattenForest_spec mcHierarchy.m_rootNodes, flattenForest_spec recoHierarchy.m_rootNodes⟩

/-! ## Set intersection -/

theorem setIntersectionLoop_sublist_left (fuel : Nat) :
    ∀ l₁ l₂ : List Nat, (setIntersectionLoop fuel l₁ l₂).Sublist l₁ := by
  induction fuel with
  | zero => intro l₁ l₂; simp [setIntersectionLoop]
  | succ fuel ih =>
    intro l₁ l₂
    cases l₁ with
    | nil => simp [setIntersectionLoop]
    | cons a as =>
      cases l₂ with
      | nil => simp [setIntersectionLoop]
      | cons b bs =>
        simp only [setIntersectionLoop]
        split_ifs
        · exact (ih as (b :: bs)).trans (List.sublist_cons_self a as)
        · exact ih (a :: as) bs
        · exact (ih as bs).cons₂ a

theorem setIntersectionLoop_sublist_right (fuel : Nat) :
    ∀ l₁ l₂ : List Nat, (setIntersectionLoop fuel l₁ l₂).Sublist l₂ := by
  induction fuel with
  | zero => intro l₁ l₂; simp [setIntersectionLoop]
  | succ fuel ih =>
    intro l₁ l₂
    cases l₁ with
    | nil => simp [setIntersectionLoop]
    | cons a as =>
      cases l₂ with
      | nil => simp [setIntersectionLoop]
      | cons b bs =>
        simp only [setIntersectionLoop]
        split_ifs with h1 h2
        · exact ih as (b :: bs)
        · exact (ih (a :: as) bs).trans (List.sublist_cons_self b bs)
        · unfold CaloHit at h1 h2
          have hab : a = b := by omega
          rw [hab]
          exact (ih as bs).cons₂ b

theorem set_intersection_length_le_left (l₁ l₂ : List Nat) :
    (set_intersection l₁ l₂).length ≤ l₁.length :=
  (setIntersectionLoop_sublist_left _ l₁ l₂).length_le

theorem set_intersection_length_le_right (l₁ l₂ : List Nat) :
    (set_intersection l₁ l₂).length ≤ l₂.length :=
  (setIntersectionLoop_sublist_right _ l₁ l₂).length_le

/-- On two lists in strictly increasing order and with enough fuel, the loop
outputs the elements of the first list that occur in the second. -/
theorem setIntersectionLoop_eq_filter (fuel : Nat) :
    ∀ l₁ l₂ : List Nat, l₁.length + l₂.length ≤ fuel →
      l₁.Sorted (· < ·) → l₂.Sorted (· < ·) →
      setIntersectionLoop fuel l₁ l₂ = l₁.filter (fun h => decide (h ∈ l₂)) := by
  induction fuel with
  | zero =>
    intro l₁ l₂ hf _ _
    have h1 : l₁ = [] := List.eq_nil_of_length_eq_zero (by omega)
    subst h1
    simp [setIntersectionLoop]
  | succ fuel ih =>
    intro l₁ l₂ hf hs₁ hs₂
    cases l₁ with
    | nil => simp [setIntersectionLoop]
    | cons a as =>
      cases l₂ with
      | nil => simp [setIntersectionLoop]
      | cons b bs =>
        have has : as.Sorted (· < ·) := hs₁.of_cons
        have hbs : bs.Sorted (· < ·) := hs₂.of_cons
        have ha : ∀ x ∈ as, a < x := fun x hx => List.rel_of_sorted_cons hs₁ x hx
        have hb : ∀ x ∈ bs, b < x := fun x hx => List.rel_of_sorted_cons hs₂ x hx
        simp only [List.length_cons] at hf
        simp only [setIntersectionLoop]
        split_ifs with h1 h2 <;> unfold CaloHit at *
        · -- `a < b`: `a` is not in the second list
          rw [ih as (b :: bs) (by simp only [List.length_cons]; omega) has hs₂]
          have hna : a ∉ b :: bs := by
            intro hmem
            rcases List.mem_cons.mp hmem with h | h
            · omega
            · have := hb a h; omega
          rw [List.filter_cons_of_neg (by simpa using hna)]
        · -- `b < a`: `b` is in no position of the first list
          rw [ih (a :: as) bs (by simp only [List.length_cons]; omega) hs₁ hbs]
          apply List.filter_congr
          intro x hx
          have hxb : x ≠ b := by
            rcases List.mem_cons.mp hx with h | h
            · omega
            · have := ha x h; omega
          simp [hxb]
        · have hab : a = b := by omega
          subst hab
          rw [ih as bs (by omega) has hbs]
          have hfil : as.filter (fun h => decide (h ∈ a :: bs)) = as.filter (fun h => decide (h ∈ bs)) := by
            apply List.filter_congr
            intro x hx
            have hxa : x ≠ a := by have := ha x hx; omega
            simp [hxa]
          rw [List.filter_cons_of_pos (by simp), hfil]

/-- On hit lists in strictly increasing address order `std::set_intersection`
yields the hits of the first list that occur in the second. -/
theorem set_intersection_eq_filter (l₁ l₂ : List Nat)
    (hs₁ : l₁.Sorted (· < ·)) (hs₂ : l₂.Sorted (· < ·)) :
    set_intersection l₁ l₂ = l₁.filter (fun h => decide (h ∈ l₂)) :=
  setIntersectionLoop_eq_filter _ l₁ l₂ (le_refl _) hs₁ hs₂

/-! ## The inner loop of the matching -/

/-- The inner loop keeps the larger count: it ends either in the state it
started from, or with the first truth node of the list whose intersection
with the reconstructed hits is the largest one and larger than the count it
started from. -/
theorem bestMatchLoop_spec (g : CaloHit → HitType) (crit : ReconstructabilityCriteria)
    (recoHits : List CaloHit) (l : List Node) :
    ∀ (b : Option Node) (s : Nat),
      s ≤ (bestMatchLoop g crit recoHits l b s).2
      ∧ (∀ T' ∈ l, IsReconstructable g crit T'.GetCaloHits = true →
          (set_intersection T'.GetCaloHits recoHits).length ≤ (bestMatchLoop g crit recoHits l b s).2)
      ∧ (bestMatchLoop g crit recoHits l b s = (b, s)
        ∨ ∃ pre T post, l = pre ++ T :: post
            ∧ (bestMatchLoop g crit recoHits l b s).1 = some T
            ∧ IsReconstructable g crit T.GetCaloHits = true
            ∧ (bestMatchLoop g crit recoHits l b s).2 = (set_intersection T.GetCaloHits recoHits).length
            ∧ s < (bestMatchLoop g crit recoHits l b s).2
            ∧ ∀ T' ∈ pre, IsReconstructable g crit T'.GetCaloHits = true →
                (set_intersection T'.GetCaloHits recoHits).length
                  < (bestMatchLoop g crit recoHits l b s).2) := by
  induction l with
  | nil => intro b s; simp [bestMatchLoop]
  | cons T0 rest ih =>
    intro b s
    by_cases hrec : IsReconstructable g crit T0.GetCaloHits = false
    · have hstep : bestMatchLoop g crit recoHits (T0 :: rest) b s
          = bestMatchLoop g crit recoHits rest b s := by
        simp only [bestMatchLoop, hrec, if_true]
      rw [hstep]
      obtain ⟨h1, h2, h3⟩ := ih b s
      refine ⟨h1, ?_, ?_⟩
      · intro T' hT' hr
        rcases List.mem_cons.mp hT' with h | h
        · subst h; rw [hrec] at hr; cases hr
        · exact h2 T' h hr
      · rcases h3 with h3 | ⟨pre, T, post, hl, hb, hr, hs, hlt, hpre⟩
        · exact Or.inl h3
        · refine Or.inr ⟨T0 :: pre, T, post, by rw [hl]; rfl, hb, hr, hs, hlt, ?_⟩
          intro T' hT' hr'
          rcases List.mem_cons.mp hT' with h | h
          · subst h; rw [hrec] at hr'; cases hr'
          · exact hpre T' h hr'
    · have hrec' : IsReconstructable g crit T0.GetCaloHits = true := by
        cases h : IsReconstructable g crit T0.GetCaloHits
        · exact absurd h hrec
        · rfl
      by_cases hup : set_intersection T0.GetCaloHits recoHits ≠ []
          ∧ (set_intersection T0.GetCaloHits recoHits).length > s
      · have hstep : bestMatchLoop g crit recoHits (T0 :: rest) b s
            = bestMatchLoop g crit recoHits rest (some T0)
                (set_intersection T0.GetCaloHits recoHits).length := by
          simp only [bestMatchLoop, hrec', if_pos hup]
          simp
        rw [hstep]
        obtain ⟨h1, h2, h3⟩ := ih (some T0) (set_intersection T0.GetCaloHits recoHits).length
        refine ⟨by omega, ?_, ?_⟩
        · intro T' hT' hr
          rcases List.mem_cons.mp hT' with h | h
          · subst h; exact h1
          · exact h2 T' h hr
        · rcases h3 with h3 | ⟨pre, T, post, hl, hb, hr, hs, hlt, hpre⟩
          · refine Or.inr ⟨[], T0, rest, rfl, by rw [h3], hrec', by rw [h3], by rw [h3]; exact hup.2, ?_⟩
            intro T' hT'
            simp at hT'
          · refine Or.inr ⟨T0 :: pre, T, post, by rw [hl]; rfl, hb, hr, hs, by omega, ?_⟩
            intro T' hT' hr'
            rcases List.mem_cons.mp hT' with h | h
            · subst h; exact hlt
            · exact hpre T' h hr'
      · have hstep : bestMatchLoop g crit recoHits (T0 :: rest) b s
            = bestMatchLoop g crit recoHits rest b s := by
          simp only [bestMatchLoop, hrec', if_neg hup]
          simp
        rw [hstep]
        have hle : (set_intersection T0.GetCaloHits recoHits).length ≤ s := by
          by_contra hgt
          apply hup
          refine ⟨?_, by omega⟩
          intro hnil
          rw [hnil] at hgt
          simp at hgt
        obtain ⟨h1, h2, h3⟩ := ih b s
        refine ⟨h1, ?_, ?_⟩
        · intro T' hT' hr
          rcases List.mem_cons.mp hT' with h | h
          · subst h; omega
          · exact h2 T' h hr
        · rcases h3 with h3 | ⟨pre, T, post, hl, hb, hr, hs, hlt, hpre⟩
          · exact Or.inl h3
          · refine Or.inr ⟨T0 :: pre, T, post, by rw [hl]; rfl, hb, hr, hs, hlt, ?_⟩
            intro T' hT' hr'
            rcases List.mem_cons.mp hT' with h | h
            · subst h; omega
            · exact hpre T' h hr'

/-! ## The map from truth nodes to records -/

theorem MatchMap.find_nil (k : Nat) : MatchMap.find [] k = none := rfl

theorem MatchMap.find_cons (e : Nat × MCMatches) (rest : MatchMap) (k : Nat) :
    MatchMap.find (e :: rest) k = if e.1 = k then some e.2 else MatchMap.find rest k := by
  unfold MatchMap.find
  by_cases h : e.1 = k
  · simp [List.find?_cons, h]
  · simp [List.find?_cons, h]

theorem MatchMap.find_eq_none_iff (m : MatchMap) (k : Nat) :
    MatchMap.find m k = none ↔ k ∉ m.map Prod.fst := by
  induction m with
  | nil => simp [MatchMap.find_nil]
  | cons e rest ih =>
    rw [MatchMap.find_cons]
    by_cases h : e.1 = k
    · simp [h]
    · rw [if_neg h, ih]
      simp only [List.map_cons, List.mem_cons, not_or]
      constructor
      · intro h2; exact ⟨fun h3 => h h3.symm, h2⟩
      · intro h2; exact h2.2

theorem MatchMap.mem_of_find (m : MatchMap) (k : Nat) (v : MCMatches)
    (h : MatchMap.find m k = some v) : (k, v) ∈ m := by
  induction m with
  | nil => simp [MatchMap.find_nil] at h
  | cons e rest ih =>
    rw [MatchMap.find_cons] at h
    by_cases hk : e.1 = k
    · rw [if_pos hk] at h
      have hv : e.2 = v := Option.some.inj h
      have : e = (k, v) := by rw [← hk, ← hv]
      rw [this]; exact List.mem_cons_self _ _
    · rw [if_neg hk] at h
      exact List.mem_cons_of_mem _ (ih h)

theorem MatchMap.find_of_mem (m : MatchMap) (hnd : (m.map Prod.fst).Nodup)
    (e : Nat × MCMatches) (he : e ∈ m) : MatchMap.find m e.1 = some e.2 := by
  induction m with
  | nil => simp at he
  | cons e0 rest ih =>
    rw [MatchMap.find_cons]
    simp only [List.map_cons, List.nodup_cons] at hnd
    rcases List.mem_cons.mp he with h | h
    · subst h; simp
    · have hne : e0.1 ≠ e.1 := by
        intro heq
        apply hnd.1
        rw [heq]
        exact List.mem_map_of_mem Prod.fst h
      rw [if_neg hne]
      exact ih hnd.2 h

theorem MatchMap.find_insert (k : Nat) (v : MCMatches) (m : MatchMap)
    (hk : MatchMap.find m k = none) (k' : Nat) :
    MatchMap.find (MatchMap.insert k v m) k' = if k' = k then some v else MatchMap.find m k' := by
  induction m with
  | nil =>
    simp only [MatchMap.insert, MatchMap.find_cons, MatchMap.find_nil]
    by_cases h : k = k'
    · simp [h]
    · have h' : ¬ k' = k := fun h2 => h h2.symm
      simp [h, h']
  | cons e rest ih =>
    rw [MatchMap.find_cons] at hk
    have hne : ¬ e.1 = k := by
      intro h; rw [if_pos h] at hk; cases hk
    rw [if_neg hne] at hk
    simp only [MatchMap.insert]
    by_cases h1 : k < e.1
    · rw [if_pos h1, MatchMap.find_cons]
      by_cases h : k = k'
      · simp [h]
      · have h' : ¬ k' = k := fun h2 => h h2.symm
        simp [h, h']
    · rw [if_neg h1]
      have h2 : ¬ k = e.1 := fun h => hne h.symm
      rw [if_neg h2, MatchMap.find_cons, ih hk, MatchMap.find_cons]
      by_cases h : k' = k
      · have h3 : ¬ e.1 = k' := by rw [h]; exact hne
        simp [h, hne]
      · simp [h]

theorem MatchMap.keys_insert (k : Nat) (v : MCMatches) (m : MatchMap)
    (hk : MatchMap.find m k = none) :
    ((MatchMap.insert k v m).map Prod.fst).Perm (k :: m.map Prod.fst) := by
  induction m with
  | nil => simp [MatchMap.insert]
  | cons e rest ih =>
    rw [MatchMap.find_cons] at hk
    have hne : ¬ e.1 = k := by
      intro h; rw [if_pos h] at hk; cases hk
    rw [if_neg hne] at hk
    simp only [MatchMap.insert]
    by_cases h1 : k < e.1
    · rw [if_pos h1]; simp
    · rw [if_neg h1]
      have h2 : ¬ k = e.1 := fun h => hne h.symm
      rw [if_neg h2]
      simp only [List.map_cons]
      exact ((ih hk).cons e.1).trans (List.Perm.swap _ _ _)

theorem MatchMap.find_addRecoMatch (k : Nat) (R : Node) (s : Int) (m : MatchMap) (k' : Nat) :
    MatchMap.find (MatchMap.addRecoMatch k R s m) k'
      = if k' = k then (MatchMap.find m k).map (fun r => r.AddRecoMatch R s)
        else MatchMap.find m k' := by
  induction m with
  | nil => simp [MatchMap.addRecoMatch, MatchMap.find_nil]
  | cons e rest ih =>
    simp only [MatchMap.addRecoMatch]
    by_cases h1 : e.1 = k
    · rw [if_pos h1, MatchMap.find_cons, MatchMap.find_cons, MatchMap.find_cons]
      by_cases h : k' = k
      · have h3 : e.1 = k' := by rw [h]; exact h1
        simp [h, h1]
      · have h3 : ¬ e.1 = k' := by rw [h1]; exact fun h4 => h h4.symm
        simp [h, h3]
    · rw [if_neg h1, MatchMap.find_cons, ih, MatchMap.find_cons, MatchMap.find_cons]
      by_cases h : k' = k
      · have h3 : ¬ e.1 = k' := by rw [h]; exact h1
        simp [h, h1]
      · simp [h]

theorem MatchMap.keys_addRecoMatch (k : Nat) (R : Node) (s : Int) (m : MatchMap) :
    (MatchMap.addRecoMatch k R s m).map Prod.fst = m.map Prod.fst := by
  induction m with
  | nil => simp [MatchMap.addRecoMatch]
  | cons e rest ih =>
    simp only [MatchMap.addRecoMatch]
    by_cases h1 : e.1 = k
    · rw [if_pos h1]; simp
    · rw [if_neg h1]; simp [ih]

/-! ## The loop over the reconstructed nodes -/

theorem matchesOf_append (g : CaloHit → HitType) (mc : MCHierarchy) (k : Nat)
    (P Q : List Node) :
    matchesOf g mc k (P ++ Q) = matchesOf g mc k P ++ matchesOf g mc k Q := by
  unfold matchesOf
  rw [List.filterMap_append]

theorem matchesOf_singleton_none (g : CaloHit → HitType) (mc : MCHierarchy) (k : Nat) (R : Node)
    (s : Nat) (h : bestMatch g mc R = (none, s)) : matchesOf g mc k [R] = [] := by
  unfold matchesOf
  simp [List.filterMap_cons, h]

theorem matchesOf_singleton_eq (g : CaloHit → HitType) (mc : MCHierarchy) (R T : Node)
    (s : Nat) (h : bestMatch g mc R = (some T, s)) :
    matchesOf g mc T.addr [R] = [(R, (s : Int))] := by
  unfold matchesOf
  simp [List.filterMap_cons, h]

theorem matchesOf_singleton_ne (g : CaloHit → HitType) (mc : MCHierarchy) (k : Nat) (R T : Node)
    (s : Nat) (h : bestMatch g mc R = (some T, s)) (hk : ¬ T.addr = k) :
    matchesOf g mc k [R] = [] := by
  unfold matchesOf
  simp [List.filterMap_cons, h, hk]

theorem recordOf_congr (g : CaloHit → HitType) (mc : MCHierarchy) (P Q : List Node) (T : Node)
    (h : matchesOf g mc T.addr P = matchesOf g mc T.addr Q) :
    recordOf g mc P T = recordOf g mc Q T := by
  unfold recordOf
  rw [h]

theorem recordOf_addRecoMatch (g : CaloHit → HitType) (mc : MCHierarchy) (P : List Node)
    (T R : Node) (s : Int)
    (h : matchesOf g mc T.addr (P ++ [R]) = matchesOf g mc T.addr P ++ [(R, s)]) :
    (recordOf g mc P T).AddRecoMatch R s = recordOf g mc (P ++ [R]) T := by
  unfold recordOf MCMatches.AddRecoMatch
  rw [h]
  simp

/-- The best node of a reconstructed node is one of the sorted truth nodes. -/
theorem bestMatch_mem (g : CaloHit → HitType) (mc : MCHierarchy) (R T : Node) (s : Nat)
    (h : bestMatch g mc R = (some T, s)) : T ∈ sortedMCNodes mc := by
  have hspec := bestMatchLoop_spec g mc.m_recoCriteria R.GetCaloHits (sortedMCNodes mc) none 0
  unfold bestMatch at h
  rw [h] at hspec
  rcases hspec.2.2 with h3 | ⟨pre, T', post, hl, hb, _⟩
  · cases h3
  · simp only [Option.some.injEq] at hb
    rw [hl, hb]
    simp

theorem sortedMCNodes_perm (mc : MCHierarchy) :
    (sortedMCNodes mc).Perm (Node.nodesList mc.m_rootNodes) := by
  unfold sortedMCNodes stdSort
  exact (List.perm_insertionSort _ _).trans (flattenForest_spec mc.m_rootNodes).1

theorem sortedRecoNodes_perm (reco : RecoHierarchy) :
    (sortedRecoNodes reco).Perm (Node.nodesList reco.m_rootNodes) := by
  unfold sortedRecoNodes stdSort
  exact (List.perm_insertionSort _ _).trans (flattenForest_spec reco.m_rootNodes).1

theorem sortedMCNodes_nodup (mc : MCHierarchy)
    (h : ((Node.nodesList mc.m_rootNodes).map Node.addr).Nodup) :
    ((sortedMCNodes mc).map Node.addr).Nodup :=
  ((sortedMCNodes_perm mc).map Node.addr).nodup_iff.mpr h

theorem sortedRecoNodes_nodup (reco : RecoHierarchy)
    (h : ((Node.nodesList reco.m_rootNodes).map Node.addr).Nodup) :
    ((sortedRecoNodes reco).map Node.addr).Nodup :=
  ((sortedRecoNodes_perm reco).map Node.addr).nodup_iff.mpr h

/-- One step of the loop over the reconstructed nodes keeps the invariant. -/
theorem matchRecoNode_inv (g : CaloHit → HitType) (mc : MCHierarchy) (M : MatchMap)
    (P : List Node) (R : Node) (hinv : MatchMapInv g mc M P) :
    MatchMapInv g mc (matchRecoNode g mc.m_recoCriteria (sortedMCNodes mc) M R) (P ++ [R]) := by
  obtain ⟨hnd, hk⟩ := hinv
  have hbest : bestMatchLoop g mc.m_recoCriteria R.GetCaloHits (sortedMCNodes mc) none 0
      = bestMatch g mc R := rfl
  unfold matchRecoNode
  rw [hbest]
  rcases hb : bestMatch g mc R with ⟨b, s⟩
  cases b with
  | none =>
    simp only
    refine ⟨hnd, ?_⟩
    intro k
    have hm : matchesOf g mc k (P ++ [R]) = matchesOf g mc k P := by
      rw [matchesOf_append, matchesOf_singleton_none g mc k R s hb, List.append_nil]
    rcases hk k with ⟨h1, h2⟩ | ⟨T, hT, hTk, hne, hf⟩
    · exact Or.inl ⟨h1, by rw [hm]; exact h2⟩
    · refine Or.inr ⟨T, hT, hTk, by rw [hm]; exact hne, ?_⟩
      rw [hf, recordOf_congr g mc P (P ++ [R]) T (by rw [hTk, hm])]
  | some Tb =>
    simp only
    have hTb : Tb ∈ sortedMCNodes mc := bestMatch_mem g mc R Tb s hb
    have hother : ∀ k, ¬ k = Tb.addr → matchesOf g mc k (P ++ [R]) = matchesOf g mc k P := by
      intro k hne
      rw [matchesOf_append, matchesOf_singleton_ne g mc k R Tb s hb (fun h => hne h.symm),
        List.append_nil]
    have hself : matchesOf g mc Tb.addr (P ++ [R]) = matchesOf g mc Tb.addr P ++ [(R, (s : Int))] := by
      rw [matchesOf_append, matchesOf_singleton_eq g mc R Tb s hb]
    cases hfind : MatchMap.find M Tb.addr with
    | some rec0 =>
      simp only
      refine ⟨by rw [MatchMap.keys_addRecoMatch]; exact hnd, ?_⟩
      intro k
      rw [MatchMap.find_addRecoMatch]
      by_cases hkk : k = Tb.addr
      · rw [if_pos hkk]
        rcases hk k with ⟨h1, _⟩ | ⟨T, hT, hTk, hne, hf⟩
        · rw [hkk, hfind] at h1; cases h1
        · refine Or.inr ⟨T, hT, hTk, ?_, ?_⟩
          · rw [hkk, hself]; simp
          · rw [← hkk, hf]
            simp only [Option.map_some']
            rw [recordOf_addRecoMatch g mc P T R s (by rw [hTk, hkk]; exact hself)]
      · rw [if_neg hkk]
        rcases hk k with ⟨h1, h2⟩ | ⟨T, hT, hTk, hne, hf⟩
        · exact Or.inl ⟨h1, by rw [hother k hkk]; exact h2⟩
        · refine Or.inr ⟨T, hT, hTk, by rw [hother k hkk]; exact hne, ?_⟩
          rw [hf, recordOf_congr g mc P (P ++ [R]) T (by rw [hTk, hother k hkk])]
    | none =>
      simp only
      refine ⟨?_, ?_⟩
      · rw [(MatchMap.keys_insert _ _ M hfind).nodup_iff]
        exact List.nodup_cons.mpr ⟨(MatchMap.find_eq_none_iff M _).mp hfind, hnd⟩
      · intro k
        rw [MatchMap.find_insert _ _ M hfind]
        by_cases hkk : k = Tb.addr
        · rw [if_pos hkk]
          rcases hk k with ⟨_, h2⟩ | ⟨T, hT, hTk, hne, hf⟩
          · refine Or.inr ⟨Tb, hTb, hkk.symm, ?_, ?_⟩
            · rw [hkk, hself]; simp
            · rw [hkk] at h2
              unfold recordOf MCMatches.AddRecoMatch
              rw [hself, h2]
              simp
          · rw [hkk, hfind] at hf; cases hf
        · rw [if_neg hkk]
          rcases hk k with ⟨h1, h2⟩ | ⟨T, hT, hTk, hne, hf⟩
          · exact Or.inl ⟨h1, by rw [hother k hkk]; exact h2⟩
          · refine Or.inr ⟨T, hT, hTk, by rw [hother k hkk]; exact hne, ?_⟩
            rw [hf, recordOf_congr g mc P (P ++ [R]) T (by rw [hTk, hother k hkk])]

theorem matchLoop_inv (g : CaloHit → HitType) (mc : MCHierarchy) (rest : List Node) :
    ∀ (M : MatchMap) (P : List Node), MatchMapInv g mc M P →
      MatchMapInv g mc
        (rest.foldl (matchRecoNode g mc.m_recoCriteria (sortedMCNodes mc)) M) (P ++ rest) := by
  induction rest with
  | nil => intro M P h; simpa using h
  | cons R rest ih =>
    intro M P h
    simp only [List.foldl_cons]
    have := ih _ _ (matchRecoNode_inv g mc M P R h)
    simpa using this

theorem matchLoop_inv_final (g : CaloHit → HitType) (mc : MCHierarchy) (recoNodes : List Node) :
    MatchMapInv g mc
      (recoNodes.foldl (matchRecoNode g mc.m_recoCriteria (sortedMCNodes mc)) []) recoNodes := by
  have h0 : MatchMapInv g mc [] [] := by
    refine ⟨by simp, fun k => Or.inl ⟨rfl, rfl⟩⟩
  simpa using matchLoop_inv g mc recoNodes [] [] h0

/-! ## The records of `MatchHierarchies` -/

theorem appendUnmatched_eq (M : MatchMap) (l : List Node) :
    ∀ v : List MCMatches, appendUnmatched M l v
      = v ++ (l.filter (fun T => !(MatchMap.find M T.addr).isSome)).map
          (fun T => ({ m_pMC := T } : MCMatches)) := by
  induction l with
  | nil => intro v; simp [appendUnmatched]
  | cons T rest ih =>
    intro v
    simp only [appendUnmatched]
    cases hf : MatchMap.find M T.addr with
    | none =>
      simp only
      rw [ih, List.filter_cons_of_pos (by simp [hf])]
      simp
    | some r =>
      simp only
      rw [ih, List.filter_cons_of_neg (by simp [hf])]

theorem recordOf_mc (g : CaloHit → HitType) (mc : MCHierarchy) (P : List Node) (T : Node) :
    (recordOf g mc P T).m_pMC = T := rfl

/-- Two nodes of a list with pairwise different addresses are equal when their
addresses are. -/
theorem Node.eq_of_addr_eq (l : List Node) (hnd : (l.map Node.addr).Nodup) (x y : Node)
    (hx : x ∈ l) (hy : y ∈ l) (h : x.addr = y.addr) : x = y :=
  List.inj_on_of_nodup_map hnd hx hy h

/-- The records that `MatchHierarchies` collects are, up to order, the records
of the truth nodes: one per truth node, holding the reconstructed nodes whose
best node it is. -/
theorem matchRecords_perm (g : CaloHit → HitType) (mc : MCHierarchy) (reco : RecoHierarchy)
    (hmc : ((Node.nodesList mc.m_rootNodes).map Node.addr).Nodup) :
    (matchRecords g mc reco []).Perm
      ((sortedMCNodes mc).map (recordOf g mc (sortedRecoNodes reco))) := by
  have hnd := sortedMCNodes_nodup mc hmc
  obtain ⟨hkeys, hinv⟩ := matchLoop_inv_final g mc (sortedRecoNodes reco)
  generalize hM : (sortedRecoNodes reco).foldl
      (matchRecoNode g mc.m_recoCriteria (sortedMCNodes mc)) [] = M at hkeys hinv
  have hrec : matchRecords g mc reco []
      = stdSort (fun lhs rhs => moreHits lhs.GetMC rhs.GetMC)
          (appendUnmatched M (sortedMCNodes mc) ([] ++ M.map Prod.snd)) := by
    rw [← hM]; rfl
  rw [hrec]
  unfold stdSort
  refine (List.perm_insertionSort _ _).trans ?_
  rw [appendUnmatched_eq, List.nil_append]
  -- the entries of the map are the records of their truth nodes
  have hentry : ∀ e ∈ M, e.2.m_pMC ∈ sortedMCNodes mc ∧ e.2.m_pMC.addr = e.1
      ∧ e.2 = recordOf g mc (sortedRecoNodes reco) e.2.m_pMC := by
    intro e he
    have hf := MatchMap.find_of_mem M hkeys e he
    rcases hinv e.1 with ⟨h1, _⟩ | ⟨T, hT, hTk, _, hfT⟩
    · rw [hf] at h1; cases h1
    · rw [hf] at hfT
      have he2 : e.2 = recordOf g mc (sortedRecoNodes reco) T := Option.some.inj hfT
      have hmc2 : e.2.m_pMC = T := by rw [he2]; rfl
      rw [hmc2]
      exact ⟨hT, hTk, he2⟩
  have hA : M.map Prod.snd
      = (M.map (fun e => e.2.m_pMC)).map (recordOf g mc (sortedRecoNodes reco)) := by
    rw [List.map_map]
    apply List.map_congr_left
    intro e he
    exact (hentry e he).2.2
  have hB : (M.map (fun e => e.2.m_pMC)).Perm
      ((sortedMCNodes mc).filter (fun T => (MatchMap.find M T.addr).isSome)) := by
    apply (List.perm_ext_iff_of_nodup ?_ ?_).mpr
    · intro x
      simp only [List.mem_map, List.mem_filter]
      constructor
      · rintro ⟨e, he, rfl⟩
        obtain ⟨h1, h2, _⟩ := hentry e he
        refine ⟨h1, ?_⟩
        rw [h2, MatchMap.find_of_mem M hkeys e he]
        rfl
      · rintro ⟨hx, hsome⟩
        obtain ⟨r, hr⟩ := Option.isSome_iff_exists.mp hsome
        have hmem := MatchMap.mem_of_find M _ _ hr
        obtain ⟨h1, h2, _⟩ := hentry _ hmem
        refine ⟨_, hmem, ?_⟩
        exact Node.eq_of_addr_eq _ hnd _ _ h1 hx h2
    · apply List.Nodup.of_map Node.addr
      rw [List.map_map]
      have : M.map (Node.addr ∘ fun e => e.2.m_pMC) = M.map Prod.fst := by
        apply List.map_congr_left
        intro e he
        exact (hentry e he).2.1
      rw [this]
      exact hkeys
    · exact (List.Nodup.of_map Node.addr hnd).sublist (List.filter_sublist _)
  have hC : ((sortedMCNodes mc).filter (fun T => !(MatchMap.find M T.addr).isSome)).map
        (fun T => ({ m_pMC := T } : MCMatches))
      = ((sortedMCNodes mc).filter (fun T => !(MatchMap.find M T.addr).isSome)).map
          (recordOf g mc (sortedRecoNodes reco)) := by
    apply List.map_congr_left
    intro T hT
    have hnone : MatchMap.find M T.addr = none := by
      have := (List.mem_filter.mp hT).2
      cases hf : MatchMap.find M T.addr with
      | none => rfl
      | some r => rw [hf] at this; simp at this
    rcases hinv T.addr with ⟨_, h2⟩ | ⟨_, _, _, _, hfT⟩
    · unfold recordOf
      rw [h2]
      rfl
    · rw [hnone] at hfT; cases hfT
  rw [hA, hC, ← List.map_append]
  apply List.Perm.map
  exact (List.Perm.append_right _ hB).trans (List.filter_append_perm _ _)

theorem reportMatches_ok (m : MCMatches) (l : List Node)
    (h : ∀ R ∈ l, R.addr ∈ m.m_recoNodes.map Node.addr) :
    reportMatches m l = Except.ok () := by
  induction l with
  | nil => rfl
  | cons R rest ih =>
    have hidx : ¬ m.findIndex R = m.m_recoNodes.length := by
      unfold MCMatches.findIndex
      have := List.indexOf_lt_length.mpr (h R (List.mem_cons_self _ _))
      simp only [List.length_map] at this
      omega
    simp only [reportMatches, MCMatches.GetSharedHits, MCMatches.GetPurity,
      MCMatches.GetCompleteness, if_neg hidx]
    exact ih (fun R' hR' => h R' (List.mem_cons_of_mem _ hR'))

theorem reportRecords_ok (l : List MCMatches) : reportRecords l = Except.ok () := by
  induction l with
  | nil => rfl
  | cons m rest ih =>
    simp only [reportRecords]
    rw [reportMatches_ok m m.GetRecoMatches
      (fun R hR => List.mem_map_of_mem Node.addr hR)]
    exact ih

/-- The function `MatchHierarchies` returns normally: the queries of its printing loop are
all made for a reconstructed node of the record that is queried. -/
theorem MatchHierarchies_ok (g : CaloHit → HitType) (mc : MCHierarchy) (reco : RecoHierarchy)
    (matchVector : List MCMatches) :
    MatchHierarchies g mc reco matchVector = Except.ok (matchRecords g mc reco matchVector) := by
  unfold MatchHierarchies
  simp only [reportRecords_ok]

/-! ## The content of a record -/

theorem matchesOf_mem (g : CaloHit → HitType) (mc : MCHierarchy) (k : Nat) (P : List Node)
    (R : Node) (s : Int) :
    (R, s) ∈ matchesOf g mc k P ↔
      R ∈ P ∧ ∃ (T : Node) (n : Nat), bestMatch g mc R = (some T, n) ∧ T.addr = k ∧ s = (n : Int) := by
  unfold matchesOf
  rw [List.mem_filterMap]
  constructor
  · rintro ⟨R', hR', h⟩
    rcases hb : bestMatch g mc R' with ⟨b, n⟩
    rw [hb] at h
    cases b with
    | none => simp at h
    | some T =>
      simp only at h
      by_cases hk : T.addr = k
      · rw [if_pos hk] at h
        simp only [Option.some.injEq, Prod.mk.injEq] at h
        obtain ⟨h1, h2⟩ := h
        subst h1
        exact ⟨hR', T, n, hb, hk, h2.symm⟩
      · rw [if_neg hk] at h
        cases h
  · rintro ⟨hR, T, n, hb, hk, hs⟩
    refine ⟨R, hR, ?_⟩
    rw [hb]
    simp [hk, hs]

theorem matchesOf_fst_sublist (g : CaloHit → HitType) (mc : MCHierarchy) (k : Nat)
    (P : List Node) : ((matchesOf g mc k P).map Prod.fst).Sublist P := by
  induction P with
  | nil => simp [matchesOf]
  | cons R rest ih =>
    have happ : matchesOf g mc k (R :: rest) = matchesOf g mc k [R] ++ matchesOf g mc k rest :=
      matchesOf_append g mc k [R] rest
    rw [happ, List.map_append]
    rcases hb : bestMatch g mc R with ⟨b, n⟩
    cases b with
    | none =>
      rw [matchesOf_singleton_none g mc k R n hb]
      exact ih.trans (List.sublist_cons_self _ _)
    | some T =>
      by_cases hk : T.addr = k
      · rw [← hk, matchesOf_singleton_eq g mc R T n hb]
        rw [hk]
        exact ih.cons₂ R
      · rw [matchesOf_singleton_ne g mc k R T n hb hk]
        exact ih.trans (List.sublist_cons_self _ _)

/-- In a list of pairs whose nodes have pairwise different addresses, the
position found for the address of a node holds the number paired with it. -/
theorem getD_indexOf_of_mem (L : List (Node × Int))
    (hnd : ((L.map Prod.fst).map Node.addr).Nodup) (R : Node) (s : Int) (h : (R, s) ∈ L) :
    ((L.map Prod.fst).map Node.addr).indexOf R.addr < (L.map Prod.fst).length
      ∧ (L.map Prod.snd).getD (((L.map Prod.fst).map Node.addr).indexOf R.addr) 0 = s := by
  induction L with
  | nil => simp at h
  | cons e rest ih =>
    simp only [List.map_cons, List.nodup_cons] at hnd
    by_cases he : e.1.addr = R.addr
    · have hes : e = (R, s) := by
        rcases List.mem_cons.mp h with h1 | h1
        · exact h1.symm
        · exfalso
          apply hnd.1
          rw [he]
          exact List.mem_map_of_mem Node.addr (List.mem_map_of_mem Prod.fst h1)
      simp only [List.map_cons]
      rw [List.indexOf_cons_eq _ he]
      simp [hes]
    · have hmem : (R, s) ∈ rest := by
        rcases List.mem_cons.mp h with h1 | h1
        · exfalso; apply he; rw [← h1]
        · exact h1
      obtain ⟨h1, h2⟩ := ih hnd.2 hmem
      simp only [List.map_cons]
      rw [List.indexOf_cons_ne _ he]
      simp only [List.length_cons, List.length_map] at h1 ⊢
      refine ⟨by omega, ?_⟩
      simpa using h2

/-- What a record of `MatchHierarchies` holds for one of its reconstructed
nodes: the truth node of the record is the best node of the reconstructed
node, and the accessors return the count found for it and its quotients. -/
theorem record_entry (g : CaloHit → HitType) (mc : MCHierarchy) (reco : RecoHierarchy)
    (hmc : ((Node.nodesList mc.m_rootNodes).map Node.addr).Nodup)
    (hreco : ((Node.nodesList reco.m_rootNodes).map Node.addr).Nodup)
    (r : MCMatches) (hr : r ∈ matchRecords g mc reco []) (R : Node) (hR : R ∈ r.GetRecoMatches) :
    ∃ n : Nat, bestMatch g mc R = (some r.GetMC, n)
      ∧ R ∈ sortedRecoNodes reco ∧ r.GetMC ∈ sortedMCNodes mc
      ∧ r.GetSharedHits R = Except.ok (n : Int)
      ∧ r.GetPurity R = Except.ok ((n : ℚ) / (R.GetCaloHits.length : ℚ))
      ∧ r.GetCompleteness R = Except.ok ((n : ℚ) / (r.GetMC.GetCaloHits.length : ℚ)) := by
  have hperm := matchRecords_perm g mc reco hmc
  have hr' := (hperm.mem_iff).mp hr
  obtain ⟨T, hT, rfl⟩ := List.mem_map.mp hr'
  have hndmc := sortedMCNodes_nodup mc hmc
  have hndreco := sortedRecoNodes_nodup reco hreco
  simp only [MCMatches.GetRecoMatches, recordOf] at hR
  obtain ⟨⟨R', s⟩, hRs, hfst⟩ := List.mem_map.mp hR
  simp only at hfst
  subst hfst
  obtain ⟨hRmem, T', n, hb, hk, hs⟩ := (matchesOf_mem g mc T.addr _ R' s).mp hRs
  have hT' : T' = T :=
    Node.eq_of_addr_eq _ hndmc _ _ (bestMatch_mem g mc R' T' n hb) hT hk
  subst hT' hs
  have hsub : (((matchesOf g mc T'.addr (sortedRecoNodes reco)).map Prod.fst).map Node.addr).Nodup :=
    hndreco.sublist ((matchesOf_fst_sublist g mc T'.addr _).map Node.addr)
  obtain ⟨hlt, hget⟩ := getD_indexOf_of_mem _ hsub R' n hRs
  have hidx : ¬ (recordOf g mc (sortedRecoNodes reco) T').findIndex R'
      = (recordOf g mc (sortedRecoNodes reco) T').m_recoNodes.length := by
    simp only [MCMatches.findIndex, recordOf]
    omega
  refine ⟨n, hb, hRmem, hT, ?_, ?_, ?_⟩
  · simp only [MCMatches.GetSharedHits, if_neg hidx]
    simp only [MCMatches.findIndex, recordOf]
    rw [hget]
  · simp only [MCMatches.GetPurity, if_neg hidx]
    simp only [MCMatches.findIndex, recordOf]
    rw [hget]
    simp
  · simp only [MCMatches.GetCompleteness, if_neg hidx]
    simp only [MCMatches.findIndex, recordOf]
    rw [hget]
    simp [MCMatches.GetMC]

/-- What the inner loop of `MatchHierarchies` guarantees when it ends with a
best node. -/
theorem bestMatch_some (g : CaloHit → HitType) (mc : MCHierarchy) (R T : Node) (n : Nat)
    (h : bestMatch g mc R = (some T, n)) :
    IsReconstructable g mc.m_recoCriteria T.GetCaloHits = true
    ∧ n = (set_intersection T.GetCaloHits R.GetCaloHits).length
    ∧ 0 < n
    ∧ (∀ T' ∈ sortedMCNodes mc, IsReconstructable g mc.m_recoCriteria T'.GetCaloHits = true →
        (set_intersection T'.GetCaloHits R.GetCaloHits).length ≤ n)
    ∧ ∃ pre post, sortedMCNodes mc = pre ++ T :: post
        ∧ ∀ T' ∈ pre, IsReconstructable g mc.m_recoCriteria T'.GetCaloHits = true →
            (set_intersection T'.GetCaloHits R.GetCaloHits).length < n := by
  have hspec := bestMatchLoop_spec g mc.m_recoCriteria R.GetCaloHits (sortedMCNodes mc) none 0
  unfold bestMatch at h
  rw [h] at hspec
  obtain ⟨_, h2, h3⟩ := hspec
  rcases h3 with h3 | ⟨pre, T', post, hl, hb, hr, hs, hlt, hpre⟩
  · cases h3
  · simp only [Option.some.injEq] at hb
    subst hb
    exact ⟨hr, hs, hlt, h2, pre, post, hl, hpre⟩

/-- What the inner loop of `MatchHierarchies` guarantees when it ends without
a best node. -/
theorem bestMatch_none (g : CaloHit → HitType) (mc : MCHierarchy) (R : Node) (n : Nat)
    (h : bestMatch g mc R = (none, n)) :
    ∀ T' ∈ sortedMCNodes mc, IsReconstructable g mc.m_recoCriteria T'.GetCaloHits = true →
      set_intersection T'.GetCaloHits R.GetCaloHits = [] := by
  have hspec := bestMatchLoop_spec g mc.m_recoCriteria R.GetCaloHits (sortedMCNodes mc) none 0
  unfold bestMatch at h
  rw [h] at hspec
  obtain ⟨_, h2, h3⟩ := hspec
  have hn : n = 0 := by
    rcases h3 with h3 | ⟨pre, T', post, hl, hb, _⟩
    · exact (Prod.mk.inj h3).2
    · cases hb
  intro T' hT' hr
  have := h2 T' hT' hr
  simp only [hn] at this
  exact List.eq_nil_of_length_eq_zero (by omega)

/-! ## Claims on hierarchy matching -/

/-- C1: `MatchHierarchies`, called with an empty output vector on a truth
forest whose node objects have pairwise different addresses, returns one
record per node of the flattened truth forest: the truth nodes of the records
are a rearrangement of `GetFlattenedNodes`, so no truth node has two records,
and the record of a truth node that is the best node of no reconstructed
node has no reconstructed matches. -/
theorem C1_one_record_per_truth_node (GetHitType : CaloHit → HitType)
    (mcHierarchy : MCHierarchy) (recoHierarchy : RecoHierarchy)
    (hmc : ((Node.nodesList mcHierarchy.m_rootNodes).map Node.addr).Nodup) :
    ∃ records, MatchHierarchies GetHitType mcHierarchy recoHierarchy [] = Except.ok records
      ∧ (records.map MCMatches.GetMC).Perm (mcHierarchy.GetFlattenedNodes [])
      ∧ (records.map (fun r => r.GetMC.addr)).Nodup
      ∧ ∀ r ∈ records,
          (∀ R ∈ recoHierarchy.GetFlattenedNodes [], ∀ (T : Node) (n : Nat),
              bestMatch GetHitType mcHierarchy R = (some T, n) → T.addr ≠ r.GetMC.addr) →
          r.GetRecoMatches = [] ∧ r.m_sharedHits = [] := by
  refine ⟨_, MatchHierarchies_ok _ _ _ _, ?_, ?_, ?_⟩
  · have h1 := (matchRecords_perm GetHitType mcHierarchy recoHierarchy hmc).map MCMatches.GetMC
    rw [List.map_map] at h1
    have h2 : (sortedMCNodes mcHierarchy).map
        (MCMatches.GetMC ∘ recordOf GetHitType mcHierarchy (sortedRecoNodes recoHierarchy))
        = sortedMCNodes mcHierarchy := by
      conv_rhs => rw [← List.map_id (sortedMCNodes mcHierarchy)]
      apply List.map_congr_left
      intro T _
      rfl
    rw [h2] at h1
    exact h1.trans (List.perm_insertionSort _ _)
  · have h1 := (matchRecords_perm GetHitType mcHierarchy recoHierarchy hmc).map
      (fun r => r.GetMC.addr)
    rw [List.map_map] at h1
    have h2 : (sortedMCNodes mcHierarchy).map
        ((fun r => r.GetMC.addr) ∘ recordOf GetHitType mcHierarchy (sortedRecoNodes recoHierarchy))
        = (sortedMCNodes mcHierarchy).map Node.addr := by
      apply List.map_congr_left
      intro T _
      rfl
    rw [h2] at h1
    exact h1.nodup_iff.mpr (sortedMCNodes_nodup mcHierarchy hmc)
  · intro r hr hno
    have hr' := ((matchRecords_perm GetHitType mcHierarchy recoHierarchy hmc).mem_iff).mp hr
    obtain ⟨T, _, rfl⟩ := List.mem_map.mp hr'
    have hnil : matchesOf GetHitType mcHierarchy T.addr (sortedRecoNodes recoHierarchy) = [] := by
      apply List.eq_nil_iff_forall_not_mem.mpr
      rintro ⟨R, s⟩ hmem
      obtain ⟨hR, T', n, hb, hk, _⟩ := (matchesOf_mem _ _ _ _ _ _).mp hmem
      have hRflat : R ∈ recoHierarchy.GetFlattenedNodes [] :=
        (List.perm_insertionSort _ _).mem_iff.mp hR
      exact hno R hRflat T' n hb hk
    simp [MCMatches.GetRecoMatches, recordOf, hnil]

/-- C1 at the example hierarchies: three truth nodes, three records. -/
theorem C1_witness :
    ((Node.nodesList exampleMC.m_rootNodes).map Node.addr).Nodup
    ∧ (∃ records, MatchHierarchies exampleHitType exampleMC exampleReco [] = Except.ok records
      ∧ (records.map MCMatches.GetMC).Perm (exampleMC.GetFlattenedNodes [])
      ∧ (records.map (fun r => r.GetMC.addr)).Nodup
      ∧ ∀ r ∈ records,
          (∀ R ∈ exampleReco.GetFlattenedNodes [], ∀ (T : Node) (n : Nat),
              bestMatch exampleHitType exampleMC R = (some T, n) → T.addr ≠ r.GetMC.addr) →
          r.GetRecoMatches = [] ∧ r.m_sharedHits = [])
    ∧ (matchRecords exampleHitType exampleMC exampleReco []).map MCMatches.summary
        = [(100, [200], [12]), (101, [201], [10]), (102, [], [])] :=
  ⟨by decide, C1_one_record_per_truth_node exampleHitType exampleMC exampleReco (by decide),
    by decide⟩

/-- C7: a truth node for which `IsReconstructable` is false receives no match:
in the result of `MatchHierarchies` its record has no reconstructed nodes,
whatever the reconstructed hierarchy is. -/
theorem C7_unreconstructable_unmatched (GetHitType : CaloHit → HitType)
    (mcHierarchy : MCHierarchy) (recoHierarchy : RecoHierarchy)
    (hmc : ((Node.nodesList mcHierarchy.m_rootNodes).map Node.addr).Nodup) :
    ∃ records, MatchHierarchies GetHitType mcHierarchy recoHierarchy [] = Except.ok records
      ∧ ∀ r ∈ records,
          IsReconstructable GetHitType mcHierarchy.m_recoCriteria r.GetMC.GetCaloHits = false →
          r.GetRecoMatches = [] ∧ r.m_sharedHits = [] := by
  refine ⟨_, MatchHierarchies_ok _ _ _ _, ?_⟩
  intro r hr hnot
  have hr' := ((matchRecords_perm GetHitType mcHierarchy recoHierarchy hmc).mem_iff).mp hr
  obtain ⟨T, hT, rfl⟩ := List.mem_map.mp hr'
  have hnil : matchesOf GetHitType mcHierarchy T.addr (sortedRecoNodes recoHierarchy) = [] := by
    apply List.eq_nil_iff_forall_not_mem.mpr
    rintro ⟨R, s⟩ hmem
    obtain ⟨_, T', n, hb, hk, _⟩ := (matchesOf_mem _ _ _ _ _ _).mp hmem
    have hT' : T' = T :=
      Node.eq_of_addr_eq _ (sortedMCNodes_nodup mcHierarchy hmc) _ _
        (bestMatch_mem _ _ _ _ _ hb) hT hk
    subst hT'
    have hrec := (bestMatch_some _ _ _ _ _ hb).1
    simp only [MCMatches.GetMC, recordOf] at hnot
    rw [hnot] at hrec
    cases hrec
  simp [MCMatches.GetRecoMatches, recordOf, hnil]

/-- C7 at the scenario: default criteria, one truth primary with 12 hits and
one reconstructed node with the same 12 hits.  The truth node is not
reconstructable, the result is the single record of the truth node with no
match, and the reconstructed node has no best node. -/
theorem C7_witness :
    ((Node.nodesList scenarioMC.m_rootNodes).map Node.addr).Nodup
    ∧ (∃ records, MatchHierarchies exampleHitType scenarioMC scenarioReco [] = Except.ok records
      ∧ ∀ r ∈ records,
          IsReconstructable exampleHitType scenarioMC.m_recoCriteria r.GetMC.GetCaloHits = false →
          r.GetRecoMatches = [] ∧ r.m_sharedHits = [])
    ∧ scenarioMC.m_recoCriteria
        = { m_minHits := 15, m_minHitsForGoodView := 5, m_minGoodViews := 2, m_removeNeutrons := true }
    ∧ (scenarioMC.GetFlattenedNodes []).map (fun T =>
          IsReconstructable exampleHitType scenarioMC.m_recoCriteria T.GetCaloHits) = [false]
    ∧ (matchRecords exampleHitType scenarioMC scenarioReco []).map MCMatches.summary = [(1, [], [])]
    ∧ (scenarioReco.GetFlattenedNodes []).map (fun R =>
          (bestMatch exampleHitType scenarioMC R).1.map Node.addr) = [none] :=
  ⟨by decide, C7_unreconstructable_unmatched exampleHitType scenarioMC scenarioReco (by decide),
    by decide, by decide, by decide, by decide⟩

/-- C8: for every record of `MatchHierarchies` and every reconstructed node in
it, the recorded shared hit count is at least 0 and at most the hit count of
the reconstructed node and at most the hit count of the truth node; purity and
completeness, as exact rationals, are the count divided by these hit counts
and lie between 0 and 1 when the denominator is not zero. -/
theorem C8_shared_hits_bounded (GetHitType : CaloHit → HitType)
    (mcHierarchy : MCHierarchy) (recoHierarchy : RecoHierarchy)
    (hmc : ((Node.nodesList mcHierarchy.m_rootNodes).map Node.addr).Nodup)
    (hreco : ((Node.nodesList recoHierarchy.m_rootNodes).map Node.addr).Nodup) :
    ∃ records, MatchHierarchies GetHitType mcHierarchy recoHierarchy [] = Except.ok records
      ∧ ∀ r ∈ records, ∀ R ∈ r.GetRecoMatches,
          ∃ shared : Int, r.GetSharedHits R = Except.ok shared
            ∧ 0 ≤ shared
            ∧ shared ≤ (R.GetCaloHits.length : Int)
            ∧ shared ≤ (r.GetMC.GetCaloHits.length : Int)
            ∧ r.GetPurity R = Except.ok ((shared : ℚ) / (R.GetCaloHits.length : ℚ))
            ∧ r.GetCompleteness R = Except.ok ((shared : ℚ) / (r.GetMC.GetCaloHits.length : ℚ))
            ∧ (R.GetCaloHits.length ≠ 0 →
                0 ≤ (shared : ℚ) / (R.GetCaloHits.length : ℚ)
                  ∧ (shared : ℚ) / (R.GetCaloHits.length : ℚ) ≤ 1)
            ∧ (r.GetMC.GetCaloHits.length ≠ 0 →
                0 ≤ (shared : ℚ) / (r.GetMC.GetCaloHits.length : ℚ)
                  ∧ (shared : ℚ) / (r.GetMC.GetCaloHits.length : ℚ) ≤ 1) := by
  refine ⟨_, MatchHierarchies_ok _ _ _ _, ?_⟩
  intro r hr R hR
  obtain ⟨n, hb, _, _, hsh, hpu, hco⟩ :=
    record_entry GetHitType mcHierarchy recoHierarchy hmc hreco r hr R hR
  obtain ⟨_, hn, _, _, _⟩ := bestMatch_some _ _ _ _ _ hb
  have hle1 : n ≤ R.GetCaloHits.length := by
    rw [hn]; exact set_intersection_length_le_right _ _
  have hle2 : n ≤ r.GetMC.GetCaloHits.length := by
    rw [hn]; exact set_intersection_length_le_left _ _
  refine ⟨(n : Int), hsh, by positivity, by exact_mod_cast hle1, by exact_mod_cast hle2, ?_, ?_,
    ?_, ?_⟩
  · rw [hpu]; simp
  · rw [hco]; simp
  · intro hne
    have hpos : (0 : ℚ) < (R.GetCaloHits.length : ℚ) := by
      exact_mod_cast Nat.pos_of_ne_zero hne
    constructor
    · positivity
    · rw [div_le_one hpos]
      exact_mod_cast hle1
  · intro hne
    have hpos : (0 : ℚ) < (r.GetMC.GetCaloHits.length : ℚ) := by
      exact_mod_cast Nat.pos_of_ne_zero hne
    constructor
    · positivity
    · rw [div_le_one hpos]
      exact_mod_cast hle2

/-- C8 at the example hierarchies. -/
theorem C8_witness :
    ((Node.nodesList exampleMC.m_rootNodes).map Node.addr).Nodup
    ∧ ((Node.nodesList exampleReco.m_rootNodes).map Node.addr).Nodup
    ∧ ∃ records, MatchHierarchies exampleHitType exampleMC exampleReco [] = Except.ok records
      ∧ ∀ r ∈ records, ∀ R ∈ r.GetRecoMatches,
          ∃ shared : Int, r.GetSharedHits R = Except.ok shared
            ∧ 0 ≤ shared
            ∧ shared ≤ (R.GetCaloHits.length : Int)
            ∧ shared ≤ (r.GetMC.GetCaloHits.length : Int)
            ∧ r.GetPurity R = Except.ok ((shared : ℚ) / (R.GetCaloHits.length : ℚ))
            ∧ r.GetCompleteness R = Except.ok ((shared : ℚ) / (r.GetMC.GetCaloHits.length : ℚ))
            ∧ (R.GetCaloHits.length ≠ 0 →
                0 ≤ (shared : ℚ) / (R.GetCaloHits.length : ℚ)
                  ∧ (shared : ℚ) / (R.GetCaloHits.length : ℚ) ≤ 1)
            ∧ (r.GetMC.GetCaloHits.length ≠ 0 →
                0 ≤ (shared : ℚ) / (r.GetMC.GetCaloHits.length : ℚ)
                  ∧ (shared : ℚ) / (r.GetMC.GetCaloHits.length : ℚ) ≤ 1) :=
  ⟨by decide, by decide,
    C8_shared_hits_bounded exampleHitType exampleMC exampleReco (by decide) (by decide)⟩

theorem sharedCount_eq (T R : Node) (hT : T.GetCaloHits.Sorted (· < ·))
    (hR : R.GetCaloHits.Sorted (· < ·)) :
    (set_intersection T.GetCaloHits R.GetCaloHits).length = sharedCount T R := by
  unfold sharedCount
  rw [set_intersection_eq_filter _ _ hT hR]

/-- After `std::sort` with the comparator "more hits first" no node is followed
by a node with more hits. -/
theorem stdSort_moreHits_sorted (l : List Node) :
    (stdSort moreHits l).Pairwise (fun a b => b.GetCaloHits.length ≤ a.GetCaloHits.length) := by
  unfold stdSort
  haveI : IsTotal Node (fun a b => moreHits b a = false) :=
    ⟨fun a b => by
      simp only [moreHits, decide_eq_false_iff_not, not_lt, gt_iff_lt]
      exact le_total _ _⟩
  haveI : IsTrans Node (fun a b => moreHits b a = false) :=
    ⟨fun a b c => by
      simp only [moreHits, decide_eq_false_iff_not, not_lt, gt_iff_lt]
      intro h1 h2
      exact le_trans h2 h1⟩
  have h := List.sorted_insertionSort (fun a b => moreHits b a = false) l
  refine List.Pairwise.imp ?_ h
  intro a b hab
  simpa [moreHits] using hab

theorem mem_sortedMCNodes (mc : MCHierarchy) (T : Node) :
    T ∈ sortedMCNodes mc ↔ T ∈ mc.GetFlattenedNodes [] :=
  (List.perm_insertionSort _ _).mem_iff

theorem mem_sortedRecoNodes (reco : RecoHierarchy) (R : Node) :
    R ∈ sortedRecoNodes reco ↔ R ∈ reco.GetFlattenedNodes [] :=
  (List.perm_insertionSort _ _).mem_iff

/-- C2: for every reconstructed node `R` that `MatchHierarchies` records under
a truth node `T` (hierarchies with pairwise different node addresses and hit
lists in strictly increasing address order): `T` is reconstructable, the
recorded count is the number of hits of `T` that are hits of `R`, no
reconstructable truth node shares more hits with `R`, every reconstructable
truth node before `T` in the sorted vector shares strictly fewer, and a
reconstructable truth node that shares as many has at most the hit count of
`T`. -/
theorem C2_best_match (GetHitType : CaloHit → HitType)
    (mcHierarchy : MCHierarchy) (recoHierarchy : RecoHierarchy)
    (hmc : ((Node.nodesList mcHierarchy.m_rootNodes).map Node.addr).Nodup)
    (hreco : ((Node.nodesList recoHierarchy.m_rootNodes).map Node.addr).Nodup)
    (hsmc : ∀ n ∈ Node.nodesList mcHierarchy.m_rootNodes, n.GetCaloHits.Sorted (· < ·))
    (hsreco : ∀ n ∈ Node.nodesList recoHierarchy.m_rootNodes, n.GetCaloHits.Sorted (· < ·)) :
    ∃ records, MatchHierarchies GetHitType mcHierarchy recoHierarchy [] = Except.ok records
      ∧ ∀ r ∈ records, ∀ R ∈ r.GetRecoMatches,
          IsReconstructable GetHitType mcHierarchy.m_recoCriteria r.GetMC.GetCaloHits = true
          ∧ r.GetSharedHits R = Except.ok (sharedCount r.GetMC R : Int)
          ∧ (∀ T' ∈ mcHierarchy.GetFlattenedNodes [],
              IsReconstructable GetHitType mcHierarchy.m_recoCriteria T'.GetCaloHits = true →
              sharedCount T' R ≤ sharedCount r.GetMC R)
          ∧ (∃ pre post, sortedMCNodes mcHierarchy = pre ++ r.GetMC :: post
              ∧ ∀ T' ∈ pre,
                  IsReconstructable GetHitType mcHierarchy.m_recoCriteria T'.GetCaloHits = true →
                  sharedCount T' R < sharedCount r.GetMC R)
          ∧ (∀ T' ∈ mcHierarchy.GetFlattenedNodes [],
              IsReconstructable GetHitType mcHierarchy.m_recoCriteria T'.GetCaloHits = true →
              sharedCount T' R = sharedCount r.GetMC R →
              T'.GetCaloHits.length ≤ r.GetMC.GetCaloHits.length) := by
  refine ⟨_, MatchHierarchies_ok _ _ _ _, ?_⟩
  intro r hr R hR
  obtain ⟨n, hb, hRmem, hTmem, hsh, _, _⟩ :=
    record_entry GetHitType mcHierarchy recoHierarchy hmc hreco r hr R hR
  obtain ⟨hrec, hn, _, hmax, pre, post, hl, hpre⟩ := bestMatch_some _ _ _ _ _ hb
  have hsortedMC : ∀ T' ∈ sortedMCNodes mcHierarchy, T'.GetCaloHits.Sorted (· < ·) :=
    fun T' hT' => hsmc T' ((sortedMCNodes_perm mcHierarchy).mem_iff.mp hT')
  have hsortedR : R.GetCaloHits.Sorted (· < ·) :=
    hsreco R ((sortedRecoNodes_perm recoHierarchy).mem_iff.mp hRmem)
  have hcount : ∀ T' ∈ sortedMCNodes mcHierarchy,
      (set_intersection T'.GetCaloHits R.GetCaloHits).length = sharedCount T' R :=
    fun T' hT' => sharedCount_eq T' R (hsortedMC T' hT') hsortedR
  have hnT : n = sharedCount r.GetMC R := by rw [hn, hcount _ hTmem]
  have hpre' : ∀ T' ∈ pre,
      IsReconstructable GetHitType mcHierarchy.m_recoCriteria T'.GetCaloHits = true →
      sharedCount T' R < sharedCount r.GetMC R := by
    intro T' hT' hr'
    have hmem : T' ∈ sortedMCNodes mcHierarchy := by rw [hl]; exact List.mem_append_left _ hT'
    rw [← hcount T' hmem, ← hnT]
    exact hpre T' hT' hr'
  refine ⟨hrec, by rw [hsh, hnT], ?_, ⟨pre, post, hl, hpre'⟩, ?_⟩
  · intro T' hT' hr'
    have hmem := (mem_sortedMCNodes mcHierarchy T').mpr hT'
    rw [← hcount T' hmem, ← hnT]
    exact hmax T' hmem hr'
  · intro T' hT' hr' heq
    have hmem := (mem_sortedMCNodes mcHierarchy T').mpr hT'
    have hpw := stdSort_moreHits_sorted (mcHierarchy.GetFlattenedNodes [])
    have hl' : stdSort moreHits (mcHierarchy.GetFlattenedNodes []) = pre ++ r.GetMC :: post := hl
    rw [hl'] at hpw
    rw [hl] at hmem
    rcases List.mem_append.mp hmem with h1 | h1
    · have := hpre' T' h1 hr'
      omega
    · rcases List.mem_cons.mp h1 with h2 | h2
      · rw [h2]
      · have h3 := (List.pairwise_append.mp hpw).2.1
        exact List.rel_of_pairwise_cons h3 h2

/-- C2 at the example hierarchies. -/
theorem C2_witness :
    ((Node.nodesList exampleMC.m_rootNodes).map Node.addr).Nodup
    ∧ ((Node.nodesList exampleReco.m_rootNodes).map Node.addr).Nodup
    ∧ (∀ n ∈ Node.nodesList exampleMC.m_rootNodes, n.GetCaloHits.Sorted (· < ·))
    ∧ (∀ n ∈ Node.nodesList exampleReco.m_rootNodes, n.GetCaloHits.Sorted (· < ·))
    ∧ ∃ records, MatchHierarchies exampleHitType exampleMC exampleReco [] = Except.ok records
      ∧ ∀ r ∈ records, ∀ R ∈ r.GetRecoMatches,
          IsReconstructable exampleHitType exampleMC.m_recoCriteria r.GetMC.GetCaloHits = true
          ∧ r.GetSharedHits R = Except.ok (sharedCount r.GetMC R : Int)
          ∧ (∀ T' ∈ exampleMC.GetFlattenedNodes [],
              IsReconstructable exampleHitType exampleMC.m_recoCriteria T'.GetCaloHits = true →
              sharedCount T' R ≤ sharedCount r.GetMC R)
          ∧ (∃ pre post, sortedMCNodes exampleMC = pre ++ r.GetMC :: post
              ∧ ∀ T' ∈ pre,
                  IsReconstructable exampleHitType exampleMC.m_recoCriteria T'.GetCaloHits = true →
                  sharedCount T' R < sharedCount r.GetMC R)
          ∧ (∀ T' ∈ exampleMC.GetFlattenedNodes [],
              IsReconstructable exampleHitType exampleMC.m_recoCriteria T'.GetCaloHits = true →
              sharedCount T' R = sharedCount r.GetMC R →
              T'.GetCaloHits.length ≤ r.GetMC.GetCaloHits.length) :=
  ⟨by decide, by decide, by decide, by decide,
    C2_best_match exampleHitType exampleMC exampleReco (by decide) (by decide) (by decide)
      (by decide)⟩

/-- The reconstructed nodes with a best node are those that share a hit with a
reconstructable truth node. -/
theorem bestMatch_isSome_iff (g : CaloHit → HitType) (mc : MCHierarchy) (R : Node)
    (hsmc : ∀ n ∈ Node.nodesList mc.m_rootNodes, n.GetCaloHits.Sorted (· < ·))
    (hsR : R.GetCaloHits.Sorted (· < ·)) :
    (∃ (T : Node) (n : Nat), bestMatch g mc R = (some T, n)) ↔
      ∃ T ∈ mc.GetFlattenedNodes [], IsReconstructable g mc.m_recoCriteria T.GetCaloHits = true
        ∧ ∃ h, h ∈ T.GetCaloHits ∧ h ∈ R.GetCaloHits := by
  have hsortedMC : ∀ T' ∈ sortedMCNodes mc, T'.GetCaloHits.Sorted (· < ·) :=
    fun T' hT' => hsmc T' ((sortedMCNodes_perm mc).mem_iff.mp hT')
  constructor
  · rintro ⟨T, n, hb⟩
    have hT := bestMatch_mem g mc R T n hb
    obtain ⟨hrec, hn, hpos, _, _⟩ := bestMatch_some _ _ _ _ _ hb
    refine ⟨T, (mem_sortedMCNodes mc T).mp hT, hrec, ?_⟩
    rw [set_intersection_eq_filter _ _ (hsortedMC T hT) hsR] at hn
    have hne : T.GetCaloHits.filter (fun h => decide (h ∈ R.GetCaloHits)) ≠ [] := by
      intro hnil
      rw [hnil] at hn
      simp at hn
      omega
    obtain ⟨h, hh⟩ := List.exists_mem_of_ne_nil _ hne
    have := List.mem_filter.mp hh
    exact ⟨h, this.1, by simpa using this.2⟩
  · rintro ⟨T, hT, hrec, h, hh1, hh2⟩
    have hT' := (mem_sortedMCNodes mc T).mpr hT
    rcases hb : bestMatch g mc R with ⟨b, n⟩
    cases b with
    | some T0 => exact ⟨T0, n, rfl⟩
    | none =>
      exfalso
      have hnil := bestMatch_none g mc R n hb T hT' hrec
      rw [set_intersection_eq_filter _ _ (hsortedMC T hT') hsR] at hnil
      have : h ∈ T.GetCaloHits.filter (fun h => decide (h ∈ R.GetCaloHits)) :=
        List.mem_filter.mpr ⟨hh1, by simpa using hh2⟩
      rw [hnil] at this
      simp at this

/-- The addresses of the reconstructed nodes in the records of all truth nodes
are pairwise different, and an address occurs among them exactly when it is
the address of a reconstructed node with a best node. -/
theorem recorded_addrs (g : CaloHit → HitType) (mc : MCHierarchy) (reco : RecoHierarchy)
    (hmc : ((Node.nodesList mc.m_rootNodes).map Node.addr).Nodup)
    (hreco : ((Node.nodesList reco.m_rootNodes).map Node.addr).Nodup) :
    ((((sortedMCNodes mc).map (recordOf g mc (sortedRecoNodes reco))).flatMap
        MCMatches.GetRecoMatches).map Node.addr).Nodup
    ∧ ∀ R ∈ sortedRecoNodes reco,
        (R.addr ∈ (((sortedMCNodes mc).map (recordOf g mc (sortedRecoNodes reco))).flatMap
            MCMatches.GetRecoMatches).map Node.addr
          ↔ ∃ (T : Node) (n : Nat), bestMatch g mc R = (some T, n)) := by
  have hndmc := sortedMCNodes_nodup mc hmc
  have hndreco := sortedRecoNodes_nodup reco hreco
  have hform : (((sortedMCNodes mc).map (recordOf g mc (sortedRecoNodes reco))).flatMap
        MCMatches.GetRecoMatches).map Node.addr
      = (sortedMCNodes mc).flatMap (fun T =>
          ((matchesOf g mc T.addr (sortedRecoNodes reco)).map Prod.fst).map Node.addr) := by
    rw [List.flatMap_map, List.map_flatMap]
    rfl
  rw [hform]
  have hmemf : ∀ (T : Node) (a : Nat),
      a ∈ ((matchesOf g mc T.addr (sortedRecoNodes reco)).map Prod.fst).map Node.addr ↔
        ∃ R ∈ sortedRecoNodes reco, R.addr = a
          ∧ ∃ (T' : Node) (n : Nat), bestMatch g mc R = (some T', n) ∧ T'.addr = T.addr := by
    intro T a
    simp only [List.mem_map]
    constructor
    · rintro ⟨R, ⟨⟨R', s⟩, hmem, rfl⟩, rfl⟩
      obtain ⟨hR, T', n, hb, hk, _⟩ := (matchesOf_mem _ _ _ _ _ _).mp hmem
      exact ⟨R', hR, rfl, T', n, hb, hk⟩
    · rintro ⟨R, hR, rfl, T', n, hb, hk⟩
      exact ⟨R, ⟨(R, (n : Int)), (matchesOf_mem _ _ _ _ _ _).mpr ⟨hR, T', n, hb, hk, rfl⟩, rfl⟩, rfl⟩
  constructor
  · rw [List.nodup_flatMap]
    constructor
    · intro T _
      exact hndreco.sublist ((matchesOf_fst_sublist g mc T.addr _).map Node.addr)
    · have hpw : (sortedMCNodes mc).Pairwise (fun a b => a.addr ≠ b.addr) :=
        List.pairwise_map.mp hndmc
      refine List.Pairwise.imp ?_ hpw
      intro T1 T2 hne
      rw [Function.onFun, List.disjoint_left]
      intro a h1 h2
      obtain ⟨R1, hR1, ha1, T1', n1, hb1, hk1⟩ := (hmemf T1 a).mp h1
      obtain ⟨R2, hR2, ha2, T2', n2, hb2, hk2⟩ := (hmemf T2 a).mp h2
      have hRR : R1 = R2 := Node.eq_of_addr_eq _ hndreco _ _ hR1 hR2 (by rw [ha1, ha2])
      subst hRR
      rw [hb1] at hb2
      simp only [Prod.mk.injEq, Option.some.injEq] at hb2
      apply hne
      rw [← hk1, ← hk2, hb2.1]
  · intro R hR
    rw [List.mem_flatMap]
    constructor
    · rintro ⟨T, _, hmem⟩
      obtain ⟨R', hR', ha, T', n, hb, _⟩ := (hmemf T R.addr).mp hmem
      have hRR : R' = R := Node.eq_of_addr_eq _ hndreco _ _ hR' hR ha
      subst hRR
      exact ⟨T', n, hb⟩
    · rintro ⟨T, n, hb⟩
      exact ⟨T, bestMatch_mem g mc R T n hb, (hmemf T R.addr).mpr ⟨R, hR, rfl, T, n, hb, rfl⟩⟩

/-- C6: a reconstructed node occurs in the result of `MatchHierarchies` if and
only if it shares a hit with a reconstructable truth node (hierarchies with
pairwise different node addresses and hit lists in strictly increasing
address order): when it does, its address occurs exactly once among the
reconstructed nodes of all records, and otherwise not at all; wherever it is
recorded, the shared hit count is at least 1. -/
theorem C6_matched_iff_overlap (GetHitType : CaloHit → HitType)
    (mcHierarchy : MCHierarchy) (recoHierarchy : RecoHierarchy)
    (hmc : ((Node.nodesList mcHierarchy.m_rootNodes).map Node.addr).Nodup)
    (hreco : ((Node.nodesList recoHierarchy.m_rootNodes).map Node.addr).Nodup)
    (hsmc : ∀ n ∈ Node.nodesList mcHierarchy.m_rootNodes, n.GetCaloHits.Sorted (· < ·))
    (hsreco : ∀ n ∈ Node.nodesList recoHierarchy.m_rootNodes, n.GetCaloHits.Sorted (· < ·)) :
    ∃ records, MatchHierarchies GetHitType mcHierarchy recoHierarchy [] = Except.ok records
      ∧ ∀ R ∈ recoHierarchy.GetFlattenedNodes [],
          ((∃ T ∈ mcHierarchy.GetFlattenedNodes [],
              IsReconstructable GetHitType mcHierarchy.m_recoCriteria T.GetCaloHits = true
                ∧ ∃ h, h ∈ T.GetCaloHits ∧ h ∈ R.GetCaloHits) →
            ((records.flatMap MCMatches.GetRecoMatches).map Node.addr).count R.addr = 1)
          ∧ (¬ (∃ T ∈ mcHierarchy.GetFlattenedNodes [],
              IsReconstructable GetHitType mcHierarchy.m_recoCriteria T.GetCaloHits = true
                ∧ ∃ h, h ∈ T.GetCaloHits ∧ h ∈ R.GetCaloHits) →
            ((records.flatMap MCMatches.GetRecoMatches).map Node.addr).count R.addr = 0)
          ∧ ∀ r ∈ records, R ∈ r.GetRecoMatches →
              ∃ shared : Int, r.GetSharedHits R = Except.ok shared ∧ 1 ≤ shared := by
  refine ⟨_, MatchHierarchies_ok _ _ _ _, ?_⟩
  intro R hR
  have hRs := (mem_sortedRecoNodes recoHierarchy R).mpr hR
  have hsR : R.GetCaloHits.Sorted (· < ·) :=
    hsreco R ((sortedRecoNodes_perm recoHierarchy).mem_iff.mp hRs)
  have hperm := matchRecords_perm GetHitType mcHierarchy recoHierarchy hmc
  have hperm2 := ((hperm.flatMap_right MCMatches.GetRecoMatches).map Node.addr)
  obtain ⟨hnd, hmem⟩ := recorded_addrs GetHitType mcHierarchy recoHierarchy hmc hreco
  have hiff := bestMatch_isSome_iff GetHitType mcHierarchy R hsmc hsR
  refine ⟨?_, ?_, ?_⟩
  · intro hov
    rw [hperm2.count_eq]
    exact List.count_eq_one_of_mem hnd ((hmem R hRs).mpr (hiff.mpr hov))
  · intro hno
    rw [hperm2.count_eq]
    apply List.count_eq_zero_of_not_mem
    intro hin
    exact hno (hiff.mp ((hmem R hRs).mp hin))
  · intro r hr hRr
    obtain ⟨n, hb, _, _, hsh, _, _⟩ :=
      record_entry GetHitType mcHierarchy recoHierarchy hmc hreco r hr R hRr
    obtain ⟨_, _, hpos, _, _⟩ := bestMatch_some _ _ _ _ _ hb
    exact ⟨(n : Int), hsh, by exact_mod_cast hpos⟩

/-- C6 at the example hierarchies: the reconstructed nodes 200 and 201 are
recorded once each, the node 202, which overlaps only a truth node that is
not reconstructable, is recorded nowhere. -/
theorem C6_witness :
    ((Node.nodesList exampleMC.m_rootNodes).map Node.addr).Nodup
    ∧ ((Node.nodesList exampleReco.m_rootNodes).map Node.addr).Nodup
    ∧ (∀ n ∈ Node.nodesList exampleMC.m_rootNodes, n.GetCaloHits.Sorted (· < ·))
    ∧ (∀ n ∈ Node.nodesList exampleReco.m_rootNodes, n.GetCaloHits.Sorted (· < ·))
    ∧ (∃ records, MatchHierarchies exampleHitType exampleMC exampleReco [] = Except.ok records
      ∧ ∀ R ∈ exampleReco.GetFlattenedNodes [],
          ((∃ T ∈ exampleMC.GetFlattenedNodes [],
              IsReconstructable exampleHitType exampleMC.m_recoCriteria T.GetCaloHits = true
                ∧ ∃ h, h ∈ T.GetCaloHits ∧ h ∈ R.GetCaloHits) →
            ((records.flatMap MCMatches.GetRecoMatches).map Node.addr).count R.addr = 1)
          ∧ (¬ (∃ T ∈ exampleMC.GetFlattenedNodes [],
              IsReconstructable exampleHitType exampleMC.m_recoCriteria T.GetCaloHits = true
                ∧ ∃ h, h ∈ T.GetCaloHits ∧ h ∈ R.GetCaloHits) →
            ((records.flatMap MCMatches.GetRecoMatches).map Node.addr).count R.addr = 0)
          ∧ ∀ r ∈ records, R ∈ r.GetRecoMatches →
              ∃ shared : Int, r.GetSharedHits R = Except.ok shared ∧ 1 ≤ shared)
    ∧ ((matchRecords exampleHitType exampleMC exampleReco []).flatMap
          MCMatches.GetRecoMatches).map Node.addr = [200, 201] :=
  ⟨by decide, by decide, by decide, by decide,
    C6_matched_iff_overlap exampleHitType exampleMC exampleReco (by decide) (by decide)
      (by decide) (by decide),
    by decide⟩

/-! ## Cluster classification -/

theorem dot_longitudinal (v : CartesianVector) :
    v.GetDotProduct { x := 0, y := 0, z := 1 } = v.z := by
  simp [CartesianVector.GetDotProduct]

theorem separateCluster_eq (alg : TransverseAssociationAlgorithm) (c : Cluster)
    (vectors : List Cluster × List Cluster) :
    separateCluster alg c vectors
      = (vectors.1 ++ [c].filter (fun c =>
            decide (c.nCaloHits ≤ alg.m_transverseClusterMaxCaloHits
              ∨ (c.fitSuccessful = true ∧ |c.fitDirection.z| < alg.m_clusterCosAngle
                  ∧ c.lengthSquared
                      < alg.m_transverseClusterMaxLength * alg.m_transverseClusterMaxLength))),
          vectors.2 ++ [c].filter (fun c =>
            decide (alg.m_transverseClusterMaxCaloHits < c.nCaloHits
              ∧ c.fitSuccessful = true ∧ ¬ |c.fitDirection.z| < alg.m_clusterCosAngle
              ∧ c.lengthSquared
                  > alg.m_longitudinalClusterMinLength * alg.m_longitudinalClusterMinLength))) := by
  unfold separateCluster
  simp only [dot_longitudinal]
  by_cases h1 : c.nCaloHits ≤ alg.m_transverseClusterMaxCaloHits
  · have h1' : ¬ alg.m_transverseClusterMaxCaloHits < c.nCaloHits := by omega
    simp [h1, h1']
  · have h1' : alg.m_transverseClusterMaxCaloHits < c.nCaloHits := by omega
    by_cases h2 : c.fitSuccessful = true
    · by_cases h3 : |c.fitDirection.z| < alg.m_clusterCosAngle
      · by_cases h4 : c.lengthSquared
            < alg.m_transverseClusterMaxLength * alg.m_transverseClusterMaxLength
        · simp [h1, h1', h2, h3, h4]
        · simp [h1, h1', h2, h3, h4]
      · by_cases h5 : c.lengthSquared
            > alg.m_longitudinalClusterMinLength * alg.m_longitudinalClusterMinLength
        · have h3' := not_lt.mp h3
          simp [h1, h1', h2, h3, h3', h5, List.filter_cons]
        · have h3' := not_lt.mp h3
          simp [h1, h1', h2, h3, h3', h5, List.filter_cons]
    · simp [h1, h1', h2]

theorem separate_foldl (alg : TransverseAssociationAlgorithm) (inputVector : List Cluster) :
    ∀ vectors : List Cluster × List Cluster,
      inputVector.foldl (fun vectors pCluster => separateCluster alg pCluster vectors) vectors
        = (vectors.1 ++ inputVector.filter (fun c =>
              decide (c.nCaloHits ≤ alg.m_transverseClusterMaxCaloHits
                ∨ (c.fitSuccessful = true ∧ |c.fitDirection.z| < alg.m_clusterCosAngle
                    ∧ c.lengthSquared
                        < alg.m_transverseClusterMaxLength * alg.m_transverseClusterMaxLength))),
            vectors.2 ++ inputVector.filter (fun c =>
              decide (alg.m_transverseClusterMaxCaloHits < c.nCaloHits
                ∧ c.fitSuccessful = true ∧ ¬ |c.fitDirection.z| < alg.m_clusterCosAngle
                ∧ c.lengthSquared
                    > alg.m_longitudinalClusterMinLength * alg.m_longitudinalClusterMinLength))) := by
  induction inputVector with
  | nil => intro vectors; simp
  | cons c rest ih =>
    intro vectors
    rw [List.foldl_cons, ih, separateCluster_eq]
    have hcons : c :: rest = [c] ++ rest := rfl
    simp only [List.append_assoc]
    rw [hcons, List.filter_append, List.filter_append]

/-- C10 (as stated, refuted): a cluster with exactly
`m_transverseClusterMaxCaloHits` hits, which is not below the threshold, and
with a failed fit is put into the transverse set, not into neither set. -/
theorem C10_counterexample :
    ¬ (boundaryCluster.nCaloHits < defaultSettings.m_transverseClusterMaxCaloHits)
    ∧ boundaryCluster.fitSuccessful = false
    ∧ (SeparateInputClusters defaultSettings [boundaryCluster] [] []).1.map Cluster.addr = [1]
    ∧ (SeparateInputClusters defaultSettings [boundaryCluster] [] []).2.map Cluster.addr = [] := by
  decide

/-- C10 (amended): `SeparateInputClusters`, started with empty outputs, puts
into the transverse set, in input order, exactly the clusters whose hit count
is at most `m_transverseClusterMaxCaloHits` and the clusters with more hits
whose fit succeeded, whose direction has `|z|` (the cosine of the angle to the
axis (0,0,1)) below `m_clusterCosAngle` and whose squared length is below
`m_transverseClusterMaxLength ^ 2`; into the longitudinal set exactly the
clusters with more hits than the threshold whose fit succeeded, whose `|z|`
is not below `m_clusterCosAngle` and whose squared length is above
`m_longitudinalClusterMinLength ^ 2`; every other cluster is in neither set. -/
theorem C10_separate_input_clusters (alg : TransverseAssociationAlgorithm)
    (inputVector : List Cluster) :
    SeparateInputClusters alg inputVector [] []
      = (inputVector.filter (fun c =>
            decide (c.nCaloHits ≤ alg.m_transverseClusterMaxCaloHits
              ∨ (c.fitSuccessful = true ∧ |c.fitDirection.z| < alg.m_clusterCosAngle
                  ∧ c.lengthSquared
                      < alg.m_transverseClusterMaxLength * alg.m_transverseClusterMaxLength))),
          inputVector.filter (fun c =>
            decide (alg.m_transverseClusterMaxCaloHits < c.nCaloHits
              ∧ c.fitSuccessful = true ∧ ¬ |c.fitDirection.z| < alg.m_clusterCosAngle
              ∧ c.lengthSquared
                  > alg.m_longitudinalClusterMinLength * alg.m_longitudinalClusterMinLength))) := by
  unfold SeparateInputClusters
  rw [separate_foldl]
  simp

/-! ## Merge maps -/

theorem ClusterList.mem_insert (p x : Nat) (l : ClusterList) :
    x ∈ ClusterList.insert p l ↔ x = p ∨ x ∈ l := by
  induction l with
  | nil => simp [ClusterList.insert]
  | cons q rest ih =>
    simp only [ClusterList.insert]
    split_ifs with h1 h2
    · simp
    · subst h2; simp
    · simp only [List.mem_cons, ih]
      tauto

theorem LArClusterMergeMap.get_nil (k : Nat) : LArClusterMergeMap.get [] k = [] := rfl

theorem LArClusterMergeMap.get_cons (e : Nat × ClusterList) (rest : LArClusterMergeMap) (k : Nat) :
    LArClusterMergeMap.get (e :: rest) k = if e.1 = k then e.2 else LArClusterMergeMap.get rest k :=
  rfl

theorem LArClusterMergeMap.get_of_not_mem (m : LArClusterMergeMap) (k : Nat)
    (h : k ∉ m.map Prod.fst) : LArClusterMergeMap.get m k = [] := by
  induction m with
  | nil => rfl
  | cons e rest ih =>
    simp only [List.map_cons, List.mem_cons, not_or] at h
    rw [LArClusterMergeMap.get_cons, if_neg (fun h' => h.1 h'.symm)]
    exact ih h.2

theorem LArClusterMergeMap.get_of_mem (m : LArClusterMergeMap) (hm : m.Ordered)
    (e : Nat × ClusterList) (he : e ∈ m) : LArClusterMergeMap.get m e.1 = e.2 := by
  induction m with
  | nil => simp at he
  | cons e0 rest ih =>
    unfold LArClusterMergeMap.Ordered at hm
    simp only [List.map_cons, List.pairwise_cons] at hm
    rw [LArClusterMergeMap.get_cons]
    rcases List.mem_cons.mp he with h | h
    · subst h; simp
    · have hlt := hm.1 e.1 (List.mem_map_of_mem Prod.fst h)
      rw [if_neg (by omega)]
      exact ih hm.2 h

theorem LArClusterMergeMap.keys_insertInto (k v : Nat) (m : LArClusterMergeMap) :
    ∀ x, x ∈ (LArClusterMergeMap.insertInto k v m).map Prod.fst ↔ x = k ∨ x ∈ m.map Prod.fst := by
  induction m with
  | nil => intro x; simp [LArClusterMergeMap.insertInto]
  | cons e rest ih =>
    intro x
    simp only [LArClusterMergeMap.insertInto]
    split_ifs with h1 h2
    · simp
    · simp only [List.map_cons, List.mem_cons]
      constructor
      · intro h; exact Or.inr h
      · rintro (h | h)
        · left; rw [h, h2]
        · exact h
    · simp only [List.map_cons, List.mem_cons, ih]
      tauto

theorem LArClusterMergeMap.ordered_insertInto (k v : Nat) (m : LArClusterMergeMap)
    (hm : m.Ordered) : (LArClusterMergeMap.insertInto k v m).Ordered := by
  induction m with
  | nil => simp [LArClusterMergeMap.insertInto, LArClusterMergeMap.Ordered]
  | cons e rest ih =>
    unfold LArClusterMergeMap.Ordered at hm ⊢
    simp only [List.map_cons, List.pairwise_cons] at hm
    simp only [LArClusterMergeMap.insertInto]
    split_ifs with h1 h2
    · simp only [List.map_cons, List.pairwise_cons, List.mem_cons]
      refine ⟨?_, hm.1, hm.2⟩
      rintro x (hx | hx)
      · omega
      · have := hm.1 x hx; omega
    · simp only [List.map_cons, List.pairwise_cons]
      exact hm
    · simp only [List.map_cons, List.pairwise_cons]
      refine ⟨?_, ih hm.2⟩
      intro x hx
      rcases (LArClusterMergeMap.keys_insertInto k v rest x).mp hx with h | h
      · omega
      · exact hm.1 x h

theorem LArClusterMergeMap.get_insertInto (k v : Nat) (m : LArClusterMergeMap)
    (hm : m.Ordered) (k' : Nat) :
    LArClusterMergeMap.get (LArClusterMergeMap.insertInto k v m) k'
      = if k' = k then ClusterList.insert v (LArClusterMergeMap.get m k)
        else LArClusterMergeMap.get m k' := by
  induction m with
  | nil =>
    simp only [LArClusterMergeMap.insertInto, LArClusterMergeMap.get_cons,
      LArClusterMergeMap.get_nil, ClusterList.insert]
    by_cases h : k = k'
    · simp [h]
    · have h' : ¬ k' = k := fun h2 => h h2.symm
      simp [h, h']
  | cons e rest ih =>
    have hm' := hm
    unfold LArClusterMergeMap.Ordered at hm'
    simp only [List.map_cons, List.pairwise_cons] at hm'
    simp only [LArClusterMergeMap.insertInto]
    by_cases hlt : k < e.1
    · rw [if_pos hlt, LArClusterMergeMap.get_cons]
      have hnot : k ∉ (e :: rest).map Prod.fst := by
        simp only [List.map_cons, List.mem_cons, not_or]
        refine ⟨by omega, ?_⟩
        intro hx
        have := hm'.1 k hx
        omega
      by_cases h : k' = k
      · rw [if_pos h.symm, if_pos h, LArClusterMergeMap.get_of_not_mem _ _ hnot]
        rfl
      · rw [if_neg (fun h2 => h h2.symm), if_neg h]
    · rw [if_neg hlt]
      by_cases heq : k = e.1
      · rw [if_pos heq, LArClusterMergeMap.get_cons, LArClusterMergeMap.get_cons,
          LArClusterMergeMap.get_cons]
        by_cases h : k' = k
        · have h1 : e.1 = k' := by rw [h, heq]
          have h2 : e.1 = k := heq.symm
          simp [h, h2]
        · have h1 : ¬ e.1 = k' := by rw [← heq]; exact fun h2 => h h2.symm
          simp [h, h1]
      · rw [if_neg heq, LArClusterMergeMap.get_cons, ih hm'.2, LArClusterMergeMap.get_cons,
          LArClusterMergeMap.get_cons]
        have h2 : ¬ e.1 = k := fun h => heq h.symm
        by_cases h : k' = k
        · have h1 : ¬ e.1 = k' := by rw [h]; exact h2
          simp [h, h2]
        · simp [h]

/-- The edges of a map after `map[key].insert(value)`. -/
theorem LArClusterMergeMap.hasEdge_insertInto (k v : Nat) (m : LArClusterMergeMap)
    (hm : m.Ordered) (k' v' : Nat) :
    (LArClusterMergeMap.insertInto k v m).hasEdge k' v' = true ↔
      (k' = k ∧ v' = v) ∨ m.hasEdge k' v' = true := by
  unfold LArClusterMergeMap.hasEdge
  simp only [decide_eq_true_eq]
  rw [LArClusterMergeMap.get_insertInto k v m hm]
  by_cases h : k' = k
  · rw [if_pos h, ClusterList.mem_insert, h]
    tauto
  · rw [if_neg h]
    tauto

theorem isNeighbouringLoop_iff (fullMap : LArClusterMergeMap) (pFixed : Nat) (merges : ClusterList) :
    isNeighbouringLoop fullMap pFixed merges = true ↔
      ∀ pMiddle ∈ merges, pMiddle ≠ pFixed → fullMap.hasEdge pMiddle pFixed = false := by
  induction merges with
  | nil => simp [isNeighbouringLoop]
  | cons M rest ih =>
    simp only [isNeighbouringLoop]
    split_ifs with h1 h2
    · rw [ih]
      simp only [List.mem_cons, forall_eq_or_imp]
      constructor
      · intro h; exact ⟨fun hne => absurd h1 hne, h⟩
      · intro h; exact h.2
    · simp only [List.mem_cons, forall_eq_or_imp]
      constructor
      · intro h; cases h
      · intro h
        have := h.1 h1
        rw [h2] at this
        cases this
    · rw [ih]
      simp only [List.mem_cons, forall_eq_or_imp]
      constructor
      · intro h
        refine ⟨fun _ => ?_, h⟩
        cases hh : fullMap.hasEdge M pFixed
        · rfl
        · exact absurd hh h2
      · intro h; exact h.2

theorem LArClusterMergeMap.entry_of_get (m : LArClusterMergeMap) (k : Nat)
    (h : LArClusterMergeMap.get m k ≠ []) : (k, LArClusterMergeMap.get m k) ∈ m := by
  induction m with
  | nil => exact absurd rfl h
  | cons e rest ih =>
    rw [LArClusterMergeMap.get_cons] at h ⊢
    by_cases hk : e.1 = k
    · rw [if_pos hk]
      have : e = (k, e.2) := by rw [← hk]
      rw [← this]
      exact List.mem_cons_self _ _
    · rw [if_neg hk] at h ⊢
      exact List.mem_cons_of_mem _ (ih h)

/-- The entries of an ordered map give its edges. -/
theorem LArClusterMergeMap.exists_entry_iff (m : LArClusterMergeMap) (hm : m.Ordered)
    (k v : Nat) (P : ClusterList → Prop) :
    (∃ e ∈ m, e.1 = k ∧ v ∈ e.2 ∧ P e.2) ↔ m.hasEdge k v = true ∧ P (m.get k) := by
  unfold LArClusterMergeMap.hasEdge
  simp only [decide_eq_true_eq]
  constructor
  · rintro ⟨e, he, hk, hv, hP⟩
    have hget := LArClusterMergeMap.get_of_mem m hm e he
    rw [hk] at hget
    rw [hget]
    exact ⟨hv, hP⟩
  · rintro ⟨hv, hP⟩
    have hne : LArClusterMergeMap.get m k ≠ [] := List.ne_nil_of_mem hv
    exact ⟨_, LArClusterMergeMap.entry_of_get m k hne, rfl, hv, hP⟩

/-! ### The dense maps -/

theorem DenseInv_nil : DenseInv ([], []) := by
  refine ⟨?_, ?_, ?_, ?_⟩
  · simp [LArClusterMergeMap.Ordered]
  · simp [LArClusterMergeMap.Ordered]
  · intro p; rfl
  · intro a b; rfl

theorem DenseInv_insert (maps : LArClusterMergeMap × LArClusterMergeMap) (hinv : DenseInv maps)
    (pInner pOuter : Nat) (hne : pInner ≠ pOuter) :
    DenseInv (LArClusterMergeMap.insertInto pInner pOuter maps.1,
      LArClusterMergeMap.insertInto pOuter pInner maps.2) := by
  obtain ⟨h1, h2, h3, h4⟩ := hinv
  refine ⟨LArClusterMergeMap.ordered_insertInto _ _ _ h1,
    LArClusterMergeMap.ordered_insertInto _ _ _ h2, ?_, ?_⟩
  · intro p
    cases hh : (LArClusterMergeMap.insertInto pInner pOuter maps.1).hasEdge p p
    · rfl
    · exfalso
      rcases (LArClusterMergeMap.hasEdge_insertInto _ _ _ h1 _ _).mp hh with ⟨ha, hb⟩ | h
      · exact hne (ha.symm.trans hb)
      · rw [h3 p] at h; cases h
  · intro i o
    rw [Bool.eq_iff_iff, LArClusterMergeMap.hasEdge_insertInto _ _ _ h2,
      LArClusterMergeMap.hasEdge_insertInto _ _ _ h1, h4 i o]
    tauto

theorem fullMergeStep_cases (alg : TransverseAssociationAlgorithm)
    (tI tO : LArTransverseCluster) (maps maps' : LArClusterMergeMap × LArClusterMergeMap)
    (h : fullMergeStep alg tI tO maps = Except.ok maps') :
    maps' = maps
    ∨ (tI.m_pSeedCluster.addr ≠ tO.m_pSeedCluster.addr
      ∧ maps' = (LArClusterMergeMap.insertInto tI.m_pSeedCluster.addr tO.m_pSeedCluster.addr maps.1,
          LArClusterMergeMap.insertInto tO.m_pSeedCluster.addr tI.m_pSeedCluster.addr maps.2)) := by
  unfold fullMergeStep at h
  simp only [LArTransverseCluster.GetSeedCluster] at h
  by_cases h1 : tI.m_pSeedCluster.addr = tO.m_pSeedCluster.addr
  · rw [if_pos h1] at h
    cases h; exact Or.inl rfl
  · rw [if_neg h1] at h
    cases hb₁ : IsExtremalCluster true tI.m_pSeedCluster tO.m_pSeedCluster with
    | error e => rw [hb₁] at h; cases h
    | ok b₁ =>
      rw [hb₁] at h
      cases b₁ with
      | false => cases h; exact Or.inl rfl
      | true =>
        simp only at h
        cases hb₂ : IsExtremalCluster false tO.m_pSeedCluster tI.m_pSeedCluster with
        | error e => rw [hb₂] at h; cases h
        | ok b₂ =>
          rw [hb₂] at h
          cases b₂ with
          | false => cases h; exact Or.inl rfl
          | true =>
            simp only at h
            by_cases h2 : IsTransverseAssociated alg tI tO = true
            · rw [if_pos h2] at h
              cases h
              exact Or.inr ⟨h1, rfl⟩
            · rw [if_neg h2] at h
              cases h; exact Or.inl rfl

theorem fullMergeStep_inv (alg : TransverseAssociationAlgorithm)
    (tI tO : LArTransverseCluster) (maps maps' : LArClusterMergeMap × LArClusterMergeMap)
    (hinv : DenseInv maps) (h : fullMergeStep alg tI tO maps = Except.ok maps') :
    DenseInv maps' := by
  rcases fullMergeStep_cases alg tI tO maps maps' h with h1 | ⟨h1, h2⟩
  · rw [h1]; exact hinv
  · rw [h2]; exact DenseInv_insert maps hinv _ _ h1

theorem fullMergeInner_inv (alg : TransverseAssociationAlgorithm) (tI : LArTransverseCluster)
    (l : List LArTransverseCluster) :
    ∀ maps maps' : LArClusterMergeMap × LArClusterMergeMap, DenseInv maps →
      fullMergeInner alg tI l maps = Except.ok maps' → DenseInv maps' := by
  induction l with
  | nil =>
    intro maps maps' hinv h
    simp only [fullMergeInner] at h
    cases h; exact hinv
  | cons tO rest ih =>
    intro maps maps' hinv h
    simp only [fullMergeInner] at h
    cases hs : fullMergeStep alg tI tO maps with
    | error e => rw [hs] at h; cases h
    | ok m1 =>
      rw [hs] at h
      exact ih m1 maps' (fullMergeStep_inv alg tI tO maps m1 hinv hs) h

theorem fullMergeOuter_inv (alg : TransverseAssociationAlgorithm)
    (tcl l : List LArTransverseCluster) :
    ∀ maps maps' : LArClusterMergeMap × LArClusterMergeMap, DenseInv maps →
      fullMergeOuter alg tcl l maps = Except.ok maps' → DenseInv maps' := by
  induction l with
  | nil =>
    intro maps maps' hinv h
    simp only [fullMergeOuter] at h
    cases h; exact hinv
  | cons tI rest ih =>
    intro maps maps' hinv h
    simp only [fullMergeOuter] at h
    cases hs : fullMergeInner alg tI tcl maps with
    | error e => rw [hs] at h; cases h
    | ok m1 =>
      rw [hs] at h
      exact ih m1 maps' (fullMergeInner_inv alg tI tcl maps m1 hinv hs) h

/-- The dense maps have ordered keys and no edge from a cluster to itself, and
the backward map is the forward map reversed. -/
theorem fillFullMergeMaps_inv (alg : TransverseAssociationAlgorithm)
    (tcl : List LArTransverseCluster) (maps : LArClusterMergeMap × LArClusterMergeMap)
    (h : fillFullMergeMaps alg tcl = Except.ok maps) : DenseInv maps :=
  fullMergeOuter_inv alg tcl tcl _ _ DenseInv_nil h

/-! ### Extremal coordinates -/

theorem extremalLoop_le (useX : Bool) (hits : List CartesianVector) :
    ∀ mn mx : ℚ, mn ≤ mx → (extremalLoop useX hits mn mx).1 ≤ (extremalLoop useX hits mn mx).2 := by
  induction hits with
  | nil => intro mn mx h; exact h
  | cons hit rest ih =>
    intro mn mx h
    simp only [extremalLoop]
    apply ih
    split_ifs <;> linarith

/-- The extremal-coordinate query succeeds for a cluster that has a hit. -/
theorem GetExtremalCoordinatesXZ_ok (c : Cluster) (useX : Bool) (h : c.hitPositions ≠ []) :
    ∃ r, GetExtremalCoordinatesXZ c useX = Except.ok r := by
  unfold GetExtremalCoordinatesXZ
  cases hh : c.hitPositions with
  | nil => exact absurd hh h
  | cons hit rest =>
    have hle : (extremalLoop useX (hit :: rest) FLT_MAX (-FLT_MAX)).1
        ≤ (extremalLoop useX (hit :: rest) FLT_MAX (-FLT_MAX)).2 := by
      simp only [extremalLoop]
      apply extremalLoop_le
      split_ifs <;> linarith
    simp only
    rw [if_neg (not_lt.mpr hle)]
    exact ⟨_, rfl⟩

theorem IsExtremalCluster_ok (isForward : Bool) (c₁ c₂ : Cluster)
    (h₁ : c₁.hitPositions ≠ []) (h₂ : c₂.hitPositions ≠ []) :
    ∃ b, IsExtremalCluster isForward c₁ c₂ = Except.ok b := by
  obtain ⟨r₁, hr₁⟩ := GetExtremalCoordinatesXZ_ok c₁ true h₁
  obtain ⟨r₂, hr₂⟩ := GetExtremalCoordinatesXZ_ok c₂ true h₂
  unfold IsExtremalCluster GetExtremalCoordinatesX
  rw [hr₁, hr₂]
  simp only
  split_ifs <;> exact ⟨_, rfl⟩

theorem fullMergeStep_ok (alg : TransverseAssociationAlgorithm) (tI tO : LArTransverseCluster)
    (maps : LArClusterMergeMap × LArClusterMergeMap)
    (hI : tI.m_pSeedCluster.hitPositions ≠ []) (hO : tO.m_pSeedCluster.hitPositions ≠ []) :
    ∃ maps', fullMergeStep alg tI tO maps = Except.ok maps' := by
  obtain ⟨b₁, hb₁⟩ := IsExtremalCluster_ok true tI.m_pSeedCluster tO.m_pSeedCluster hI hO
  obtain ⟨b₂, hb₂⟩ := IsExtremalCluster_ok false tO.m_pSeedCluster tI.m_pSeedCluster hO hI
  unfold fullMergeStep
  simp only [LArTransverseCluster.GetSeedCluster]
  by_cases h1 : tI.m_pSeedCluster.addr = tO.m_pSeedCluster.addr
  · rw [if_pos h1]; exact ⟨_, rfl⟩
  · rw [if_neg h1, hb₁]
    cases b₁ with
    | false => exact ⟨_, rfl⟩
    | true =>
      simp only
      rw [hb₂]
      cases b₂ with
      | false => exact ⟨_, rfl⟩
      | true =>
        simp only
        by_cases h2 : IsTransverseAssociated alg tI tO = true
        · rw [if_pos h2]; exact ⟨_, rfl⟩
        · rw [if_neg h2]; exact ⟨_, rfl⟩

theorem fullMergeInner_ok (alg : TransverseAssociationAlgorithm) (tI : LArTransverseCluster)
    (hI : tI.m_pSeedCluster.hitPositions ≠ []) (l : List LArTransverseCluster)
    (hl : ∀ t ∈ l, t.m_pSeedCluster.hitPositions ≠ []) :
    ∀ maps, ∃ maps', fullMergeInner alg tI l maps = Except.ok maps' := by
  induction l with
  | nil => intro maps; exact ⟨_, rfl⟩
  | cons tO rest ih =>
    intro maps
    obtain ⟨m1, hm1⟩ := fullMergeStep_ok alg tI tO maps hI (hl tO (List.mem_cons_self _ _))
    simp only [fullMergeInner, hm1]
    exact ih (fun t ht => hl t (List.mem_cons_of_mem _ ht)) m1

theorem fullMergeOuter_ok (alg : TransverseAssociationAlgorithm)
    (tcl : List LArTransverseCluster) (htcl : ∀ t ∈ tcl, t.m_pSeedCluster.hitPositions ≠ [])
    (l : List LArTransverseCluster) (hl : ∀ t ∈ l, t.m_pSeedCluster.hitPositions ≠ []) :
    ∀ maps, ∃ maps', fullMergeOuter alg tcl l maps = Except.ok maps' := by
  induction l with
  | nil => intro maps; exact ⟨_, rfl⟩
  | cons tI rest ih =>
    intro maps
    obtain ⟨m1, hm1⟩ := fullMergeInner_ok alg tI (hl tI (List.mem_cons_self _ _)) tcl htcl maps
    simp only [fullMergeOuter, hm1]
    exact ih (fun t ht => hl t (List.mem_cons_of_mem _ ht)) m1

/-- The dense maps are built without an exception when every seed cluster has
a hit. -/
theorem fillFullMergeMaps_ok (alg : TransverseAssociationAlgorithm)
    (tcl : List LArTransverseCluster) (htcl : ∀ t ∈ tcl, t.m_pSeedCluster.hitPositions ≠ []) :
    ∃ maps, fillFullMergeMaps alg tcl = Except.ok maps :=
  fullMergeOuter_ok alg tcl htcl tcl htcl _

/-! ### The pruning passes -/

/-- The forward pruning loop for one entry of the dense map never throws when
the entry holds no edge to its own key; it adds the edges to the neighbouring
members of the entry, in both maps. -/
theorem pruneForwardEntry_spec (full : LArClusterMergeMap) (I : Nat) (merges : ClusterList)
    (rest : ClusterList) :
    ∀ maps : LArClusterMergeMap × LArClusterMergeMap,
      maps.1.Ordered → maps.2.Ordered → (∀ o ∈ rest, o ≠ I) →
      ∃ maps', pruneForwardEntry full I merges rest maps = Except.ok maps'
        ∧ maps'.1.Ordered ∧ maps'.2.Ordered
        ∧ (∀ i o, maps'.1.hasEdge i o = true ↔
            maps.1.hasEdge i o = true
              ∨ (i = I ∧ o ∈ rest ∧ isNeighbouringLoop full o merges = true))
        ∧ (∀ i o, maps'.2.hasEdge o i = true ↔
            maps.2.hasEdge o i = true
              ∨ (i = I ∧ o ∈ rest ∧ isNeighbouringLoop full o merges = true)) := by
  induction rest with
  | nil =>
    intro maps h1 h2 _
    exact ⟨maps, rfl, h1, h2, by simp, by simp⟩
  | cons O rest ih =>
    intro maps h1 h2 hne
    have hO : O ≠ I := hne O (List.mem_cons_self _ _)
    have hrest : ∀ o ∈ rest, o ≠ I := fun o ho => hne o (List.mem_cons_of_mem _ ho)
    simp only [pruneForwardEntry, if_neg hO]
    by_cases hn : isNeighbouringLoop full O merges = true
    · rw [if_pos hn]
      obtain ⟨maps', hok, ho1, ho2, he1, he2⟩ :=
        ih (LArClusterMergeMap.insertInto I O maps.1, LArClusterMergeMap.insertInto O I maps.2)
          (LArClusterMergeMap.ordered_insertInto _ _ _ h1)
          (LArClusterMergeMap.ordered_insertInto _ _ _ h2) hrest
      refine ⟨maps', hok, ho1, ho2, ?_, ?_⟩
      · intro i o
        rw [he1, LArClusterMergeMap.hasEdge_insertInto _ _ _ h1]
        simp only [List.mem_cons]
        constructor
        · rintro ((⟨ha, hb⟩ | h) | ⟨ha, hb, hc⟩)
          · exact Or.inr ⟨ha, Or.inl hb, by rw [hb]; exact hn⟩
          · exact Or.inl h
          · exact Or.inr ⟨ha, Or.inr hb, hc⟩
        · rintro (h | ⟨ha, hb | hb, hc⟩)
          · exact Or.inl (Or.inr h)
          · exact Or.inl (Or.inl ⟨ha, hb⟩)
          · exact Or.inr ⟨ha, hb, hc⟩
      · intro i o
        rw [he2, LArClusterMergeMap.hasEdge_insertInto _ _ _ h2]
        simp only [List.mem_cons]
        constructor
        · rintro ((⟨ha, hb⟩ | h) | ⟨ha, hb, hc⟩)
          · exact Or.inr ⟨hb, Or.inl ha, by rw [ha]; exact hn⟩
          · exact Or.inl h
          · exact Or.inr ⟨ha, Or.inr hb, hc⟩
        · rintro (h | ⟨ha, hb | hb, hc⟩)
          · exact Or.inl (Or.inr h)
          · exact Or.inl (Or.inl ⟨hb, ha⟩)
          · exact Or.inr ⟨ha, hb, hc⟩
    · rw [if_neg hn]
      obtain ⟨maps', hok, ho1, ho2, he1, he2⟩ := ih maps h1 h2 hrest
      refine ⟨maps', hok, ho1, ho2, ?_, ?_⟩
      · intro i o
        rw [he1]
        simp only [List.mem_cons]
        constructor
        · rintro (h | ⟨ha, hb, hc⟩)
          · exact Or.inl h
          · exact Or.inr ⟨ha, Or.inr hb, hc⟩
        · rintro (h | ⟨ha, hb | hb, hc⟩)
          · exact Or.inl h
          · exact absurd (by rw [← hb]; exact hc) hn
          · exact Or.inr ⟨ha, hb, hc⟩
      · intro i o
        rw [he2]
        simp only [List.mem_cons]
        constructor
        · rintro (h | ⟨ha, hb, hc⟩)
          · exact Or.inl h
          · exact Or.inr ⟨ha, Or.inr hb, hc⟩
        · rintro (h | ⟨ha, hb | hb, hc⟩)
          · exact Or.inl h
          · exact absurd (by rw [← hb]; exact hc) hn
          · exact Or.inr ⟨ha, hb, hc⟩

/-- The forward pruning pass over a list of entries. -/
theorem pruneForward_spec (full : LArClusterMergeMap) (entries : LArClusterMergeMap) :
    ∀ maps : LArClusterMergeMap × LArClusterMergeMap,
      maps.1.Ordered → maps.2.Ordered → (∀ e ∈ entries, ∀ o ∈ e.2, o ≠ e.1) →
      ∃ maps', pruneForward full entries maps = Except.ok maps'
        ∧ maps'.1.Ordered ∧ maps'.2.Ordered
        ∧ (∀ i o, maps'.1.hasEdge i o = true ↔
            maps.1.hasEdge i o = true
              ∨ ∃ e ∈ entries, e.1 = i ∧ o ∈ e.2 ∧ isNeighbouringLoop full o e.2 = true)
        ∧ (∀ i o, maps'.2.hasEdge o i = true ↔
            maps.2.hasEdge o i = true
              ∨ ∃ e ∈ entries, e.1 = i ∧ o ∈ e.2 ∧ isNeighbouringLoop full o e.2 = true) := by
  induction entries with
  | nil =>
    intro maps h1 h2 _
    exact ⟨maps, rfl, h1, h2, by simp, by simp⟩
  | cons e rest ih =>
    intro maps h1 h2 hne
    obtain ⟨m1, hok1, ho1, ho2, he1, he2⟩ :=
      pruneForwardEntry_spec full e.1 e.2 e.2 maps h1 h2 (hne e (List.mem_cons_self _ _))
    obtain ⟨m2, hok2, hp1, hp2, hf1, hf2⟩ :=
      ih m1 ho1 ho2 (fun e' he' => hne e' (List.mem_cons_of_mem _ he'))
    refine ⟨m2, ?_, hp1, hp2, ?_, ?_⟩
    · simp only [pruneForward, hok1]
      exact hok2
    · intro i o
      rw [hf1, he1]
      simp only [List.mem_cons, exists_eq_or_imp]
      constructor
      · rintro ((h | ⟨ha, hb, hc⟩) | h)
        · exact Or.inl h
        · exact Or.inr (Or.inl ⟨ha.symm, hb, hc⟩)
        · exact Or.inr (Or.inr h)
      · rintro (h | ⟨ha, hb, hc⟩ | h)
        · exact Or.inl (Or.inl h)
        · exact Or.inl (Or.inr ⟨ha.symm, hb, hc⟩)
        · exact Or.inr h
    · intro i o
      rw [hf2, he2]
      simp only [List.mem_cons, exists_eq_or_imp]
      constructor
      · rintro ((h | ⟨ha, hb, hc⟩) | h)
        · exact Or.inl h
        · exact Or.inr (Or.inl ⟨ha.symm, hb, hc⟩)
        · exact Or.inr (Or.inr h)
      · rintro (h | ⟨ha, hb, hc⟩ | h)
        · exact Or.inl (Or.inl h)
        · exact Or.inl (Or.inr ⟨ha.symm, hb, hc⟩)
        · exact Or.inr h

/-- The backward pruning loop is the forward pruning loop with the two output
maps exchanged. -/
theorem pruneBackwardEntry_eq (full : LArClusterMergeMap) (O : Nat) (merges rest : ClusterList) :
    ∀ maps : LArClusterMergeMap × LArClusterMergeMap,
      pruneBackwardEntry full O merges rest maps
        = Except.map Prod.swap (pruneForwardEntry full O merges rest maps.swap) := by
  induction rest with
  | nil => intro maps; rfl
  | cons I rest ih =>
    intro maps
    simp only [pruneBackwardEntry, pruneForwardEntry]
    by_cases h1 : I = O
    · rw [if_pos h1, if_pos h1]; rfl
    · rw [if_neg h1, if_neg h1]
      by_cases h2 : isNeighbouringLoop full I merges = true
      · rw [if_pos h2, if_pos h2, ih]; rfl
      · rw [if_neg h2, if_neg h2, ih]

theorem pruneBackward_eq (full : LArClusterMergeMap) (entries : LArClusterMergeMap) :
    ∀ maps : LArClusterMergeMap × LArClusterMergeMap,
      pruneBackward full entries maps
        = Except.map Prod.swap (pruneForward full entries maps.swap) := by
  induction entries with
  | nil => intro maps; rfl
  | cons e rest ih =>
    intro maps
    simp only [pruneBackward, pruneForward, pruneBackwardEntry_eq]
    cases h : pruneForwardEntry full e.1 e.2 e.2 maps.swap with
    | error err => rfl
    | ok m1 =>
      simp only [Except.map]
      rw [ih]
      rfl

/-- The backward pruning pass over a list of entries of the dense backward
map. -/
theorem pruneBackward_spec (full : LArClusterMergeMap) (entries : LArClusterMergeMap)
    (maps : LArClusterMergeMap × LArClusterMergeMap)
    (h1 : maps.1.Ordered) (h2 : maps.2.Ordered) (hne : ∀ e ∈ entries, ∀ i ∈ e.2, i ≠ e.1) :
    ∃ maps', pruneBackward full entries maps = Except.ok maps'
      ∧ (∀ i o, maps'.1.hasEdge i o = true ↔
          maps.1.hasEdge i o = true
            ∨ ∃ e ∈ entries, e.1 = o ∧ i ∈ e.2 ∧ isNeighbouringLoop full i e.2 = true) := by
  obtain ⟨m, hok, _, _, _, he2⟩ := pruneForward_spec full entries maps.swap h2 h1 hne
  refine ⟨m.swap, ?_, ?_⟩
  · rw [pruneBackward_eq, hok]; rfl
  · intro i o
    exact he2 o i

/-- C3: when `FillClusterMergeMaps`, started with empty output maps, returns,
an edge inner→outer is in the final forward merge map if and only if it is an
edge of the dense forward map and there is no third cluster M, different from
inner and outer, with dense edges inner→M and M→outer; and it does return
when every seed cluster has a hit. -/
theorem C3_pruned_forward_map (alg : TransverseAssociationAlgorithm)
    (transverseClusterList : List LArTransverseCluster) :
    (∀ forwardMergeMap backwardMergeMap,
      FillClusterMergeMaps alg transverseClusterList [] []
          = Except.ok (forwardMergeMap, backwardMergeMap) →
      ∃ fullForwardMergeMap fullBackwardMergeMap,
        fillFullMergeMaps alg transverseClusterList
            = Except.ok (fullForwardMergeMap, fullBackwardMergeMap)
        ∧ ∀ pInner pOuter,
            forwardMergeMap.hasEdge pInner pOuter = true ↔
              fullForwardMergeMap.hasEdge pInner pOuter = true
                ∧ ¬ ∃ pMiddle, pMiddle ≠ pInner ∧ pMiddle ≠ pOuter
                    ∧ fullForwardMergeMap.hasEdge pInner pMiddle = true
                    ∧ fullForwardMergeMap.hasEdge pMiddle pOuter = true)
    ∧ ((∀ t ∈ transverseClusterList, t.m_pSeedCluster.hitPositions ≠ []) →
        ∃ forwardMergeMap backwardMergeMap,
          FillClusterMergeMaps alg transverseClusterList [] []
            = Except.ok (forwardMergeMap, backwardMergeMap)) := by
  -- what the two passes make of dense maps that satisfy the invariant
  have key : ∀ F B : LArClusterMergeMap,
      fillFullMergeMaps alg transverseClusterList = Except.ok (F, B) →
      ∃ f b, FillClusterMergeMaps alg transverseClusterList [] [] = Except.ok (f, b)
        ∧ ∀ pInner pOuter,
            f.hasEdge pInner pOuter = true ↔
              F.hasEdge pInner pOuter = true
                ∧ ¬ ∃ pMiddle, pMiddle ≠ pInner ∧ pMiddle ≠ pOuter
                    ∧ F.hasEdge pInner pMiddle = true ∧ F.hasEdge pMiddle pOuter = true := by
    intro F B hfill
    obtain ⟨hF, hB, hself, htr⟩ := fillFullMergeMaps_inv alg transverseClusterList (F, B) hfill
    simp only at hF hB hself htr
    have hselfB : ∀ p, B.hasEdge p p = false := fun p => by rw [htr p p]; exact hself p
    have hneF : ∀ e ∈ F, ∀ o ∈ e.2, o ≠ e.1 := by
      intro e he o ho heq
      have hget := LArClusterMergeMap.get_of_mem F hF e he
      have : F.hasEdge e.1 e.1 = true := by
        unfold LArClusterMergeMap.hasEdge
        rw [hget, ← heq]
        simpa using ho
      rw [hself e.1] at this
      cases this
    have hneB : ∀ e ∈ B, ∀ o ∈ e.2, o ≠ e.1 := by
      intro e he o ho heq
      have hget := LArClusterMergeMap.get_of_mem B hB e he
      have : B.hasEdge e.1 e.1 = true := by
        unfold LArClusterMergeMap.hasEdge
        rw [hget, ← heq]
        simpa using ho
      rw [hselfB e.1] at this
      cases this
    have hnil : LArClusterMergeMap.Ordered [] := by simp [LArClusterMergeMap.Ordered]
    obtain ⟨m1, hok1, ho1, ho2, he1, _⟩ := pruneForward_spec F F ([], []) hnil hnil hneF
    obtain ⟨m2, hok2, he2⟩ := pruneBackward_spec B B m1 ho1 ho2 hneB
    refine ⟨m2.1, m2.2, ?_, ?_⟩
    · unfold FillClusterMergeMaps
      rw [hfill]
      simp only [hok1, hok2]
    · intro pInner pOuter
      rw [he2, he1]
      rw [LArClusterMergeMap.exists_entry_iff F hF pInner pOuter
        (fun s => isNeighbouringLoop F pOuter s = true)]
      rw [LArClusterMergeMap.exists_entry_iff B hB pOuter pInner
        (fun s => isNeighbouringLoop B pInner s = true)]
      rw [isNeighbouringLoop_iff, isNeighbouringLoop_iff, htr pInner pOuter]
      have hempty : LArClusterMergeMap.hasEdge [] pInner pOuter = false := rfl
      simp only [hempty, Bool.false_eq_true, false_or]
      have hmemF : ∀ M, M ∈ F.get pInner ↔ F.hasEdge pInner M = true := by
        intro M; unfold LArClusterMergeMap.hasEdge; simp
      have hmemB : ∀ M, M ∈ B.get pOuter ↔ F.hasEdge M pOuter = true := by
        intro M
        rw [← htr M pOuter]
        unfold LArClusterMergeMap.hasEdge; simp
      constructor
      · rintro (⟨hedge, hnb⟩ | ⟨hedge, hnb⟩)
        · refine ⟨hedge, ?_⟩
          rintro ⟨M, _, hMO, h1, h2⟩
          have := hnb M ((hmemF M).mpr h1) hMO
          rw [h2] at this
          cases this
        · refine ⟨hedge, ?_⟩
          rintro ⟨M, hMI, _, h1, h2⟩
          have := hnb M ((hmemB M).mpr h2) hMI
          rw [htr pInner M, h1] at this
          cases this
      · rintro ⟨hedge, hno⟩
        refine Or.inl ⟨hedge, ?_⟩
        intro M hM hMO
        cases hh : F.hasEdge M pOuter
        · rfl
        · exfalso
          apply hno
          refine ⟨M, ?_, hMO, (hmemF M).mp hM, hh⟩
          intro hMI
          have := (hmemF M).mp hM
          rw [hMI, hself pInner] at this
          cases this
  constructor
  · intro f b hret
    cases hfill : fillFullMergeMaps alg transverseClusterList with
    | error e =>
      unfold FillClusterMergeMaps at hret
      rw [hfill] at hret
      cases hret
    | ok maps =>
      obtain ⟨F, B⟩ := maps
      obtain ⟨f', b', hret', hiff⟩ := key F B hfill
      rw [hret] at hret'
      simp only [Except.ok.injEq, Prod.mk.injEq] at hret'
      refine ⟨F, B, rfl, ?_⟩
      rw [hret'.1]
      exact hiff
  · intro hhits
    obtain ⟨⟨F, B⟩, hfill⟩ := fillFullMergeMaps_ok alg transverseClusterList hhits
    obtain ⟨f, b, hret, _⟩ := key F B hfill
    exact ⟨f, b, hret⟩

/-- C3 at the scenario X, Y, Z: the dense forward map holds X→Y, X→Z and Y→Z,
the final forward map holds exactly X→Y and Y→Z. -/
theorem C3_witness :
    ((∀ forwardMergeMap backwardMergeMap,
        FillClusterMergeMaps defaultSettings scenarioXYZ [] []
            = Except.ok (forwardMergeMap, backwardMergeMap) →
        ∃ fullForwardMergeMap fullBackwardMergeMap,
          fillFullMergeMaps defaultSettings scenarioXYZ
              = Except.ok (fullForwardMergeMap, fullBackwardMergeMap)
          ∧ ∀ pInner pOuter,
              forwardMergeMap.hasEdge pInner pOuter = true ↔
                fullForwardMergeMap.hasEdge pInner pOuter = true
                  ∧ ¬ ∃ pMiddle, pMiddle ≠ pInner ∧ pMiddle ≠ pOuter
                      ∧ fullForwardMergeMap.hasEdge pInner pMiddle = true
                      ∧ fullForwardMergeMap.hasEdge pMiddle pOuter = true)
      ∧ ((∀ t ∈ scenarioXYZ, t.m_pSeedCluster.hitPositions ≠ []) →
          ∃ forwardMergeMap backwardMergeMap,
            FillClusterMergeMaps defaultSettings scenarioXYZ [] []
              = Except.ok (forwardMergeMap, backwardMergeMap)))
    ∧ (∀ t ∈ scenarioXYZ, t.m_pSeedCluster.hitPositions ≠ [])
    ∧ (fillFullMergeMaps defaultSettings scenarioXYZ).toOption
        = some ([(1, [2, 3]), (2, [3])], [(2, [1]), (3, [1, 2])])
    ∧ (FillClusterMergeMaps defaultSettings scenarioXYZ [] []).toOption
        = some ([(1, [2]), (2, [3])], [(2, [1]), (3, [2])]) :=
  ⟨C3_pruned_forward_map defaultSettings scenarioXYZ, by decide!, by decide!, by decide!⟩

/-! ## Building the truth hierarchy -/

theorem MCToHitsMap.hitsOf_nil (p : Nat) : MCToHitsMap.hitsOf [] p = [] := rfl

theorem MCToHitsMap.hitsOf_cons (e : Nat × List CaloHit) (rest : MCToHitsMap) (p : Nat) :
    MCToHitsMap.hitsOf (e :: rest) p = if e.1 = p then e.2 else MCToHitsMap.hitsOf rest p := by
  unfold MCToHitsMap.hitsOf
  simp only [MCToHitsMap.find]
  split_ifs <;> rfl

theorem MCToHitsMap.hitsOf_emplaceBack (k : Nat) (h : CaloHit) (m : MCToHitsMap) (p : Nat) :
    MCToHitsMap.hitsOf (MCToHitsMap.emplaceBack k h m) p
      = if p = k then MCToHitsMap.hitsOf m k ++ [h] else MCToHitsMap.hitsOf m p := by
  induction m with
  | nil =>
    simp only [MCToHitsMap.emplaceBack, MCToHitsMap.hitsOf_cons, MCToHitsMap.hitsOf_nil]
    by_cases hp : p = k
    · simp [hp]
    · have hp' : ¬ k = p := fun h' => hp h'.symm
      simp [hp, hp']
  | cons e rest ih =>
    simp only [MCToHitsMap.emplaceBack]
    by_cases he : e.1 = k
    · rw [if_pos he]
      simp only [MCToHitsMap.hitsOf_cons]
      by_cases hp : p = k
      · have h1 : e.1 = p := by rw [hp]; exact he
        simp [hp, he]
      · have h1 : ¬ e.1 = p := by rw [he]; exact fun h' => hp h'.symm
        simp [hp, h1]
    · rw [if_neg he]
      simp only [MCToHitsMap.hitsOf_cons, ih]
      by_cases hp : p = k
      · have h1 : ¬ e.1 = p := by rw [hp]; exact he
        simp [hp, he]
      · simp [hp]

/-- The hits mapped to a particle after the first loop of `FillHierarchy`: the
hits of the list whose main MC particle it is, in list order. -/
theorem hitsOf_fillMcToHitsMap (g : CaloHit → Option Nat) (hits : List CaloHit) :
    ∀ (m : MCToHitsMap) (p : Nat),
      MCToHitsMap.hitsOf (fillMcToHitsMap g hits m) p
        = MCToHitsMap.hitsOf m p ++ hits.filter (fun h => decide (g h = some p)) := by
  induction hits with
  | nil => intro m p; simp [fillMcToHitsMap]
  | cons h rest ih =>
    intro m p
    simp only [fillMcToHitsMap]
    cases hg : g h with
    | none =>
      simp only
      rw [ih, List.filter_cons_of_neg (by simp [hg])]
    | some k =>
      simp only
      rw [ih, MCToHitsMap.hitsOf_emplaceBack]
      by_cases hp : p = k
      · rw [if_pos hp, List.filter_cons_of_pos (by simp [hg, hp]), hp]
        simp
      · rw [if_neg hp, List.filter_cons_of_neg (by simp [hg]; exact fun h' => hp h'.symm)]

theorem collectHits_perm (m : MCToHitsMap) (parts : List MCParticle) :
    ∀ acc : List CaloHit,
      (collectHits m parts acc).Perm ((parts.map MCParticle.addr).flatMap m.hitsOf ++ acc) := by
  induction parts with
  | nil => intro acc; simp [collectHits]
  | cons p rest ih =>
    intro acc
    simp only [collectHits, List.map_cons, List.flatMap_cons]
    cases hf : MCToHitsMap.find m p.addr with
    | none =>
      have h0 : MCToHitsMap.hitsOf m p.addr = [] := by
        unfold MCToHitsMap.hitsOf; rw [hf]; rfl
      simp only [h0, List.nil_append]
      exact ih acc
    | some hs =>
      have h0 : MCToHitsMap.hitsOf m p.addr = hs := by
        unfold MCToHitsMap.hitsOf; rw [hf]; rfl
      simp only [h0]
      refine (ih (hs ++ acc)).trans ?_
      rw [← List.append_assoc]
      exact List.Perm.append_right _ List.perm_append_comm

theorem sortByAddress_perm (l : List Nat) : (sortByAddress l).Perm l :=
  List.perm_insertionSort _ _

theorem Node.create_particles (a : Nat) (parts : List MCParticle) (hits : List CaloHit) :
    (Node.create a parts hits).GetParticles = sortByAddress (parts.map MCParticle.addr) := rfl

theorem Node.create_hits (a : Nat) (parts : List MCParticle) (hits : List CaloHit) :
    (Node.create a parts hits).GetCaloHits = sortByAddress hits := rfl

theorem Node.addChildren_particles (n : Node) (cs : List Node) :
    (n.addChildren cs).GetParticles = n.GetParticles := by
  cases n; rfl

theorem Node.addChildren_hits (n : Node) (cs : List Node) :
    (n.addChildren cs).GetCaloHits = n.GetCaloHits := by
  cases n; rfl

theorem Node.addChildren_children (n : Node) (cs : List Node) :
    (n.addChildren cs).GetChildren = n.GetChildren ++ cs := by
  cases n; rfl

theorem Node.create_children (a : Nat) (parts : List MCParticle) (hits : List CaloHit) :
    (Node.create a parts hits).GetChildren = [] := rfl

theorem Node.addChildren_nil (n : Node) : n.addChildren [] = n := by
  cases n; simp [Node.addChildren]

theorem forestParticles_append (l₁ l₂ : List Node) :
    forestParticles (l₁ ++ l₂) = forestParticles l₁ ++ forestParticles l₂ := by
  unfold forestParticles
  rw [Node.nodesList_append, List.flatMap_append]

theorem forestHits_append (l₁ l₂ : List Node) :
    forestHits (l₁ ++ l₂) = forestHits l₁ ++ forestHits l₂ := by
  unfold forestHits
  rw [Node.nodesList_append, List.flatMap_append]

theorem Node.nodesList_singleton (n : Node) :
    Node.nodesList [n] = n :: Node.nodesList n.GetChildren := by
  simp [Node.nodesList, Node.nodes_eq]

theorem Subperm_append {l₁ l₂ r₁ r₂ : List Nat} (h₁ : l₁.Subperm l₂) (h₂ : r₁.Subperm r₂) :
    (l₁ ++ r₁).Subperm (l₂ ++ r₂) :=
  ((List.subperm_append_right r₁).mpr h₁).trans ((List.subperm_append_left l₂).mpr h₂)

theorem Subperm_nodup {l₁ l₂ : List Nat} (h : l₁.Subperm l₂) (hnd : l₂.Nodup) : l₁.Nodup := by
  obtain ⟨l, hp, hs⟩ := h
  exact hp.nodup_iff.mp (hnd.sublist hs)

theorem BuiltFrom_nil (m : MCToHitsMap) (addrs : List Nat) : BuiltFrom m [] addrs := by
  refine ⟨?_, ?_⟩
  · intro n hn; simp [Node.nodesList] at hn
  · simp only [forestParticles, Node.nodesList, List.flatMap_nil]
    exact (List.nil_sublist _).subperm

theorem BuiltFrom_append (m : MCToHitsMap) (n₁ n₂ : List Node) (a₁ a₂ : List Nat)
    (h₁ : BuiltFrom m n₁ a₁) (h₂ : BuiltFrom m n₂ a₂) : BuiltFrom m (n₁ ++ n₂) (a₁ ++ a₂) := by
  refine ⟨?_, ?_⟩
  · intro n hn
    rw [Node.nodesList_append] at hn
    rcases List.mem_append.mp hn with h | h
    · exact h₁.1 n h
    · exact h₂.1 n h
  · rw [forestParticles_append]
    exact Subperm_append h₁.2 h₂.2

theorem BuiltFrom_mono (m : MCToHitsMap) (nodes : List Node) (a a' : List Nat)
    (h : BuiltFrom m nodes a) (ha : a.Subperm a') : BuiltFrom m nodes a' :=
  ⟨h.1, h.2.trans ha⟩

/-- A node created from `parts` with the hits gathered from the map, with the
children `cs` appended. -/
theorem BuiltFrom_node (m : MCToHitsMap) (a : Nat) (parts : List MCParticle)
    (cs : List Node) (caddrs : List Nat) (hcs : BuiltFrom m cs caddrs) :
    BuiltFrom m [(Node.create a parts (collectHits m parts [])).addChildren cs]
      (parts.map MCParticle.addr ++ caddrs) := by
  have hparts : ((Node.create a parts (collectHits m parts [])).addChildren cs).GetParticles.Perm
      (parts.map MCParticle.addr) := by
    rw [Node.addChildren_particles, Node.create_particles]
    exact sortByAddress_perm _
  refine ⟨?_, ?_⟩
  · intro n hn
    rw [Node.nodesList_singleton, Node.addChildren_children, Node.create_children,
      List.nil_append] at hn
    rcases List.mem_cons.mp hn with h | h
    · rw [h, Node.addChildren_hits, Node.create_hits]
      refine (sortByAddress_perm _).trans ?_
      refine (collectHits_perm m parts []).trans ?_
      rw [List.append_nil]
      exact List.Perm.flatMap_right _ hparts.symm
    · exact hcs.1 n h
  · unfold forestParticles
    rw [Node.nodesList_singleton, Node.addChildren_children, Node.create_children,
      List.nil_append, List.flatMap_cons]
    exact Subperm_append hparts.subperm hcs.2

theorem BuiltFrom_leaf (m : MCToHitsMap) (a : Nat) (parts : List MCParticle) :
    BuiltFrom m [Node.create a parts (collectHits m parts [])] (parts.map MCParticle.addr) := by
  have h := BuiltFrom_node m a parts [] [] (BuiltFrom_nil m [])
  rw [Node.addChildren_nil, List.append_nil] at h
  exact h

/-! ### Descendants -/

theorem MCParticle.descendentsList_cons (d : MCParticle) (ds : List MCParticle) :
    MCParticle.descendentsList (d :: ds)
      = (d :: d.descendents) ++ MCParticle.descendentsList ds := by
  simp [MCParticle.descendentsList]

theorem MCParticle.descendents_mk (a : Nat) (pdg : Int) (ds : List MCParticle) :
    (MCParticle.mk a pdg ds).descendents = MCParticle.descendentsList ds := by
  simp [MCParticle.descendents]

theorem MCParticle.subtreeAddrs_mk (a : Nat) (pdg : Int) (ds : List MCParticle) :
    (MCParticle.mk a pdg ds).subtreeAddrs = a :: (MCParticle.descendentsList ds).map MCParticle.addr := by
  simp [MCParticle.subtreeAddrs, MCParticle.descendents_mk, MCParticle.addr]

theorem MCParticle.descendentsList_map_addr_cons (d : MCParticle) (ds : List MCParticle) :
    (MCParticle.descendentsList (d :: ds)).map MCParticle.addr
      = d.subtreeAddrs ++ (MCParticle.descendentsList ds).map MCParticle.addr := by
  rw [MCParticle.descendentsList_cons, List.map_append]
  rfl

theorem MCParticle.classifiedList_cons (a : Nat) (pdg : Int) (dds ds : List MCParticle) :
    MCParticle.classifiedList (MCParticle.mk a pdg dds :: ds)
      = (if isShowerPdg pdg then [(DescendentKind.leadingShower, MCParticle.mk a pdg dds)]
         else if isNeutronPdg pdg then [(DescendentKind.leadingNeutron, MCParticle.mk a pdg dds)]
         else (DescendentKind.track, MCParticle.mk a pdg dds) :: MCParticle.classifiedList dds)
        ++ MCParticle.classifiedList ds := by
  simp only [MCParticle.classifiedList, MCParticle.classified]

theorem MCParticle.classifiedDescendents_mk (a : Nat) (pdg : Int) (ds : List MCParticle) :
    (MCParticle.mk a pdg ds).classifiedDescendents = MCParticle.classifiedList ds := rfl

mutual
/-- The particles that the four-argument walk visits below a particle, each
with what it stands for, are exactly the descendants of the particle. -/
theorem MCParticle.classified_expand :
    ∀ p : MCParticle,
      p.classifiedDescendents.flatMap expandClassified = p.descendents.map MCParticle.addr
  | MCParticle.mk a pdg ds => by
    rw [MCParticle.classifiedDescendents_mk, MCParticle.descendents_mk]
    exact MCParticle.classifiedList_expand ds
theorem MCParticle.classifiedList_expand :
    ∀ l : List MCParticle,
      (MCParticle.classifiedList l).flatMap expandClassified
        = (MCParticle.descendentsList l).map MCParticle.addr
  | [] => by simp [MCParticle.classifiedList, MCParticle.descendentsList]
  | MCParticle.mk a pdg dds :: ds => by
    rw [MCParticle.classifiedList_cons, List.flatMap_append, MCParticle.classifiedList_expand ds,
      MCParticle.descendentsList_map_addr_cons]
    congr 1
    by_cases hs : isShowerPdg pdg = true
    · rw [if_pos hs]
      simp [expandClassified]
    · rw [if_neg hs]
      by_cases hn : isNeutronPdg pdg = true
      · rw [if_pos hn]
        simp [expandClassified]
      · rw [if_neg hn, List.flatMap_cons, MCParticle.classifiedList_expand dds,
          MCParticle.subtreeAddrs_mk]
        simp [expandClassified, MCParticle.addr]
end

theorem perm_swap_front (A X R : List Nat) : (A ++ (X ++ R)).Perm (X ++ (A ++ R)) := by
  rw [← List.append_assoc, ← List.append_assoc]
  exact List.Perm.append_right _ List.perm_append_comm

/-- The visited descendants split by the list they go to: the track particles,
the leading showers with their descendants and the leading neutrons with
theirs make up the visited descendants with what they stand for. -/
theorem classified_partition (C : List (DescendentKind × MCParticle)) :
    ((((C.filter (fun e => decide (e.1 ∈ [DescendentKind.track]))).map Prod.snd).map
          MCParticle.addr)
        ++ (((C.filter (fun e => decide (e.1 ∈ [DescendentKind.leadingShower]))).map
              Prod.snd).flatMap MCParticle.subtreeAddrs
            ++ ((C.filter (fun e => decide (e.1 ∈ [DescendentKind.leadingNeutron]))).map
              Prod.snd).flatMap MCParticle.subtreeAddrs)).Perm
      (C.flatMap expandClassified) := by
  induction C with
  | nil => simp
  | cons e rest ih =>
    obtain ⟨k, q⟩ := e
    cases k with
    | track =>
      rw [List.filter_cons_of_pos (by simp), List.filter_cons_of_neg (by simp),
        List.filter_cons_of_neg (by simp), List.flatMap_cons]
      simp only [List.map_cons, expandClassified, if_true, List.cons_append, List.nil_append]
      exact List.Perm.cons _ ih
    | leadingShower =>
      rw [List.filter_cons_of_neg (by simp), List.filter_cons_of_pos (by simp),
        List.filter_cons_of_neg (by simp), List.flatMap_cons]
      simp only [List.map_cons, List.flatMap_cons, expandClassified, reduceCtorEq, if_false,
        List.append_assoc]
      exact (perm_swap_front _ _ _).trans (List.Perm.append_left _ ih)
    | leadingNeutron =>
      rw [List.filter_cons_of_neg (by simp), List.filter_cons_of_neg (by simp),
        List.filter_cons_of_pos (by simp), List.flatMap_cons]
      simp only [List.map_cons, List.flatMap_cons, expandClassified, reduceCtorEq, if_false]
      refine List.Perm.trans (List.Perm.append_left _ (perm_swap_front _ _ _)) ?_
      exact (perm_swap_front _ _ _).trans (List.Perm.append_left _ ih)

/-- The visited descendants that go to some of the lists are taken from the
descendants, none more often than it occurs there. -/
theorem descendentsOfKind_subperm (p : MCParticle) (kinds : List DescendentKind) :
    ((p.descendentsOfKind kinds).map MCParticle.addr).Subperm (p.descendents.map MCParticle.addr) := by
  rw [← MCParticle.classified_expand p]
  unfold MCParticle.descendentsOfKind
  generalize p.classifiedDescendents = C
  induction C with
  | nil => simp
  | cons e rest ih =>
    have hsub : [e.2.addr].Subperm (expandClassified e) := by
      unfold expandClassified
      split_ifs
      · exact List.Subperm.refl _
      · unfold MCParticle.subtreeAddrs
        simp only [List.map_cons]
        exact (List.Sublist.cons₂ _ (List.nil_sublist _)).subperm
    rw [List.flatMap_cons]
    by_cases hk : e.1 ∈ kinds
    · rw [List.filter_cons_of_pos (by simpa using hk)]
      simp only [List.map_cons]
      exact @Subperm_append [e.2.addr] _ _ _ hsub ih
    · rw [List.filter_cons_of_neg (by simpa using hk)]
      have h0 : ([] : List Nat).Subperm (expandClassified e) := (List.nil_sublist _).subperm
      exact @Subperm_append [] _ _ _ h0 ih

/-! ### The building functions -/

theorem GetAllDescendentMCParticles_addrs (p : MCParticle) :
    (GetAllDescendentMCParticles p [p]).map MCParticle.addr = p.subtreeAddrs := rfl

theorem GetAllDescendentMCParticlesShared_addrs (p : MCParticle) :
    ((GetAllDescendentMCParticlesShared p [p] []).1.map MCParticle.addr).Subperm p.subtreeAddrs := by
  unfold GetAllDescendentMCParticlesShared MCParticle.subtreeAddrs
  simp only [List.singleton_append, List.map_cons]
  exact (List.subperm_cons _).mpr (descendentsOfKind_subperm p _)

theorem fillNodeFlat_ok (crit : ReconstructabilityCriteria) (m : MCToHitsMap) (p : MCParticle)
    (alloc : Nat) : BuiltFrom m (fillNodeFlat crit m p alloc).1 p.subtreeAddrs := by
  unfold fillNodeFlat
  cases crit.m_removeNeutrons with
  | false =>
    simp only [Bool.not_false, if_true]
    have hne : (GetAllDescendentMCParticles p [p]).isEmpty = false := rfl
    simp only [hne, Bool.false_eq_true, if_false]
    have h := BuiltFrom_leaf m alloc (GetAllDescendentMCParticles p [p])
    rw [GetAllDescendentMCParticles_addrs] at h
    exact h
  | true =>
    simp only [Bool.not_true, Bool.false_eq_true, if_false]
    have hne : (GetAllDescendentMCParticlesShared p [p] []).1.isEmpty = false := rfl
    simp only [hne, Bool.false_eq_true, if_false]
    exact BuiltFrom_mono m _ _ _ (BuiltFrom_leaf m alloc _)
      (GetAllDescendentMCParticlesShared_addrs p)

theorem fillChildrenFlat_ok (crit : ReconstructabilityCriteria) (m : MCToHitsMap)
    (l : List MCParticle) :
    ∀ alloc : Nat,
      BuiltFrom m (fillChildrenFlat crit m l alloc).1 (l.flatMap MCParticle.subtreeAddrs) := by
  induction l with
  | nil => intro alloc; exact BuiltFrom_nil m _
  | cons p rest ih =>
    intro alloc
    simp only [fillChildrenFlat, List.flatMap_cons]
    exact BuiltFrom_append m _ _ _ _ (fillNodeFlat_ok crit m p alloc) (ih _)

theorem finishNodeHierarchy_leaf (m : MCToHitsMap) (fold isShower isNeutron : Bool) (alloc : Nat)
    (parts : List MCParticle) (children : List Node × Nat) (hparts : parts.isEmpty = false)
    (hcond : (!fold || (fold && !(isShower || isNeutron))) = false) :
    (finishNodeHierarchy m fold isShower isNeutron alloc parts children).1
      = [Node.create alloc parts (collectHits m parts [])] := by
  unfold finishNodeHierarchy
  simp only [hparts, hcond, Bool.false_eq_true, if_false]

theorem finishNodeHierarchy_inner (m : MCToHitsMap) (fold isShower isNeutron : Bool) (alloc : Nat)
    (parts : List MCParticle) (children : List Node × Nat) (hparts : parts.isEmpty = false)
    (hcond : (!fold || (fold && !(isShower || isNeutron))) = true) :
    (finishNodeHierarchy m fold isShower isNeutron alloc parts children).1
      = [(Node.create alloc parts (collectHits m parts [])).addChildren children.1] := by
  unfold finishNodeHierarchy
  simp only [hparts, hcond, Bool.false_eq_true, if_false, if_true]

mutual
/-- The node that `Node::FillHierarchy` appends for a particle, with the nodes
below it, is built from the particle and its descendants. -/
theorem fillNodeHierarchy_ok (crit : ReconstructabilityCriteria) (m : MCToHitsMap) (fold : Bool) :
    ∀ (p : MCParticle) (alloc : Nat),
      BuiltFrom m (fillNodeHierarchy crit m fold p alloc).1 p.subtreeAddrs
  | MCParticle.mk a pdg ds, alloc => by
    have hch := fillChildrenHierarchy_ok crit m fold ds (alloc + 1)
    simp only [fillNodeHierarchy]
    by_cases hA : (fold && (isShowerPdg pdg || (isNeutronPdg pdg && !crit.m_removeNeutrons))) = true
    · rw [if_pos hA]
      have hcond : (!fold || (fold && !(isShowerPdg pdg || isNeutronPdg pdg))) = false := by
        revert hA
        cases fold <;> cases isShowerPdg pdg <;> cases isNeutronPdg pdg <;>
          cases crit.m_removeNeutrons <;> simp
      rw [finishNodeHierarchy_leaf m fold _ _ alloc
        (GetAllDescendentMCParticles (MCParticle.mk a pdg ds) [MCParticle.mk a pdg ds]) _ rfl hcond]
      have h := BuiltFrom_leaf m alloc (GetAllDescendentMCParticles (MCParticle.mk a pdg ds)
        [MCParticle.mk a pdg ds])
      rw [GetAllDescendentMCParticles_addrs] at h
      exact h
    · rw [if_neg hA]
      by_cases hB : (crit.m_removeNeutrons && isNeutronPdg pdg) = true
      · rw [if_pos hB]
        exact BuiltFrom_nil m _
      · rw [if_neg hB]
        by_cases hcond : (!fold || (fold && !(isShowerPdg pdg || isNeutronPdg pdg))) = true
        · rw [finishNodeHierarchy_inner m fold _ _ alloc [MCParticle.mk a pdg ds] _ rfl hcond]
          have h := BuiltFrom_node m alloc [MCParticle.mk a pdg ds] _ _ hch
          rw [MCParticle.subtreeAddrs_mk]
          exact h
        · have hcond' : (!fold || (fold && !(isShowerPdg pdg || isNeutronPdg pdg))) = false := by
            cases h : (!fold || (fold && !(isShowerPdg pdg || isNeutronPdg pdg)))
            · rfl
            · exact absurd h hcond
          rw [finishNodeHierarchy_leaf m fold _ _ alloc [MCParticle.mk a pdg ds] _ rfl hcond']
          refine BuiltFrom_mono m _ _ _ (BuiltFrom_leaf m alloc [MCParticle.mk a pdg ds]) ?_
          rw [MCParticle.subtreeAddrs_mk]
          exact (List.Sublist.cons₂ _ (List.nil_sublist _)).subperm
/-- The nodes that the loop over a daughter list appends are built from the
daughters and their descendants. -/
theorem fillChildrenHierarchy_ok (crit : ReconstructabilityCriteria) (m : MCToHitsMap)
    (fold : Bool) :
    ∀ (l : List MCParticle) (alloc : Nat),
      BuiltFrom m (fillChildrenHierarchy crit m fold l alloc).1
        ((MCParticle.descendentsList l).map MCParticle.addr)
  | [], alloc => by
    simp only [fillChildrenHierarchy]
    exact BuiltFrom_nil m _
  | c :: cs, alloc => by
    simp only [fillChildrenHierarchy]
    rw [MCParticle.descendentsList_map_addr_cons]
    exact BuiltFrom_append m _ _ _ _ (fillNodeHierarchy_ok crit m fold c alloc)
      (fillChildrenHierarchy_ok crit m fold cs _)
end

theorem GetAllDescendentMCParticles4_addrs (p : MCParticle) :
    (((GetAllDescendentMCParticles4 p [p] [] []).1.map MCParticle.addr)
      ++ ((GetAllDescendentMCParticles4 p [p] [] []).2.1.flatMap MCParticle.subtreeAddrs
        ++ (GetAllDescendentMCParticles4 p [p] [] []).2.2.flatMap MCParticle.subtreeAddrs)).Perm
      p.subtreeAddrs := by
  unfold GetAllDescendentMCParticles4 MCParticle.subtreeAddrs MCParticle.descendentsOfKind
  simp only [List.singleton_append, List.nil_append, List.map_cons, List.cons_append]
  refine List.Perm.cons _ ?_
  rw [← MCParticle.classified_expand p]
  exact classified_partition _

/-- The root node that `FillHierarchy` appends for a primary, with the nodes
below it, is built from the primary and its descendants, in every fold mode. -/
theorem fillPrimary_ok (crit : ReconstructabilityCriteria) (m : MCToHitsMap)
    (foldToPrimaries foldToLeadingShowers : Bool) (state : List Node × Nat) (p : MCParticle) :
    ∃ new, (fillPrimary crit m foldToPrimaries foldToLeadingShowers state p).1 = state.1 ++ new
      ∧ BuiltFrom m new p.subtreeAddrs := by
  cases foldToPrimaries with
  | true =>
    cases foldToLeadingShowers with
    | false =>
      -- fold to primaries only
      unfold fillPrimary
      simp only [Bool.true_and, Bool.not_false, if_true]
      refine ⟨_, rfl, ?_⟩
      cases crit.m_removeNeutrons with
      | false =>
        simp only [Bool.not_false, if_true]
        have h := BuiltFrom_leaf m state.2 (GetAllDescendentMCParticles p [p])
        rw [GetAllDescendentMCParticles_addrs] at h
        exact h
      | true =>
        simp only [Bool.not_true, Bool.false_eq_true, if_false]
        exact BuiltFrom_mono m _ _ _ (BuiltFrom_leaf m state.2 _)
          (GetAllDescendentMCParticlesShared_addrs p)
    | true =>
      -- fold to primaries and to leading showers
      unfold fillPrimary
      simp only [Bool.true_and, Bool.not_true, Bool.false_eq_true, if_false, if_true]
      refine ⟨_, rfl, ?_⟩
      by_cases hsn : (isShowerPdg p.GetParticleId || isNeutronPdg p.GetParticleId) = true
      · rw [if_pos hsn]
        cases crit.m_removeNeutrons with
        | false =>
          simp only [Bool.not_false, if_true, List.isEmpty_nil, Bool.not_true, Bool.and_false,
            Bool.false_eq_true, if_false, fillChildrenFlat, List.append_nil]
          rw [Node.addChildren_nil]
          have h := BuiltFrom_leaf m state.2 (GetAllDescendentMCParticles p [p])
          rw [GetAllDescendentMCParticles_addrs] at h
          exact h
        | true =>
          simp only [Bool.not_true, Bool.false_eq_true, if_false, Bool.false_and,
            fillChildrenFlat, List.append_nil]
          rw [Node.addChildren_nil]
          exact BuiltFrom_mono m _ _ _ (BuiltFrom_leaf m state.2 _)
            (GetAllDescendentMCParticlesShared_addrs p)
      · rw [if_neg hsn]
        have hr := fillChildrenFlat_ok crit m (GetAllDescendentMCParticles4 p [p] [] []).2.1
          (state.2 + 1)
        have hchildren : ∀ s : List Node × Nat,
            s = (if (!crit.m_removeNeutrons
                    && !(GetAllDescendentMCParticles4 p [p] [] []).2.2.isEmpty) = true then
                  fillChildrenFlat crit m (GetAllDescendentMCParticles4 p [p] [] []).2.2
                    (fillChildrenFlat crit m (GetAllDescendentMCParticles4 p [p] [] []).2.1
                      (state.2 + 1)).2
                else ([], (fillChildrenFlat crit m (GetAllDescendentMCParticles4 p [p] [] []).2.1
                      (state.2 + 1)).2)) →
            BuiltFrom m s.1
              ((GetAllDescendentMCParticles4 p [p] [] []).2.2.flatMap MCParticle.subtreeAddrs) := by
          intro s hs
          rw [hs]
          split_ifs
          · exact fillChildrenFlat_ok crit m _ _
          · exact BuiltFrom_nil m _
        have hs := hchildren _ rfl
        have hnode := BuiltFrom_node m state.2 (GetAllDescendentMCParticles4 p [p] [] []).1 _ _
          (BuiltFrom_append m _ _ _ _ hr hs)
        exact BuiltFrom_mono m _ _ _ hnode (GetAllDescendentMCParticles4_addrs p).subperm
  | false =>
    cases p with
    | mk a pdg ds =>
      cases foldToLeadingShowers with
      | true =>
        -- fold to leading showers only
        unfold fillPrimary
        simp only [Bool.false_and, Bool.false_eq_true, if_false, if_true,
          MCParticle.GetParticleId, MCParticle.GetDaughterList]
        by_cases hsn : (isShowerPdg pdg || isNeutronPdg pdg) = true
        · have hneg : (!(isShowerPdg pdg || isNeutronPdg pdg)) = false := by rw [hsn]; rfl
          rw [hneg]
          simp only [Bool.false_eq_true, if_false]
          refine ⟨_, rfl, ?_⟩
          split_ifs
          · have h := BuiltFrom_leaf m state.2 (GetAllDescendentMCParticles (MCParticle.mk a pdg ds)
              [MCParticle.mk a pdg ds])
            rw [GetAllDescendentMCParticles_addrs] at h
            exact h
          · refine BuiltFrom_mono m _ _ _ (BuiltFrom_leaf m state.2 [MCParticle.mk a pdg ds]) ?_
            rw [MCParticle.subtreeAddrs_mk]
            exact (List.Sublist.cons₂ _ (List.nil_sublist _)).subperm
        · have hneg : (!(isShowerPdg pdg || isNeutronPdg pdg)) = true := by
            cases h : (isShowerPdg pdg || isNeutronPdg pdg)
            · rfl
            · exact absurd h hsn
          have hs : isShowerPdg pdg = false := by
            cases h : isShowerPdg pdg
            · rfl
            · rw [h] at hsn; simp at hsn
          have hn : isNeutronPdg pdg = false := by
            cases h : isNeutronPdg pdg
            · rfl
            · rw [h] at hsn; simp at hsn
          rw [hneg]
          simp only [hs, hn, Bool.false_and, Bool.or_self, Bool.false_eq_true, if_false, if_true]
          refine ⟨_, rfl, ?_⟩
          have h := BuiltFrom_node m state.2 [MCParticle.mk a pdg ds] _ _
            (fillChildrenHierarchy_ok crit m true ds (state.2 + 1))
          rw [MCParticle.subtreeAddrs_mk]
          exact h
      | false =>
        -- no folding
        unfold fillPrimary
        simp only [Bool.false_and, Bool.false_eq_true, if_false,
          MCParticle.GetParticleId, MCParticle.GetDaughterList]
        refine ⟨_, rfl, ?_⟩
        have h := BuiltFrom_node m state.2 [MCParticle.mk a pdg ds] _ _
          (fillChildrenHierarchy_ok crit m false ds (state.2 + 1))
        rw [MCParticle.subtreeAddrs_mk]
        exact h

theorem fillPrimaries_ok (crit : ReconstructabilityCriteria) (m : MCToHitsMap)
    (foldToPrimaries foldToLeadingShowers : Bool) (primaries : List MCParticle) :
    ∀ state : List Node × Nat,
      ∃ new, (primaries.foldl (fillPrimary crit m foldToPrimaries foldToLeadingShowers) state).1
          = state.1 ++ new
        ∧ BuiltFrom m new (primaries.flatMap MCParticle.subtreeAddrs) := by
  induction primaries with
  | nil => intro state; exact ⟨[], by simp, BuiltFrom_nil m _⟩
  | cons p rest ih =>
    intro state
    obtain ⟨new₁, h₁, hb₁⟩ := fillPrimary_ok crit m foldToPrimaries foldToLeadingShowers state p
    obtain ⟨new₂, h₂, hb₂⟩ := ih (fillPrimary crit m foldToPrimaries foldToLeadingShowers state p)
    refine ⟨new₁ ++ new₂, ?_, ?_⟩
    · rw [List.foldl_cons, h₂, h₁, List.append_assoc]
    · rw [List.flatMap_cons]
      exact BuiltFrom_append m _ _ _ _ hb₁ hb₂

theorem filter_flatMap_sublist (q : MCParticle → Bool) (l : List MCParticle) :
    ((l.filter q).flatMap MCParticle.subtreeAddrs).Sublist (l.flatMap MCParticle.subtreeAddrs) := by
  induction l with
  | nil => simp
  | cons p rest ih =>
    rw [List.flatMap_cons]
    by_cases hq : q p = true
    · rw [List.filter_cons_of_pos hq, List.flatMap_cons]
      exact List.Sublist.append (List.Sublist.refl _) ih
    · rw [List.filter_cons_of_neg hq]
      exact ih.trans (List.sublist_append_right _ _)

theorem retainedPrimaries_sublist (crit : ReconstructabilityCriteria) (primarySet : List MCParticle) :
    ((retainedPrimaries crit primarySet).flatMap MCParticle.subtreeAddrs).Sublist
      (primarySet.flatMap MCParticle.subtreeAddrs) := by
  unfold retainedPrimaries
  split_ifs
  · exact filter_flatMap_sublist _ _
  · exact List.Sublist.refl _

/-- The mapped hits of pairwise different particles, taken from a hit list
without repetition, hold no hit twice. -/
theorem hitsOf_flatMap_nodup (g : CaloHit → Option Nat) (hits : List CaloHit)
    (hhits : hits.Nodup) (P : List Nat) (hP : P.Nodup) :
    (P.flatMap (fun p => hits.filter (fun h => decide (g h = some p)))).Nodup := by
  rw [List.nodup_flatMap]
  constructor
  · intro p _
    exact hhits.sublist (List.filter_sublist _)
  · refine List.Pairwise.imp ?_ hP
    intro p q hne
    rw [Function.onFun, List.disjoint_left]
    intro h h1 h2
    have e1 := (List.mem_filter.mp h1).2
    have e2 := (List.mem_filter.mp h2).2
    simp only [decide_eq_true_eq] at e1 e2
    rw [e1] at e2
    exact hne (Option.some.inj e2)

/-- C4 (as stated, refuted): with the default criteria (`m_removeNeutrons`
set) and a neutron primary that owns the hit 100, the hierarchy has no node in
any of the four fold modes, so the hit, whose owner is resolvable, is in the
hit list of no node. -/
theorem C4_counterexample :
    neutronEventOwner 100 = some neutronPrimary.addr
    ∧ (100 : CaloHit) ∈ [100]
    ∧ forestHits (MCHierarchy.FillHierarchy neutronEventOwner neutronEventPrimary
        (fun p => decide (p.addr = 1)) {} [neutrinoWithNeutron, neutronPrimary] [100]
        false false 1000).1.m_rootNodes = []
    ∧ forestHits (MCHierarchy.FillHierarchy neutronEventOwner neutronEventPrimary
        (fun p => decide (p.addr = 1)) {} [neutrinoWithNeutron, neutronPrimary] [100]
        true false 1000).1.m_rootNodes = []
    ∧ forestHits (MCHierarchy.FillHierarchy neutronEventOwner neutronEventPrimary
        (fun p => decide (p.addr = 1)) {} [neutrinoWithNeutron, neutronPrimary] [100]
        false true 1000).1.m_rootNodes = []
    ∧ forestHits (MCHierarchy.FillHierarchy neutronEventOwner neutronEventPrimary
        (fun p => decide (p.addr = 1)) {} [neutrinoWithNeutron, neutronPrimary] [100]
        true true 1000).1.m_rootNodes = [] := by
  decide

/-- C4 (amended): for every fold mode, in the truth hierarchy that
`FillHierarchy` builds into an empty hierarchy from primaries whose subtrees
hold pairwise different particles (the daughter relation is a forest) and
from a hit list without repetition, no hit occurs twice in the forest (not
twice in a node, not in two nodes), no particle is a constituent of two
nodes, and a hit is in the hit list of a node exactly when it is an input hit
whose main MC particle is a constituent of that node. -/
theorem C4_hits_not_duplicated (GetMainMCParticle : CaloHit → Option Nat)
    (GetPrimaryMCParticle : MCParticle → Option MCParticle) (IsNeutrino : MCParticle → Bool)
    (h : MCHierarchy) (mcParticleList : List MCParticle) (caloHitList : List CaloHit)
    (foldToPrimaries foldToLeadingShowers : Bool) (alloc : Nat)
    (hempty : h.m_rootNodes = [])
    (hforest : ((GetMCPrimaries GetPrimaryMCParticle IsNeutrino mcParticleList (none, [])).2.flatMap
        MCParticle.subtreeAddrs).Nodup)
    (hhits : caloHitList.Nodup) :
    (forestHits (MCHierarchy.FillHierarchy GetMainMCParticle GetPrimaryMCParticle IsNeutrino h
        mcParticleList caloHitList foldToPrimaries foldToLeadingShowers alloc).1.m_rootNodes).Nodup
    ∧ (forestParticles (MCHierarchy.FillHierarchy GetMainMCParticle GetPrimaryMCParticle IsNeutrino h
        mcParticleList caloHitList foldToPrimaries foldToLeadingShowers alloc).1.m_rootNodes).Nodup
    ∧ ∀ n ∈ Node.nodesList (MCHierarchy.FillHierarchy GetMainMCParticle GetPrimaryMCParticle
        IsNeutrino h mcParticleList caloHitList foldToPrimaries foldToLeadingShowers
        alloc).1.m_rootNodes,
        ∀ hit, hit ∈ n.GetCaloHits ↔
          hit ∈ caloHitList ∧ ∃ p ∈ n.GetParticles, GetMainMCParticle hit = some p := by
  have hhitsOf : ∀ p, MCToHitsMap.hitsOf (fillMcToHitsMap GetMainMCParticle caloHitList []) p
      = caloHitList.filter (fun hit => decide (GetMainMCParticle hit = some p)) := by
    intro p
    rw [hitsOf_fillMcToHitsMap, MCToHitsMap.hitsOf_nil, List.nil_append]
  obtain ⟨new, hnew, hbuilt⟩ := fillPrimaries_ok h.m_recoCriteria
    (fillMcToHitsMap GetMainMCParticle caloHitList []) foldToPrimaries foldToLeadingShowers
    (retainedPrimaries h.m_recoCriteria
      (GetMCPrimaries GetPrimaryMCParticle IsNeutrino mcParticleList (none, [])).2)
    (h.m_rootNodes, alloc)
  have hroots : (MCHierarchy.FillHierarchy GetMainMCParticle GetPrimaryMCParticle IsNeutrino h
      mcParticleList caloHitList foldToPrimaries foldToLeadingShowers alloc).1.m_rootNodes = new := by
    unfold MCHierarchy.FillHierarchy
    simp only
    rw [hnew, hempty, List.nil_append]
  rw [hroots]
  obtain ⟨hnodes, hparts⟩ := hbuilt
  have hpnd : (forestParticles new).Nodup :=
    Subperm_nodup (hparts.trans (retainedPrimaries_sublist _ _).subperm) hforest
  have hfun : (MCToHitsMap.hitsOf (fillMcToHitsMap GetMainMCParticle caloHitList []))
      = fun p => caloHitList.filter (fun hit => decide (GetMainMCParticle hit = some p)) :=
    funext hhitsOf
  refine ⟨?_, hpnd, ?_⟩
  · have hperm : (forestHits new).Perm ((forestParticles new).flatMap
        (MCToHitsMap.hitsOf (fillMcToHitsMap GetMainMCParticle caloHitList []))) := by
      unfold forestHits forestParticles
      rw [List.flatMap_assoc]
      exact List.Perm.flatMap_left _ hnodes
    rw [hperm.nodup_iff, hfun]
    exact hitsOf_flatMap_nodup GetMainMCParticle caloHitList hhits _ hpnd
  · intro n hn hit
    rw [(hnodes n hn).mem_iff, List.mem_flatMap]
    constructor
    · rintro ⟨p, hp, hmem⟩
      rw [hhitsOf p] at hmem
      have := List.mem_filter.mp hmem
      exact ⟨this.1, p, hp, by simpa using this.2⟩
    · rintro ⟨hin, p, hp, hown⟩
      refine ⟨p, hp, ?_⟩
      rw [hhitsOf p]
      exact List.mem_filter.mpr ⟨hin, by simpa using hown⟩

/-- C4 (amended) at the example event, fold to leading showers with neutrons
kept: the hypotheses hold, and the hits of the forest are the input hits with
an owner below a primary, each once. -/
theorem C4_witness :
    ({ m_recoCriteria := { m_removeNeutrons := false } } : MCHierarchy).m_rootNodes = []
    ∧ ((GetMCPrimaries examplePrimaryOf (fun p => decide (p.addr = 1))
          (exampleNeutrino :: exampleNeutrino.descendents) (none, [])).2.flatMap
        MCParticle.subtreeAddrs).Nodup
    ∧ exampleHits.Nodup
    ∧ ((forestHits (MCHierarchy.FillHierarchy exampleOwner examplePrimaryOf
          (fun p => decide (p.addr = 1)) { m_recoCriteria := { m_removeNeutrons := false } }
          (exampleNeutrino :: exampleNeutrino.descendents) exampleHits false true
          1000).1.m_rootNodes).Nodup
      ∧ (forestParticles (MCHierarchy.FillHierarchy exampleOwner examplePrimaryOf
          (fun p => decide (p.addr = 1)) { m_recoCriteria := { m_removeNeutrons := false } }
          (exampleNeutrino :: exampleNeutrino.descendents) exampleHits false true
          1000).1.m_rootNodes).Nodup
      ∧ ∀ n ∈ Node.nodesList (MCHierarchy.FillHierarchy exampleOwner examplePrimaryOf
          (fun p => decide (p.addr = 1)) { m_recoCriteria := { m_removeNeutrons := false } }
          (exampleNeutrino :: exampleNeutrino.descendents) exampleHits false true
          1000).1.m_rootNodes,
          ∀ hit, hit ∈ n.GetCaloHits ↔
            hit ∈ exampleHits ∧ ∃ p ∈ n.GetParticles, exampleOwner hit = some p)
    ∧ forestHits (MCHierarchy.FillHierarchy exampleOwner examplePrimaryOf
          (fun p => decide (p.addr = 1)) { m_recoCriteria := { m_removeNeutrons := false } }
          (exampleNeutrino :: exampleNeutrino.descendents) exampleHits false true
          1000).1.m_rootNodes
        = [200, 201, 500, 600, 700, 800, 300, 900, 400] :=
  ⟨rfl, by decide, by decide,
    C4_hits_not_duplicated exampleOwner examplePrimaryOf (fun p => decide (p.addr = 1))
      { m_recoCriteria := { m_removeNeutrons := false } }
      (exampleNeutrino :: exampleNeutrino.descendents) exampleHits false true 1000 rfl
      (by decide) (by decide),
    by decide⟩

/-! ## The two outputs of the cluster classification are disjoint -/

/-- C11: for every input vector, the transverse and the longitudinal output of
`SeparateInputClusters` (started empty) are subsequences of the input in input
order, and no cluster is in both; when the clusters of the input are told
apart by their addresses, no address is in both outputs either. -/
theorem C11_outputs_disjoint (alg : TransverseAssociationAlgorithm) (inputVector : List Cluster) :
    (SeparateInputClusters alg inputVector [] []).1.Sublist inputVector
    ∧ (SeparateInputClusters alg inputVector [] []).2.Sublist inputVector
    ∧ (∀ c, c ∈ (SeparateInputClusters alg inputVector [] []).1 →
        c ∉ (SeparateInputClusters alg inputVector [] []).2)
    ∧ ((∀ c ∈ inputVector, ∀ d ∈ inputVector, c.addr = d.addr → c = d) →
        ∀ a, a ∈ (SeparateInputClusters alg inputVector [] []).1.map Cluster.addr →
          a ∉ (SeparateInputClusters alg inputVector [] []).2.map Cluster.addr) := by
  have hsep : ∀ c, c ∈ (SeparateInputClusters alg inputVector [] []).1 →
      c ∉ (SeparateInputClusters alg inputVector [] []).2 := by
    intro c h1 h2
    simp only [SeparateInputClusters, separate_foldl, List.nil_append, List.mem_filter,
      decide_eq_true_eq] at h1 h2
    rcases h1.2 with h | h
    · omega
    · exact h2.2.2.2.1 h.2.1
  have hsub1 : (SeparateInputClusters alg inputVector [] []).1.Sublist inputVector := by
    simp only [SeparateInputClusters, separate_foldl, List.nil_append]
    exact List.filter_sublist _
  have hsub2 : (SeparateInputClusters alg inputVector [] []).2.Sublist inputVector := by
    simp only [SeparateInputClusters, separate_foldl, List.nil_append]
    exact List.filter_sublist _
  refine ⟨hsub1, hsub2, hsep, ?_⟩
  intro hinj a h1 h2
  obtain ⟨c, hc, rfl⟩ := List.mem_map.mp h1
  obtain ⟨d, hd, hda⟩ := List.mem_map.mp h2
  have hcd : d = c := hinj d (hsub2.subset hd) c (hsub1.subset hc) hda
  exact hsep c hc (hcd ▸ hd)

/-- C11 on the scenario of the clusters A and B: A is in the transverse output
only and B in the longitudinal output only. -/
theorem C11_witness :
    ((SeparateInputClusters defaultSettings [scenarioClusterA, scenarioClusterB] [] []).1.Sublist
        [scenarioClusterA, scenarioClusterB]
      ∧ (SeparateInputClusters defaultSettings [scenarioClusterA, scenarioClusterB] [] []).2.Sublist
        [scenarioClusterA, scenarioClusterB]
      ∧ (∀ c, c ∈ (SeparateInputClusters defaultSettings [scenarioClusterA, scenarioClusterB]
            [] []).1 →
          c ∉ (SeparateInputClusters defaultSettings [scenarioClusterA, scenarioClusterB] [] []).2)
      ∧ ((∀ c ∈ [scenarioClusterA, scenarioClusterB], ∀ d ∈ [scenarioClusterA, scenarioClusterB],
            c.addr = d.addr → c = d) →
          ∀ a, a ∈ (SeparateInputClusters defaultSettings [scenarioClusterA, scenarioClusterB]
              [] []).1.map Cluster.addr →
            a ∉ (SeparateInputClusters defaultSettings [scenarioClusterA, scenarioClusterB]
              [] []).2.map Cluster.addr))
    ∧ (SeparateInputClusters defaultSettings [scenarioClusterA, scenarioClusterB] [] []).1.map
        Cluster.addr = [1]
    ∧ (SeparateInputClusters defaultSettings [scenarioClusterA, scenarioClusterB] [] []).2.map
        Cluster.addr = [2] :=
  ⟨C11_outputs_disjoint defaultSettings [scenarioClusterA, scenarioClusterB], by decide!,
    by decide!⟩

/-! ## The order of the records -/

/-- After the last `std::sort` of `MatchHierarchies` no record is followed by a
record whose truth node has more hits. -/
theorem stdSort_records_sorted (l : List MCMatches) :
    (stdSort (fun lhs rhs => moreHits lhs.GetMC rhs.GetMC) l).Pairwise
      (fun a b => b.GetMC.GetCaloHits.length ≤ a.GetMC.GetCaloHits.length) := by
  unfold stdSort
  haveI : IsTotal MCMatches (fun a b => moreHits b.GetMC a.GetMC = false) :=
    ⟨fun a b => by
      simp only [moreHits, decide_eq_false_iff_not, not_lt, gt_iff_lt]
      exact le_total _ _⟩
  haveI : IsTrans MCMatches (fun a b => moreHits b.GetMC a.GetMC = false) :=
    ⟨fun a b c => by
      simp only [moreHits, decide_eq_false_iff_not, not_lt, gt_iff_lt]
      intro h1 h2
      exact le_trans h2 h1⟩
  have h := List.sorted_insertionSort (fun a b => moreHits b.GetMC a.GetMC = false) l
  refine List.Pairwise.imp ?_ h
  intro a b hab
  simpa [moreHits] using hab

/-- C20: `MatchHierarchies`, called with an empty output vector, returns the
records in an order of non-increasing hit count of the truth node: every
record has at least as many truth hits as each later record, in particular as
the next one, whether or not the records hold matches. -/
theorem C20_records_by_truth_hits (GetHitType : CaloHit → HitType)
    (mcHierarchy : MCHierarchy) (recoHierarchy : RecoHierarchy) :
    ∃ records, MatchHierarchies GetHitType mcHierarchy recoHierarchy [] = Except.ok records
      ∧ records.Pairwise
          (fun a b => a.GetMC.GetCaloHits.length ≥ b.GetMC.GetCaloHits.length)
      ∧ ∀ (i : Nat) (a b : MCMatches), records[i]? = some a → records[i + 1]? = some b →
          a.GetMC.GetCaloHits.length ≥ b.GetMC.GetCaloHits.length := by
  have hsorted : (matchRecords GetHitType mcHierarchy recoHierarchy []).Pairwise
      (fun a b => a.GetMC.GetCaloHits.length ≥ b.GetMC.GetCaloHits.length) := by
    unfold matchRecords
    exact stdSort_records_sorted _
  refine ⟨_, MatchHierarchies_ok _ _ _ _, hsorted, ?_⟩
  intro i a b ha hb
  have hi : i < i + 1 := Nat.lt_succ_self i
  obtain ⟨h1, rfl⟩ := List.getElem?_eq_some_iff.mp ha
  obtain ⟨h2, rfl⟩ := List.getElem?_eq_some_iff.mp hb
  exact List.pairwise_iff_getElem.mp hsorted i (i + 1) h1 h2 hi

/-! ## Hit lists of different nodes -/

/-- The roots of a forest are among its nodes, in order. -/
theorem Node.roots_sublist (l : List Node) : l.Sublist (Node.nodesList l) := by
  induction l with
  | nil => simp [Node.nodesList]
  | cons n ns ih =>
    simp only [Node.nodesList, Node.nodes_eq, List.cons_append]
    exact List.Sublist.cons₂ n (ih.trans (List.sublist_append_right _ _))

mutual
/-- A node of the tree below `r` comes with the nodes below it, in order. -/
theorem Node.subtree_sublist_nodes (n : Node) :
    ∀ r : Node, n ∈ Node.nodes r →
      (n :: Node.nodesList n.GetChildren).Sublist (Node.nodes r)
  | Node.mk a p ps hs cs, h => by
    rw [Node.nodes_eq] at h ⊢
    rcases List.mem_cons.mp h with h | h
    · subst h
      exact List.Sublist.refl _
    · exact (Node.subtree_sublist_nodesList n cs h).trans (List.sublist_cons_self _ _)
/-- A node of a forest comes with the nodes below it, in order. -/
theorem Node.subtree_sublist_nodesList (n : Node) :
    ∀ l : List Node, n ∈ Node.nodesList l →
      (n :: Node.nodesList n.GetChildren).Sublist (Node.nodesList l)
  | [], h => by simp [Node.nodesList] at h
  | r :: rs, h => by
    simp only [Node.nodesList] at h ⊢
    rcases List.mem_append.mp h with h | h
    · exact (Node.subtree_sublist_nodes n r h).trans (List.sublist_append_left _ _)
    · exact (Node.subtree_sublist_nodesList n rs h).trans (List.sublist_append_right _ _)
end

/-- The hierarchy that `FillHierarchy` builds into an empty hierarchy is built
from the subtrees of the retained primaries. -/
theorem FillHierarchy_built (GetMainMCParticle : CaloHit → Option Nat)
    (GetPrimaryMCParticle : MCParticle → Option MCParticle) (IsNeutrino : MCParticle → Bool)
    (h : MCHierarchy) (mcParticleList : List MCParticle) (caloHitList : List CaloHit)
    (foldToPrimaries foldToLeadingShowers : Bool) (alloc : Nat)
    (hempty : h.m_rootNodes = []) :
    BuiltFrom (fillMcToHitsMap GetMainMCParticle caloHitList [])
      (MCHierarchy.FillHierarchy GetMainMCParticle GetPrimaryMCParticle IsNeutrino h
        mcParticleList caloHitList foldToPrimaries foldToLeadingShowers alloc).1.m_rootNodes
      ((retainedPrimaries h.m_recoCriteria
        (GetMCPrimaries GetPrimaryMCParticle IsNeutrino mcParticleList (none, [])).2).flatMap
          MCParticle.subtreeAddrs) := by
  obtain ⟨new, hnew, hbuilt⟩ := fillPrimaries_ok h.m_recoCriteria
    (fillMcToHitsMap GetMainMCParticle caloHitList []) foldToPrimaries foldToLeadingShowers
    (retainedPrimaries h.m_recoCriteria
      (GetMCPrimaries GetPrimaryMCParticle IsNeutrino mcParticleList (none, [])).2)
    (h.m_rootNodes, alloc)
  have hroots : (MCHierarchy.FillHierarchy GetMainMCParticle GetPrimaryMCParticle IsNeutrino h
      mcParticleList caloHitList foldToPrimaries foldToLeadingShowers alloc).1.m_rootNodes = new := by
    unfold MCHierarchy.FillHierarchy
    simp only
    rw [hnew, hempty, List.nil_append]
  rw [hroots]
  exact hbuilt

/-- In a hierarchy built from a forest of particles and a hit list without
repetition, the hit lists of all nodes together hold no hit twice. -/
theorem FillHierarchy_forestHits_nodup (GetMainMCParticle : CaloHit → Option Nat)
    (GetPrimaryMCParticle : MCParticle → Option MCParticle) (IsNeutrino : MCParticle → Bool)
    (h : MCHierarchy) (mcParticleList : List MCParticle) (caloHitList : List CaloHit)
    (foldToPrimaries foldToLeadingShowers : Bool) (alloc : Nat)
    (hempty : h.m_rootNodes = [])
    (hforest : ((GetMCPrimaries GetPrimaryMCParticle IsNeutrino mcParticleList (none, [])).2.flatMap
        MCParticle.subtreeAddrs).Nodup)
    (hhits : caloHitList.Nodup) :
    (forestHits (MCHierarchy.FillHierarchy GetMainMCParticle GetPrimaryMCParticle IsNeutrino h
        mcParticleList caloHitList foldToPrimaries foldToLeadingShowers alloc).1.m_rootNodes).Nodup := by
  obtain ⟨hnodes, hparts⟩ := FillHierarchy_built GetMainMCParticle GetPrimaryMCParticle IsNeutrino
    h mcParticleList caloHitList foldToPrimaries foldToLeadingShowers alloc hempty
  have hpnd := Subperm_nodup (hparts.trans (retainedPrimaries_sublist _ _).subperm) hforest
  have hfun : (MCToHitsMap.hitsOf (fillMcToHitsMap GetMainMCParticle caloHitList []))
      = fun p => caloHitList.filter (fun hit => decide (GetMainMCParticle hit = some p)) := by
    funext p
    rw [hitsOf_fillMcToHitsMap, MCToHitsMap.hitsOf_nil, List.nil_append]
  have hperm : (forestHits (MCHierarchy.FillHierarchy GetMainMCParticle GetPrimaryMCParticle
      IsNeutrino h mcParticleList caloHitList foldToPrimaries foldToLeadingShowers
      alloc).1.m_rootNodes).Perm
      ((forestParticles (MCHierarchy.FillHierarchy GetMainMCParticle GetPrimaryMCParticle
        IsNeutrino h mcParticleList caloHitList foldToPrimaries foldToLeadingShowers
        alloc).1.m_rootNodes).flatMap
        (MCToHitsMap.hitsOf (fillMcToHitsMap GetMainMCParticle caloHitList []))) := by
    unfold forestHits forestParticles
    rw [List.flatMap_assoc]
    exact List.Perm.flatMap_left _ hnodes
  rw [hperm.nodup_iff, hfun]
  exact hitsOf_flatMap_nodup GetMainMCParticle caloHitList hhits _ hpnd

/-- C13: in the truth hierarchy that `FillHierarchy` builds (any fold mode) into
an empty hierarchy from a forest of particles and a hit list without
repetition, for every node the hit lists of its children are pairwise
disjoint and the hit list of each child is disjoint from that of the node,
and the hit lists of the root nodes are pairwise disjoint. -/
theorem C13_children_hits_disjoint (GetMainMCParticle : CaloHit → Option Nat)
    (GetPrimaryMCParticle : MCParticle → Option MCParticle) (IsNeutrino : MCParticle → Bool)
    (h : MCHierarchy) (mcParticleList : List MCParticle) (caloHitList : List CaloHit)
    (foldToPrimaries foldToLeadingShowers : Bool) (alloc : Nat)
    (hempty : h.m_rootNodes = [])
    (hforest : ((GetMCPrimaries GetPrimaryMCParticle IsNeutrino mcParticleList (none, [])).2.flatMap
        MCParticle.subtreeAddrs).Nodup)
    (hhits : caloHitList.Nodup) :
    (∀ n ∈ Node.nodesList (MCHierarchy.FillHierarchy GetMainMCParticle GetPrimaryMCParticle
        IsNeutrino h mcParticleList caloHitList foldToPrimaries foldToLeadingShowers
        alloc).1.m_rootNodes,
      n.GetChildren.Pairwise (fun c d => List.Disjoint c.GetCaloHits d.GetCaloHits)
      ∧ ∀ c ∈ n.GetChildren, List.Disjoint c.GetCaloHits n.GetCaloHits)
    ∧ (MCHierarchy.FillHierarchy GetMainMCParticle GetPrimaryMCParticle IsNeutrino h
        mcParticleList caloHitList foldToPrimaries foldToLeadingShowers alloc).1.m_rootNodes.Pairwise
        (fun r s => List.Disjoint r.GetCaloHits s.GetCaloHits) := by
  have hnd := FillHierarchy_forestHits_nodup GetMainMCParticle GetPrimaryMCParticle IsNeutrino h
    mcParticleList caloHitList foldToPrimaries foldToLeadingShowers alloc hempty hforest hhits
  unfold forestHits at hnd
  have hpw := (List.nodup_flatMap.mp hnd).2
  constructor
  · intro n hn
    have hsub := hpw.sublist (Node.subtree_sublist_nodesList n _ hn)
    rw [List.pairwise_cons] at hsub
    constructor
    · exact hsub.2.sublist (Node.roots_sublist _)
    · intro c hc
      exact (hsub.1 c ((Node.roots_sublist _).subset hc)).symm
  · exact hpw.sublist (Node.roots_sublist _)

/-- C13 at the example event without folding, neutrons kept: the hypotheses
hold, and the conclusion is shown next to the hit lists of the three roots
and of the two children of the first root. -/
theorem C13_witness :
    ({ m_recoCriteria := { m_removeNeutrons := false } } : MCHierarchy).m_rootNodes = []
    ∧ ((GetMCPrimaries examplePrimaryOf (fun p => decide (p.addr = 1))
          (exampleNeutrino :: exampleNeutrino.descendents) (none, [])).2.flatMap
        MCParticle.subtreeAddrs).Nodup
    ∧ exampleHits.Nodup
    ∧ ((∀ n ∈ Node.nodesList (MCHierarchy.FillHierarchy exampleOwner examplePrimaryOf
          (fun p => decide (p.addr = 1)) { m_recoCriteria := { m_removeNeutrons := false } }
          (exampleNeutrino :: exampleNeutrino.descendents) exampleHits false false
          1000).1.m_rootNodes,
        n.GetChildren.Pairwise (fun c d => List.Disjoint c.GetCaloHits d.GetCaloHits)
        ∧ ∀ c ∈ n.GetChildren, List.Disjoint c.GetCaloHits n.GetCaloHits)
      ∧ (MCHierarchy.FillHierarchy exampleOwner examplePrimaryOf
          (fun p => decide (p.addr = 1)) { m_recoCriteria := { m_removeNeutrons := false } }
          (exampleNeutrino :: exampleNeutrino.descendents) exampleHits false false
          1000).1.m_rootNodes.Pairwise
          (fun r s => List.Disjoint r.GetCaloHits s.GetCaloHits))
    ∧ (MCHierarchy.FillHierarchy exampleOwner examplePrimaryOf
          (fun p => decide (p.addr = 1)) { m_recoCriteria := { m_removeNeutrons := false } }
          (exampleNeutrino :: exampleNeutrino.descendents) exampleHits false false
          1000).1.m_rootNodes.map Node.GetCaloHits = [[200, 201], [300], [400]]
    ∧ ((MCHierarchy.FillHierarchy exampleOwner examplePrimaryOf
          (fun p => decide (p.addr = 1)) { m_recoCriteria := { m_removeNeutrons := false } }
          (exampleNeutrino :: exampleNeutrino.descendents) exampleHits false false
          1000).1.m_rootNodes.flatMap Node.GetChildren).map Node.GetCaloHits
        = [[500], [700], [900]] :=
  ⟨rfl, by decide, by decide,
    C13_children_hits_disjoint exampleOwner examplePrimaryOf (fun p => decide (p.addr = 1))
      { m_recoCriteria := { m_removeNeutrons := false } }
      (exampleNeutrino :: exampleNeutrino.descendents) exampleHits false false 1000 rfl
      (by decide) (by decide),
    by decide, by decide⟩

/-! ## Properties shared by all nodes of a truth hierarchy -/

/-- The nodes below a fresh node with children `cs`. -/
theorem Node.nodesList_create (a : Nat) (parts : List MCParticle) (hits : List CaloHit)
    (cs : List Node) :
    Node.nodesList [(Node.create a parts hits).addChildren cs]
      = (Node.create a parts hits).addChildren cs :: Node.nodesList cs := by
  rw [Node.nodesList_singleton, Node.addChildren_children, Node.create_children, List.nil_append]

theorem flatParticles_ne_nil (crit : ReconstructabilityCriteria) (p : MCParticle) :
    (flatParticles crit p).isEmpty = false := by
  unfold flatParticles
  cases crit.m_removeNeutrons <;> rfl

/-- The function `FillFlat` appends exactly one node without children. -/
theorem fillNodeFlat_eq (crit : ReconstructabilityCriteria) (m : MCToHitsMap) (p : MCParticle)
    (alloc : Nat) :
    fillNodeFlat crit m p alloc
      = ([Node.create alloc (flatParticles crit p) (collectHits m (flatParticles crit p) [])],
          alloc + 1) := by
  have h := flatParticles_ne_nil crit p
  unfold flatParticles at h
  unfold fillNodeFlat flatParticles
  simp only [h, Bool.false_eq_true, if_false]

theorem created_leaf_all (m : MCToHitsMap) (P : Node → Prop)
    (hP : HoldsForCreated m P) (a : Nat) (parts : List MCParticle) :
    ∀ n ∈ Node.nodesList [Node.create a parts (collectHits m parts [])], P n := by
  intro n hn
  have h := hP a parts []
  rw [Node.addChildren_nil] at h
  rw [Node.nodesList_singleton, Node.create_children] at hn
  simp only [Node.nodesList, List.mem_singleton] at hn
  rw [hn]
  exact h

theorem created_inner_all (m : MCToHitsMap) (P : Node → Prop)
    (hP : HoldsForCreated m P) (a : Nat) (parts : List MCParticle) (cs : List Node)
    (hcs : ∀ n ∈ Node.nodesList cs, P n) :
    ∀ n ∈ Node.nodesList [(Node.create a parts (collectHits m parts [])).addChildren cs], P n := by
  intro n hn
  rw [Node.nodesList_create] at hn
  rcases List.mem_cons.mp hn with h | h
  · rw [h]; exact hP _ _ _
  · exact hcs n h

theorem fillNodeFlat_all (m : MCToHitsMap) (P : Node → Prop)
    (hP : HoldsForCreated m P) (crit : ReconstructabilityCriteria) (p : MCParticle) (alloc : Nat) :
    ∀ n ∈ Node.nodesList (fillNodeFlat crit m p alloc).1, P n := by
  rw [fillNodeFlat_eq]
  exact created_leaf_all m P hP _ _

theorem fillChildrenFlat_all (m : MCToHitsMap) (P : Node → Prop)
    (hP : HoldsForCreated m P) (crit : ReconstructabilityCriteria) (l : List MCParticle) :
    ∀ alloc : Nat, ∀ n ∈ Node.nodesList (fillChildrenFlat crit m l alloc).1, P n := by
  induction l with
  | nil => intro alloc n hn; simp [fillChildrenFlat, Node.nodesList] at hn
  | cons p rest ih =>
    intro alloc n hn
    simp only [fillChildrenFlat, Node.nodesList_append] at hn
    rcases List.mem_append.mp hn with h | h
    · exact fillNodeFlat_all m P hP crit p alloc n h
    · exact ih _ n h


/-- The three outcomes of `Node::FillHierarchy` for a particle: one node
without children that holds the particle and all its descendants; no node at
all; or one node that holds the particle alone, with the nodes of the
daughters as children. -/
theorem fillNodeHierarchy_eq (crit : ReconstructabilityCriteria) (m : MCToHitsMap) (fold : Bool)
    (a : Nat) (pdg : Int) (ds : List MCParticle) (alloc : Nat) :
    (fillNodeHierarchy crit m fold (MCParticle.mk a pdg ds) alloc).1
      = if (fold && (isShowerPdg pdg || (isNeutronPdg pdg && !crit.m_removeNeutrons))) = true then
          [Node.create alloc
            (GetAllDescendentMCParticles (MCParticle.mk a pdg ds) [MCParticle.mk a pdg ds])
            (collectHits m
              (GetAllDescendentMCParticles (MCParticle.mk a pdg ds) [MCParticle.mk a pdg ds]) [])]
        else if (crit.m_removeNeutrons && isNeutronPdg pdg) = true then []
        else
          [(Node.create alloc [MCParticle.mk a pdg ds]
              (collectHits m [MCParticle.mk a pdg ds] [])).addChildren
            (fillChildrenHierarchy crit m fold ds (alloc + 1)).1] := by
  simp only [fillNodeHierarchy]
  by_cases hA : (fold && (isShowerPdg pdg || (isNeutronPdg pdg && !crit.m_removeNeutrons))) = true
  · rw [if_pos hA, if_pos hA]
    have hcond : (!fold || (fold && !(isShowerPdg pdg || isNeutronPdg pdg))) = false := by
      revert hA
      cases fold <;> cases isShowerPdg pdg <;> cases isNeutronPdg pdg <;>
        cases crit.m_removeNeutrons <;> simp
    exact finishNodeHierarchy_leaf m fold _ _ alloc
      (GetAllDescendentMCParticles (MCParticle.mk a pdg ds) [MCParticle.mk a pdg ds]) _ rfl hcond
  · rw [if_neg hA, if_neg hA]
    by_cases hB : (crit.m_removeNeutrons && isNeutronPdg pdg) = true
    · rw [if_pos hB, if_pos hB]
    · rw [if_neg hB, if_neg hB]
      have hcond : (!fold || (fold && !(isShowerPdg pdg || isNeutronPdg pdg))) = true := by
        revert hA hB
        cases fold <;> cases isShowerPdg pdg <;> cases isNeutronPdg pdg <;>
          cases crit.m_removeNeutrons <;> simp
      exact finishNodeHierarchy_inner m fold _ _ alloc [MCParticle.mk a pdg ds] _ rfl hcond

theorem fillChildrenHierarchy_cons (crit : ReconstructabilityCriteria) (m : MCToHitsMap)
    (fold : Bool) (c : MCParticle) (cs : List MCParticle) (alloc : Nat) :
    (fillChildrenHierarchy crit m fold (c :: cs) alloc).1
      = (fillNodeHierarchy crit m fold c alloc).1
        ++ (fillChildrenHierarchy crit m fold cs (fillNodeHierarchy crit m fold c alloc).2).1 := by
  simp only [fillChildrenHierarchy]

mutual
theorem fillNodeHierarchy_all (m : MCToHitsMap) (P : Node → Prop)
    (hP : HoldsForCreated m P) (crit : ReconstructabilityCriteria) (fold : Bool) :
    ∀ (p : MCParticle) (alloc : Nat),
      ∀ n ∈ Node.nodesList (fillNodeHierarchy crit m fold p alloc).1, P n
  | MCParticle.mk a pdg ds, alloc => by
    rw [fillNodeHierarchy_eq]
    split_ifs
    · exact created_leaf_all m P hP _ _
    · intro n hn; simp [Node.nodesList] at hn
    · exact created_inner_all m P hP _ _ _ (fillChildrenHierarchy_all m P hP crit fold ds (alloc + 1))
theorem fillChildrenHierarchy_all (m : MCToHitsMap) (P : Node → Prop)
    (hP : HoldsForCreated m P) (crit : ReconstructabilityCriteria) (fold : Bool) :
    ∀ (l : List MCParticle) (alloc : Nat),
      ∀ n ∈ Node.nodesList (fillChildrenHierarchy crit m fold l alloc).1, P n
  | [], alloc => by
    intro n hn; simp [fillChildrenHierarchy, Node.nodesList] at hn
  | c :: cs, alloc => by
    intro n hn
    rw [fillChildrenHierarchy_cons, Node.nodesList_append] at hn
    rcases List.mem_append.mp hn with h | h
    · exact fillNodeHierarchy_all m P hP crit fold c alloc n h
    · exact fillChildrenHierarchy_all m P hP crit fold cs _ n h
end


/-- The loop body of `FillHierarchy` appends the root node of the primary, in
every fold mode. -/
theorem fillPrimary_eq (crit : ReconstructabilityCriteria) (m : MCToHitsMap)
    (foldToPrimaries foldToLeadingShowers : Bool) (state : List Node × Nat) (p : MCParticle) :
    fillPrimary crit m foldToPrimaries foldToLeadingShowers state p
      = (state.1 ++ [rootNode crit m foldToPrimaries foldToLeadingShowers p state.2],
          (rootChildren crit m foldToPrimaries foldToLeadingShowers p (state.2 + 1)).2) := by
  cases foldToPrimaries <;> cases foldToLeadingShowers
  · simp only [fillPrimary, rootNode, rootParticles, rootChildren, Bool.false_and,
      Bool.false_eq_true, if_false]
  · simp only [fillPrimary, rootNode, rootParticles, rootChildren, Bool.false_and,
      Bool.false_eq_true, if_false, if_true]
    by_cases hsn : (isShowerPdg p.GetParticleId || isNeutronPdg p.GetParticleId) = true
    · simp only [hsn, Bool.not_true, Bool.false_eq_true, if_false, Node.addChildren_nil]
    · have hsn' : (isShowerPdg p.GetParticleId || isNeutronPdg p.GetParticleId) = false := by
        cases h : (isShowerPdg p.GetParticleId || isNeutronPdg p.GetParticleId)
        · rfl
        · exact absurd h hsn
      simp only [hsn', Bool.not_false, if_true]
  · simp only [fillPrimary, rootNode, rootParticles, rootChildren, Bool.true_and,
      Bool.not_false, if_true, flatParticles, Node.addChildren_nil]
  · simp only [fillPrimary, rootNode, rootParticles, rootChildren, Bool.true_and,
      Bool.not_true, Bool.false_eq_true, if_false, if_true, flatParticles]
    by_cases hsn : (isShowerPdg p.GetParticleId || isNeutronPdg p.GetParticleId) = true
    · simp only [hsn, if_true, List.isEmpty_nil, Bool.not_true, Bool.and_false,
        Bool.false_eq_true, if_false, fillChildrenFlat, List.append_nil]
      cases crit.m_removeNeutrons <;> rfl
    · have hsn' : (isShowerPdg p.GetParticleId || isNeutronPdg p.GetParticleId) = false := by
        cases h : (isShowerPdg p.GetParticleId || isNeutronPdg p.GetParticleId)
        · rfl
        · exact absurd h hsn
      simp only [hsn', Bool.false_eq_true, if_false]

/-- The loop over the primaries appends one root node per primary, in order. -/
theorem fillPrimaries_roots (crit : ReconstructabilityCriteria) (m : MCToHitsMap)
    (foldToPrimaries foldToLeadingShowers : Bool) (primaries : List MCParticle) :
    ∀ state : List Node × Nat,
      ∃ new, (primaries.foldl (fillPrimary crit m foldToPrimaries foldToLeadingShowers) state).1
          = state.1 ++ new
        ∧ List.Forall₂
            (fun p r => ∃ alloc, r = rootNode crit m foldToPrimaries foldToLeadingShowers p alloc)
            primaries new := by
  induction primaries with
  | nil => intro state; exact ⟨[], by simp, List.Forall₂.nil⟩
  | cons p rest ih =>
    intro state
    obtain ⟨new, hnew, hall⟩ :=
      ih (fillPrimary crit m foldToPrimaries foldToLeadingShowers state p)
    refine ⟨rootNode crit m foldToPrimaries foldToLeadingShowers p state.2 :: new, ?_,
      List.Forall₂.cons ⟨state.2, rfl⟩ hall⟩
    rw [List.foldl_cons, hnew, fillPrimary_eq]
    simp

/-- The root nodes of the hierarchy that `FillHierarchy` builds into an empty
hierarchy are the root nodes of the retained primaries, in order. -/
theorem FillHierarchy_roots (GetMainMCParticle : CaloHit → Option Nat)
    (GetPrimaryMCParticle : MCParticle → Option MCParticle) (IsNeutrino : MCParticle → Bool)
    (h : MCHierarchy) (mcParticleList : List MCParticle) (caloHitList : List CaloHit)
    (foldToPrimaries foldToLeadingShowers : Bool) (alloc : Nat)
    (hempty : h.m_rootNodes = []) :
    List.Forall₂
      (fun p r => ∃ a, r = rootNode h.m_recoCriteria (fillMcToHitsMap GetMainMCParticle caloHitList [])
        foldToPrimaries foldToLeadingShowers p a)
      (retainedPrimaries h.m_recoCriteria
        (GetMCPrimaries GetPrimaryMCParticle IsNeutrino mcParticleList (none, [])).2)
      (MCHierarchy.FillHierarchy GetMainMCParticle GetPrimaryMCParticle IsNeutrino h
        mcParticleList caloHitList foldToPrimaries foldToLeadingShowers alloc).1.m_rootNodes := by
  obtain ⟨new, hnew, hall⟩ := fillPrimaries_roots h.m_recoCriteria
    (fillMcToHitsMap GetMainMCParticle caloHitList []) foldToPrimaries foldToLeadingShowers
    (retainedPrimaries h.m_recoCriteria
      (GetMCPrimaries GetPrimaryMCParticle IsNeutrino mcParticleList (none, [])).2)
    (h.m_rootNodes, alloc)
  have hroots : (MCHierarchy.FillHierarchy GetMainMCParticle GetPrimaryMCParticle IsNeutrino h
      mcParticleList caloHitList foldToPrimaries foldToLeadingShowers alloc).1.m_rootNodes = new := by
    unfold MCHierarchy.FillHierarchy
    simp only
    rw [hnew, hempty, List.nil_append]
  rw [hroots]
  exact hall

theorem rootChildren_all (m : MCToHitsMap) (P : Node → Prop) (hP : HoldsForCreated m P)
    (crit : ReconstructabilityCriteria) (foldToPrimaries foldToLeadingShowers : Bool)
    (p : MCParticle) (alloc : Nat) :
    ∀ n ∈ Node.nodesList (rootChildren crit m foldToPrimaries foldToLeadingShowers p alloc).1,
      P n := by
  intro n hn
  unfold rootChildren at hn
  simp only at hn
  split_ifs at hn
  · simp [Node.nodesList] at hn
  · simp [Node.nodesList] at hn
  · simp only [Node.nodesList_append, List.mem_append] at hn
    rcases hn with h | h
    · exact fillChildrenFlat_all m P hP crit _ _ n h
    · exact fillChildrenFlat_all m P hP crit _ _ n h
  · simp only [Node.nodesList_append, List.mem_append] at hn
    rcases hn with h | h
    · exact fillChildrenFlat_all m P hP crit _ _ n h
    · simp [Node.nodesList] at h
  · exact fillChildrenHierarchy_all m P hP crit _ _ _ n hn
  · simp [Node.nodesList] at hn
  · exact fillChildrenHierarchy_all m P hP crit _ _ _ n hn

theorem rootNode_all (m : MCToHitsMap) (P : Node → Prop) (hP : HoldsForCreated m P)
    (crit : ReconstructabilityCriteria) (foldToPrimaries foldToLeadingShowers : Bool)
    (p : MCParticle) (alloc : Nat) :
    ∀ n ∈ Node.nodesList [rootNode crit m foldToPrimaries foldToLeadingShowers p alloc], P n :=
  created_inner_all m P hP _ _ _ (rootChildren_all m P hP crit _ _ p _)

/-- A property that every created node has holds for all nodes of the
hierarchy that `FillHierarchy` builds into an empty hierarchy. -/
theorem FillHierarchy_all (GetMainMCParticle : CaloHit → Option Nat)
    (GetPrimaryMCParticle : MCParticle → Option MCParticle) (IsNeutrino : MCParticle → Bool)
    (h : MCHierarchy) (mcParticleList : List MCParticle) (caloHitList : List CaloHit)
    (foldToPrimaries foldToLeadingShowers : Bool) (alloc : Nat)
    (hempty : h.m_rootNodes = []) (P : Node → Prop)
    (hP : HoldsForCreated (fillMcToHitsMap GetMainMCParticle caloHitList []) P) :
    ∀ n ∈ Node.nodesList (MCHierarchy.FillHierarchy GetMainMCParticle GetPrimaryMCParticle
        IsNeutrino h mcParticleList caloHitList foldToPrimaries foldToLeadingShowers
        alloc).1.m_rootNodes, P n := by
  have hroots := FillHierarchy_roots GetMainMCParticle GetPrimaryMCParticle IsNeutrino h
    mcParticleList caloHitList foldToPrimaries foldToLeadingShowers alloc hempty
  generalize (MCHierarchy.FillHierarchy GetMainMCParticle GetPrimaryMCParticle IsNeutrino h
    mcParticleList caloHitList foldToPrimaries foldToLeadingShowers alloc).1.m_rootNodes = roots
    at hroots
  generalize (retainedPrimaries h.m_recoCriteria
    (GetMCPrimaries GetPrimaryMCParticle IsNeutrino mcParticleList (none, [])).2) = prims
    at hroots
  induction hroots with
  | nil => intro n hn; simp [Node.nodesList] at hn
  | @cons p r ps rs hpr _ ih =>
    intro n hn
    obtain ⟨a, rfl⟩ := hpr
    have hsplit : Node.nodesList (rootNode h.m_recoCriteria
        (fillMcToHitsMap GetMainMCParticle caloHitList []) foldToPrimaries foldToLeadingShowers
        p a :: rs)
        = Node.nodesList [rootNode h.m_recoCriteria
            (fillMcToHitsMap GetMainMCParticle caloHitList []) foldToPrimaries
            foldToLeadingShowers p a] ++ Node.nodesList rs := by
      rw [← Node.nodesList_append]; rfl
    rw [hsplit] at hn
    rcases List.mem_append.mp hn with h1 | h1
    · exact rootNode_all _ P hP _ _ _ _ _ n h1
    · exact ih n h1

/-! ## The nodes of a reconstructed hierarchy -/

theorem Node.createReco_children (a : Nat) (parts : List ParticleFlowObject)
    (hits : List CaloHit) : (Node.createReco a parts hits).GetChildren = [] := rfl

theorem Node.createReco_particles (a : Nat) (parts : List ParticleFlowObject)
    (hits : List CaloHit) :
    (Node.createReco a parts hits).GetParticles
      = sortByAddress (parts.map ParticleFlowObject.addr) := rfl

theorem Node.createReco_hits (a : Nat) (parts : List ParticleFlowObject) (hits : List CaloHit) :
    (Node.createReco a parts hits).GetCaloHits = sortByAddress hits := rfl

/-- The nodes below a fresh node of the reconstructed hierarchy with children `cs`. -/
theorem Node.nodesList_createReco (a : Nat) (parts : List ParticleFlowObject)
    (hits : List CaloHit) (cs : List Node) :
    Node.nodesList [(Node.createReco a parts hits).addChildren cs]
      = (Node.createReco a parts hits).addChildren cs :: Node.nodesList cs := by
  rw [Node.nodesList_singleton, Node.addChildren_children, Node.createReco_children,
    List.nil_append]

/-- The two outcomes of `RecoHierarchy::Node::FillHierarchy` for an object: one
node without children that holds the object and everything downstream of it,
or one node that holds the object alone, with the nodes of the daughters as
children. -/
theorem fillRecoNodeHierarchy_eq (gc gi : Nat → HitType → List CaloHit) (fold : Bool)
    (a : Nat) (pdg : Int) (ds : List ParticleFlowObject) (alloc : Nat) :
    (fillRecoNodeHierarchy gc gi fold (ParticleFlowObject.mk a pdg ds) alloc).1
      = if (fold && isShowerPfoPdg pdg) = true then
          [Node.createReco alloc (GetAllDownstreamPfos (ParticleFlowObject.mk a pdg ds) [])
            (collectPfoHits gc gi (GetAllDownstreamPfos (ParticleFlowObject.mk a pdg ds) []) [])]
        else
          [(Node.createReco alloc [ParticleFlowObject.mk a pdg ds]
              (collectPfoHits gc gi [ParticleFlowObject.mk a pdg ds] [])).addChildren
            (fillRecoChildrenHierarchy gc gi fold ds (alloc + 1)).1] := by
  simp only [fillRecoNodeHierarchy]
  cases fold <;> cases isShowerPfoPdg pdg <;> simp

theorem fillRecoChildrenHierarchy_cons (gc gi : Nat → HitType → List CaloHit) (fold : Bool)
    (c : ParticleFlowObject) (cs : List ParticleFlowObject) (alloc : Nat) :
    (fillRecoChildrenHierarchy gc gi fold (c :: cs) alloc).1
      = (fillRecoNodeHierarchy gc gi fold c alloc).1
        ++ (fillRecoChildrenHierarchy gc gi fold cs
            (fillRecoNodeHierarchy gc gi fold c alloc).2).1 := by
  simp only [fillRecoChildrenHierarchy]

theorem createdReco_leaf_all (P : Node → Prop) (hP : HoldsForCreatedReco P) (a : Nat)
    (parts : List ParticleFlowObject) (hits : List CaloHit) :
    ∀ n ∈ Node.nodesList [Node.createReco a parts hits], P n := by
  intro n hn
  have h := hP a parts hits []
  rw [Node.addChildren_nil] at h
  rw [Node.nodesList_singleton, Node.createReco_children] at hn
  simp only [Node.nodesList, List.mem_singleton] at hn
  rw [hn]
  exact h

theorem createdReco_inner_all (P : Node → Prop) (hP : HoldsForCreatedReco P) (a : Nat)
    (parts : List ParticleFlowObject) (hits : List CaloHit) (cs : List Node)
    (hcs : ∀ n ∈ Node.nodesList cs, P n) :
    ∀ n ∈ Node.nodesList [(Node.createReco a parts hits).addChildren cs], P n := by
  intro n hn
  rw [Node.nodesList_createReco] at hn
  rcases List.mem_cons.mp hn with h | h
  · rw [h]; exact hP _ _ _ _
  · exact hcs n h

theorem fillRecoChildrenFlat_all (P : Node → Prop) (hP : HoldsForCreatedReco P)
    (gc gi : Nat → HitType → List CaloHit) (l : List ParticleFlowObject) :
    ∀ alloc : Nat, ∀ n ∈ Node.nodesList (fillRecoChildrenFlat gc gi l alloc).1, P n := by
  induction l with
  | nil => intro alloc n hn; simp [fillRecoChildrenFlat, Node.nodesList] at hn
  | cons p rest ih =>
    intro alloc n hn
    simp only [fillRecoChildrenFlat, Node.nodesList_append] at hn
    rcases List.mem_append.mp hn with h | h
    · exact createdReco_leaf_all P hP _ _ _ n h
    · exact ih _ n h

mutual
theorem fillRecoNodeHierarchy_all (P : Node → Prop) (hP : HoldsForCreatedReco P)
    (gc gi : Nat → HitType → List CaloHit) (fold : Bool) :
    ∀ (p : ParticleFlowObject) (alloc : Nat),
      ∀ n ∈ Node.nodesList (fillRecoNodeHierarchy gc gi fold p alloc).1, P n
  | ParticleFlowObject.mk a pdg ds, alloc => by
    rw [fillRecoNodeHierarchy_eq]
    split_ifs
    · exact createdReco_leaf_all P hP _ _ _
    · exact createdReco_inner_all P hP _ _ _ _
        (fillRecoChildrenHierarchy_all P hP gc gi fold ds (alloc + 1))
theorem fillRecoChildrenHierarchy_all (P : Node → Prop) (hP : HoldsForCreatedReco P)
    (gc gi : Nat → HitType → List CaloHit) (fold : Bool) :
    ∀ (l : List ParticleFlowObject) (alloc : Nat),
      ∀ n ∈ Node.nodesList (fillRecoChildrenHierarchy gc gi fold l alloc).1, P n
  | [], alloc => by
    intro n hn; simp [fillRecoChildrenHierarchy, Node.nodesList] at hn
  | c :: cs, alloc => by
    intro n hn
    rw [fillRecoChildrenHierarchy_cons, Node.nodesList_append] at hn
    rcases List.mem_append.mp hn with h | h
    · exact fillRecoNodeHierarchy_all P hP gc gi fold c alloc n h
    · exact fillRecoChildrenHierarchy_all P hP gc gi fold cs _ n h
end

/-- The loop body of `RecoHierarchy::FillHierarchy` appends the root node of
the primary, in every fold mode. -/
theorem fillRecoPrimary_eq (gc gi : Nat → HitType → List CaloHit)
    (foldToPrimaries foldToLeadingShowers : Bool) (state : List Node × Nat)
    (p : ParticleFlowObject) :
    fillRecoPrimary gc gi foldToPrimaries foldToLeadingShowers state p
      = (state.1 ++ [recoRootNode gc gi foldToPrimaries foldToLeadingShowers p state.2],
          (recoRootChildren gc gi foldToPrimaries foldToLeadingShowers p (state.2 + 1)).2) := by
  cases foldToPrimaries <;> cases foldToLeadingShowers
  · simp only [fillRecoPrimary, recoRootNode, recoRootParticles, recoRootChildren,
      Bool.false_and, Bool.false_eq_true, if_false]
  · simp only [fillRecoPrimary, recoRootNode, recoRootParticles, recoRootChildren,
      Bool.false_and, Bool.false_eq_true, if_false, if_true]
    cases isShowerPfoPdg p.GetParticleId
    · simp only [Bool.not_false, if_true]
    · simp only [Bool.not_true, Bool.false_eq_true, if_false, Node.addChildren_nil]
  · simp only [fillRecoPrimary, recoRootNode, recoRootParticles, recoRootChildren,
      Bool.true_and, Bool.not_false, if_true, Node.addChildren_nil]
  · simp only [fillRecoPrimary, recoRootNode, recoRootParticles, recoRootChildren,
      Bool.true_and, Bool.not_true, Bool.false_eq_true, if_false, if_true]
    cases isShowerPfoPdg p.GetParticleId
    · simp only [Bool.false_eq_true, if_false]
    · simp only [if_true, fillRecoChildrenFlat]

/-- The loop over the reconstructed primaries appends one root node per
primary, in order. -/
theorem fillRecoPrimaries_roots (gc gi : Nat → HitType → List CaloHit)
    (foldToPrimaries foldToLeadingShowers : Bool) (primaries : List ParticleFlowObject) :
    ∀ state : List Node × Nat,
      ∃ new, (primaries.foldl (fillRecoPrimary gc gi foldToPrimaries foldToLeadingShowers)
          state).1 = state.1 ++ new
        ∧ List.Forall₂
            (fun p r => ∃ alloc, r = recoRootNode gc gi foldToPrimaries foldToLeadingShowers p alloc)
            primaries new := by
  induction primaries with
  | nil => intro state; exact ⟨[], by simp, List.Forall₂.nil⟩
  | cons p rest ih =>
    intro state
    obtain ⟨new, hnew, hall⟩ :=
      ih (fillRecoPrimary gc gi foldToPrimaries foldToLeadingShowers state p)
    refine ⟨recoRootNode gc gi foldToPrimaries foldToLeadingShowers p state.2 :: new, ?_,
      List.Forall₂.cons ⟨state.2, rfl⟩ hall⟩
    rw [List.foldl_cons, hnew, fillRecoPrimary_eq]
    simp

/-- When `RecoHierarchy::FillHierarchy` returns, for a hierarchy that was empty,
a neutrino was found and the root nodes are the root nodes of its daughters,
taken in address order. -/
theorem RecoFillHierarchy_roots (gc gi : Nat → HitType → List CaloHit)
    (IsNeutrino : ParticleFlowObject → Bool)
    (GetParentPfo : ParticleFlowObject → ParticleFlowObject)
    (h : RecoHierarchy) (pfoList : List ParticleFlowObject)
    (foldToPrimaries foldToLeadingShowers : Bool) (alloc : Nat)
    (hempty : h.m_rootNodes = []) (result : RecoHierarchy × Nat)
    (hres : RecoHierarchy.FillHierarchy gc gi IsNeutrino GetParentPfo h pfoList foldToPrimaries
      foldToLeadingShowers alloc = some result) :
    ∃ pRoot primaries,
      GetRecoPrimaries IsNeutrino GetParentPfo pfoList [] = some (pRoot, primaries)
      ∧ result.1.m_pNeutrino = some pRoot.addr
      ∧ List.Forall₂
          (fun p r => ∃ a, r = recoRootNode gc gi foldToPrimaries foldToLeadingShowers p a)
          primaries result.1.m_rootNodes := by
  unfold RecoHierarchy.FillHierarchy at hres
  cases hprim : GetRecoPrimaries IsNeutrino GetParentPfo pfoList [] with
  | none => rw [hprim] at hres; simp at hres
  | some found =>
    obtain ⟨pRoot, primaries⟩ := found
    rw [hprim] at hres
    simp only [Option.some.injEq] at hres
    obtain ⟨new, hnew, hall⟩ := fillRecoPrimaries_roots gc gi foldToPrimaries
      foldToLeadingShowers primaries (h.m_rootNodes, alloc)
    refine ⟨pRoot, primaries, rfl, ?_, ?_⟩
    · rw [← hres]
    · rw [← hres]
      simp only
      rw [hnew, hempty, List.nil_append]
      exact hall

theorem recoRootNode_all (P : Node → Prop) (hP : HoldsForCreatedReco P)
    (gc gi : Nat → HitType → List CaloHit) (foldToPrimaries foldToLeadingShowers : Bool)
    (p : ParticleFlowObject) (alloc : Nat) :
    ∀ n ∈ Node.nodesList [recoRootNode gc gi foldToPrimaries foldToLeadingShowers p alloc],
      P n := by
  refine createdReco_inner_all P hP _ _ _ _ ?_
  intro n hn
  unfold recoRootChildren at hn
  simp only at hn
  split_ifs at hn
  · simp [Node.nodesList] at hn
  · simp [Node.nodesList] at hn
  · exact fillRecoChildrenFlat_all P hP gc gi _ _ n hn
  · exact fillRecoChildrenHierarchy_all P hP gc gi _ _ _ n hn
  · simp [Node.nodesList] at hn
  · exact fillRecoChildrenHierarchy_all P hP gc gi _ _ _ n hn

theorem forall₂_roots_all {α : Type} (P : Node → Prop) (R : α → Node → Prop)
    (hR : ∀ p r, R p r → ∀ n ∈ Node.nodesList [r], P n) :
    ∀ (ps : List α) (rs : List Node), List.Forall₂ R ps rs → ∀ n ∈ Node.nodesList rs, P n := by
  intro ps rs hall
  induction hall with
  | nil => intro n hn; simp [Node.nodesList] at hn
  | @cons p r ps rs hpr _ ih =>
    intro n hn
    have hsplit : Node.nodesList (r :: rs) = Node.nodesList [r] ++ Node.nodesList rs := by
      rw [← Node.nodesList_append]; rfl
    rw [hsplit] at hn
    rcases List.mem_append.mp hn with h1 | h1
    · exact hR p r hpr n h1
    · exact ih n h1

/-- A property that every created node has holds for all nodes of the
hierarchy that `RecoHierarchy::FillHierarchy` builds into an empty hierarchy. -/
theorem RecoFillHierarchy_all (gc gi : Nat → HitType → List CaloHit)
    (IsNeutrino : ParticleFlowObject → Bool)
    (GetParentPfo : ParticleFlowObject → ParticleFlowObject)
    (h : RecoHierarchy) (pfoList : List ParticleFlowObject)
    (foldToPrimaries foldToLeadingShowers : Bool) (alloc : Nat)
    (hempty : h.m_rootNodes = []) (result : RecoHierarchy × Nat)
    (hres : RecoHierarchy.FillHierarchy gc gi IsNeutrino GetParentPfo h pfoList foldToPrimaries
      foldToLeadingShowers alloc = some result)
    (P : Node → Prop) (hP : HoldsForCreatedReco P) :
    ∀ n ∈ Node.nodesList result.1.m_rootNodes, P n := by
  obtain ⟨pRoot, primaries, _, _, hall⟩ := RecoFillHierarchy_roots gc gi IsNeutrino GetParentPfo
    h pfoList foldToPrimaries foldToLeadingShowers alloc hempty result hres
  refine forall₂_roots_all P _ ?_ _ _ hall
  rintro p r ⟨a, rfl⟩
  exact recoRootNode_all P hP gc gi _ _ p a

/-! ## The hit lists of the nodes -/

theorem sortByAddress_sorted (l : List Nat) : (sortByAddress l).Sorted (· ≤ ·) :=
  List.sorted_insertionSort (· ≤ ·) l

/-- Every node that the truth hierarchy creates has its hits in non-decreasing
order, and they are a rearrangement of the mapped hits of its constituents. -/
theorem created_hits (m : MCToHitsMap) :
    HoldsForCreated m (fun n =>
      n.GetCaloHits.Sorted (· ≤ ·)
      ∧ n.GetCaloHits.Perm (n.GetParticles.flatMap m.hitsOf)
      ∧ n.GetCaloHits.length = (n.GetParticles.map (fun p => (m.hitsOf p).length)).sum) := by
  intro a parts cs
  have hperm : ((Node.create a parts (collectHits m parts [])).addChildren cs).GetCaloHits.Perm
      (((Node.create a parts (collectHits m parts [])).addChildren cs).GetParticles.flatMap
        m.hitsOf) := by
    rw [Node.addChildren_hits, Node.addChildren_particles, Node.create_hits,
      Node.create_particles]
    refine (sortByAddress_perm _).trans ?_
    refine (collectHits_perm m parts []).trans ?_
    rw [List.append_nil]
    exact List.Perm.flatMap_right _ (sortByAddress_perm _).symm
  refine ⟨?_, hperm, ?_⟩
  · rw [Node.addChildren_hits, Node.create_hits]
    exact sortByAddress_sorted _
  · rw [hperm.length_eq, List.flatMap, List.length_flatten, List.map_map]
    rfl

/-- Every node that the reconstructed hierarchy creates has its hits in
non-decreasing order. -/
theorem createdReco_sorted :
    HoldsForCreatedReco (fun n => n.GetCaloHits.Sorted (· ≤ ·)) := by
  intro a parts hits cs
  rw [Node.addChildren_hits, Node.createReco_hits]
  exact sortByAddress_sorted _

/-- C12: every node that `MCHierarchy::FillHierarchy` builds (any fold mode, into
an empty hierarchy) has its hit list in non-decreasing address order, and the
hit list is a rearrangement of the concatenation of the hit lists that
`m_mcToHitsMap` holds for its constituents, so its size is the sum of their
sizes; every node that `RecoHierarchy::FillHierarchy` builds has its hit list
in non-decreasing address order as well. -/
theorem C12_node_hits_sorted (GetMainMCParticle : CaloHit → Option Nat)
    (GetPrimaryMCParticle : MCParticle → Option MCParticle) (IsNeutrino : MCParticle → Bool)
    (h : MCHierarchy) (mcParticleList : List MCParticle) (caloHitList : List CaloHit)
    (foldToPrimaries foldToLeadingShowers : Bool) (alloc : Nat)
    (GetCaloHits GetIsolatedCaloHits : Nat → HitType → List CaloHit)
    (IsNeutrinoPfo : ParticleFlowObject → Bool)
    (GetParentPfo : ParticleFlowObject → ParticleFlowObject)
    (hReco : RecoHierarchy) (pfoList : List ParticleFlowObject)
    (foldRecoToPrimaries foldRecoToLeadingShowers : Bool) (allocReco : Nat)
    (hempty : h.m_rootNodes = []) (hemptyReco : hReco.m_rootNodes = []) :
    (∀ n ∈ Node.nodesList (MCHierarchy.FillHierarchy GetMainMCParticle GetPrimaryMCParticle
        IsNeutrino h mcParticleList caloHitList foldToPrimaries foldToLeadingShowers
        alloc).1.m_rootNodes,
      n.GetCaloHits.Sorted (· ≤ ·)
      ∧ n.GetCaloHits.Perm (n.GetParticles.flatMap
          (MCToHitsMap.hitsOf (MCHierarchy.FillHierarchy GetMainMCParticle GetPrimaryMCParticle
            IsNeutrino h mcParticleList caloHitList foldToPrimaries foldToLeadingShowers
            alloc).1.m_mcToHitsMap))
      ∧ n.GetCaloHits.length = (n.GetParticles.map (fun p =>
          (MCToHitsMap.hitsOf (MCHierarchy.FillHierarchy GetMainMCParticle GetPrimaryMCParticle
            IsNeutrino h mcParticleList caloHitList foldToPrimaries foldToLeadingShowers
            alloc).1.m_mcToHitsMap p).length)).sum)
    ∧ ∀ result, RecoHierarchy.FillHierarchy GetCaloHits GetIsolatedCaloHits IsNeutrinoPfo
        GetParentPfo hReco pfoList foldRecoToPrimaries foldRecoToLeadingShowers allocReco
          = some result →
        ∀ n ∈ Node.nodesList result.1.m_rootNodes, n.GetCaloHits.Sorted (· ≤ ·) := by
  constructor
  · exact FillHierarchy_all GetMainMCParticle GetPrimaryMCParticle IsNeutrino h mcParticleList
      caloHitList foldToPrimaries foldToLeadingShowers alloc hempty _
      (created_hits (fillMcToHitsMap GetMainMCParticle caloHitList []))
  · intro result hres
    exact RecoFillHierarchy_all GetCaloHits GetIsolatedCaloHits IsNeutrinoPfo GetParentPfo hReco
      pfoList foldRecoToPrimaries foldRecoToLeadingShowers allocReco hemptyReco result hres _
      createdReco_sorted

/-- C12 at the example events (truth: both fold flags set, neutrons kept;
reconstructed: fold to leading showers): both hierarchies start empty, the
conclusion holds, and the hit lists of the nodes are shown. -/
theorem C12_witness :
    (({ m_recoCriteria := { m_removeNeutrons := false } } : MCHierarchy).m_rootNodes = []
      ∧ ({} : RecoHierarchy).m_rootNodes = [])
    ∧ ((∀ n ∈ Node.nodesList (MCHierarchy.FillHierarchy exampleOwner examplePrimaryOf
          (fun p => decide (p.addr = 1)) { m_recoCriteria := { m_removeNeutrons := false } }
          (exampleNeutrino :: exampleNeutrino.descendents) exampleHits true true
          1000).1.m_rootNodes,
        n.GetCaloHits.Sorted (· ≤ ·)
        ∧ n.GetCaloHits.Perm (n.GetParticles.flatMap
            (MCToHitsMap.hitsOf (MCHierarchy.FillHierarchy exampleOwner examplePrimaryOf
              (fun p => decide (p.addr = 1)) { m_recoCriteria := { m_removeNeutrons := false } }
              (exampleNeutrino :: exampleNeutrino.descendents) exampleHits true true
              1000).1.m_mcToHitsMap))
        ∧ n.GetCaloHits.length = (n.GetParticles.map (fun p =>
            (MCToHitsMap.hitsOf (MCHierarchy.FillHierarchy exampleOwner examplePrimaryOf
              (fun p => decide (p.addr = 1)) { m_recoCriteria := { m_removeNeutrons := false } }
              (exampleNeutrino :: exampleNeutrino.descendents) exampleHits true true
              1000).1.m_mcToHitsMap p).length)).sum)
      ∧ ∀ result, RecoHierarchy.FillHierarchy examplePfoHits examplePfoIsolatedHits
          examplePfoIsNeutrino examplePfoParent {} examplePfoList false true 2000 = some result →
          ∀ n ∈ Node.nodesList result.1.m_rootNodes, n.GetCaloHits.Sorted (· ≤ ·))
    ∧ (Node.nodesList (MCHierarchy.FillHierarchy exampleOwner examplePrimaryOf
          (fun p => decide (p.addr = 1)) { m_recoCriteria := { m_removeNeutrons := false } }
          (exampleNeutrino :: exampleNeutrino.descendents) exampleHits true true
          1000).1.m_rootNodes).map Node.GetCaloHits
        = [[200, 201], [500, 600], [700, 800], [300, 900], [400]]
    ∧ (RecoHierarchy.FillHierarchy examplePfoHits examplePfoIsolatedHits examplePfoIsNeutrino
          examplePfoParent {} examplePfoList false true 2000).map
        (fun r => (Node.nodesList r.1.m_rootNodes).map Node.GetCaloHits)
        = some [[201, 205, 210, 220], [401, 405, 410, 420, 501, 505, 510, 520],
            [601, 605, 610, 620], [301, 305, 310, 320, 701, 705, 710, 720]] :=
  ⟨⟨rfl, rfl⟩,
    C12_node_hits_sorted exampleOwner examplePrimaryOf (fun p => decide (p.addr = 1))
      { m_recoCriteria := { m_removeNeutrons := false } }
      (exampleNeutrino :: exampleNeutrino.descendents) exampleHits true true 1000
      examplePfoHits examplePfoIsolatedHits examplePfoIsNeutrino examplePfoParent {}
      examplePfoList false true 2000 rfl rfl,
    by decide!, by decide⟩

/-! ## Hierarchies that are not folded to primaries -/

theorem shower_not_neutron (pdg : Int) (h : isShowerPdg pdg = true) : isNeutronPdg pdg = false := by
  simp only [isShowerPdg, isNeutronPdg, E_MINUS, PHOTON, NEUTRON, Bool.or_eq_true,
    decide_eq_true_eq, decide_eq_false_iff_not] at h ⊢
  rcases h with h | h <;> rw [h] <;> decide

/-- A particle that is folded with its descendants is not removed. -/
theorem folds_keeps (crit : ReconstructabilityCriteria) (fold : Bool) (pdg : Int)
    (h : foldsParticle crit fold pdg = true) : keepsParticle crit pdg = true := by
  unfold foldsParticle at h
  unfold keepsParticle
  cases hs : isShowerPdg pdg
  · rw [hs] at h
    revert h
    cases fold <;> cases isNeutronPdg pdg <;> cases crit.m_removeNeutrons <;> simp
  · rw [shower_not_neutron pdg hs]
    simp

theorem sortByAddress_singleton (a : Nat) : sortByAddress [a] = [a] := rfl

/-- The node that `Node::FillHierarchy` appends for a particle that is folded. -/
theorem fillNodeHierarchy_folded (crit : ReconstructabilityCriteria) (m : MCToHitsMap)
    (fold : Bool) (a : Nat) (pdg : Int) (ds : List MCParticle) (alloc : Nat)
    (h : foldsParticle crit fold pdg = true) :
    (fillNodeHierarchy crit m fold (MCParticle.mk a pdg ds) alloc).1
      = [Node.create alloc
          (GetAllDescendentMCParticles (MCParticle.mk a pdg ds) [MCParticle.mk a pdg ds])
          (collectHits m
            (GetAllDescendentMCParticles (MCParticle.mk a pdg ds) [MCParticle.mk a pdg ds]) [])] := by
  rw [fillNodeHierarchy_eq]
  unfold foldsParticle at h
  rw [if_pos h]

/-- No node is appended for a particle that is removed. -/
theorem fillNodeHierarchy_removed (crit : ReconstructabilityCriteria) (m : MCToHitsMap)
    (fold : Bool) (a : Nat) (pdg : Int) (ds : List MCParticle) (alloc : Nat)
    (h : keepsParticle crit pdg = false) :
    (fillNodeHierarchy crit m fold (MCParticle.mk a pdg ds) alloc).1 = [] := by
  have hf : foldsParticle crit fold pdg = false := by
    cases hh : foldsParticle crit fold pdg
    · rfl
    · rw [folds_keeps crit fold pdg hh] at h; cases h
  rw [fillNodeHierarchy_eq]
  unfold foldsParticle at hf
  unfold keepsParticle at h
  rw [if_neg (by rw [hf]; simp), if_pos (by simpa using h)]

/-- The node that `Node::FillHierarchy` appends for a particle that is neither
folded nor removed. -/
theorem fillNodeHierarchy_plain (crit : ReconstructabilityCriteria) (m : MCToHitsMap)
    (fold : Bool) (a : Nat) (pdg : Int) (ds : List MCParticle) (alloc : Nat)
    (hf : foldsParticle crit fold pdg = false) (hk : keepsParticle crit pdg = true) :
    (fillNodeHierarchy crit m fold (MCParticle.mk a pdg ds) alloc).1
      = [(Node.create alloc [MCParticle.mk a pdg ds]
            (collectHits m [MCParticle.mk a pdg ds] [])).addChildren
          (fillChildrenHierarchy crit m fold ds (alloc + 1)).1] := by
  rw [fillNodeHierarchy_eq]
  unfold foldsParticle at hf
  unfold keepsParticle at hk
  have hk' : (crit.m_removeNeutrons && isNeutronPdg pdg) = false := by
    cases hh : (crit.m_removeNeutrons && isNeutronPdg pdg)
    · rfl
    · rw [hh] at hk; cases hk
  rw [if_neg (by rw [hf]; simp), if_neg (by rw [hk']; simp)]

/-- The loop over a daughter list appends one node per daughter that gets a
node, in daughter order, with the constituents of the node rooted at it. -/
theorem fillChildrenHierarchy_particles (crit : ReconstructabilityCriteria) (m : MCToHitsMap)
    (fold : Bool) (l : List MCParticle) :
    ∀ alloc : Nat,
      (fillChildrenHierarchy crit m fold l alloc).1.map Node.GetParticles
        = (l.filter (fun d => keepsParticle crit d.GetParticleId)).map
            (nodeConstituents crit fold) := by
  induction l with
  | nil => intro alloc; simp [fillChildrenHierarchy]
  | cons d ds ih =>
    intro alloc
    rw [fillChildrenHierarchy_cons, List.map_append, ih]
    cases d with
    | mk a pdg dds =>
      by_cases hk : keepsParticle crit pdg = true
      · rw [List.filter_cons_of_pos (by simpa [MCParticle.GetParticleId] using hk),
          List.map_cons]
        by_cases hf : foldsParticle crit fold pdg = true
        · rw [fillNodeHierarchy_folded crit m fold a pdg dds alloc hf]
          simp only [List.map_cons, List.map_nil, List.singleton_append, Node.create_particles,
            nodeConstituents, MCParticle.GetParticleId, hf, if_true]
          rfl
        · have hf' : foldsParticle crit fold pdg = false := by
            cases hh : foldsParticle crit fold pdg
            · rfl
            · exact absurd hh hf
          rw [fillNodeHierarchy_plain crit m fold a pdg dds alloc hf' hk]
          simp only [List.map_cons, List.map_nil, List.singleton_append,
            Node.addChildren_particles, Node.create_particles, nodeConstituents,
            MCParticle.GetParticleId, hf', Bool.false_eq_true, if_false]
          rfl
      · have hk' : keepsParticle crit pdg = false := by
          cases hh : keepsParticle crit pdg
          · rfl
          · exact absurd hh hk
        rw [List.filter_cons_of_neg (by simpa [MCParticle.GetParticleId] using hk),
          fillNodeHierarchy_removed crit m fold a pdg dds alloc hk']
        rfl

theorem Node.addChildren_pdg (n : Node) (cs : List Node) :
    (n.addChildren cs).GetParticleId = n.GetParticleId := by
  cases n; rfl

theorem Node.create_pdg (a : Nat) (p : MCParticle) (rest : List MCParticle)
    (hits : List CaloHit) : (Node.create a (p :: rest) hits).GetParticleId = p.GetParticleId := rfl

/-- The node of a folded particle is the node rooted at it. -/
theorem nodeOfParticle_folded (crit : ReconstructabilityCriteria) (fold : Bool) (p : MCParticle)
    (a : Nat) (hits : List CaloHit) (h : foldsParticle crit fold p.GetParticleId = true) :
    NodeOfParticle crit fold p (Node.create a (GetAllDescendentMCParticles p [p]) hits) := by
  refine ⟨rfl, ?_, ?_⟩
  · rw [Node.create_particles, GetAllDescendentMCParticles_addrs, nodeConstituents, if_pos h]
  · rw [Node.create_children, if_pos h]
    rfl

/-- The node of a particle that is not folded, with the nodes of its daughters
as children, is the node rooted at it. -/
theorem nodeOfParticle_plain (crit : ReconstructabilityCriteria) (m : MCToHitsMap) (fold : Bool)
    (p : MCParticle) (a alloc : Nat) (hits : List CaloHit)
    (h : foldsParticle crit fold p.GetParticleId = false) :
    NodeOfParticle crit fold p
      ((Node.create a [p] hits).addChildren
        (fillChildrenHierarchy crit m fold p.GetDaughterList alloc).1) := by
  refine ⟨?_, ?_, ?_⟩
  · rw [Node.addChildren_pdg, Node.create_pdg]
  · rw [Node.addChildren_particles, Node.create_particles, nodeConstituents, h]
    rfl
  · rw [Node.addChildren_children, Node.create_children, List.nil_append,
      fillChildrenHierarchy_particles, h]
    rfl

mutual
/-- Every node below the node that `Node::FillHierarchy` appends for a particle
is the node rooted at the particle or at one of its descendants. -/
theorem fillNodeHierarchy_nodes (crit : ReconstructabilityCriteria) (m : MCToHitsMap)
    (fold : Bool) :
    ∀ (p : MCParticle) (alloc : Nat),
      ∀ n ∈ Node.nodesList (fillNodeHierarchy crit m fold p alloc).1,
        ∃ q ∈ p :: p.descendents, NodeOfParticle crit fold q n
  | MCParticle.mk a pdg ds, alloc => by
    intro n hn
    by_cases hk : keepsParticle crit pdg = true
    · by_cases hf : foldsParticle crit fold pdg = true
      · rw [fillNodeHierarchy_folded crit m fold a pdg ds alloc hf, Node.nodesList_singleton,
          Node.create_children] at hn
        simp only [Node.nodesList, List.mem_singleton] at hn
        rw [hn]
        exact ⟨_, List.mem_cons_self _ _, nodeOfParticle_folded crit fold _ _ _ hf⟩
      · have hf' : foldsParticle crit fold pdg = false := by
          cases hh : foldsParticle crit fold pdg
          · rfl
          · exact absurd hh hf
        rw [fillNodeHierarchy_plain crit m fold a pdg ds alloc hf' hk, Node.nodesList_create]
          at hn
        rcases List.mem_cons.mp hn with h | h
        · rw [h]
          exact ⟨_, List.mem_cons_self _ _,
            nodeOfParticle_plain crit m fold (MCParticle.mk a pdg ds) alloc (alloc + 1) _ hf'⟩
        · obtain ⟨q, hq, hnode⟩ := fillChildrenHierarchy_nodes crit m fold ds (alloc + 1) n h
          refine ⟨q, List.mem_cons_of_mem _ ?_, hnode⟩
          rw [MCParticle.descendents_mk]
          exact hq
    · have hk' : keepsParticle crit pdg = false := by
        cases hh : keepsParticle crit pdg
        · rfl
        · exact absurd hh hk
      rw [fillNodeHierarchy_removed crit m fold a pdg ds alloc hk'] at hn
      simp [Node.nodesList] at hn
/-- Every node below the nodes that the loop over a daughter list appends is
the node rooted at one of the daughters or of their descendants. -/
theorem fillChildrenHierarchy_nodes (crit : ReconstructabilityCriteria) (m : MCToHitsMap)
    (fold : Bool) :
    ∀ (l : List MCParticle) (alloc : Nat),
      ∀ n ∈ Node.nodesList (fillChildrenHierarchy crit m fold l alloc).1,
        ∃ q ∈ MCParticle.descendentsList l, NodeOfParticle crit fold q n
  | [], alloc => by
    intro n hn; simp [fillChildrenHierarchy, Node.nodesList] at hn
  | c :: cs, alloc => by
    intro n hn
    rw [fillChildrenHierarchy_cons, Node.nodesList_append] at hn
    rw [MCParticle.descendentsList_cons]
    rcases List.mem_append.mp hn with h | h
    · obtain ⟨q, hq, hnode⟩ := fillNodeHierarchy_nodes crit m fold c alloc n h
      exact ⟨q, List.mem_append_left _ hq, hnode⟩
    · obtain ⟨q, hq, hnode⟩ := fillChildrenHierarchy_nodes crit m fold cs _ n h
      exact ⟨q, List.mem_append_right _ hq, hnode⟩
end

theorem rootParticles_unfolded (crit : ReconstructabilityCriteria) (fold : Bool) (p : MCParticle) :
    rootParticles crit false fold p
      = if foldsParticle crit fold p.GetParticleId then GetAllDescendentMCParticles p [p]
        else [p] := by
  unfold rootParticles foldsParticle
  cases fold <;> simp

theorem rootChildren_unfolded (crit : ReconstructabilityCriteria) (m : MCToHitsMap) (fold : Bool)
    (p : MCParticle) (alloc : Nat) (hkeep : fold = true → keepsParticle crit p.GetParticleId = true) :
    rootChildren crit m false fold p alloc
      = if foldsParticle crit fold p.GetParticleId then ([], alloc)
        else fillChildrenHierarchy crit m fold p.GetDaughterList alloc := by
  unfold rootChildren foldsParticle
  cases fold with
  | false => simp
  | true =>
    have hk := hkeep rfl
    unfold keepsParticle at hk
    simp only [Bool.false_and, Bool.false_eq_true, if_false, if_true, Bool.true_and]
    cases hs : isShowerPdg p.GetParticleId
    · revert hk
      cases isNeutronPdg p.GetParticleId <;> cases crit.m_removeNeutrons <;> simp
    · simp

/-- The root node of a primary in a hierarchy that is not folded to primaries
is the node rooted at the primary, unless leading showers are folded and the
primary is a neutron-type particle that `m_removeNeutrons` should have
removed. -/
theorem rootNode_unfolded (crit : ReconstructabilityCriteria) (m : MCToHitsMap) (fold : Bool)
    (p : MCParticle) (alloc : Nat) (hkeep : fold = true → keepsParticle crit p.GetParticleId = true) :
    NodeOfParticle crit fold p (rootNode crit m false fold p alloc)
    ∧ ∀ n ∈ Node.nodesList [rootNode crit m false fold p alloc],
        ∃ q ∈ p :: p.descendents, NodeOfParticle crit fold q n := by
  unfold rootNode
  rw [rootParticles_unfolded, rootChildren_unfolded crit m fold p _ hkeep]
  by_cases hf : foldsParticle crit fold p.GetParticleId = true
  · simp only [hf, if_true, Node.addChildren_nil]
    refine ⟨nodeOfParticle_folded crit fold p _ _ hf, ?_⟩
    intro n hn
    rw [Node.nodesList_singleton, Node.create_children] at hn
    simp only [Node.nodesList, List.mem_singleton] at hn
    rw [hn]
    exact ⟨p, List.mem_cons_self _ _, nodeOfParticle_folded crit fold p _ _ hf⟩
  · have hf' : foldsParticle crit fold p.GetParticleId = false := by
      cases hh : foldsParticle crit fold p.GetParticleId
      · rfl
      · exact absurd hh hf
    simp only [hf', Bool.false_eq_true, if_false]
    refine ⟨nodeOfParticle_plain crit m fold p _ _ _ hf', ?_⟩
    intro n hn
    rw [Node.nodesList_create] at hn
    rcases List.mem_cons.mp hn with h | h
    · rw [h]
      exact ⟨p, List.mem_cons_self _ _, nodeOfParticle_plain crit m fold p _ _ _ hf'⟩
    · cases p with
      | mk a pdg ds =>
        obtain ⟨q, hq, hnode⟩ := fillChildrenHierarchy_nodes crit m fold ds _ n h
        refine ⟨q, List.mem_cons_of_mem _ ?_, hnode⟩
        rw [MCParticle.descendents_mk]
        exact hq

/-- The hierarchy that `FillHierarchy` builds without folding to primaries:
the root nodes are the nodes rooted at the retained primaries, in order, and
every node is the node rooted at a retained primary or at one of its
descendants; when leading showers are folded this needs that no retained
primary is a neutron-type particle that `m_removeNeutrons` should have
removed. -/
theorem FillHierarchy_unfolded (GetMainMCParticle : CaloHit → Option Nat)
    (GetPrimaryMCParticle : MCParticle → Option MCParticle) (IsNeutrino : MCParticle → Bool)
    (h : MCHierarchy) (mcParticleList : List MCParticle) (caloHitList : List CaloHit)
    (fold : Bool) (alloc : Nat) (hempty : h.m_rootNodes = [])
    (hkeep : fold = true → ∀ p ∈ retainedPrimaries h.m_recoCriteria
        (GetMCPrimaries GetPrimaryMCParticle IsNeutrino mcParticleList (none, [])).2,
      keepsParticle h.m_recoCriteria p.GetParticleId = true) :
    List.Forall₂ (NodeOfParticle h.m_recoCriteria fold)
      (retainedPrimaries h.m_recoCriteria
        (GetMCPrimaries GetPrimaryMCParticle IsNeutrino mcParticleList (none, [])).2)
      (MCHierarchy.FillHierarchy GetMainMCParticle GetPrimaryMCParticle IsNeutrino h
        mcParticleList caloHitList false fold alloc).1.m_rootNodes
    ∧ ∀ n ∈ Node.nodesList (MCHierarchy.FillHierarchy GetMainMCParticle GetPrimaryMCParticle
        IsNeutrino h mcParticleList caloHitList false fold alloc).1.m_rootNodes,
        ∃ p ∈ retainedPrimaries h.m_recoCriteria
            (GetMCPrimaries GetPrimaryMCParticle IsNeutrino mcParticleList (none, [])).2,
          ∃ q ∈ p :: p.descendents, NodeOfParticle h.m_recoCriteria fold q n := by
  have hroots := FillHierarchy_roots GetMainMCParticle GetPrimaryMCParticle IsNeutrino h
    mcParticleList caloHitList false fold alloc hempty
  generalize (MCHierarchy.FillHierarchy GetMainMCParticle GetPrimaryMCParticle IsNeutrino h
    mcParticleList caloHitList false fold alloc).1.m_rootNodes = roots at hroots
  generalize (retainedPrimaries h.m_recoCriteria
    (GetMCPrimaries GetPrimaryMCParticle IsNeutrino mcParticleList (none, [])).2) = prims
    at hroots hkeep
  induction hroots with
  | nil => exact ⟨List.Forall₂.nil, fun n hn => by simp [Node.nodesList] at hn⟩
  | @cons p r ps rs hpr _ ih =>
    obtain ⟨a, rfl⟩ := hpr
    have hk : fold = true → keepsParticle h.m_recoCriteria p.GetParticleId = true :=
      fun hf => hkeep hf p (List.mem_cons_self _ _)
    obtain ⟨h1, h2⟩ := rootNode_unfolded h.m_recoCriteria
      (fillMcToHitsMap GetMainMCParticle caloHitList []) fold p a hk
    obtain ⟨ih1, ih2⟩ := ih (fun hf q hq => hkeep hf q (List.mem_cons_of_mem _ hq))
    refine ⟨List.Forall₂.cons h1 ih1, ?_⟩
    intro n hn
    have hsplit : Node.nodesList (rootNode h.m_recoCriteria
        (fillMcToHitsMap GetMainMCParticle caloHitList []) false fold p a :: rs)
        = Node.nodesList [rootNode h.m_recoCriteria
            (fillMcToHitsMap GetMainMCParticle caloHitList []) false fold p a]
          ++ Node.nodesList rs := by
      rw [← Node.nodesList_append]; rfl
    rw [hsplit] at hn
    rcases List.mem_append.mp hn with h3 | h3
    · obtain ⟨q, hq, hnode⟩ := h2 n h3
      exact ⟨p, List.mem_cons_self _ _, q, hq, hnode⟩
    · obtain ⟨p', hp', q, hq, hnode⟩ := ih2 n h3
      exact ⟨p', List.mem_cons_of_mem _ hp', q, hq, hnode⟩

/-! ## Reconstructed hierarchies that are not folded to primaries -/

theorem Node.createReco_pdg (a : Nat) (p : ParticleFlowObject) (rest : List ParticleFlowObject)
    (hits : List CaloHit) :
    (Node.createReco a (p :: rest) hits).GetParticleId = p.GetParticleId := rfl

theorem ParticleFlowObject.downstream_eq (p : ParticleFlowObject) :
    p.downstream = p :: ParticleFlowObject.downstreamList p.GetDaughterPfoList := by
  cases p; rfl

theorem ParticleFlowObject.downstreamList_cons (d : ParticleFlowObject)
    (ds : List ParticleFlowObject) :
    ParticleFlowObject.downstreamList (d :: ds)
      = d.downstream ++ ParticleFlowObject.downstreamList ds := by
  cases d; rfl

/-- The node of a folded object is the node rooted at it. -/
theorem nodeOfPfo_folded (fold : Bool) (p : ParticleFlowObject) (a : Nat) (hits : List CaloHit)
    (h : (fold && isShowerPfoPdg p.GetParticleId) = true) :
    NodeOfPfo fold p (Node.createReco a (GetAllDownstreamPfos p []) hits) := by
  have hlist : GetAllDownstreamPfos p []
      = p :: ParticleFlowObject.downstreamList p.GetDaughterPfoList := by
    unfold GetAllDownstreamPfos
    rw [List.nil_append, ParticleFlowObject.downstream_eq]
  refine ⟨?_, ?_, ?_⟩
  · rw [hlist, Node.createReco_pdg]
  · rw [Node.createReco_particles, recoNodeConstituents, if_pos h]
    unfold GetAllDownstreamPfos
    rw [List.nil_append]
  · rw [Node.createReco_children, if_pos h]
    rfl

/-- The loop over a daughter list of the reconstructed hierarchy appends one
node per daughter, in daughter order, with the constituents of the node
rooted at it. -/
theorem fillRecoChildrenHierarchy_particles (gc gi : Nat → HitType → List CaloHit) (fold : Bool)
    (l : List ParticleFlowObject) :
    ∀ alloc : Nat,
      (fillRecoChildrenHierarchy gc gi fold l alloc).1.map Node.GetParticles
        = l.map (recoNodeConstituents fold) := by
  induction l with
  | nil => intro alloc; simp [fillRecoChildrenHierarchy]
  | cons d ds ih =>
    intro alloc
    rw [fillRecoChildrenHierarchy_cons, List.map_append, ih, List.map_cons]
    cases d with
    | mk a pdg dds =>
      rw [fillRecoNodeHierarchy_eq]
      by_cases hf : (fold && isShowerPfoPdg pdg) = true
      · rw [if_pos hf]
        simp only [List.map_cons, List.map_nil, List.singleton_append,
          Node.createReco_particles, recoNodeConstituents, ParticleFlowObject.GetParticleId, hf,
          if_true, GetAllDownstreamPfos, List.nil_append]
      · rw [if_neg hf]
        simp only [List.map_cons, List.map_nil, List.singleton_append,
          Node.addChildren_particles, Node.createReco_particles, recoNodeConstituents,
          ParticleFlowObject.GetParticleId, hf, if_false]
        rfl

/-- The node of an object that is not folded, with the nodes of its daughters
as children, is the node rooted at it. -/
theorem nodeOfPfo_plain (gc gi : Nat → HitType → List CaloHit) (fold : Bool)
    (p : ParticleFlowObject) (a alloc : Nat) (hits : List CaloHit)
    (h : ¬ (fold && isShowerPfoPdg p.GetParticleId) = true) :
    NodeOfPfo fold p
      ((Node.createReco a [p] hits).addChildren
        (fillRecoChildrenHierarchy gc gi fold p.GetDaughterPfoList alloc).1) := by
  refine ⟨?_, ?_, ?_⟩
  · rw [Node.addChildren_pdg, Node.createReco_pdg]
  · rw [Node.addChildren_particles, Node.createReco_particles, recoNodeConstituents, if_neg h]
    rfl
  · rw [Node.addChildren_children, Node.createReco_children, List.nil_append,
      fillRecoChildrenHierarchy_particles, if_neg h]

mutual
/-- Every node below the node that `RecoHierarchy::Node::FillHierarchy` appends
for an object is the node rooted at the object or at an object downstream of
it. -/
theorem fillRecoNodeHierarchy_nodes (gc gi : Nat → HitType → List CaloHit) (fold : Bool) :
    ∀ (p : ParticleFlowObject) (alloc : Nat),
      ∀ n ∈ Node.nodesList (fillRecoNodeHierarchy gc gi fold p alloc).1,
        ∃ q ∈ p.downstream, NodeOfPfo fold q n
  | ParticleFlowObject.mk a pdg ds, alloc => by
    intro n hn
    rw [fillRecoNodeHierarchy_eq] at hn
    by_cases hf : (fold && isShowerPfoPdg pdg) = true
    · rw [if_pos hf, Node.nodesList_singleton, Node.createReco_children] at hn
      simp only [Node.nodesList, List.mem_singleton] at hn
      rw [hn]
      exact ⟨_, List.mem_cons_self _ _,
        nodeOfPfo_folded fold (ParticleFlowObject.mk a pdg ds) _ _ hf⟩
    · rw [if_neg hf, Node.nodesList_createReco] at hn
      rcases List.mem_cons.mp hn with h | h
      · rw [h]
        exact ⟨_, List.mem_cons_self _ _,
          nodeOfPfo_plain gc gi fold (ParticleFlowObject.mk a pdg ds) alloc (alloc + 1) _ hf⟩
      · obtain ⟨q, hq, hnode⟩ := fillRecoChildrenHierarchy_nodes gc gi fold ds (alloc + 1) n h
        exact ⟨q, List.mem_cons_of_mem _ hq, hnode⟩
/-- Every node below the nodes that the loop over a daughter list appends is
the node rooted at an object downstream of the mother. -/
theorem fillRecoChildrenHierarchy_nodes (gc gi : Nat → HitType → List CaloHit) (fold : Bool) :
    ∀ (l : List ParticleFlowObject) (alloc : Nat),
      ∀ n ∈ Node.nodesList (fillRecoChildrenHierarchy gc gi fold l alloc).1,
        ∃ q ∈ ParticleFlowObject.downstreamList l, NodeOfPfo fold q n
  | [], alloc => by
    intro n hn; simp [fillRecoChildrenHierarchy, Node.nodesList] at hn
  | c :: cs, alloc => by
    intro n hn
    rw [fillRecoChildrenHierarchy_cons, Node.nodesList_append] at hn
    rw [ParticleFlowObject.downstreamList_cons]
    rcases List.mem_append.mp hn with h | h
    · obtain ⟨q, hq, hnode⟩ := fillRecoNodeHierarchy_nodes gc gi fold c alloc n h
      exact ⟨q, List.mem_append_left _ hq, hnode⟩
    · obtain ⟨q, hq, hnode⟩ := fillRecoChildrenHierarchy_nodes gc gi fold cs _ n h
      exact ⟨q, List.mem_append_right _ hq, hnode⟩
end

theorem recoRootParticles_unfolded (fold : Bool) (p : ParticleFlowObject) :
    recoRootParticles false fold p
      = if (fold && isShowerPfoPdg p.GetParticleId) = true then GetAllDownstreamPfos p []
        else [p] := by
  unfold recoRootParticles
  cases fold <;> simp

theorem recoRootChildren_unfolded (gc gi : Nat → HitType → List CaloHit) (fold : Bool)
    (p : ParticleFlowObject) (alloc : Nat) :
    recoRootChildren gc gi false fold p alloc
      = if (fold && isShowerPfoPdg p.GetParticleId) = true then ([], alloc)
        else fillRecoChildrenHierarchy gc gi fold p.GetDaughterPfoList alloc := by
  unfold recoRootChildren
  cases fold <;> cases isShowerPfoPdg p.GetParticleId <;> simp

/-- The root node of a primary in a reconstructed hierarchy that is not folded
to primaries is the node rooted at the primary. -/
theorem recoRootNode_unfolded (gc gi : Nat → HitType → List CaloHit) (fold : Bool)
    (p : ParticleFlowObject) (alloc : Nat) :
    NodeOfPfo fold p (recoRootNode gc gi false fold p alloc)
    ∧ ∀ n ∈ Node.nodesList [recoRootNode gc gi false fold p alloc],
        ∃ q ∈ p.downstream, NodeOfPfo fold q n := by
  unfold recoRootNode
  rw [recoRootParticles_unfolded, recoRootChildren_unfolded]
  by_cases hf : (fold && isShowerPfoPdg p.GetParticleId) = true
  · simp only [hf, if_true, Node.addChildren_nil]
    refine ⟨nodeOfPfo_folded fold p _ _ hf, ?_⟩
    intro n hn
    rw [Node.nodesList_singleton, Node.createReco_children] at hn
    simp only [Node.nodesList, List.mem_singleton] at hn
    rw [hn, ParticleFlowObject.downstream_eq]
    exact ⟨p, List.mem_cons_self _ _, nodeOfPfo_folded fold p _ _ hf⟩
  · simp only [hf, if_false]
    refine ⟨nodeOfPfo_plain gc gi fold p _ _ _ hf, ?_⟩
    intro n hn
    rw [Node.nodesList_createReco] at hn
    rw [ParticleFlowObject.downstream_eq]
    rcases List.mem_cons.mp hn with h | h
    · rw [h]
      exact ⟨p, List.mem_cons_self _ _, nodeOfPfo_plain gc gi fold p _ _ _ hf⟩
    · obtain ⟨q, hq, hnode⟩ := fillRecoChildrenHierarchy_nodes gc gi fold _ _ n h
      exact ⟨q, List.mem_cons_of_mem _ hq, hnode⟩

/-- The hierarchy that `RecoHierarchy::FillHierarchy` builds without folding to
primaries, when it returns: a neutrino was found, the root nodes are the nodes
rooted at its daughters, in address order, and every node is the node rooted
at a primary or at an object downstream of it. -/
theorem RecoFillHierarchy_unfolded (gc gi : Nat → HitType → List CaloHit)
    (IsNeutrino : ParticleFlowObject → Bool)
    (GetParentPfo : ParticleFlowObject → ParticleFlowObject)
    (h : RecoHierarchy) (pfoList : List ParticleFlowObject) (fold : Bool) (alloc : Nat)
    (hempty : h.m_rootNodes = []) (result : RecoHierarchy × Nat)
    (hres : RecoHierarchy.FillHierarchy gc gi IsNeutrino GetParentPfo h pfoList false fold alloc
      = some result) :
    ∃ pRoot primaries,
      GetRecoPrimaries IsNeutrino GetParentPfo pfoList [] = some (pRoot, primaries)
      ∧ List.Forall₂ (NodeOfPfo fold) primaries result.1.m_rootNodes
      ∧ ∀ n ∈ Node.nodesList result.1.m_rootNodes,
          ∃ p ∈ primaries, ∃ q ∈ p.downstream, NodeOfPfo fold q n := by
  obtain ⟨pRoot, primaries, hprim, _, hall⟩ := RecoFillHierarchy_roots gc gi IsNeutrino
    GetParentPfo h pfoList false fold alloc hempty result hres
  refine ⟨pRoot, primaries, hprim, ?_⟩
  clear hprim
  generalize result.1.m_rootNodes = roots at hall
  induction hall with
  | nil => exact ⟨List.Forall₂.nil, fun n hn => by simp [Node.nodesList] at hn⟩
  | @cons p r ps rs hpr _ ih =>
    obtain ⟨a, rfl⟩ := hpr
    obtain ⟨h1, h2⟩ := recoRootNode_unfolded gc gi fold p a
    obtain ⟨ih1, ih2⟩ := ih
    refine ⟨List.Forall₂.cons h1 ih1, ?_⟩
    intro n hn
    have hsplit : Node.nodesList (recoRootNode gc gi false fold p a :: rs)
        = Node.nodesList [recoRootNode gc gi false fold p a] ++ Node.nodesList rs := by
      rw [← Node.nodesList_append]; rfl
    rw [hsplit] at hn
    rcases List.mem_append.mp hn with h3 | h3
    · obtain ⟨q, hq, hnode⟩ := h2 n h3
      exact ⟨p, List.mem_cons_self _ _, q, hq, hnode⟩
    · obtain ⟨p', hp', q, hq, hnode⟩ := ih2 n h3
      exact ⟨p', List.mem_cons_of_mem _ hp', q, hq, hnode⟩

/-! ## No folding -/

theorem forall₂_map_eq {α β γ : Type} (f : α → γ) (g : β → γ) (R : α → β → Prop)
    (hR : ∀ a b, R a b → g b = f a) :
    ∀ (l₁ : List α) (l₂ : List β), List.Forall₂ R l₁ l₂ → l₂.map g = l₁.map f := by
  intro l₁ l₂ h
  induction h with
  | nil => rfl
  | cons hab _ ih => rw [List.map_cons, List.map_cons, hR _ _ hab, ih]

/-- Without folding the node rooted at a particle holds the particle alone and
has one child per daughter that is not a removed neutron. -/
theorem nodeOfParticle_nofold (crit : ReconstructabilityCriteria) (q : MCParticle) (n : Node)
    (h : NodeOfParticle crit false q n) :
    n.GetParticleId = q.GetParticleId ∧ n.GetParticles = [q.addr]
    ∧ n.GetChildren.map Node.GetParticles
        = (q.GetDaughterList.filter
            (fun d => !(crit.m_removeNeutrons && isNeutronPdg d.GetParticleId))).map
            (fun d => [d.addr]) := by
  obtain ⟨h1, h2, h3⟩ := h
  refine ⟨h1, ?_, ?_⟩
  · rw [h2]; rfl
  · rw [h3]; rfl

/-- Without folding the node rooted at a reconstructed object holds the object
alone and has one child per daughter. -/
theorem nodeOfPfo_nofold (q : ParticleFlowObject) (n : Node) (h : NodeOfPfo false q n) :
    n.GetParticleId = q.GetParticleId ∧ n.GetParticles = [q.addr]
    ∧ n.GetChildren.map Node.GetParticles = q.GetDaughterPfoList.map (fun d => [d.addr]) := by
  obtain ⟨h1, h2, h3⟩ := h
  refine ⟨h1, ?_, ?_⟩
  · rw [h2]; rfl
  · rw [h3]; rfl

/-- C14: with both fold flags false and the hierarchies built into empty ones.
Truth: there is one root node per retained primary, in order, holding that
primary; every node holds exactly one particle `q`, a retained primary or a
descendant of one, has the PDG code of `q`, and has one child per daughter of
`q`, in daughter order, each holding that daughter; with `m_removeNeutrons`
set the neutron-type daughters get no child, so nothing below them is in the
hierarchy.  Reconstructed (when the function returns): the same with the
daughters of the neutrino as primaries and one child per daughter. -/
theorem C14_no_folding (GetMainMCParticle : CaloHit → Option Nat)
    (GetPrimaryMCParticle : MCParticle → Option MCParticle) (IsNeutrino : MCParticle → Bool)
    (h : MCHierarchy) (mcParticleList : List MCParticle) (caloHitList : List CaloHit)
    (alloc : Nat)
    (GetCaloHits GetIsolatedCaloHits : Nat → HitType → List CaloHit)
    (IsNeutrinoPfo : ParticleFlowObject → Bool)
    (GetParentPfo : ParticleFlowObject → ParticleFlowObject)
    (hReco : RecoHierarchy) (pfoList : List ParticleFlowObject) (allocReco : Nat)
    (hempty : h.m_rootNodes = []) (hemptyReco : hReco.m_rootNodes = []) :
    ((MCHierarchy.FillHierarchy GetMainMCParticle GetPrimaryMCParticle IsNeutrino h
        mcParticleList caloHitList false false alloc).1.m_rootNodes.map Node.GetParticles
      = (retainedPrimaries h.m_recoCriteria
          (GetMCPrimaries GetPrimaryMCParticle IsNeutrino mcParticleList (none, [])).2).map
          (fun p => [p.addr])
      ∧ ∀ n ∈ Node.nodesList (MCHierarchy.FillHierarchy GetMainMCParticle GetPrimaryMCParticle
          IsNeutrino h mcParticleList caloHitList false false alloc).1.m_rootNodes,
          n.GetParticles.length = 1
          ∧ ∃ p ∈ retainedPrimaries h.m_recoCriteria
              (GetMCPrimaries GetPrimaryMCParticle IsNeutrino mcParticleList (none, [])).2,
            ∃ q ∈ p :: p.descendents,
              n.GetParticleId = q.GetParticleId ∧ n.GetParticles = [q.addr]
              ∧ n.GetChildren.map Node.GetParticles
                  = (q.GetDaughterList.filter (fun d =>
                      !(h.m_recoCriteria.m_removeNeutrons && isNeutronPdg d.GetParticleId))).map
                      (fun d => [d.addr]))
    ∧ ∀ result, RecoHierarchy.FillHierarchy GetCaloHits GetIsolatedCaloHits IsNeutrinoPfo
        GetParentPfo hReco pfoList false false allocReco = some result →
        ∃ pRoot primaries,
          GetRecoPrimaries IsNeutrinoPfo GetParentPfo pfoList [] = some (pRoot, primaries)
          ∧ result.1.m_rootNodes.map Node.GetParticles = primaries.map (fun p => [p.addr])
          ∧ ∀ n ∈ Node.nodesList result.1.m_rootNodes,
              n.GetParticles.length = 1
              ∧ ∃ p ∈ primaries, ∃ q ∈ p.downstream,
                  n.GetParticleId = q.GetParticleId ∧ n.GetParticles = [q.addr]
                  ∧ n.GetChildren.map Node.GetParticles
                      = q.GetDaughterPfoList.map (fun d => [d.addr]) := by
  constructor
  · obtain ⟨hroots, hnodes⟩ := FillHierarchy_unfolded GetMainMCParticle GetPrimaryMCParticle
      IsNeutrino h mcParticleList caloHitList false alloc hempty (fun hf => by cases hf)
    constructor
    · exact forall₂_map_eq (fun p => [p.addr]) Node.GetParticles _
        (fun p r hpr => (nodeOfParticle_nofold _ p r hpr).2.1) _ _ hroots
    · intro n hn
      obtain ⟨p, hp, q, hq, hnode⟩ := hnodes n hn
      have h3 := nodeOfParticle_nofold _ q n hnode
      exact ⟨by rw [h3.2.1]; rfl, p, hp, q, hq, h3⟩
  · intro result hres
    obtain ⟨pRoot, primaries, hprim, hroots, hnodes⟩ := RecoFillHierarchy_unfolded GetCaloHits
      GetIsolatedCaloHits IsNeutrinoPfo GetParentPfo hReco pfoList false allocReco hemptyReco
      result hres
    refine ⟨pRoot, primaries, hprim, ?_, ?_⟩
    · exact forall₂_map_eq (fun p => [p.addr]) Node.GetParticles _
        (fun p r hpr => (nodeOfPfo_nofold p r hpr).2.1) _ _ hroots
    · intro n hn
      obtain ⟨p, hp, q, hq, hnode⟩ := hnodes n hn
      have h3 := nodeOfPfo_nofold q n hnode
      exact ⟨by rw [h3.2.1]; rfl, p, hp, q, hq, h3⟩

/-- C14 at the example events (truth: `showerEvent` under the default criteria,
which remove neutrons; reconstructed: `examplePfoNeutrino`): both hierarchies
start empty, the conclusion holds, and the nodes are shown with their
constituents and the addresses of their children. -/
theorem C14_witness :
    ((({} : MCHierarchy).m_rootNodes = [] ∧ ({} : RecoHierarchy).m_rootNodes = []))
    ∧ (((MCHierarchy.FillHierarchy exampleOwner showerEventPrimaryOf
          (fun p => decide (p.addr = 1)) {} (showerEvent :: showerEvent.descendents)
          showerEventHits false false 1000).1.m_rootNodes.map Node.GetParticles
        = (retainedPrimaries ({} : MCHierarchy).m_recoCriteria
            (GetMCPrimaries showerEventPrimaryOf (fun p => decide (p.addr = 1))
              (showerEvent :: showerEvent.descendents) (none, [])).2).map (fun p => [p.addr])
        ∧ ∀ n ∈ Node.nodesList (MCHierarchy.FillHierarchy exampleOwner showerEventPrimaryOf
            (fun p => decide (p.addr = 1)) {} (showerEvent :: showerEvent.descendents)
            showerEventHits false false 1000).1.m_rootNodes,
            n.GetParticles.length = 1
            ∧ ∃ p ∈ retainedPrimaries ({} : MCHierarchy).m_recoCriteria
                (GetMCPrimaries showerEventPrimaryOf (fun p => decide (p.addr = 1))
                  (showerEvent :: showerEvent.descendents) (none, [])).2,
              ∃ q ∈ p :: p.descendents,
                n.GetParticleId = q.GetParticleId ∧ n.GetParticles = [q.addr]
                ∧ n.GetChildren.map Node.GetParticles
                    = (q.GetDaughterList.filter (fun d =>
                        !(({} : MCHierarchy).m_recoCriteria.m_removeNeutrons
                          && isNeutronPdg d.GetParticleId))).map (fun d => [d.addr]))
      ∧ ∀ result, RecoHierarchy.FillHierarchy examplePfoHits examplePfoIsolatedHits
          examplePfoIsNeutrino examplePfoParent {} examplePfoList false false 2000 = some result →
          ∃ pRoot primaries,
            GetRecoPrimaries examplePfoIsNeutrino examplePfoParent examplePfoList []
              = some (pRoot, primaries)
            ∧ result.1.m_rootNodes.map Node.GetParticles = primaries.map (fun p => [p.addr])
            ∧ ∀ n ∈ Node.nodesList result.1.m_rootNodes,
                n.GetParticles.length = 1
                ∧ ∃ p ∈ primaries, ∃ q ∈ p.downstream,
                    n.GetParticleId = q.GetParticleId ∧ n.GetParticles = [q.addr]
                    ∧ n.GetChildren.map Node.GetParticles
                        = q.GetDaughterPfoList.map (fun d => [d.addr]))
    ∧ (Node.nodesList (MCHierarchy.FillHierarchy exampleOwner showerEventPrimaryOf
          (fun p => decide (p.addr = 1)) {} (showerEvent :: showerEvent.descendents)
          showerEventHits false false 1000).1.m_rootNodes).map
        (fun n => (n.addr, n.GetParticles, n.GetChildren.map Node.addr))
        = [(1000, [2], [1001]), (1001, [5], [1002]), (1002, [6], []), (1003, [3], [1004]),
            (1004, [9], [])]
    ∧ (RecoHierarchy.FillHierarchy examplePfoHits examplePfoIsolatedHits examplePfoIsNeutrino
          examplePfoParent {} examplePfoList false false 2000).map
        (fun r => (Node.nodesList r.1.m_rootNodes).map
          (fun n => (n.addr, n.GetParticles, n.GetChildren.map Node.addr)))
        = some [(2000, [2], [2001, 2003]), (2001, [4], [2002]), (2002, [5], []),
            (2003, [6], []), (2004, [3], [2005]), (2005, [7], [])] :=
  ⟨⟨rfl, rfl⟩,
    C14_no_folding exampleOwner showerEventPrimaryOf (fun p => decide (p.addr = 1)) {}
      (showerEvent :: showerEvent.descendents) showerEventHits 1000
      examplePfoHits examplePfoIsolatedHits examplePfoIsNeutrino examplePfoParent {}
      examplePfoList 2000 rfl rfl,
    by decide!, by decide!⟩

/-! ## Neutron-type primaries -/

/-- C18 (the code at the failing input): with `m_removeNeutrons` set (the
default criteria) and the primaries of `antineutronEvent`, an antineutron (PDG
-2112) and a neutron (PDG 2112), the test `isNeutron` holds for the
antineutron but the lambda `predicate` does not, so only the neutron is
erased from `primaries`, and in each of the four fold modes a root node with
PDG code -2112 is built. -/
theorem C18_antineutron_primary_kept :
    ({} : MCHierarchy).m_recoCriteria.m_removeNeutrons = true
    ∧ (GetMCPrimaries antineutronEventPrimaryOf (fun p => decide (p.addr = 1))
        (antineutronEvent :: antineutronEvent.descendents) (none, [])).2.map
        (fun p => (p.addr, p.GetParticleId)) = [(2, -2112), (4, 2112)]
    ∧ isNeutronPdg (-2112) = true
    ∧ (retainedPrimaries ({} : MCHierarchy).m_recoCriteria
        (GetMCPrimaries antineutronEventPrimaryOf (fun p => decide (p.addr = 1))
          (antineutronEvent :: antineutronEvent.descendents) (none, [])).2).map
        (fun p => (p.addr, p.GetParticleId)) = [(2, -2112)]
    ∧ (MCHierarchy.FillHierarchy exampleOwner antineutronEventPrimaryOf
        (fun p => decide (p.addr = 1)) {} (antineutronEvent :: antineutronEvent.descendents)
        antineutronEventHits false false 1000).1.m_rootNodes.map
        (fun n => (n.GetParticleId, n.GetParticles)) = [(-2112, [2])]
    ∧ (MCHierarchy.FillHierarchy exampleOwner antineutronEventPrimaryOf
        (fun p => decide (p.addr = 1)) {} (antineutronEvent :: antineutronEvent.descendents)
        antineutronEventHits true false 1000).1.m_rootNodes.map
        (fun n => (n.GetParticleId, n.GetParticles)) = [(-2112, [2, 3])]
    ∧ (MCHierarchy.FillHierarchy exampleOwner antineutronEventPrimaryOf
        (fun p => decide (p.addr = 1)) {} (antineutronEvent :: antineutronEvent.descendents)
        antineutronEventHits true true 1000).1.m_rootNodes.map
        (fun n => (n.GetParticleId, n.GetParticles)) = [(-2112, [2, 3])]
    ∧ (MCHierarchy.FillHierarchy exampleOwner antineutronEventPrimaryOf
        (fun p => decide (p.addr = 1)) {} (antineutronEvent :: antineutronEvent.descendents)
        antineutronEventHits false true 1000).1.m_rootNodes.map
        (fun n => (n.GetParticleId, n.GetParticles)) = [(-2112, [2])] := by
  decide!

/-- C17 (the code at the failing input): with `m_removeNeutrons` set and
folding to leading showers only, the antineutron primary of `antineutronEvent`
is retained; it is not shower-type and neutrons are excluded, so its node
should hold it alone and have a child for its pion daughter, but the node has
no children and the pion is in no node. -/
theorem C17_antineutron_root_without_children :
    ({} : MCHierarchy).m_recoCriteria.m_removeNeutrons = true
    ∧ (retainedPrimaries ({} : MCHierarchy).m_recoCriteria
        (GetMCPrimaries antineutronEventPrimaryOf (fun p => decide (p.addr = 1))
          (antineutronEvent :: antineutronEvent.descendents) (none, [])).2).map
        (fun p => (p.addr, p.GetParticleId, p.GetDaughterList.map
          (fun d => (d.addr, d.GetParticleId)))) = [(2, -2112, [(3, 211)])]
    ∧ isShowerPdg (-2112) = false
    ∧ isNeutronPdg 211 = false
    ∧ (Node.nodesList (MCHierarchy.FillHierarchy exampleOwner antineutronEventPrimaryOf
        (fun p => decide (p.addr = 1)) {} (antineutronEvent :: antineutronEvent.descendents)
        antineutronEventHits false true 1000).1.m_rootNodes).map
        (fun n => (n.GetParticleId, n.GetParticles, n.GetChildren.map Node.GetParticles))
        = [(-2112, [2], [])] := by
  decide!

/-! ## Folding to primaries -/

/-- A queue of nodes without children adds nothing to the flattened vector. -/
theorem flattenLoop_leaves (fuel : Nat) :
    ∀ (queue nodeVector : List Node), (∀ r ∈ queue, r.GetChildren = []) →
      flattenLoop fuel queue nodeVector = nodeVector := by
  induction fuel with
  | zero => intro queue nodeVector _; rfl
  | succ fuel ih =>
    intro queue nodeVector h
    cases queue with
    | nil => rfl
    | cons front queue =>
      simp only [flattenLoop]
      rw [h front (List.mem_cons_self _ _), List.append_nil, List.append_nil]
      exact ih queue nodeVector (fun r hr => h r (List.mem_cons_of_mem _ hr))

/-- The flattened node list of a forest whose roots have no children is the
list of the roots. -/
theorem flattenForest_leaves (roots : List Node) (h : ∀ r ∈ roots, r.GetChildren = []) :
    flattenForest roots [] = roots := by
  unfold flattenForest
  rw [flattenLoop_leaves _ _ _ h, List.nil_append]

theorem MCParticle.reachedList_cons (a : Nat) (pdg : Int) (dds ds : List MCParticle) :
    MCParticle.reachedList (MCParticle.mk a pdg dds :: ds)
      = (if isShowerPdg pdg then [MCParticle.mk a pdg dds]
         else if isNeutronPdg pdg then []
         else MCParticle.mk a pdg dds :: MCParticle.reachedList dds)
        ++ MCParticle.reachedList ds := by
  simp only [MCParticle.reachedList, MCParticle.reached]

/-- The list shared by tracks and leading showers in the walk holds the
descendants reached without passing through a shower-type or neutron-type
particle that are not neutron-type. -/
theorem classifiedList_reached :
    ∀ l : List MCParticle,
      ((MCParticle.classifiedList l).filter
          (fun e => decide (e.1 ∈ [DescendentKind.track, DescendentKind.leadingShower]))).map
        Prod.snd = MCParticle.reachedList l
  | [] => by simp [MCParticle.classifiedList, MCParticle.reachedList]
  | MCParticle.mk a pdg dds :: ds => by
    rw [MCParticle.classifiedList_cons, MCParticle.reachedList_cons, List.filter_append,
      List.map_append, classifiedList_reached ds]
    congr 1
    by_cases hs : isShowerPdg pdg = true
    · rw [if_pos hs, if_pos hs]
      rfl
    · rw [if_neg hs, if_neg hs]
      by_cases hn : isNeutronPdg pdg = true
      · rw [if_pos hn, if_pos hn]
        rfl
      · rw [if_neg hn, if_neg hn, List.filter_cons_of_pos (by simp), List.map_cons,
          classifiedList_reached dds]

theorem descendentsOfKind_reached (p : MCParticle) :
    p.descendentsOfKind [DescendentKind.track, DescendentKind.leadingShower]
      = p.reachedDescendents := by
  cases p with
  | mk a pdg ds =>
    unfold MCParticle.descendentsOfKind
    rw [MCParticle.classifiedDescendents_mk, classifiedList_reached]
    rfl

/-- The constituents that `FillFlat` and the mode "primaries only" collect for
a particle: the particle with all its descendants when neutrons are kept,
the particle with its reached descendants when they are removed. -/
theorem flatParticles_eq (crit : ReconstructabilityCriteria) (p : MCParticle) :
    flatParticles crit p
      = p :: (if crit.m_removeNeutrons then p.reachedDescendents else p.descendents) := by
  unfold flatParticles GetAllDescendentMCParticles GetAllDescendentMCParticlesShared
  cases crit.m_removeNeutrons
  · rfl
  · simp only [Bool.not_true, Bool.false_eq_true, if_false, if_true, List.singleton_append,
      descendentsOfKind_reached]

theorem forall₂_right_mem {α β : Type} (R : α → β → Prop) :
    ∀ (l₁ : List α) (l₂ : List β), List.Forall₂ R l₁ l₂ → ∀ b ∈ l₂, ∃ a ∈ l₁, R a b := by
  intro l₁ l₂ h
  induction h with
  | nil => intro b hb; cases hb
  | @cons a b l₁ l₂ hab _ ih =>
    intro b' hb'
    rcases List.mem_cons.mp hb' with h1 | h1
    · exact ⟨a, List.mem_cons_self _ _, h1 ▸ hab⟩
    · obtain ⟨a', ha', hr⟩ := ih b' h1
      exact ⟨a', List.mem_cons_of_mem _ ha', hr⟩

/-- The root node of a primary in the mode "primaries only": no children, the
PDG code of the primary, and as constituents the primary with all its
descendants or, when neutrons are removed, with its reached descendants. -/
theorem rootNode_foldToPrimaries (crit : ReconstructabilityCriteria) (m : MCToHitsMap)
    (p : MCParticle) (alloc : Nat) :
    (rootNode crit m true false p alloc).GetChildren = []
    ∧ (rootNode crit m true false p alloc).GetParticleId = p.GetParticleId
    ∧ (rootNode crit m true false p alloc).GetParticles
        = sortByAddress ((p :: (if crit.m_removeNeutrons then p.reachedDescendents
            else p.descendents)).map MCParticle.addr) := by
  have hp : rootParticles crit true false p = flatParticles crit p := by
    simp [rootParticles]
  have hc : ∀ a, (rootChildren crit m true false p a).1 = [] := by
    intro a; simp [rootChildren]
  unfold rootNode
  rw [hp, hc, Node.addChildren_nil, flatParticles_eq]
  exact ⟨rfl, rfl, rfl⟩

/-- The root node of a primary in the mode "primaries only" of the
reconstructed hierarchy: no children, the PDG code of the primary, and as
constituents the primary with everything downstream of it. -/
theorem recoRootNode_foldToPrimaries (gc gi : Nat → HitType → List CaloHit)
    (p : ParticleFlowObject) (alloc : Nat) :
    (recoRootNode gc gi true false p alloc).GetChildren = []
    ∧ (recoRootNode gc gi true false p alloc).GetParticleId = p.GetParticleId
    ∧ (recoRootNode gc gi true false p alloc).GetParticles
        = sortByAddress (p.downstream.map ParticleFlowObject.addr) := by
  have hp : recoRootParticles true false p = p.downstream := by
    simp [recoRootParticles, GetAllDownstreamPfos]
  have hc : ∀ a, (recoRootChildren gc gi true false p a).1 = [] := by
    intro a; simp [recoRootChildren]
  unfold recoRootNode
  rw [hp, hc, Node.addChildren_nil, ParticleFlowObject.downstream_eq]
  exact ⟨rfl, rfl, rfl⟩

/-- C15 (the four-argument `GetAllDescendentMCParticles` is modelled): with
`m_removeNeutrons` set and folding to primaries only, the root node of the
muon primary of `showerEvent` holds the muon (address 2) and its electron
daughter (5) but not the photon daughter (6) of the electron, which is
neither a neutron nor below a neutron: the primary with all descendants
except neutrons and the descendants of neutrons is 2, 5 and 6.  With
`m_removeNeutrons` clear the same root holds the muon and all its
descendants, the photon among them. -/
theorem C15_shower_descendants_lost :
    ({} : MCHierarchy).m_recoCriteria.m_removeNeutrons = true
    ∧ (retainedPrimaries ({} : MCHierarchy).m_recoCriteria
        (GetMCPrimaries showerEventPrimaryOf (fun p => decide (p.addr = 1))
          (showerEvent :: showerEvent.descendents) (none, [])).2).map
        (fun p => sortByAddress ((p :: p.descendentsWithoutNeutrons).map MCParticle.addr))
        = [[2, 5, 6], [3, 9]]
    ∧ (MCHierarchy.FillHierarchy exampleOwner showerEventPrimaryOf
        (fun p => decide (p.addr = 1)) {} (showerEvent :: showerEvent.descendents)
        showerEventHits true false 1000).1.m_rootNodes.map
        (fun n => (n.GetParticles, n.GetCaloHits))
        = [([2, 5], [200, 500]), ([3, 9], [300, 900])]
    ∧ (MCHierarchy.FillHierarchy exampleOwner showerEventPrimaryOf
        (fun p => decide (p.addr = 1)) { m_recoCriteria := { m_removeNeutrons := false } }
        (showerEvent :: showerEvent.descendents)
        showerEventHits true false 1000).1.m_rootNodes.map Node.GetParticles
        = [[2, 5, 6, 7, 8], [3, 9]] := by
  decide!

/-- Folding to primaries only (`GetAllDescendentMCParticles` and
`GetAllDownstreamPfos` are modelled): with `foldToPrimaries` set and
`foldToLeadingShowers` clear, in hierarchies built into empty ones.  Truth:
there is one root node per retained primary, in order; no root node has
children, so the flattened node list is the list of the roots; with neutrons
kept the constituents of a root are the primary and all its descendants, and
with `m_removeNeutrons` set they are what the walk puts on the list shared
by tracks and leading showers.  Reconstructed (when the function returns):
one root node per daughter of the neutrino, in address order, without
children, holding the primary and everything downstream of it. -/
theorem foldToPrimaries_roots (GetMainMCParticle : CaloHit → Option Nat)
    (GetPrimaryMCParticle : MCParticle → Option MCParticle) (IsNeutrino : MCParticle → Bool)
    (h : MCHierarchy) (mcParticleList : List MCParticle) (caloHitList : List CaloHit)
    (alloc : Nat)
    (GetCaloHits GetIsolatedCaloHits : Nat → HitType → List CaloHit)
    (IsNeutrinoPfo : ParticleFlowObject → Bool)
    (GetParentPfo : ParticleFlowObject → ParticleFlowObject)
    (hReco : RecoHierarchy) (pfoList : List ParticleFlowObject) (allocReco : Nat)
    (hempty : h.m_rootNodes = []) (hemptyReco : hReco.m_rootNodes = []) :
    ((MCHierarchy.FillHierarchy GetMainMCParticle GetPrimaryMCParticle IsNeutrino h
        mcParticleList caloHitList true false alloc).1.m_rootNodes.map Node.GetParticles
      = (retainedPrimaries h.m_recoCriteria
          (GetMCPrimaries GetPrimaryMCParticle IsNeutrino mcParticleList (none, [])).2).map
          (fun p => sortByAddress ((p :: (if h.m_recoCriteria.m_removeNeutrons then
            p.reachedDescendents else p.descendents)).map MCParticle.addr))
      ∧ (MCHierarchy.FillHierarchy GetMainMCParticle GetPrimaryMCParticle IsNeutrino h
          mcParticleList caloHitList true false alloc).1.m_rootNodes.map Node.GetParticleId
        = (retainedPrimaries h.m_recoCriteria
            (GetMCPrimaries GetPrimaryMCParticle IsNeutrino mcParticleList (none, [])).2).map
            MCParticle.GetParticleId
      ∧ (∀ r ∈ (MCHierarchy.FillHierarchy GetMainMCParticle GetPrimaryMCParticle IsNeutrino h
          mcParticleList caloHitList true false alloc).1.m_rootNodes, r.GetChildren = [])
      ∧ (MCHierarchy.FillHierarchy GetMainMCParticle GetPrimaryMCParticle IsNeutrino h
          mcParticleList caloHitList true false alloc).1.GetFlattenedNodes []
        = (MCHierarchy.FillHierarchy GetMainMCParticle GetPrimaryMCParticle IsNeutrino h
            mcParticleList caloHitList true false alloc).1.m_rootNodes)
    ∧ ∀ result, RecoHierarchy.FillHierarchy GetCaloHits GetIsolatedCaloHits IsNeutrinoPfo
        GetParentPfo hReco pfoList true false allocReco = some result →
        ∃ pRoot primaries,
          GetRecoPrimaries IsNeutrinoPfo GetParentPfo pfoList [] = some (pRoot, primaries)
          ∧ result.1.m_rootNodes.map Node.GetParticles
              = primaries.map (fun p => sortByAddress (p.downstream.map ParticleFlowObject.addr))
          ∧ result.1.m_rootNodes.map Node.GetParticleId
              = primaries.map ParticleFlowObject.GetParticleId
          ∧ (∀ r ∈ result.1.m_rootNodes, r.GetChildren = [])
          ∧ result.1.GetFlattenedNodes [] = result.1.m_rootNodes := by
  constructor
  · have hroots := FillHierarchy_roots GetMainMCParticle GetPrimaryMCParticle IsNeutrino h
      mcParticleList caloHitList true false alloc hempty
    have hleaf : ∀ r ∈ (MCHierarchy.FillHierarchy GetMainMCParticle GetPrimaryMCParticle
        IsNeutrino h mcParticleList caloHitList true false alloc).1.m_rootNodes,
        r.GetChildren = [] := by
      intro r hr
      obtain ⟨p, _, a, rfl⟩ := forall₂_right_mem _ _ _ hroots r hr
      exact (rootNode_foldToPrimaries _ _ p a).1
    refine ⟨?_, ?_, hleaf, flattenForest_leaves _ hleaf⟩
    · refine forall₂_map_eq _ Node.GetParticles _ ?_ _ _ hroots
      rintro p r ⟨a, rfl⟩
      exact (rootNode_foldToPrimaries _ _ p a).2.2
    · refine forall₂_map_eq _ Node.GetParticleId _ ?_ _ _ hroots
      rintro p r ⟨a, rfl⟩
      exact (rootNode_foldToPrimaries _ _ p a).2.1
  · intro result hres
    obtain ⟨pRoot, primaries, hprim, _, hroots⟩ := RecoFillHierarchy_roots GetCaloHits
      GetIsolatedCaloHits IsNeutrinoPfo GetParentPfo hReco pfoList true false allocReco
      hemptyReco result hres
    have hleaf : ∀ r ∈ result.1.m_rootNodes, r.GetChildren = [] := by
      intro r hr
      obtain ⟨p, _, a, rfl⟩ := forall₂_right_mem _ _ _ hroots r hr
      exact (recoRootNode_foldToPrimaries _ _ p a).1
    refine ⟨pRoot, primaries, hprim, ?_, ?_, hleaf, flattenForest_leaves _ hleaf⟩
    · refine forall₂_map_eq _ Node.GetParticles _ ?_ _ _ hroots
      rintro p r ⟨a, rfl⟩
      exact (recoRootNode_foldToPrimaries _ _ p a).2.2
    · refine forall₂_map_eq _ Node.GetParticleId _ ?_ _ _ hroots
      rintro p r ⟨a, rfl⟩
      exact (recoRootNode_foldToPrimaries _ _ p a).2.1

/-! ## Folding to primaries and to leading showers -/

/-- The loop over `FillFlat` appends one node without children per particle,
in order, with the PDG code of the particle and the constituents that
`FillFlat` collects for it. -/
theorem fillChildrenFlat_forall₂ (crit : ReconstructabilityCriteria) (m : MCToHitsMap)
    (l : List MCParticle) :
    ∀ alloc : Nat,
      List.Forall₂
        (fun d c => c.GetChildren = [] ∧ c.GetParticleId = d.GetParticleId
          ∧ c.GetParticles = sortByAddress ((d :: (if crit.m_removeNeutrons then
              d.reachedDescendents else d.descendents)).map MCParticle.addr))
        l (fillChildrenFlat crit m l alloc).1 := by
  induction l with
  | nil => intro alloc; exact List.Forall₂.nil
  | cons d ds ih =>
    intro alloc
    simp only [fillChildrenFlat]
    rw [fillNodeFlat_eq]
    refine List.Forall₂.cons ?_ (ih _)
    rw [flatParticles_eq]
    exact ⟨rfl, rfl, rfl⟩

/-- The loop over `FillFlat` of the reconstructed hierarchy appends one node
without children per object, in order, with the PDG code of the object and,
as constituents, the object with everything downstream of it. -/
theorem fillRecoChildrenFlat_forall₂ (gc gi : Nat → HitType → List CaloHit)
    (l : List ParticleFlowObject) :
    ∀ alloc : Nat,
      List.Forall₂
        (fun d c => c.GetChildren = [] ∧ c.GetParticleId = d.GetParticleId
          ∧ c.GetParticles = sortByAddress (d.downstream.map ParticleFlowObject.addr))
        l (fillRecoChildrenFlat gc gi l alloc).1 := by
  induction l with
  | nil => intro alloc; exact List.Forall₂.nil
  | cons d ds ih =>
    intro alloc
    simp only [fillRecoChildrenFlat, fillRecoNodeFlat, List.singleton_append]
    refine List.Forall₂.cons ?_ (ih _)
    unfold GetAllDownstreamPfos
    rw [List.nil_append, ParticleFlowObject.downstream_eq]
    exact ⟨rfl, rfl, rfl⟩

theorem forall₂_append' {α β : Type} (R : α → β → Prop) (l₁ l₂ : List α) (r₁ r₂ : List β)
    (h₁ : List.Forall₂ R l₁ r₁) (h₂ : List.Forall₂ R l₂ r₂) :
    List.Forall₂ R (l₁ ++ l₂) (r₁ ++ r₂) := by
  induction h₁ with
  | nil => exact h₂
  | cons hab _ ih => exact List.Forall₂.cons hab ih

/-- The children of the root node of a primary in the mode "primaries and
leading showers": none for a shower-type or neutron-type primary; otherwise
one node without children per leading shower of the primary and, when
neutrons are kept, per leading neutron, in the order of the lists of the
walk. -/
theorem rootNode_foldBoth (crit : ReconstructabilityCriteria) (m : MCToHitsMap)
    (p : MCParticle) (alloc : Nat) :
    ((isShowerPdg p.GetParticleId || isNeutronPdg p.GetParticleId) = true →
      (rootNode crit m true true p alloc).GetChildren = [])
    ∧ ((isShowerPdg p.GetParticleId || isNeutronPdg p.GetParticleId) = false →
        List.Forall₂
          (fun d c => c.GetChildren = [] ∧ c.GetParticleId = d.GetParticleId
            ∧ c.GetParticles = sortByAddress ((d :: (if crit.m_removeNeutrons then
                d.reachedDescendents else d.descendents)).map MCParticle.addr))
          ((GetAllDescendentMCParticles4 p [p] [] []).2.1
            ++ (if crit.m_removeNeutrons then []
                else (GetAllDescendentMCParticles4 p [p] [] []).2.2))
          (rootNode crit m true true p alloc).GetChildren) := by
  unfold rootNode
  rw [Node.addChildren_children, Node.create_children, List.nil_append]
  constructor
  · intro hsn
    simp [rootChildren, hsn]
  · intro hsn
    simp only [rootChildren, hsn, Bool.true_and, Bool.not_true, Bool.false_eq_true, if_false,
      if_true]
    refine forall₂_append' _ _ _ _ _ (fillChildrenFlat_forall₂ crit m _ _) ?_
    cases hrm : crit.m_removeNeutrons
    · simp only [Bool.not_false, Bool.true_and, Bool.false_eq_true, if_false]
      cases hne : (GetAllDescendentMCParticles4 p [p] [] []).2.2.isEmpty
      · simp only [Bool.not_false, if_true]
        have h := fillChildrenFlat_forall₂ crit m (GetAllDescendentMCParticles4 p [p] [] []).2.2
          (fillChildrenFlat crit m (GetAllDescendentMCParticles4 p [p] [] []).2.1 (alloc + 1)).2
        rw [hrm] at h
        exact h
      · simp only [Bool.not_true, Bool.false_eq_true, if_false]
        rw [List.isEmpty_iff.mp hne]
        exact List.Forall₂.nil
    · simp only [Bool.not_true, Bool.false_and, Bool.false_eq_true, if_false, if_true]
      exact List.Forall₂.nil

/-- The children of the root node of a primary in the mode "primaries and
leading showers" of the reconstructed hierarchy: none for a shower-type
primary; otherwise one node without children per leading shower below the
primary, in the order of the list of the walk. -/
theorem recoRootNode_foldBoth (gc gi : Nat → HitType → List CaloHit) (p : ParticleFlowObject)
    (alloc : Nat) :
    (isShowerPfoPdg p.GetParticleId = true →
      (recoRootNode gc gi true true p alloc).GetChildren = [])
    ∧ (isShowerPfoPdg p.GetParticleId = false →
        List.Forall₂
          (fun d c => c.GetChildren = [] ∧ c.GetParticleId = d.GetParticleId
            ∧ c.GetParticles = sortByAddress (d.downstream.map ParticleFlowObject.addr))
          (GetAllDownstreamPfos3 p [] []).2
          (recoRootNode gc gi true true p alloc).GetChildren) := by
  unfold recoRootNode
  rw [Node.addChildren_children, Node.createReco_children, List.nil_append]
  constructor
  · intro hs
    simp [recoRootChildren, hs]
  · intro hs
    simp only [recoRootChildren, hs, Bool.true_and, Bool.not_true, Bool.false_eq_true, if_false,
      if_true]
    exact fillRecoChildrenFlat_forall₂ gc gi _ _

/-- C16 (`GetAllDescendentMCParticles` with four arguments and
`GetAllDownstreamPfos` with three are modelled): with both fold flags set, in
hierarchies built into empty ones.  Truth: there is one root node per
retained primary, in order; every child of a root node has no children; the
root node of a shower-type primary has no children; the root node of a
track-like primary (neither shower-type nor neutron-type) has exactly one
child per leading shower of the primary and, when neutrons are kept, per
leading neutron, in the order of the lists of the walk, each with the PDG
code of that particle and the constituents that `FillFlat` collects for it.
Reconstructed (when the function returns): the same with the daughters of the
neutrino as primaries, shower-type meaning `|PDG| = 11`, and one child per
leading shower. -/
theorem C16_fold_to_primaries_and_showers (GetMainMCParticle : CaloHit → Option Nat)
    (GetPrimaryMCParticle : MCParticle → Option MCParticle) (IsNeutrino : MCParticle → Bool)
    (h : MCHierarchy) (mcParticleList : List MCParticle) (caloHitList : List CaloHit)
    (alloc : Nat)
    (GetCaloHits GetIsolatedCaloHits : Nat → HitType → List CaloHit)
    (IsNeutrinoPfo : ParticleFlowObject → Bool)
    (GetParentPfo : ParticleFlowObject → ParticleFlowObject)
    (hReco : RecoHierarchy) (pfoList : List ParticleFlowObject) (allocReco : Nat)
    (hempty : h.m_rootNodes = []) (hemptyReco : hReco.m_rootNodes = []) :
    List.Forall₂
      (fun p r =>
        (∀ c ∈ r.GetChildren, c.GetChildren = [])
        ∧ (isShowerPdg p.GetParticleId = true → r.GetChildren = [])
        ∧ (isShowerPdg p.GetParticleId = false → isNeutronPdg p.GetParticleId = false →
            List.Forall₂
              (fun d c => c.GetChildren = [] ∧ c.GetParticleId = d.GetParticleId
                ∧ c.GetParticles = sortByAddress ((d :: (if h.m_recoCriteria.m_removeNeutrons
                    then d.reachedDescendents else d.descendents)).map MCParticle.addr))
              ((GetAllDescendentMCParticles4 p [p] [] []).2.1
                ++ (if h.m_recoCriteria.m_removeNeutrons then []
                    else (GetAllDescendentMCParticles4 p [p] [] []).2.2))
              r.GetChildren))
      (retainedPrimaries h.m_recoCriteria
        (GetMCPrimaries GetPrimaryMCParticle IsNeutrino mcParticleList (none, [])).2)
      (MCHierarchy.FillHierarchy GetMainMCParticle GetPrimaryMCParticle IsNeutrino h
        mcParticleList caloHitList true true alloc).1.m_rootNodes
    ∧ ∀ result, RecoHierarchy.FillHierarchy GetCaloHits GetIsolatedCaloHits IsNeutrinoPfo
        GetParentPfo hReco pfoList true true allocReco = some result →
        ∃ pRoot primaries,
          GetRecoPrimaries IsNeutrinoPfo GetParentPfo pfoList [] = some (pRoot, primaries)
          ∧ List.Forall₂
              (fun p r =>
                (∀ c ∈ r.GetChildren, c.GetChildren = [])
                ∧ (isShowerPfoPdg p.GetParticleId = true → r.GetChildren = [])
                ∧ (isShowerPfoPdg p.GetParticleId = false →
                    List.Forall₂
                      (fun d c => c.GetChildren = [] ∧ c.GetParticleId = d.GetParticleId
                        ∧ c.GetParticles
                            = sortByAddress (d.downstream.map ParticleFlowObject.addr))
                      (GetAllDownstreamPfos3 p [] []).2 r.GetChildren))
              primaries result.1.m_rootNodes := by
  constructor
  · refine List.Forall₂.imp ?_ (FillHierarchy_roots GetMainMCParticle GetPrimaryMCParticle
      IsNeutrino h mcParticleList caloHitList true true alloc hempty)
    rintro p r ⟨a, rfl⟩
    obtain ⟨h1, h2⟩ := rootNode_foldBoth h.m_recoCriteria
      (fillMcToHitsMap GetMainMCParticle caloHitList []) p a
    refine ⟨?_, ?_, ?_⟩
    · intro c hc
      cases hsn : (isShowerPdg p.GetParticleId || isNeutronPdg p.GetParticleId)
      · obtain ⟨d, _, hd⟩ := forall₂_right_mem _ _ _ (h2 hsn) c hc
        exact hd.1
      · rw [h1 hsn] at hc
        cases hc
    · intro hs
      exact h1 (by rw [hs]; rfl)
    · intro hs hn
      exact h2 (by rw [hs, hn]; rfl)
  · intro result hres
    obtain ⟨pRoot, primaries, hprim, _, hroots⟩ := RecoFillHierarchy_roots GetCaloHits
      GetIsolatedCaloHits IsNeutrinoPfo GetParentPfo hReco pfoList true true allocReco
      hemptyReco result hres
    refine ⟨pRoot, primaries, hprim, List.Forall₂.imp ?_ hroots⟩
    rintro p r ⟨a, rfl⟩
    obtain ⟨h1, h2⟩ := recoRootNode_foldBoth GetCaloHits GetIsolatedCaloHits p a
    refine ⟨?_, h1, h2⟩
    intro c hc
    cases hs : isShowerPfoPdg p.GetParticleId
    · obtain ⟨d, _, hd⟩ := forall₂_right_mem _ _ _ (h2 hs) c hc
      exact hd.1
    · rw [h1 hs] at hc
      cases hc

/-- C16 at the example events (truth: `showerEvent` with neutrons kept;
reconstructed: `examplePfoNeutrino`): both hierarchies start empty, the
conclusion holds, and the nodes are shown with their constituents and the
addresses of their children. -/
theorem C16_witness :
    ((({ m_recoCriteria := { m_removeNeutrons := false } } : MCHierarchy).m_rootNodes = []
      ∧ ({} : RecoHierarchy).m_rootNodes = []))
    ∧ (List.Forall₂
        (fun p r =>
          (∀ c ∈ r.GetChildren, c.GetChildren = [])
          ∧ (isShowerPdg p.GetParticleId = true → r.GetChildren = [])
          ∧ (isShowerPdg p.GetParticleId = false → isNeutronPdg p.GetParticleId = false →
              List.Forall₂
                (fun d c => c.GetChildren = [] ∧ c.GetParticleId = d.GetParticleId
                  ∧ c.GetParticles = sortByAddress ((d ::
                      (if ({ m_recoCriteria := { m_removeNeutrons := false } } :
                          MCHierarchy).m_recoCriteria.m_removeNeutrons
                        then d.reachedDescendents else d.descendents)).map MCParticle.addr))
                ((GetAllDescendentMCParticles4 p [p] [] []).2.1
                  ++ (if ({ m_recoCriteria := { m_removeNeutrons := false } } :
                        MCHierarchy).m_recoCriteria.m_removeNeutrons then []
                      else (GetAllDescendentMCParticles4 p [p] [] []).2.2))
                r.GetChildren))
        (retainedPrimaries
          ({ m_recoCriteria := { m_removeNeutrons := false } } : MCHierarchy).m_recoCriteria
          (GetMCPrimaries showerEventPrimaryOf (fun p => decide (p.addr = 1))
            (showerEvent :: showerEvent.descendents) (none, [])).2)
        (MCHierarchy.FillHierarchy exampleOwner showerEventPrimaryOf
          (fun p => decide (p.addr = 1)) { m_recoCriteria := { m_removeNeutrons := false } }
          (showerEvent :: showerEvent.descendents) showerEventHits true true 1000).1.m_rootNodes
      ∧ ∀ result, RecoHierarchy.FillHierarchy examplePfoHits examplePfoIsolatedHits
          examplePfoIsNeutrino examplePfoParent {} examplePfoList true true 2000 = some result →
          ∃ pRoot primaries,
            GetRecoPrimaries examplePfoIsNeutrino examplePfoParent examplePfoList []
              = some (pRoot, primaries)
            ∧ List.Forall₂
                (fun p r =>
                  (∀ c ∈ r.GetChildren, c.GetChildren = [])
                  ∧ (isShowerPfoPdg p.GetParticleId = true → r.GetChildren = [])
                  ∧ (isShowerPfoPdg p.GetParticleId = false →
                      List.Forall₂
                        (fun d c => c.GetChildren = [] ∧ c.GetParticleId = d.GetParticleId
                          ∧ c.GetParticles
                              = sortByAddress (d.downstream.map ParticleFlowObject.addr))
                        (GetAllDownstreamPfos3 p [] []).2 r.GetChildren))
                primaries result.1.m_rootNodes)
    ∧ (Node.nodesList (MCHierarchy.FillHierarchy exampleOwner showerEventPrimaryOf
          (fun p => decide (p.addr = 1)) { m_recoCriteria := { m_removeNeutrons := false } }
          (showerEvent :: showerEvent.descendents) showerEventHits true true
          1000).1.m_rootNodes).map
        (fun n => (n.addr, n.GetParticleId, n.GetParticles, n.GetChildren.map Node.addr))
        = [(1000, 13, [2], [1001, 1002]), (1001, 11, [5, 6], []), (1002, 2112, [7, 8], []),
            (1003, 211, [3, 9], [])]
    ∧ (RecoHierarchy.FillHierarchy examplePfoHits examplePfoIsolatedHits examplePfoIsNeutrino
          examplePfoParent {} examplePfoList true true 2000).map
        (fun r => (Node.nodesList r.1.m_rootNodes).map
          (fun n => (n.addr, n.GetParticleId, n.GetParticles, n.GetChildren.map Node.addr)))
        = some [(2000, 13, [2, 6], [2001]), (2001, 11, [4, 5], []), (2002, -11, [3, 7], [])] :=
  ⟨⟨rfl, rfl⟩,
    C16_fold_to_primaries_and_showers exampleOwner showerEventPrimaryOf
      (fun p => decide (p.addr = 1)) { m_recoCriteria := { m_removeNeutrons := false } }
      (showerEvent :: showerEvent.descendents) showerEventHits 1000
      examplePfoHits examplePfoIsolatedHits examplePfoIsNeutrino examplePfoParent {}
      examplePfoList 2000 rfl rfl,
    by decide!, by decide!⟩

/-! ## Repeated pruning -/

/-- The function `FillClusterMergeMaps` is the filling of the dense maps followed by
the two pruning passes. -/
theorem FillClusterMergeMaps_eq (alg : TransverseAssociationAlgorithm)
    (tcl : List LArTransverseCluster) (f b : LArClusterMergeMap) :
    FillClusterMergeMaps alg tcl f b
      = match fillFullMergeMaps alg tcl with
        | Except.error e => Except.error e
        | Except.ok full => pruneFullMergeMaps full f b := by
  unfold FillClusterMergeMaps pruneFullMergeMaps
  cases fillFullMergeMaps alg tcl with
  | error e => rfl
  | ok full => rfl

theorem ClusterList.insert_ne_nil (p : Nat) (l : ClusterList) : ClusterList.insert p l ≠ [] := by
  cases l with
  | nil => simp [ClusterList.insert]
  | cons q rest =>
    simp only [ClusterList.insert]
    split_ifs <;> simp

theorem ClusterList.insert_sorted (p : Nat) (l : ClusterList) (hl : l.Sorted (· < ·)) :
    (ClusterList.insert p l).Sorted (· < ·) := by
  induction l with
  | nil => simp [ClusterList.insert]
  | cons q rest ih =>
    simp only [ClusterList.insert]
    have hq := List.sorted_cons.mp hl
    by_cases h1 : p < q
    · rw [if_pos h1]
      refine List.sorted_cons.mpr ⟨?_, hl⟩
      intro x hx
      rcases List.mem_cons.mp hx with h | h
      · rw [h]; exact h1
      · exact lt_trans h1 (hq.1 x h)
    · rw [if_neg h1]
      by_cases h2 : p = q
      · rw [if_pos h2]; exact hl
      · rw [if_neg h2]
        refine List.sorted_cons.mpr ⟨?_, ih hq.2⟩
        intro x hx
        rcases (ClusterList.mem_insert p x rest).mp hx with h | h
        · rw [h]; omega
        · exact hq.1 x h

theorem LArClusterMergeMap.canonical_nil : LArClusterMergeMap.Canonical [] := by
  refine ⟨by simp [LArClusterMergeMap.Ordered], ?_⟩
  intro e he
  cases he

theorem LArClusterMergeMap.insertInto_values (k v : Nat) (m : LArClusterMergeMap)
    (P : ClusterList → Prop) (hm : ∀ e ∈ m, P e.2) (h1 : P [v])
    (h2 : ∀ s, P s → P (ClusterList.insert v s)) :
    ∀ e ∈ LArClusterMergeMap.insertInto k v m, P e.2 := by
  induction m with
  | nil =>
    intro e he
    simp only [LArClusterMergeMap.insertInto, List.mem_singleton] at he
    rw [he]; exact h1
  | cons x rest ih =>
    intro e he
    simp only [LArClusterMergeMap.insertInto] at he
    by_cases hlt : k < x.1
    · rw [if_pos hlt] at he
      rcases List.mem_cons.mp he with h | h
      · rw [h]; exact h1
      · exact hm e h
    · rw [if_neg hlt] at he
      by_cases heq : k = x.1
      · rw [if_pos heq] at he
        rcases List.mem_cons.mp he with h | h
        · rw [h]; exact h2 _ (hm x (List.mem_cons_self _ _))
        · exact hm e (List.mem_cons_of_mem _ h)
      · rw [if_neg heq] at he
        rcases List.mem_cons.mp he with h | h
        · rw [h]; exact hm x (List.mem_cons_self _ _)
        · exact ih (fun e' he' => hm e' (List.mem_cons_of_mem _ he')) e h

theorem LArClusterMergeMap.canonical_insertInto (k v : Nat) (m : LArClusterMergeMap)
    (hm : m.Canonical) : (LArClusterMergeMap.insertInto k v m).Canonical := by
  refine ⟨LArClusterMergeMap.ordered_insertInto k v m hm.1, ?_⟩
  refine LArClusterMergeMap.insertInto_values k v m
    (fun s => s.Sorted (· < ·) ∧ s ≠ []) hm.2 ⟨by simp, by simp⟩ ?_
  intro s hs
  exact ⟨ClusterList.insert_sorted v s hs.1, ClusterList.insert_ne_nil v s⟩

theorem pruneForwardEntry_canonical (full : LArClusterMergeMap) (I : Nat) (merges : ClusterList)
    (rest : ClusterList) :
    ∀ maps maps' : LArClusterMergeMap × LArClusterMergeMap,
      maps.1.Canonical → maps.2.Canonical →
      pruneForwardEntry full I merges rest maps = Except.ok maps' →
      maps'.1.Canonical ∧ maps'.2.Canonical := by
  induction rest with
  | nil =>
    intro maps maps' h1 h2 hok
    simp only [pruneForwardEntry, Except.ok.injEq] at hok
    rw [← hok]
    exact ⟨h1, h2⟩
  | cons O rest ih =>
    intro maps maps' h1 h2 hok
    simp only [pruneForwardEntry] at hok
    by_cases hO : O = I
    · rw [if_pos hO] at hok
      cases hok
    · rw [if_neg hO] at hok
      by_cases hn : isNeighbouringLoop full O merges = true
      · rw [if_pos hn] at hok
        exact ih _ maps' (LArClusterMergeMap.canonical_insertInto _ _ _ h1)
          (LArClusterMergeMap.canonical_insertInto _ _ _ h2) hok
      · rw [if_neg hn] at hok
        exact ih maps maps' h1 h2 hok

theorem pruneForward_canonical (full : LArClusterMergeMap) (entries : LArClusterMergeMap) :
    ∀ maps maps' : LArClusterMergeMap × LArClusterMergeMap,
      maps.1.Canonical → maps.2.Canonical →
      pruneForward full entries maps = Except.ok maps' →
      maps'.1.Canonical ∧ maps'.2.Canonical := by
  induction entries with
  | nil =>
    intro maps maps' h1 h2 hok
    simp only [pruneForward, Except.ok.injEq] at hok
    rw [← hok]
    exact ⟨h1, h2⟩
  | cons e rest ih =>
    intro maps maps' h1 h2 hok
    simp only [pruneForward] at hok
    cases hentry : pruneForwardEntry full e.1 e.2 e.2 maps with
    | error err => rw [hentry] at hok; cases hok
    | ok m1 =>
      rw [hentry] at hok
      obtain ⟨c1, c2⟩ := pruneForwardEntry_canonical full e.1 e.2 e.2 maps m1 h1 h2 hentry
      exact ih m1 maps' c1 c2 hok

theorem pruneBackward_canonical (full : LArClusterMergeMap) (entries : LArClusterMergeMap)
    (maps maps' : LArClusterMergeMap × LArClusterMergeMap)
    (h1 : maps.1.Canonical) (h2 : maps.2.Canonical)
    (hok : pruneBackward full entries maps = Except.ok maps') :
    maps'.1.Canonical ∧ maps'.2.Canonical := by
  rw [pruneBackward_eq] at hok
  cases hf : pruneForward full entries maps.swap with
  | error err => rw [hf] at hok; cases hok
  | ok m1 =>
    rw [hf] at hok
    simp only [Except.map, Except.ok.injEq] at hok
    obtain ⟨c1, c2⟩ := pruneForward_canonical full entries maps.swap m1 h2 h1 hf
    rw [← hok]
    exact ⟨c2, c1⟩

/-- Two sets in strictly increasing order with the same members are equal. -/
theorem ClusterList.ext_sorted (s t : ClusterList) (hs : s.Sorted (· < ·))
    (ht : t.Sorted (· < ·)) (h : ∀ x, x ∈ s ↔ x ∈ t) : s = t := by
  have hp : s.Perm t := (List.perm_ext_iff_of_nodup hs.nodup ht.nodup).mpr h
  exact List.eq_of_perm_of_sorted hp hs ht

theorem LArClusterMergeMap.hasEdge_cons (e : Nat × ClusterList) (rest : LArClusterMergeMap)
    (k v : Nat) :
    LArClusterMergeMap.hasEdge (e :: rest) k v
      = if e.1 = k then decide (v ∈ e.2) else LArClusterMergeMap.hasEdge rest k v := by
  unfold LArClusterMergeMap.hasEdge
  rw [LArClusterMergeMap.get_cons]
  split_ifs <;> rfl

theorem LArClusterMergeMap.hasEdge_of_lt (m : LArClusterMergeMap) (k v : Nat)
    (h : ∀ x ∈ m.map Prod.fst, k < x) : m.hasEdge k v = false := by
  unfold LArClusterMergeMap.hasEdge
  rw [LArClusterMergeMap.get_of_not_mem m k (fun hk => lt_irrefl k (h k hk))]
  simp

theorem LArClusterMergeMap.canonical_tail (e : Nat × ClusterList) (rest : LArClusterMergeMap)
    (h : LArClusterMergeMap.Canonical (e :: rest)) :
    LArClusterMergeMap.Canonical rest ∧ (∀ x ∈ rest.map Prod.fst, e.1 < x)
      ∧ e.2.Sorted (· < ·) ∧ e.2 ≠ [] := by
  obtain ⟨ho, hv⟩ := h
  unfold LArClusterMergeMap.Ordered at ho
  rw [List.map_cons, List.pairwise_cons] at ho
  exact ⟨⟨ho.2, fun e' he' => hv e' (List.mem_cons_of_mem _ he')⟩, ho.1,
    hv e (List.mem_cons_self _ _)⟩

theorem LArClusterMergeMap.hasEdge_head (e : Nat × ClusterList) (rest : LArClusterMergeMap)
    (v : Nat) : LArClusterMergeMap.hasEdge (e :: rest) e.1 v = decide (v ∈ e.2) := by
  rw [LArClusterMergeMap.hasEdge_cons, if_pos rfl]

theorem LArClusterMergeMap.hasEdge_nil (k v : Nat) :
    LArClusterMergeMap.hasEdge [] k v = false := rfl

/-- A first entry with a key below the first key of another map holds an edge
that the other map lacks. -/
theorem LArClusterMergeMap.head_lt_absurd (e₁ e₂ : Nat × ClusterList)
    (r₁ r₂ : LArClusterMergeMap) (h₁ : LArClusterMergeMap.Canonical (e₁ :: r₁))
    (h₂ : LArClusterMergeMap.Canonical (e₂ :: r₂)) (hlt : e₁.1 < e₂.1)
    (h : ∀ k v, LArClusterMergeMap.hasEdge (e₁ :: r₁) k v
      = LArClusterMergeMap.hasEdge (e₂ :: r₂) k v) : False := by
  obtain ⟨_, _, _, hne⟩ := LArClusterMergeMap.canonical_tail e₁ r₁ h₁
  obtain ⟨_, hk₂, _, _⟩ := LArClusterMergeMap.canonical_tail e₂ r₂ h₂
  obtain ⟨v, hv⟩ := List.exists_mem_of_ne_nil _ hne
  have h1 : LArClusterMergeMap.hasEdge (e₁ :: r₁) e₁.1 v = true := by
    rw [LArClusterMergeMap.hasEdge_head]; simpa using hv
  have h2 : LArClusterMergeMap.hasEdge (e₂ :: r₂) e₁.1 v = false := by
    apply LArClusterMergeMap.hasEdge_of_lt
    intro x hx
    rw [List.map_cons] at hx
    rcases List.mem_cons.mp hx with hx | hx
    · rw [hx]; exact hlt
    · exact lt_trans hlt (hk₂ x hx)
  rw [h e₁.1 v, h2] at h1
  cases h1

/-- Two merge maps in canonical form that hold the same edges are equal. -/
theorem LArClusterMergeMap.ext_canonical :
    ∀ m₁ m₂ : LArClusterMergeMap, m₁.Canonical → m₂.Canonical →
      (∀ k v, m₁.hasEdge k v = m₂.hasEdge k v) → m₁ = m₂ := by
  intro m₁
  induction m₁ with
  | nil =>
    intro m₂ _ h₂ h
    cases m₂ with
    | nil => rfl
    | cons e₂ r₂ =>
      exfalso
      obtain ⟨_, _, _, hne⟩ := LArClusterMergeMap.canonical_tail e₂ r₂ h₂
      obtain ⟨v, hv⟩ := List.exists_mem_of_ne_nil _ hne
      have h1 : LArClusterMergeMap.hasEdge (e₂ :: r₂) e₂.1 v = true := by
        rw [LArClusterMergeMap.hasEdge_head]; simpa using hv
      rw [← h e₂.1 v, LArClusterMergeMap.hasEdge_nil] at h1
      cases h1
  | cons e₁ r₁ ih =>
    intro m₂ h₁ h₂ h
    cases m₂ with
    | nil =>
      exfalso
      obtain ⟨_, _, _, hne⟩ := LArClusterMergeMap.canonical_tail e₁ r₁ h₁
      obtain ⟨v, hv⟩ := List.exists_mem_of_ne_nil _ hne
      have h1 : LArClusterMergeMap.hasEdge (e₁ :: r₁) e₁.1 v = true := by
        rw [LArClusterMergeMap.hasEdge_head]; simpa using hv
      rw [h e₁.1 v, LArClusterMergeMap.hasEdge_nil] at h1
      cases h1
    | cons e₂ r₂ =>
      have hkey : e₁.1 = e₂.1 := by
        rcases lt_trichotomy e₁.1 e₂.1 with hlt | heq | hgt
        · exact absurd (LArClusterMergeMap.head_lt_absurd e₁ e₂ r₁ r₂ h₁ h₂ hlt h) id
        · exact heq
        · exact absurd (LArClusterMergeMap.head_lt_absurd e₂ e₁ r₂ r₁ h₂ h₁ hgt
            (fun k v => (h k v).symm)) id
      obtain ⟨c₁, hk₁, hs₁, _⟩ := LArClusterMergeMap.canonical_tail e₁ r₁ h₁
      obtain ⟨c₂, hk₂, hs₂, _⟩ := LArClusterMergeMap.canonical_tail e₂ r₂ h₂
      have hval : e₁.2 = e₂.2 := by
        apply ClusterList.ext_sorted _ _ hs₁ hs₂
        intro x
        have hx := h e₁.1 x
        rw [LArClusterMergeMap.hasEdge_head, hkey, LArClusterMergeMap.hasEdge_head] at hx
        constructor
        · intro hm
          have : decide (x ∈ e₁.2) = true := by simpa using hm
          rw [hx] at this
          simpa using this
        · intro hm
          have : decide (x ∈ e₂.2) = true := by simpa using hm
          rw [← hx] at this
          simpa using this
      have htail : ∀ k v, LArClusterMergeMap.hasEdge r₁ k v = LArClusterMergeMap.hasEdge r₂ k v := by
        intro k v
        by_cases hk : e₁.1 = k
        · rw [LArClusterMergeMap.hasEdge_of_lt r₁ k v (fun x hx => hk ▸ hk₁ x hx),
            LArClusterMergeMap.hasEdge_of_lt r₂ k v (fun x hx => hk ▸ hkey ▸ hk₂ x hx)]
        · have hx := h k v
          rw [LArClusterMergeMap.hasEdge_cons, if_neg hk, LArClusterMergeMap.hasEdge_cons,
            if_neg (hkey ▸ hk)] at hx
          exact hx
      rw [ih r₂ c₁ c₂ htail]
      congr 1
      exact Prod.ext hkey hval

/-- The backward pruning pass over a list of entries of the dense backward
map: the edges of both output maps after the pass. -/
theorem pruneBackward_edges (full : LArClusterMergeMap) (entries : LArClusterMergeMap)
    (maps : LArClusterMergeMap × LArClusterMergeMap)
    (h1 : maps.1.Ordered) (h2 : maps.2.Ordered) (hne : ∀ e ∈ entries, ∀ i ∈ e.2, i ≠ e.1) :
    ∃ maps', pruneBackward full entries maps = Except.ok maps'
      ∧ (∀ i o, maps'.1.hasEdge i o = true ↔
          maps.1.hasEdge i o = true
            ∨ ∃ e ∈ entries, e.1 = o ∧ i ∈ e.2 ∧ isNeighbouringLoop full i e.2 = true)
      ∧ (∀ i o, maps'.2.hasEdge o i = true ↔
          maps.2.hasEdge o i = true
            ∨ ∃ e ∈ entries, e.1 = o ∧ i ∈ e.2 ∧ isNeighbouringLoop full i e.2 = true) := by
  obtain ⟨m, hok, _, _, he1, he2⟩ := pruneForward_spec full entries maps.swap h2 h1 hne
  refine ⟨m.swap, ?_, ?_, ?_⟩
  · rw [pruneBackward_eq, hok]; rfl
  · intro i o
    exact he2 o i
  · intro i o
    exact he1 o i

/-- An entry of a dense map that holds no edge from a cluster to itself does
not list its own key. -/
theorem LArClusterMergeMap.entries_irreflexive (m : LArClusterMergeMap) (hm : m.Ordered)
    (hself : ∀ p, m.hasEdge p p = false) : ∀ e ∈ m, ∀ o ∈ e.2, o ≠ e.1 := by
  intro e he o ho heq
  have hget := LArClusterMergeMap.get_of_mem m hm e he
  have : m.hasEdge e.1 e.1 = true := by
    unfold LArClusterMergeMap.hasEdge
    rw [hget, ← heq]
    simpa using ho
  rw [hself e.1] at this
  cases this

/-- For dense maps that satisfy the invariant, an edge passes the test of the
forward pass or that of the backward pass exactly when it is a dense edge
without a third cluster in between. -/
theorem pruned_edge_iff (F B : LArClusterMergeMap) (hinv : DenseInv (F, B)) (pInner pOuter : Nat) :
    ((∃ e ∈ F, e.1 = pInner ∧ pOuter ∈ e.2 ∧ isNeighbouringLoop F pOuter e.2 = true)
      ∨ ∃ e ∈ B, e.1 = pOuter ∧ pInner ∈ e.2 ∧ isNeighbouringLoop B pInner e.2 = true)
    ↔ F.hasEdge pInner pOuter = true
        ∧ ¬ ∃ pMiddle, pMiddle ≠ pInner ∧ pMiddle ≠ pOuter
            ∧ F.hasEdge pInner pMiddle = true ∧ F.hasEdge pMiddle pOuter = true := by
  obtain ⟨hF, hB, hself, htr⟩ := hinv
  simp only at hF hB hself htr
  rw [LArClusterMergeMap.exists_entry_iff F hF pInner pOuter
    (fun s => isNeighbouringLoop F pOuter s = true)]
  rw [LArClusterMergeMap.exists_entry_iff B hB pOuter pInner
    (fun s => isNeighbouringLoop B pInner s = true)]
  rw [isNeighbouringLoop_iff, isNeighbouringLoop_iff, htr pInner pOuter]
  have hmemF : ∀ M, M ∈ F.get pInner ↔ F.hasEdge pInner M = true := by
    intro M; unfold LArClusterMergeMap.hasEdge; simp
  have hmemB : ∀ M, M ∈ B.get pOuter ↔ F.hasEdge M pOuter = true := by
    intro M
    rw [← htr M pOuter]
    unfold LArClusterMergeMap.hasEdge; simp
  constructor
  · rintro (⟨hedge, hnb⟩ | ⟨hedge, hnb⟩)
    · refine ⟨hedge, ?_⟩
      rintro ⟨M, _, hMO, h1, h2⟩
      have := hnb M ((hmemF M).mpr h1) hMO
      rw [h2] at this
      cases this
    · refine ⟨hedge, ?_⟩
      rintro ⟨M, hMI, _, h1, h2⟩
      have := hnb M ((hmemB M).mpr h2) hMI
      rw [htr pInner M, h1] at this
      cases this
  · rintro ⟨hedge, hno⟩
    refine Or.inl ⟨hedge, ?_⟩
    intro M hM hMO
    cases hh : F.hasEdge M pOuter
    · rfl
    · exfalso
      apply hno
      refine ⟨M, ?_, hMO, (hmemF M).mp hM, hh⟩
      intro hMI
      have := (hmemF M).mp hM
      rw [hMI, hself pInner] at this
      cases this

/-- The two pruning passes on dense maps that satisfy the invariant, started
with empty output maps: they return maps in canonical form, the forward map
holds the dense edges without a third cluster in between, and the backward
map holds the same edges reversed. -/
theorem pruneFullMergeMaps_spec (F B : LArClusterMergeMap) (hinv : DenseInv (F, B)) :
    ∃ f b, pruneFullMergeMaps (F, B) [] [] = Except.ok (f, b)
      ∧ f.Canonical ∧ b.Canonical
      ∧ (∀ pInner pOuter, f.hasEdge pInner pOuter = true ↔
          F.hasEdge pInner pOuter = true
            ∧ ¬ ∃ pMiddle, pMiddle ≠ pInner ∧ pMiddle ≠ pOuter
                ∧ F.hasEdge pInner pMiddle = true ∧ F.hasEdge pMiddle pOuter = true)
      ∧ ∀ pInner pOuter, b.hasEdge pOuter pInner = f.hasEdge pInner pOuter := by
  have hinv' := hinv
  obtain ⟨hF, hB, hself, htr⟩ := hinv'
  simp only at hF hB hself htr
  have hselfB : ∀ p, B.hasEdge p p = false := fun p => by rw [htr p p]; exact hself p
  have hnil : LArClusterMergeMap.Ordered [] := by simp [LArClusterMergeMap.Ordered]
  obtain ⟨m1, hok1, ho1, ho2, he1, he1'⟩ := pruneForward_spec F F ([], []) hnil hnil
    (LArClusterMergeMap.entries_irreflexive F hF hself)
  obtain ⟨m2, hok2, he2, he2'⟩ := pruneBackward_edges B B m1 ho1 ho2
    (LArClusterMergeMap.entries_irreflexive B hB hselfB)
  obtain ⟨c1, c1'⟩ := pruneForward_canonical F F ([], []) m1 LArClusterMergeMap.canonical_nil
    LArClusterMergeMap.canonical_nil hok1
  obtain ⟨c2, c2'⟩ := pruneBackward_canonical B B m1 m2 c1 c1' hok2
  have hf : ∀ pInner pOuter, m2.1.hasEdge pInner pOuter = true ↔
      F.hasEdge pInner pOuter = true
        ∧ ¬ ∃ pMiddle, pMiddle ≠ pInner ∧ pMiddle ≠ pOuter
            ∧ F.hasEdge pInner pMiddle = true ∧ F.hasEdge pMiddle pOuter = true := by
    intro pInner pOuter
    rw [he2, he1, ← pruned_edge_iff F B hinv pInner pOuter]
    simp [LArClusterMergeMap.hasEdge_nil]
  have hb : ∀ pInner pOuter, m2.2.hasEdge pOuter pInner = true ↔
      F.hasEdge pInner pOuter = true
        ∧ ¬ ∃ pMiddle, pMiddle ≠ pInner ∧ pMiddle ≠ pOuter
            ∧ F.hasEdge pInner pMiddle = true ∧ F.hasEdge pMiddle pOuter = true := by
    intro pInner pOuter
    rw [he2', he1', ← pruned_edge_iff F B hinv pInner pOuter]
    simp [LArClusterMergeMap.hasEdge_nil]
  refine ⟨m2.1, m2.2, ?_, c2, c2', hf, ?_⟩
  · unfold pruneFullMergeMaps
    simp only [hok1, hok2]
  · intro pInner pOuter
    rw [Bool.eq_iff_iff, hb, hf]

/-- C19: the pruning passes of `FillClusterMergeMaps` are idempotent.  For dense
maps that satisfy what the first part of the function guarantees (keys in
order, no edge from a cluster to itself, the backward map holding the
forward edges reversed), pruning into empty output maps returns maps `(f, b)`
where `f` keeps an edge inner→outer of the dense forward map exactly when no
other cluster M has dense edges inner→M and M→outer; `(f, b)` satisfies the
same conditions, and pruning `(f, b)` into empty output maps returns `(f, b)`
again.  The pruned maps are those that `FillClusterMergeMaps` returns
whenever its first part yields these dense maps. -/
theorem C19_pruning_idempotent (fullForwardMergeMap fullBackwardMergeMap : LArClusterMergeMap)
    (hdense : DenseInv (fullForwardMergeMap, fullBackwardMergeMap)) :
    ∃ f b,
      pruneFullMergeMaps (fullForwardMergeMap, fullBackwardMergeMap) [] [] = Except.ok (f, b)
      ∧ (∀ pInner pOuter, f.hasEdge pInner pOuter = true ↔
          fullForwardMergeMap.hasEdge pInner pOuter = true
            ∧ ¬ ∃ pMiddle, pMiddle ≠ pInner ∧ pMiddle ≠ pOuter
                ∧ fullForwardMergeMap.hasEdge pInner pMiddle = true
                ∧ fullForwardMergeMap.hasEdge pMiddle pOuter = true)
      ∧ DenseInv (f, b)
      ∧ pruneFullMergeMaps (f, b) [] [] = Except.ok (f, b)
      ∧ ∀ (alg : TransverseAssociationAlgorithm) (tcl : List LArTransverseCluster),
          fillFullMergeMaps alg tcl = Except.ok (fullForwardMergeMap, fullBackwardMergeMap) →
          FillClusterMergeMaps alg tcl [] [] = Except.ok (f, b) := by
  obtain ⟨f, b, hok, cf, cb, hf, hb⟩ :=
    pruneFullMergeMaps_spec fullForwardMergeMap fullBackwardMergeMap hdense
  have hself : ∀ p, fullForwardMergeMap.hasEdge p p = false := hdense.2.2.1
  have hinv : DenseInv (f, b) := by
    refine ⟨cf.1, cb.1, ?_, hb⟩
    intro p
    cases hh : f.hasEdge p p
    · rfl
    · have := ((hf p p).mp hh).1
      rw [hself p] at this
      cases this
  obtain ⟨f', b', hok', cf', cb', hf', hb'⟩ := pruneFullMergeMaps_spec f b hinv
  have hff : ∀ k v, f'.hasEdge k v = f.hasEdge k v := by
    intro k v
    rw [Bool.eq_iff_iff, hf']
    constructor
    · exact fun h => h.1
    · intro h
      refine ⟨h, ?_⟩
      rintro ⟨M, hMI, hMO, h1, h2⟩
      exact ((hf k v).mp h).2 ⟨M, hMI, hMO, ((hf k M).mp h1).1, ((hf M v).mp h2).1⟩
  have hfeq : f' = f := LArClusterMergeMap.ext_canonical f' f cf' cf hff
  have hbeq : b' = b := by
    apply LArClusterMergeMap.ext_canonical b' b cb' cb
    intro k v
    rw [hb' v k, hb v k, hff v k]
  refine ⟨f, b, hok, hf, hinv, ?_, ?_⟩
  · rw [hok', hfeq, hbeq]
  · intro alg tcl hfill
    rw [FillClusterMergeMaps_eq, hfill]
    exact hok

theorem Except.eq_ok_of_toOption {ε α : Type} (x : Except ε α) (a : α)
    (h : x.toOption = some a) : x = Except.ok a := by
  cases x with
  | error e => cases h
  | ok v =>
    simp only [Except.toOption, Option.some.injEq] at h
    rw [h]

/-- C19 at the scenario of the three transverse clusters X, Y, Z: the dense maps
of the scenario satisfy the hypothesis, pruning them gives the maps with the
edges X→Y and Y→Z, and pruning these gives the same maps. -/
theorem C19_witness :
    DenseInv ([(1, [2, 3]), (2, [3])], [(2, [1]), (3, [1, 2])])
    ∧ (∃ f b,
        pruneFullMergeMaps ([(1, [2, 3]), (2, [3])], [(2, [1]), (3, [1, 2])]) [] []
          = Except.ok (f, b)
        ∧ (∀ pInner pOuter, f.hasEdge pInner pOuter = true ↔
            LArClusterMergeMap.hasEdge [(1, [2, 3]), (2, [3])] pInner pOuter = true
              ∧ ¬ ∃ pMiddle, pMiddle ≠ pInner ∧ pMiddle ≠ pOuter
                  ∧ LArClusterMergeMap.hasEdge [(1, [2, 3]), (2, [3])] pInner pMiddle = true
                  ∧ LArClusterMergeMap.hasEdge [(1, [2, 3]), (2, [3])] pMiddle pOuter = true)
        ∧ DenseInv (f, b)
        ∧ pruneFullMergeMaps (f, b) [] [] = Except.ok (f, b)
        ∧ ∀ (alg : TransverseAssociationAlgorithm) (tcl : List LArTransverseCluster),
            fillFullMergeMaps alg tcl
              = Except.ok ([(1, [2, 3]), (2, [3])], [(2, [1]), (3, [1, 2])]) →
            FillClusterMergeMaps alg tcl [] [] = Except.ok (f, b))
    ∧ (fillFullMergeMaps defaultSettings scenarioXYZ).toOption
        = some ([(1, [2, 3]), (2, [3])], [(2, [1]), (3, [1, 2])])
    ∧ (pruneFullMergeMaps ([(1, [2, 3]), (2, [3])], [(2, [1]), (3, [1, 2])]) [] []).toOption
        = some ([(1, [2]), (2, [3])], [(2, [1]), (3, [2])])
    ∧ (pruneFullMergeMaps ([(1, [2]), (2, [3])], [(2, [1]), (3, [2])]) [] []).toOption
        = some ([(1, [2]), (2, [3])], [(2, [1]), (3, [2])]) :=
  have hd : DenseInv ([(1, [2, 3]), (2, [3])], [(2, [1]), (3, [1, 2])]) :=
    fillFullMergeMaps_inv defaultSettings scenarioXYZ _
      (Except.eq_ok_of_toOption _ _ (by decide!))
  ⟨hd, C19_pruning_idempotent _ _ hd, by decide!, by decide, by decide⟩

/-! ## Reconstructability and the order of the hits -/

theorem viewCount_perm (g : CaloHit → HitType) (view : HitType) (l₁ l₂ : List CaloHit)
    (h : l₁.Perm l₂) : viewCount g view l₁ = viewCount g view l₂ := by
  unfold viewCount
  exact (h.filter _).length_eq

/-- C22: `IsReconstructable` gives the same value for two hit lists that are
permutations of each other, for every criteria and every assignment of views
to the hits; the number of hits of each view is the same for both lists. -/
theorem C22_isReconstructable_perm (GetHitType : CaloHit → HitType)
    (crit : ReconstructabilityCriteria) (hits₁ hits₂ : List CaloHit) (hperm : hits₁.Perm hits₂) :
    IsReconstructable GetHitType crit hits₁ = IsReconstructable GetHitType crit hits₂
    ∧ ∀ view, viewCount GetHitType view hits₁ = viewCount GetHitType view hits₂ := by
  refine ⟨?_, fun view => viewCount_perm GetHitType view _ _ hperm⟩
  rw [Bool.eq_iff_iff]
  unfold IsReconstructable
  simp only [Bool.and_eq_true, decide_eq_true_eq]
  rw [goodViewsLoop_iff, goodViewsLoop_iff, hperm.length_eq,
    viewCount_perm GetHitType HitType.TPC_VIEW_U _ _ hperm,
    viewCount_perm GetHitType HitType.TPC_VIEW_V _ _ hperm,
    viewCount_perm GetHitType HitType.TPC_VIEW_W _ _ hperm]
  have hne : hits₁ ≠ [] ↔ hits₂ ≠ [] := by
    constructor
    · intro h1 h2; rw [h2] at hperm; exact h1 hperm.eq_nil
    · intro h1 h2; rw [h2] at hperm; exact h1 hperm.symm.eq_nil
  rw [hne]

/-- C22 at a list of 16 hits and its reverse: both are reconstructable under
the default criteria. -/
theorem C22_witness :
    ([1, 2, 3, 4, 5, 6, 7, 8, 9, 10, 11, 12, 13, 14, 15, 16] : List CaloHit).Perm
        [16, 15, 14, 13, 12, 11, 10, 9, 8, 7, 6, 5, 4, 3, 2, 1]
    ∧ IsReconstructable exampleHitType {} [1, 2, 3, 4, 5, 6, 7, 8, 9, 10, 11, 12, 13, 14, 15, 16]
        = true
    ∧ (IsReconstructable exampleHitType {} [1, 2, 3, 4, 5, 6, 7, 8, 9, 10, 11, 12, 13, 14, 15, 16]
        = IsReconstructable exampleHitType {}
            [16, 15, 14, 13, 12, 11, 10, 9, 8, 7, 6, 5, 4, 3, 2, 1]
      ∧ ∀ view,
          viewCount exampleHitType view [1, 2, 3, 4, 5, 6, 7, 8, 9, 10, 11, 12, 13, 14, 15, 16]
            = viewCount exampleHitType view
                [16, 15, 14, 13, 12, 11, 10, 9, 8, 7, 6, 5, 4, 3, 2, 1]) :=
  ⟨by decide, by decide,
    C22_isReconstructable_perm exampleHitType {} _ _ (by decide)⟩

/-! ## Pure matches -/

/-- A duplicate-free list all of whose elements pass a test is as long as the
part of another duplicate-free list that passes the test of being in it. -/
theorem length_filter_mem_of_subset (l₁ l₂ : List Nat) (h₁ : l₁.Nodup) (h₂ : l₂.Nodup)
    (hsub : ∀ h ∈ l₂, h ∈ l₁) :
    (l₁.filter (fun h => decide (h ∈ l₂))).length = l₂.length := by
  apply List.Perm.length_eq
  rw [List.perm_ext_iff_of_nodup (h₁.filter _) h₂]
  intro a
  simp only [List.mem_filter, decide_eq_true_eq]
  exact ⟨fun h => h.2, fun h => ⟨hsub a h, h⟩⟩

/-- C21: for every record that `MatchHierarchies` returns and every
reconstructed node `R` in it (hierarchies with pairwise different node
addresses and hit lists in strictly increasing address order): when every hit
of `R` is a hit of the truth node of the record, the recorded shared hit count
is the hit count of `R` and `GetPurity` returns 1. -/
theorem C21_pure_match (GetHitType : CaloHit → HitType)
    (mcHierarchy : MCHierarchy) (recoHierarchy : RecoHierarchy)
    (hmc : ((Node.nodesList mcHierarchy.m_rootNodes).map Node.addr).Nodup)
    (hreco : ((Node.nodesList recoHierarchy.m_rootNodes).map Node.addr).Nodup)
    (hsmc : ∀ n ∈ Node.nodesList mcHierarchy.m_rootNodes, n.GetCaloHits.Sorted (· < ·))
    (hsreco : ∀ n ∈ Node.nodesList recoHierarchy.m_rootNodes, n.GetCaloHits.Sorted (· < ·)) :
    ∃ records, MatchHierarchies GetHitType mcHierarchy recoHierarchy [] = Except.ok records
      ∧ ∀ r ∈ records, ∀ R ∈ r.GetRecoMatches,
          (∀ h ∈ R.GetCaloHits, h ∈ r.GetMC.GetCaloHits) →
          r.GetSharedHits R = Except.ok (R.GetCaloHits.length : Int)
          ∧ r.GetPurity R = Except.ok 1 := by
  refine ⟨_, MatchHierarchies_ok _ _ _ _, ?_⟩
  intro r hr R hR hsub
  obtain ⟨n, hb, hRmem, hTmem, hsh, hpu, _⟩ :=
    record_entry GetHitType mcHierarchy recoHierarchy hmc hreco r hr R hR
  obtain ⟨_, hn, hpos, _, _⟩ := bestMatch_some _ _ _ _ _ hb
  have hsortedT : r.GetMC.GetCaloHits.Sorted (· < ·) :=
    hsmc _ ((sortedMCNodes_perm mcHierarchy).mem_iff.mp hTmem)
  have hsortedR : R.GetCaloHits.Sorted (· < ·) :=
    hsreco R ((sortedRecoNodes_perm recoHierarchy).mem_iff.mp hRmem)
  have hlen : n = R.GetCaloHits.length := by
    rw [hn, set_intersection_eq_filter _ _ hsortedT hsortedR]
    exact length_filter_mem_of_subset _ _ hsortedT.nodup hsortedR.nodup hsub
  refine ⟨by rw [hsh, hlen], ?_⟩
  rw [hpu, hlen]
  have hne : (R.GetCaloHits.length : ℚ) ≠ 0 := by
    have : 0 < R.GetCaloHits.length := by omega
    exact_mod_cast this.ne'
  rw [div_self hne]

/-- C21 at `pureMC` and `pureReco`: the reconstructed node of 8 hits is
recorded under the truth node with 8 shared hits. -/
theorem C21_witness :
    ((Node.nodesList pureMC.m_rootNodes).map Node.addr).Nodup
    ∧ ((Node.nodesList pureReco.m_rootNodes).map Node.addr).Nodup
    ∧ (∀ n ∈ Node.nodesList pureMC.m_rootNodes, n.GetCaloHits.Sorted (· < ·))
    ∧ (∀ n ∈ Node.nodesList pureReco.m_rootNodes, n.GetCaloHits.Sorted (· < ·))
    ∧ (matchRecords exampleHitType pureMC pureReco []).map MCMatches.summary
        = [(300, [400], [8])]
    ∧ ∃ records, MatchHierarchies exampleHitType pureMC pureReco [] = Except.ok records
      ∧ ∀ r ∈ records, ∀ R ∈ r.GetRecoMatches,
          (∀ h ∈ R.GetCaloHits, h ∈ r.GetMC.GetCaloHits) →
          r.GetSharedHits R = Except.ok (R.GetCaloHits.length : Int)
          ∧ r.GetPurity R = Except.ok 1 :=
  ⟨by decide, by decide, by decide, by decide, by decide,
    C21_pure_match exampleHitType pureMC pureReco (by decide) (by decide) (by decide)
      (by decide)⟩

/-! ## The queries of the printing loop -/

/-- C23: `MatchHierarchies` returns normally for every pair of hierarchies.
Every query of its printing loop is made for a reconstructed node of the
record that is queried, so `std::find` ends before the end of `m_recoNodes`
and the three accessors return a value; and in hierarchies with pairwise
different node addresses every recorded reconstructed node and the truth node
of its record have at least one hit, so that both quotients have a
denominator that is not zero. -/
theorem C23_matching_completes (GetHitType : CaloHit → HitType)
    (mcHierarchy : MCHierarchy) (recoHierarchy : RecoHierarchy) :
    ∃ records, MatchHierarchies GetHitType mcHierarchy recoHierarchy [] = Except.ok records
      ∧ (∀ r ∈ records, ∀ R ∈ r.GetRecoMatches,
          r.findIndex R < r.m_recoNodes.length
          ∧ (∃ shared, r.GetSharedHits R = Except.ok shared)
          ∧ (∃ purity, r.GetPurity R = Except.ok purity)
          ∧ ∃ completeness, r.GetCompleteness R = Except.ok completeness)
      ∧ (((Node.nodesList mcHierarchy.m_rootNodes).map Node.addr).Nodup →
          ((Node.nodesList recoHierarchy.m_rootNodes).map Node.addr).Nodup →
          ∀ r ∈ records, ∀ R ∈ r.GetRecoMatches,
            R.GetCaloHits.length ≠ 0 ∧ r.GetMC.GetCaloHits.length ≠ 0) := by
  refine ⟨_, MatchHierarchies_ok _ _ _ _, ?_, ?_⟩
  · intro r _ R hR
    have hlt : r.findIndex R < r.m_recoNodes.length := by
      unfold MCMatches.findIndex
      have := List.indexOf_lt_length.mpr (List.mem_map_of_mem Node.addr hR)
      simpa only [List.length_map] using this
    have hne : ¬ r.findIndex R = r.m_recoNodes.length := by omega
    refine ⟨hlt, ?_, ?_, ?_⟩
    · exact ⟨_, by simp only [MCMatches.GetSharedHits, if_neg hne]; rfl⟩
    · exact ⟨_, by simp only [MCMatches.GetPurity, if_neg hne]; rfl⟩
    · exact ⟨_, by simp only [MCMatches.GetCompleteness, if_neg hne]; rfl⟩
  · intro hmc hreco r hr R hR
    obtain ⟨n, hb, _, _, _, _, _⟩ :=
      record_entry GetHitType mcHierarchy recoHierarchy hmc hreco r hr R hR
    obtain ⟨_, hn, hpos, _, _⟩ := bestMatch_some _ _ _ _ _ hb
    have h1 := set_intersection_length_le_right r.GetMC.GetCaloHits R.GetCaloHits
    have h2 := set_intersection_length_le_left r.GetMC.GetCaloHits R.GetCaloHits
    constructor <;> omega

/-- C23 at the example hierarchies: two records hold reconstructed nodes. -/
theorem C23_witness :
    ((Node.nodesList exampleMC.m_rootNodes).map Node.addr).Nodup
    ∧ ((Node.nodesList exampleReco.m_rootNodes).map Node.addr).Nodup
    ∧ (matchRecords exampleHitType exampleMC exampleReco []).map MCMatches.summary
        = [(100, [200], [12]), (101, [201], [10]), (102, [], [])]
    ∧ ∃ records, MatchHierarchies exampleHitType exampleMC exampleReco [] = Except.ok records
      ∧ (∀ r ∈ records, ∀ R ∈ r.GetRecoMatches,
          r.findIndex R < r.m_recoNodes.length
          ∧ (∃ shared, r.GetSharedHits R = Except.ok shared)
          ∧ (∃ purity, r.GetPurity R = Except.ok purity)
          ∧ ∃ completeness, r.GetCompleteness R = Except.ok completeness)
      ∧ (((Node.nodesList exampleMC.m_rootNodes).map Node.addr).Nodup →
          ((Node.nodesList exampleReco.m_rootNodes).map Node.addr).Nodup →
          ∀ r ∈ records, ∀ R ∈ r.GetRecoMatches,
            R.GetCaloHits.length ≠ 0 ∧ r.GetMC.GetCaloHits.length ≠ 0) :=
  ⟨by decide, by decide, by decide, C23_matching_completes exampleHitType exampleMC exampleReco⟩

/-! ## Queries for a node that is not recorded -/

theorem MCMatches.findIndex_eq_length_iff (m : MCMatches) (pReco : Node) :
    m.findIndex pReco = m.m_recoNodes.length ↔ pReco.addr ∉ m.m_recoNodes.map Node.addr := by
  unfold MCMatches.findIndex
  constructor
  · intro h hmem
    have := List.indexOf_lt_length.mpr hmem
    simp only [List.length_map] at this
    omega
  · intro h
    have := List.indexOf_eq_length.mpr h
    simpa only [List.length_map] using this

/-- C24, refuted as stated: the record `emptyRecord` holds no pair for the node
`strayRecoNode`, and each of the three accessors ends with the status code
`STATUS_CODE_NOT_FOUND` for it instead of a value. -/
theorem C24_counterexample :
    strayRecoNode.addr ∉ emptyRecord.m_recoNodes.map Node.addr
    ∧ emptyRecord.GetSharedHits strayRecoNode = Except.error StatusCode.STATUS_CODE_NOT_FOUND
    ∧ emptyRecord.GetPurity strayRecoNode = Except.error StatusCode.STATUS_CODE_NOT_FOUND
    ∧ emptyRecord.GetCompleteness strayRecoNode = Except.error StatusCode.STATUS_CODE_NOT_FOUND
    ∧ (¬ ∃ shared, emptyRecord.GetSharedHits strayRecoNode = Except.ok shared)
    ∧ (¬ ∃ purity, emptyRecord.GetPurity strayRecoNode = Except.ok purity)
    ∧ ¬ ∃ completeness, emptyRecord.GetCompleteness strayRecoNode = Except.ok completeness := by
  refine ⟨by decide, rfl, rfl, rfl, ?_, ?_, ?_⟩
  · rintro ⟨v, hv⟩
    have h : emptyRecord.GetSharedHits strayRecoNode
        = Except.error StatusCode.STATUS_CODE_NOT_FOUND := rfl
    rw [h] at hv
    cases hv
  · rintro ⟨v, hv⟩
    have h : emptyRecord.GetPurity strayRecoNode
        = Except.error StatusCode.STATUS_CODE_NOT_FOUND := rfl
    rw [h] at hv
    cases hv
  · rintro ⟨v, hv⟩
    have h : emptyRecord.GetCompleteness strayRecoNode
        = Except.error StatusCode.STATUS_CODE_NOT_FOUND := rfl
    rw [h] at hv
    cases hv

/-- C24 (amended): each of `GetSharedHits`, `GetPurity` and `GetCompleteness`
ends with the status code `STATUS_CODE_NOT_FOUND`, which goes to its caller,
exactly when the record holds no pair for the queried reconstructed node;
otherwise it returns a value. -/
theorem C24_not_found_is_thrown (m : MCMatches) (pReco : Node) :
    (m.GetSharedHits pReco = Except.error StatusCode.STATUS_CODE_NOT_FOUND
        ↔ pReco.addr ∉ m.m_recoNodes.map Node.addr)
    ∧ (m.GetPurity pReco = Except.error StatusCode.STATUS_CODE_NOT_FOUND
        ↔ pReco.addr ∉ m.m_recoNodes.map Node.addr)
    ∧ (m.GetCompleteness pReco = Except.error StatusCode.STATUS_CODE_NOT_FOUND
        ↔ pReco.addr ∉ m.m_recoNodes.map Node.addr)
    ∧ ((∃ shared, m.GetSharedHits pReco = Except.ok shared)
        ↔ pReco.addr ∈ m.m_recoNodes.map Node.addr)
    ∧ ((∃ purity, m.GetPurity pReco = Except.ok purity)
        ↔ pReco.addr ∈ m.m_recoNodes.map Node.addr)
    ∧ ((∃ completeness, m.GetCompleteness pReco = Except.ok completeness)
        ↔ pReco.addr ∈ m.m_recoNodes.map Node.addr) := by
  rw [← MCMatches.findIndex_eq_length_iff]
  have hmem : pReco.addr ∈ m.m_recoNodes.map Node.addr
      ↔ ¬ m.findIndex pReco = m.m_recoNodes.length := by
    rw [MCMatches.findIndex_eq_length_iff]; exact not_not.symm
  rw [hmem]
  unfold MCMatches.GetSharedHits MCMatches.GetPurity MCMatches.GetCompleteness
  by_cases h : m.findIndex pReco = m.m_recoNodes.length
  · simp [h]
  · simp [h]

/-! ## Self-association in `FillClusterAssociationMap` -/

theorem associateForwardEntry_status (pInnerCluster : Nat) (l : ClusterList) :
    ∀ cam : ClusterAssociationMap,
      (associateForwardEntry pInnerCluster l cam).2
        = if pInnerCluster ∈ l then some StatusCode.STATUS_CODE_INVALID_PARAMETER else none := by
  induction l with
  | nil => intro cam; simp [associateForwardEntry]
  | cons o rest ih =>
    intro cam
    simp only [associateForwardEntry]
    by_cases h : o = pInnerCluster
    · rw [if_pos h, if_pos (by rw [h]; exact List.mem_cons_self _ _)]
    · rw [if_neg h, ih]
      have hiff : pInnerCluster ∈ o :: rest ↔ pInnerCluster ∈ rest := by
        rw [List.mem_cons]
        constructor
        · rintro (h1 | h1)
          · exact absurd h1.symm h
          · exact h1
        · exact Or.inr
      simp only [hiff]

theorem associateBackwardEntry_status (pOuterCluster : Nat) (l : ClusterList) :
    ∀ cam : ClusterAssociationMap,
      (associateBackwardEntry pOuterCluster l cam).2
        = if pOuterCluster ∈ l then some StatusCode.STATUS_CODE_INVALID_PARAMETER else none := by
  induction l with
  | nil => intro cam; simp [associateBackwardEntry]
  | cons i rest ih =>
    intro cam
    simp only [associateBackwardEntry]
    by_cases h : i = pOuterCluster
    · rw [if_pos h, if_pos (by rw [h]; exact List.mem_cons_self _ _)]
    · rw [if_neg h, ih]
      have hiff : pOuterCluster ∈ i :: rest ↔ pOuterCluster ∈ rest := by
        rw [List.mem_cons]
        constructor
        · rintro (h1 | h1)
          · exact absurd h1.symm h
          · exact h1
        · exact Or.inr
      simp only [hiff]

theorem associateForward_status (m : LArClusterMergeMap) :
    ∀ cam : ClusterAssociationMap,
      ((∃ e ∈ m, e.1 ∈ e.2) →
        (associateForward m cam).2 = some StatusCode.STATUS_CODE_INVALID_PARAMETER)
      ∧ ((¬ ∃ e ∈ m, e.1 ∈ e.2) → (associateForward m cam).2 = none) := by
  induction m with
  | nil =>
    intro cam
    exact ⟨fun ⟨e, he, _⟩ => absurd he (List.not_mem_nil e), fun _ => rfl⟩
  | cons e rest ih =>
    intro cam
    have hs := associateForwardEntry_status e.1 e.2 cam
    simp only [associateForward]
    by_cases hself : e.1 ∈ e.2
    · rw [if_pos hself] at hs
      cases hr : associateForwardEntry e.1 e.2 cam with
      | mk cam' st =>
        rw [hr] at hs
        simp only at hs
        subst hs
        exact ⟨fun _ => rfl, fun hno => absurd ⟨e, List.mem_cons_self _ _, hself⟩ hno⟩
    · rw [if_neg hself] at hs
      cases hr : associateForwardEntry e.1 e.2 cam with
      | mk cam' st =>
        rw [hr] at hs
        simp only at hs
        subst hs
        simp only
        obtain ⟨ih1, ih2⟩ := ih cam'
        constructor
        · rintro ⟨e', he', hself'⟩
          rcases List.mem_cons.mp he' with h1 | h1
          · rw [h1] at hself'; exact absurd hself' hself
          · exact ih1 ⟨e', h1, hself'⟩
        · intro hno
          exact ih2 (fun ⟨e', he', hself'⟩ => hno ⟨e', List.mem_cons_of_mem _ he', hself'⟩)

theorem associateBackward_status (m : LArClusterMergeMap) :
    ∀ cam : ClusterAssociationMap,
      ((∃ e ∈ m, e.1 ∈ e.2) →
        (associateBackward m cam).2 = some StatusCode.STATUS_CODE_INVALID_PARAMETER)
      ∧ ((¬ ∃ e ∈ m, e.1 ∈ e.2) → (associateBackward m cam).2 = none) := by
  induction m with
  | nil =>
    intro cam
    exact ⟨fun ⟨e, he, _⟩ => absurd he (List.not_mem_nil e), fun _ => rfl⟩
  | cons e rest ih =>
    intro cam
    have hs := associateBackwardEntry_status e.1 e.2 cam
    simp only [associateBackward]
    by_cases hself : e.1 ∈ e.2
    · rw [if_pos hself] at hs
      cases hr : associateBackwardEntry e.1 e.2 cam with
      | mk cam' st =>
        rw [hr] at hs
        simp only at hs
        subst hs
        exact ⟨fun _ => rfl, fun hno => absurd ⟨e, List.mem_cons_self _ _, hself⟩ hno⟩
    · rw [if_neg hself] at hs
      cases hr : associateBackwardEntry e.1 e.2 cam with
      | mk cam' st =>
        rw [hr] at hs
        simp only at hs
        subst hs
        simp only
        obtain ⟨ih1, ih2⟩ := ih cam'
        constructor
        · rintro ⟨e', he', hself'⟩
          rcases List.mem_cons.mp he' with h1 | h1
          · rw [h1] at hself'; exact absurd hself' hself
          · exact ih1 ⟨e', h1, hself'⟩
        · intro hno
          exact ih2 (fun ⟨e', he', hself'⟩ => hno ⟨e', List.mem_cons_of_mem _ he', hself'⟩)

/-- The status with which `FillClusterAssociationMap` is left. -/
theorem FillClusterAssociationMap_status (f b : LArClusterMergeMap) (cam : ClusterAssociationMap) :
    (((∃ e ∈ f, e.1 ∈ e.2) ∨ ∃ e ∈ b, e.1 ∈ e.2) →
      (FillClusterAssociationMap f b cam).2 = some StatusCode.STATUS_CODE_INVALID_PARAMETER)
    ∧ ((¬ ((∃ e ∈ f, e.1 ∈ e.2) ∨ ∃ e ∈ b, e.1 ∈ e.2)) →
      (FillClusterAssociationMap f b cam).2 = none) := by
  obtain ⟨hf1, hf2⟩ := associateForward_status f cam
  unfold FillClusterAssociationMap
  by_cases hself : ∃ e ∈ f, e.1 ∈ e.2
  · have h1 := hf1 hself
    cases hr : associateForward f cam with
    | mk cam' st =>
      rw [hr] at h1
      simp only at h1
      subst h1
      exact ⟨fun _ => rfl, fun hno => absurd (Or.inl hself) hno⟩
  · have h1 := hf2 hself
    cases hr : associateForward f cam with
    | mk cam' st =>
      rw [hr] at h1
      simp only at h1
      subst h1
      simp only
      obtain ⟨hb1, hb2⟩ := associateBackward_status b cam'
      constructor
      · rintro (h | h)
        · exact absurd h hself
        · exact hb1 h
      · intro hno
        exact hb2 (fun h => hno (Or.inr h))

/-- C25: `FillClusterAssociationMap` is left with the status code
`STATUS_CODE_INVALID_PARAMETER` if and only if some entry of the forward merge
map or of the backward merge map holds its own key in its merge set; it
returns normally if and only if there is no such entry. -/
theorem C25_self_association_fatal (forwardMergeMap backwardMergeMap : LArClusterMergeMap)
    (clusterAssociationMap : ClusterAssociationMap) :
    ((FillClusterAssociationMap forwardMergeMap backwardMergeMap clusterAssociationMap).2
        = some StatusCode.STATUS_CODE_INVALID_PARAMETER
      ↔ (∃ e ∈ forwardMergeMap, e.1 ∈ e.2) ∨ ∃ e ∈ backwardMergeMap, e.1 ∈ e.2)
    ∧ ((FillClusterAssociationMap forwardMergeMap backwardMergeMap clusterAssociationMap).2 = none
      ↔ ¬ ((∃ e ∈ forwardMergeMap, e.1 ∈ e.2) ∨ ∃ e ∈ backwardMergeMap, e.1 ∈ e.2)) := by
  obtain ⟨h1, h2⟩ :=
    FillClusterAssociationMap_status forwardMergeMap backwardMergeMap clusterAssociationMap
  by_cases hself : (∃ e ∈ forwardMergeMap, e.1 ∈ e.2) ∨ ∃ e ∈ backwardMergeMap, e.1 ∈ e.2
  · have h := h1 hself
    refine ⟨⟨fun _ => hself, fun _ => h⟩, ⟨fun hn => ?_, fun hno => absurd hself hno⟩⟩
    rw [h] at hn
    cases hn
  · have h := h2 hself
    refine ⟨⟨fun hs => ?_, fun hs => absurd hs hself⟩, ⟨fun _ => hself, fun _ => h⟩⟩
    rw [h] at hs
    cases hs

/-- C25 at two pairs of maps: the pruned maps of the scenario X, Y, Z give the
association map with X→Y and Y→Z in both directions and no exception; a
forward map in which cluster 1 lies in its own merge set gives
`STATUS_CODE_INVALID_PARAMETER`. -/
theorem C25_witness :
    FillClusterAssociationMap [(1, [2]), (2, [3])] [(2, [1]), (3, [2])] []
        = ([(1, { m_forwardAssociations := [2], m_backwardAssociations := [] }),
            (2, { m_forwardAssociations := [3], m_backwardAssociations := [1] }),
            (3, { m_forwardAssociations := [], m_backwardAssociations := [2] })], none)
    ∧ (FillClusterAssociationMap [(1, [1, 2])] [] []).2
        = some StatusCode.STATUS_CODE_INVALID_PARAMETER
    ∧ (((FillClusterAssociationMap [(1, [1, 2])] [] []).2
          = some StatusCode.STATUS_CODE_INVALID_PARAMETER
        ↔ (∃ e ∈ ([(1, [1, 2])] : LArClusterMergeMap), e.1 ∈ e.2)
            ∨ ∃ e ∈ ([] : LArClusterMergeMap), e.1 ∈ e.2)
      ∧ ((FillClusterAssociationMap [(1, [1, 2])] [] []).2 = none
        ↔ ¬ ((∃ e ∈ ([(1, [1, 2])] : LArClusterMergeMap), e.1 ∈ e.2)
            ∨ ∃ e ∈ ([] : LArClusterMergeMap), e.1 ∈ e.2))) :=
  ⟨by decide, by decide, C25_self_association_fatal [(1, [1, 2])] [] []⟩

/-! ## Exceptions of the association build -/

theorem GetExtremalCoordinatesXZ_empty (c : Cluster) (useX : Bool) (h : c.hitPositions = []) :
    GetExtremalCoordinatesXZ c useX = Except.error StatusCode.STATUS_CODE_FAILURE := by
  unfold GetExtremalCoordinatesXZ
  rw [h]
  simp only [extremalLoop]
  rw [if_pos (by unfold FLT_MAX; norm_num)]

theorem GetExtremalCoordinatesXZ_error (c : Cluster) (useX : Bool) (e : StatusCode)
    (h : GetExtremalCoordinatesXZ c useX = Except.error e) :
    e = StatusCode.STATUS_CODE_FAILURE := by
  unfold GetExtremalCoordinatesXZ at h
  simp only at h
  split_ifs at h
  cases h
  rfl

theorem GetExtremalCoordinatesXZ_hits (c : Cluster) (useX : Bool) (r : ℚ × ℚ)
    (h : GetExtremalCoordinatesXZ c useX = Except.ok r) : c.hitPositions ≠ [] := by
  intro hnil
  rw [GetExtremalCoordinatesXZ_empty c useX hnil] at h
  cases h

theorem associatedLoop_error (alg : TransverseAssociationAlgorithm) (pCluster : Cluster)
    (windowMinX windowMaxX : ℚ) (l : List Cluster) :
    ∀ (associatedVector : List Cluster) (e : StatusCode),
      associatedLoop alg pCluster windowMinX windowMaxX l associatedVector = Except.error e →
      e = StatusCode.STATUS_CODE_FAILURE := by
  induction l with
  | nil => intro av e h; simp only [associatedLoop] at h; cases h
  | cons t rest ih =>
    intro av e h
    simp only [associatedLoop] at h
    by_cases h1 : pCluster.addr = t.addr
    · rw [if_pos h1] at h
      exact ih av e h
    · rw [if_neg h1] at h
      cases hx : GetExtremalCoordinatesX t with
      | error e' =>
        have he' := GetExtremalCoordinatesXZ_error t true e' hx
        rw [hx] at h
        simp only at h
        cases h
        exact he'
      | ok r =>
        rw [hx] at h
        simp only at h
        split_ifs at h
        · exact ih _ e h
        · exact ih _ e h
        · exact ih _ e h

theorem GetAssociatedClusters_error (alg : TransverseAssociationAlgorithm) (pCluster : Cluster)
    (tv lv av : List Cluster) (e : StatusCode)
    (h : GetAssociatedClusters alg pCluster tv lv av = Except.error e) :
    e = StatusCode.STATUS_CODE_FAILURE := by
  unfold GetAssociatedClusters at h
  cases hx : GetExtremalCoordinatesX pCluster with
  | error e' =>
    have he' := GetExtremalCoordinatesXZ_error pCluster true e' hx
    rw [hx] at h
    cases h
    exact he'
  | ok rx =>
    rw [hx] at h
    simp only at h
    cases hz : GetExtremalCoordinatesZ pCluster with
    | error e' =>
      have he' := GetExtremalCoordinatesXZ_error pCluster false e' hz
      rw [hz] at h
      cases h
      exact he'
    | ok rz =>
      rw [hz] at h
      simp only at h
      exact associatedLoop_error alg pCluster _ _ tv av e h

theorem GetAssociatedClusters_hits (alg : TransverseAssociationAlgorithm) (pCluster : Cluster)
    (tv lv av r : List Cluster) (h : GetAssociatedClusters alg pCluster tv lv av = Except.ok r) :
    pCluster.hitPositions ≠ [] := by
  unfold GetAssociatedClusters at h
  cases hx : GetExtremalCoordinatesX pCluster with
  | error e' => rw [hx] at h; cases h
  | ok rx => exact GetExtremalCoordinatesXZ_hits pCluster true rx hx

/-- The query for the associated clusters of a cluster without hits throws. -/
theorem GetAssociatedClusters_empty (alg : TransverseAssociationAlgorithm) (pCluster : Cluster)
    (tv lv av : List Cluster) (hc : pCluster.hitPositions = []) :
    GetAssociatedClusters alg pCluster tv lv av = Except.error StatusCode.STATUS_CODE_FAILURE := by
  unfold GetAssociatedClusters
  have hx : GetExtremalCoordinatesX pCluster = Except.error StatusCode.STATUS_CODE_FAILURE :=
    GetExtremalCoordinatesXZ_empty pCluster true hc
  rw [hx]

theorem transverseLengthLoop_error (l : List Cluster) :
    ∀ (overall : ℚ × ℚ) (e : StatusCode),
      transverseLengthLoop l overall = Except.error e → e = StatusCode.STATUS_CODE_FAILURE := by
  induction l with
  | nil => intro o e h; simp only [transverseLengthLoop] at h; cases h
  | cons t rest ih =>
    intro o e h
    simp only [transverseLengthLoop] at h
    cases hx : GetExtremalCoordinatesX t with
    | error e' =>
      have he' := GetExtremalCoordinatesXZ_error t true e' hx
      rw [hx] at h
      cases h
      exact he'
    | ok r =>
      rw [hx] at h
      exact ih _ e h

theorem GetTransverseLength_error (pCentralCluster : Cluster) (associatedClusters : List Cluster)
    (e : StatusCode) (h : GetTransverseLength pCentralCluster associatedClusters = Except.error e) :
    e = StatusCode.STATUS_CODE_FAILURE := by
  unfold GetTransverseLength at h
  cases hx : GetExtremalCoordinatesX pCentralCluster with
  | error e' =>
    have he' := GetExtremalCoordinatesXZ_error pCentralCluster true e' hx
    rw [hx] at h
    cases h
    exact he'
  | ok r =>
    rw [hx] at h
    simp only at h
    cases hl : transverseLengthLoop associatedClusters r with
    | error e' =>
      have he' := transverseLengthLoop_error associatedClusters r e' hl
      rw [hl] at h
      cases h
      exact he'
    | ok r' => rw [hl] at h; cases h

/-! ### The constructor of the transverse cluster -/

theorem FitSums.foldl_addHit_Sw (hits : List CartesianVector) :
    ∀ s : FitSums, (hits.foldl FitSums.addHit s).Sw = s.Sw + hits.length := by
  induction hits with
  | nil => intro s; simp
  | cons hit rest ih =>
    intro s
    rw [List.foldl_cons, ih]
    simp only [FitSums.addHit, List.length_cons, Nat.cast_add, Nat.cast_one]
    ring

theorem accumulate_Sw_le (l : List Cluster) :
    ∀ s : FitSums,
      s.Sw ≤ (l.foldl (fun s pCluster => pCluster.hitPositions.foldl FitSums.addHit s) s).Sw := by
  induction l with
  | nil => intro s; exact le_refl _
  | cons c rest ih =>
    intro s
    rw [List.foldl_cons]
    refine le_trans ?_ (ih _)
    rw [FitSums.foldl_addHit_Sw]
    have : (0 : ℚ) ≤ (c.hitPositions.length : ℚ) := Nat.cast_nonneg _
    linarith

theorem accumulate_Sw_lt (l : List Cluster) (c : Cluster) (hc : c.hitPositions ≠ []) :
    c ∈ l → ∀ s : FitSums,
      s.Sw < (l.foldl (fun s pCluster => pCluster.hitPositions.foldl FitSums.addHit s) s).Sw := by
  induction l with
  | nil => intro hmem; exact absurd hmem (List.not_mem_nil c)
  | cons d rest ih =>
    intro hmem s
    rw [List.foldl_cons]
    rcases List.mem_cons.mp hmem with h1 | h1
    · subst h1
      refine lt_of_lt_of_le ?_ (accumulate_Sw_le rest _)
      rw [FitSums.foldl_addHit_Sw]
      have hpos : 0 < c.hitPositions.length := List.length_pos.mpr hc
      have : (0 : ℚ) < (c.hitPositions.length : ℚ) := by exact_mod_cast hpos
      linarith
    · refine lt_of_le_of_lt ?_ (ih h1 _)
      rw [FitSums.foldl_addHit_Sw]
      have : (0 : ℚ) ≤ (d.hitPositions.length : ℚ) := Nat.cast_nonneg _
      linarith

theorem ClusterSet.mem_insert_of_mem (p c : Cluster) (set : List Cluster) (h : c ∈ set) :
    c ∈ ClusterSet.insert p set := by
  induction set with
  | nil => exact absurd h (List.not_mem_nil c)
  | cons q rest ih =>
    simp only [ClusterSet.insert]
    split_ifs
    · exact List.mem_cons_of_mem _ h
    · exact h
    · rcases List.mem_cons.mp h with h1 | h1
      · rw [h1]; exact List.mem_cons_self _ _
      · exact List.mem_cons_of_mem _ (ih h1)

theorem ClusterSet.mem_foldl_insert (c : Cluster) (l : List Cluster) :
    ∀ set : List Cluster, c ∈ set →
      c ∈ l.foldl (fun set pCluster => ClusterSet.insert pCluster set) set := by
  induction l with
  | nil => intro set h; exact h
  | cons p rest ih =>
    intro set h
    rw [List.foldl_cons]
    exact ih _ (ClusterSet.mem_insert_of_mem p c set h)

/-- The constructor returns an object for a seed cluster that has a hit: the
sum of the weights is then positive. -/
theorem LArTransverseCluster.create_ok (sqrt : ℚ → ℚ) (pSeedCluster : Cluster)
    (associatedClusters : List Cluster) (h : pSeedCluster.hitPositions ≠ []) :
    ∃ t, LArTransverseCluster.create sqrt pSeedCluster associatedClusters = Except.ok t := by
  have hmem := ClusterSet.mem_foldl_insert pSeedCluster associatedClusters [pSeedCluster]
    (List.mem_singleton_self _)
  have hpos : (0 : ℚ) < (accumulateFit (associatedClusters.foldl
      (fun set pCluster => ClusterSet.insert pCluster set) [pSeedCluster])).Sw := by
    have := accumulate_Sw_lt _ pSeedCluster h hmem {}
    exact this
  unfold LArTransverseCluster.create
  simp only
  rw [if_pos hpos]
  split_ifs
  · exact ⟨_, rfl⟩
  · exact ⟨_, rfl⟩

/-- The loop of `FillTransverseClusterList` throws `STATUS_CODE_FAILURE` when a
cluster without hits is still to be visited. -/
theorem fillTransverseLoop_empty (alg : TransverseAssociationAlgorithm) (sqrt : ℚ → ℚ)
    (tv lv : List Cluster) (c : Cluster) (hc : c.hitPositions = []) (l : List Cluster) :
    c ∈ l → ∀ tcl : List LArTransverseCluster,
      fillTransverseLoop alg sqrt tv lv l tcl = Except.error StatusCode.STATUS_CODE_FAILURE := by
  induction l with
  | nil => intro hmem; exact absurd hmem (List.not_mem_nil c)
  | cons p rest ih =>
    intro hmem tcl
    simp only [fillTransverseLoop]
    cases ha : GetAssociatedClusters alg p tv lv [] with
    | error e => rw [GetAssociatedClusters_error alg p tv lv [] e ha]
    | ok associated =>
      have hhits := GetAssociatedClusters_hits alg p tv lv [] associated ha
      have hrest : c ∈ rest := by
        rcases List.mem_cons.mp hmem with h1 | h1
        · rw [h1] at hc; exact absurd hc hhits
        · exact h1
      simp only
      cases hl : GetTransverseLength p associated with
      | error e => rw [GetTransverseLength_error p associated e hl]
      | ok len =>
        simp only
        split_ifs
        · exact ih hrest tcl
        · obtain ⟨t, ht⟩ := LArTransverseCluster.create_ok sqrt p associated hhits
          rw [ht]
          exact ih hrest _

/-- C26, refuted as stated: the build for the clusters `seedAt 1 0` and
`emptySeed` is left by an exception with `STATUS_CODE_FAILURE` in its `try`
block, the build for `seedAt 1 0` alone is not, and
`PopulateClusterAssociationMap` hands the same to its caller in both cases:
the association map as it was. -/
theorem C26_counterexample :
    (populateTryBlock defaultSettings exampleSqrt [seedAt 1 0, emptySeed] []).2
        = some StatusCode.STATUS_CODE_FAILURE
    ∧ (populateTryBlock defaultSettings exampleSqrt [seedAt 1 0] []).2 = none
    ∧ PopulateClusterAssociationMap defaultSettings exampleSqrt [seedAt 1 0, emptySeed] []
        = PopulateClusterAssociationMap defaultSettings exampleSqrt [seedAt 1 0] [] := by
  refine ⟨?_, ?_, ?_⟩
  · decide!
  · decide!
  · decide!

/-- C26 (amended): when the transverse vector holds a cluster without hits, the
`try` block of `PopulateClusterAssociationMap` is left by an exception with
`STATUS_CODE_FAILURE` before the association map is touched; the exception is
caught inside the function, which returns with the association map as it
was. -/
theorem C26_exception_is_caught (alg : TransverseAssociationAlgorithm) (sqrt : ℚ → ℚ)
    (inputClusters : List Cluster) (clusterAssociationMap : ClusterAssociationMap)
    (pCluster : Cluster)
    (hmem : pCluster ∈ (SeparateInputClusters alg inputClusters [] []).1)
    (hempty : pCluster.hitPositions = []) :
    populateTryBlock alg sqrt inputClusters clusterAssociationMap
        = (clusterAssociationMap, some StatusCode.STATUS_CODE_FAILURE)
    ∧ PopulateClusterAssociationMap alg sqrt inputClusters clusterAssociationMap
        = clusterAssociationMap := by
  have hfill : FillTransverseClusterList alg sqrt (SeparateInputClusters alg inputClusters [] []).1
      (SeparateInputClusters alg inputClusters [] []).2 []
        = Except.error StatusCode.STATUS_CODE_FAILURE :=
    fillTransverseLoop_empty alg sqrt _ _ pCluster hempty _ hmem []
  have htry : populateTryBlock alg sqrt inputClusters clusterAssociationMap
      = (clusterAssociationMap, some StatusCode.STATUS_CODE_FAILURE) := by
    unfold populateTryBlock
    simp only [hfill]
  refine ⟨htry, ?_⟩
  unfold PopulateClusterAssociationMap
  rw [htry]

/-- C26 (amended) at the clusters `seedAt 1 0` and `emptySeed`. -/
theorem C26_witness :
    emptySeed ∈ (SeparateInputClusters defaultSettings [seedAt 1 0, emptySeed] [] []).1
    ∧ emptySeed.hitPositions = []
    ∧ populateTryBlock defaultSettings exampleSqrt [seedAt 1 0, emptySeed] []
        = ([], some StatusCode.STATUS_CODE_FAILURE)
    ∧ PopulateClusterAssociationMap defaultSettings exampleSqrt [seedAt 1 0, emptySeed] [] = [] :=
  ⟨by simp [SeparateInputClusters, separateCluster, emptySeed, seedAt, defaultSettings], rfl,
    C26_exception_is_caught defaultSettings exampleSqrt [seedAt 1 0, emptySeed] [] emptySeed
      (by simp [SeparateInputClusters, separateCluster, emptySeed, seedAt, defaultSettings]) rfl⟩

/-! ## Building the truth hierarchy without hits or particles -/

/-- In every fold mode the list of constituents of the root node of a primary
starts with the primary. -/
theorem rootParticles_head (crit : ReconstructabilityCriteria)
    (foldToPrimaries foldToLeadingShowers : Bool) (pPrimary : MCParticle) :
    ∃ tail, rootParticles crit foldToPrimaries foldToLeadingShowers pPrimary = pPrimary :: tail := by
  unfold rootParticles flatParticles GetAllDescendentMCParticles GetAllDescendentMCParticlesShared
    GetAllDescendentMCParticles4
  simp only
  split_ifs <;> exact ⟨_, rfl⟩

/-- The root node of a primary has the particle code of the primary and holds
the primary among its constituents. -/
theorem rootNode_primary (crit : ReconstructabilityCriteria) (m : MCToHitsMap)
    (foldToPrimaries foldToLeadingShowers : Bool) (pPrimary : MCParticle) (alloc : Nat) :
    (rootNode crit m foldToPrimaries foldToLeadingShowers pPrimary alloc).GetParticleId
        = pPrimary.GetParticleId
    ∧ pPrimary.addr
        ∈ (rootNode crit m foldToPrimaries foldToLeadingShowers pPrimary alloc).GetParticles := by
  obtain ⟨tail, htail⟩ := rootParticles_head crit foldToPrimaries foldToLeadingShowers pPrimary
  unfold rootNode
  rw [Node.addChildren_pdg, Node.addChildren_particles, Node.create_particles, htail,
    Node.create_pdg]
  refine ⟨rfl, ?_⟩
  rw [(sortByAddress_perm _).mem_iff]
  simp

/-- A hit of a node that the truth hierarchy creates has one of the
constituents of the node as its main particle. -/
theorem created_hit_owner (GetMainMCParticle : CaloHit → Option Nat) (caloHitList : List CaloHit) :
    HoldsForCreated (fillMcToHitsMap GetMainMCParticle caloHitList []) (fun n =>
      ∀ hit ∈ n.GetCaloHits, hit ∈ caloHitList
        ∧ ∃ q ∈ n.GetParticles, GetMainMCParticle hit = some q) := by
  intro a parts cs hit hhit
  have hperm := (created_hits (fillMcToHitsMap GetMainMCParticle caloHitList []) a parts cs).2.1
  have hmem := hperm.mem_iff.mp hhit
  obtain ⟨q, hq, hhq⟩ := List.mem_flatMap.mp hmem
  rw [hitsOf_fillMcToHitsMap, MCToHitsMap.hitsOf_nil, List.nil_append, List.mem_filter] at hhq
  exact ⟨hhq.1, q, hq, by simpa using hhq.2⟩

/-- C27: in every fold mode `MCHierarchy::FillHierarchy`, called on an empty
hierarchy, returns a hierarchy: it has one root node for each retained
primary, in order, with the particle code of the primary and with the primary
among its constituents; a node whose constituents are the main particle of no
hit has an empty hit list; a hit without a main particle is in no node; and
an empty particle list gives no root node. -/
theorem C27_fill_never_fails (GetMainMCParticle : CaloHit → Option Nat)
    (GetPrimaryMCParticle : MCParticle → Option MCParticle) (IsNeutrino : MCParticle → Bool)
    (h : MCHierarchy) (mcParticleList : List MCParticle) (caloHitList : List CaloHit)
    (foldToPrimaries foldToLeadingShowers : Bool) (alloc : Nat)
    (hempty : h.m_rootNodes = []) :
    ∃ hierarchy next,
      MCHierarchy.FillHierarchy GetMainMCParticle GetPrimaryMCParticle IsNeutrino h
          mcParticleList caloHitList foldToPrimaries foldToLeadingShowers alloc = (hierarchy, next)
      ∧ List.Forall₂
          (fun pPrimary root => root.GetParticleId = pPrimary.GetParticleId
            ∧ pPrimary.addr ∈ root.GetParticles)
          (retainedPrimaries h.m_recoCriteria
            (GetMCPrimaries GetPrimaryMCParticle IsNeutrino mcParticleList (none, [])).2)
          hierarchy.m_rootNodes
      ∧ hierarchy.m_rootNodes.length
          = (retainedPrimaries h.m_recoCriteria
              (GetMCPrimaries GetPrimaryMCParticle IsNeutrino mcParticleList (none, [])).2).length
      ∧ (∀ n ∈ Node.nodesList hierarchy.m_rootNodes,
          (∀ q ∈ n.GetParticles, ∀ hit ∈ caloHitList, GetMainMCParticle hit ≠ some q) →
          n.GetCaloHits = [])
      ∧ (∀ hit, GetMainMCParticle hit = none → hit ∉ forestHits hierarchy.m_rootNodes)
      ∧ (mcParticleList = [] → hierarchy.m_rootNodes = []) := by
  have hroots := FillHierarchy_roots GetMainMCParticle GetPrimaryMCParticle IsNeutrino h
    mcParticleList caloHitList foldToPrimaries foldToLeadingShowers alloc hempty
  have hall := FillHierarchy_all GetMainMCParticle GetPrimaryMCParticle IsNeutrino h
    mcParticleList caloHitList foldToPrimaries foldToLeadingShowers alloc hempty _
    (created_hit_owner GetMainMCParticle caloHitList)
  have hshape : List.Forall₂
      (fun pPrimary root => root.GetParticleId = pPrimary.GetParticleId
        ∧ pPrimary.addr ∈ root.GetParticles)
      (retainedPrimaries h.m_recoCriteria
        (GetMCPrimaries GetPrimaryMCParticle IsNeutrino mcParticleList (none, [])).2)
      (MCHierarchy.FillHierarchy GetMainMCParticle GetPrimaryMCParticle IsNeutrino h
        mcParticleList caloHitList foldToPrimaries foldToLeadingShowers alloc).1.m_rootNodes := by
    refine List.Forall₂.imp ?_ hroots
    rintro p r ⟨a, rfl⟩
    exact rootNode_primary _ _ _ _ _ _
  refine ⟨_, _, rfl, hshape, hshape.length_eq.symm, ?_, ?_, ?_⟩
  · intro n hn hno
    cases hh : n.GetCaloHits with
    | nil => rfl
    | cons hit rest =>
      exfalso
      have hmem : hit ∈ n.GetCaloHits := by rw [hh]; exact List.mem_cons_self _ _
      obtain ⟨hin, q, hq, hown⟩ := hall n hn hit hmem
      exact hno q hq hit hin hown
  · intro hit hnone hmem
    unfold forestHits at hmem
    obtain ⟨n, hn, hhit⟩ := List.mem_flatMap.mp hmem
    obtain ⟨_, q, _, hown⟩ := hall n hn hit hhit
    rw [hnone] at hown
    cases hown
  · intro hnil
    subst hnil
    have hlen := hshape.length_eq
    simp only [GetMCPrimaries, retainedPrimaries, List.filter_nil, ite_self,
      List.length_nil] at hlen
    exact List.eq_nil_of_length_eq_zero hlen.symm

/-- C27 at the example event with the hit list `[50, 200]`, folded to primaries:
hit 50 has no main particle and is in no node, and the root node of the
primary at address 4 has no hit. -/
theorem C27_witness :
    ({} : MCHierarchy).m_rootNodes = []
    ∧ (Node.nodesList (MCHierarchy.FillHierarchy exampleOwner examplePrimaryOf
          (fun p => decide (p.addr = 1)) {} (exampleNeutrino :: exampleNeutrino.descendents)
          [50, 200] true false 1000).1.m_rootNodes).map
        (fun n => (n.GetParticleId, n.GetParticles, n.GetCaloHits))
        = [(13, [2, 5], [200]), (-2112, [4], [])]
    ∧ ∃ hierarchy next,
      MCHierarchy.FillHierarchy exampleOwner examplePrimaryOf (fun p => decide (p.addr = 1)) {}
          (exampleNeutrino :: exampleNeutrino.descendents) [50, 200] true false 1000
        = (hierarchy, next)
      ∧ List.Forall₂
          (fun pPrimary root => root.GetParticleId = pPrimary.GetParticleId
            ∧ pPrimary.addr ∈ root.GetParticles)
          (retainedPrimaries ({} : MCHierarchy).m_recoCriteria
            (GetMCPrimaries examplePrimaryOf (fun p => decide (p.addr = 1))
              (exampleNeutrino :: exampleNeutrino.descendents) (none, [])).2)
          hierarchy.m_rootNodes
      ∧ hierarchy.m_rootNodes.length
          = (retainedPrimaries ({} : MCHierarchy).m_recoCriteria
              (GetMCPrimaries examplePrimaryOf (fun p => decide (p.addr = 1))
                (exampleNeutrino :: exampleNeutrino.descendents) (none, [])).2).length
      ∧ (∀ n ∈ Node.nodesList hierarchy.m_rootNodes,
          (∀ q ∈ n.GetParticles, ∀ hit ∈ ([50, 200] : List CaloHit), exampleOwner hit ≠ some q) →
          n.GetCaloHits = [])
      ∧ (∀ hit, exampleOwner hit = none → hit ∉ forestHits hierarchy.m_rootNodes)
      ∧ ((exampleNeutrino :: exampleNeutrino.descendents) = [] → hierarchy.m_rootNodes = []) :=
  ⟨rfl, by decide!,
    C27_fill_never_fails exampleOwner examplePrimaryOf (fun p => decide (p.addr = 1)) {}
      (exampleNeutrino :: exampleNeutrino.descendents) [50, 200] true false 1000 rfl⟩

/-! ## The root of the reconstructed hierarchy -/

/-- The first loop of `GetRecoPrimaries` leaves `pRoot` null when no object of
the list is a neutrino or has a neutrino as parent. -/
theorem findRecoRoot_none (IsNeutrino : ParticleFlowObject → Bool)
    (GetParentPfo : ParticleFlowObject → ParticleFlowObject) (pfoList : List ParticleFlowObject)
    (h : ∀ p ∈ pfoList, IsNeutrino p = false ∧ IsNeutrino (GetParentPfo p) = false) :
    findRecoRoot IsNeutrino GetParentPfo pfoList = none := by
  induction pfoList with
  | nil => rfl
  | cons p rest ih =>
    obtain ⟨h1, h2⟩ := h p (List.mem_cons_self _ _)
    simp only [findRecoRoot, h1, h2, Bool.false_eq_true, if_false]
    exact ih (fun q hq => h q (List.mem_cons_of_mem _ hq))

/-- C28 at the failing inputs: for the empty list, and for the example list
when no object counts as a neutrino, the first loop of `GetRecoPrimaries`
leaves `pRoot` null.  The source then evaluates `pRoot->GetDaughterPfoList()`;
the model gives nothing for this undefined behaviour, in `GetRecoPrimaries`
and in `RecoHierarchy::FillHierarchy` in every fold mode.  For the example
list with its neutrino the root is found and its daughters are the primaries. -/
theorem C28_absent_root_dereferenced :
    (findRecoRoot examplePfoIsNeutrino examplePfoParent []).isNone = true
    ∧ (GetRecoPrimaries examplePfoIsNeutrino examplePfoParent [] []).isNone = true
    ∧ (∀ foldToPrimaries foldToLeadingShowers : Bool,
        (RecoHierarchy.FillHierarchy examplePfoHits examplePfoIsolatedHits examplePfoIsNeutrino
          examplePfoParent {} [] foldToPrimaries foldToLeadingShowers 2000).isNone = true)
    ∧ examplePfoList.map ParticleFlowObject.addr = [7, 3, 6, 5, 4, 2, 1]
    ∧ (findRecoRoot (fun _ => false) examplePfoParent examplePfoList).isNone = true
    ∧ (GetRecoPrimaries (fun _ => false) examplePfoParent examplePfoList []).isNone = true
    ∧ (∀ foldToPrimaries foldToLeadingShowers : Bool,
        (RecoHierarchy.FillHierarchy examplePfoHits examplePfoIsolatedHits (fun _ => false)
          examplePfoParent {} examplePfoList foldToPrimaries foldToLeadingShowers 2000).isNone
            = true)
    ∧ (GetRecoPrimaries examplePfoIsNeutrino examplePfoParent examplePfoList []).map
        (fun r => (r.1.addr, r.2.map ParticleFlowObject.addr))
        = some (1, examplePfoNeutrino.GetDaughterPfoList.map ParticleFlowObject.addr) := by
  have h : findRecoRoot (fun _ => false) examplePfoParent examplePfoList = none :=
    findRecoRoot_none _ _ _ (fun _ _ => ⟨rfl, rfl⟩)
  refine ⟨rfl, rfl, fun _ _ => rfl, by decide, ?_, ?_, ?_, by decide⟩
  · rw [h]; rfl
  · unfold GetRecoPrimaries
    rw [h]; rfl
  · intro f1 f2
    unfold RecoHierarchy.FillHierarchy GetRecoPrimaries
    rw [h]; rfl

/-! ## The backward pruning pass -/

/-- For dense maps that satisfy the invariant, the test of the forward pass and
the test of the backward pass each keep an edge exactly when it is a dense
edge without a third cluster in between. -/
theorem kept_edge_iff (F B : LArClusterMergeMap) (hinv : DenseInv (F, B)) (pInner pOuter : Nat) :
    ((∃ e ∈ F, e.1 = pInner ∧ pOuter ∈ e.2 ∧ isNeighbouringLoop F pOuter e.2 = true)
      ↔ F.hasEdge pInner pOuter = true
          ∧ ¬ ∃ pMiddle, pMiddle ≠ pInner ∧ pMiddle ≠ pOuter
              ∧ F.hasEdge pInner pMiddle = true ∧ F.hasEdge pMiddle pOuter = true)
    ∧ ((∃ e ∈ B, e.1 = pOuter ∧ pInner ∈ e.2 ∧ isNeighbouringLoop B pInner e.2 = true)
      ↔ F.hasEdge pInner pOuter = true
          ∧ ¬ ∃ pMiddle, pMiddle ≠ pInner ∧ pMiddle ≠ pOuter
              ∧ F.hasEdge pInner pMiddle = true ∧ F.hasEdge pMiddle pOuter = true) := by
  obtain ⟨hF, hB, hself, htr⟩ := hinv
  simp only at hF hB hself htr
  rw [LArClusterMergeMap.exists_entry_iff F hF pInner pOuter
    (fun s => isNeighbouringLoop F pOuter s = true)]
  rw [LArClusterMergeMap.exists_entry_iff B hB pOuter pInner
    (fun s => isNeighbouringLoop B pInner s = true)]
  rw [isNeighbouringLoop_iff, isNeighbouringLoop_iff, htr pInner pOuter]
  have hmemF : ∀ M, M ∈ F.get pInner ↔ F.hasEdge pInner M = true := by
    intro M; unfold LArClusterMergeMap.hasEdge; simp
  have hmemB : ∀ M, M ∈ B.get pOuter ↔ F.hasEdge M pOuter = true := by
    intro M
    rw [← htr M pOuter]
    unfold LArClusterMergeMap.hasEdge; simp
  constructor
  · constructor
    · rintro ⟨hedge, hnb⟩
      refine ⟨hedge, ?_⟩
      rintro ⟨M, _, hMO, h1, h2⟩
      have := hnb M ((hmemF M).mpr h1) hMO
      rw [h2] at this
      cases this
    · rintro ⟨hedge, hno⟩
      refine ⟨hedge, ?_⟩
      intro M hM hMO
      cases hh : F.hasEdge M pOuter
      · rfl
      · exfalso
        apply hno
        refine ⟨M, ?_, hMO, (hmemF M).mp hM, hh⟩
        intro hMI
        have := (hmemF M).mp hM
        rw [hMI, hself pInner] at this
        cases this
  · constructor
    · rintro ⟨hedge, hnb⟩
      refine ⟨hedge, ?_⟩
      rintro ⟨M, hMI, _, h1, h2⟩
      have := hnb M ((hmemB M).mpr h2) hMI
      rw [htr pInner M, h1] at this
      cases this
    · rintro ⟨hedge, hno⟩
      refine ⟨hedge, ?_⟩
      intro M hM hMI
      rw [htr pInner M]
      cases hh : F.hasEdge pInner M
      · rfl
      · exfalso
        apply hno
        refine ⟨M, hMI, ?_, hh, (hmemB M).mp hM⟩
        intro hMO
        have := (hmemB M).mp hM
        rw [hMO, hself pOuter] at this
        cases this

/-- For dense maps that satisfy the invariant, the forward pass into empty
maps, the backward pass into empty maps, and the backward pass after the
forward pass all return the same pair of maps. -/
theorem prune_passes_agree (F B : LArClusterMergeMap) (hinv : DenseInv (F, B)) :
    ∃ maps, pruneForward F F ([], []) = Except.ok maps
      ∧ pruneBackward B B maps = Except.ok maps
      ∧ pruneBackward B B ([], []) = Except.ok maps := by
  have hinv' := hinv
  obtain ⟨hF, hB, hself, htr⟩ := hinv'
  simp only at hF hB hself htr
  have hselfB : ∀ p, B.hasEdge p p = false := fun p => by rw [htr p p]; exact hself p
  have hnil : LArClusterMergeMap.Ordered [] := by simp [LArClusterMergeMap.Ordered]
  have hirrF := LArClusterMergeMap.entries_irreflexive F hF hself
  have hirrB := LArClusterMergeMap.entries_irreflexive B hB hselfB
  obtain ⟨m1, hok1, ho1, ho2, he1, he1'⟩ := pruneForward_spec F F ([], []) hnil hnil hirrF
  obtain ⟨m2, hok2, he2, he2'⟩ := pruneBackward_edges B B m1 ho1 ho2 hirrB
  obtain ⟨m3, hok3, he3, he3'⟩ := pruneBackward_edges B B ([], []) hnil hnil hirrB
  obtain ⟨c1, c1'⟩ := pruneForward_canonical F F ([], []) m1 LArClusterMergeMap.canonical_nil
    LArClusterMergeMap.canonical_nil hok1
  obtain ⟨c2, c2'⟩ := pruneBackward_canonical B B m1 m2 c1 c1' hok2
  obtain ⟨c3, c3'⟩ := pruneBackward_canonical B B ([], []) m3 LArClusterMergeMap.canonical_nil
    LArClusterMergeMap.canonical_nil hok3
  have hfb : ∀ i o,
      (∃ e ∈ F, e.1 = i ∧ o ∈ e.2 ∧ isNeighbouringLoop F o e.2 = true)
        ↔ ∃ e ∈ B, e.1 = o ∧ i ∈ e.2 ∧ isNeighbouringLoop B i e.2 = true :=
    fun i o => (kept_edge_iff F B hinv i o).1.trans (kept_edge_iff F B hinv i o).2.symm
  have h21 : m2 = m1 := by
    apply Prod.ext
    · apply LArClusterMergeMap.ext_canonical _ _ c2 c1
      intro k v
      rw [Bool.eq_iff_iff, he2, he1, ← hfb]
      simp [LArClusterMergeMap.hasEdge_nil]
    · apply LArClusterMergeMap.ext_canonical _ _ c2' c1'
      intro k v
      rw [Bool.eq_iff_iff, he2', he1', ← hfb]
      simp [LArClusterMergeMap.hasEdge_nil]
  have h31 : m3 = m1 := by
    apply Prod.ext
    · apply LArClusterMergeMap.ext_canonical _ _ c3 c1
      intro k v
      rw [Bool.eq_iff_iff, he3, he1, ← hfb]
    · apply LArClusterMergeMap.ext_canonical _ _ c3' c1'
      intro k v
      rw [Bool.eq_iff_iff, he3', he1', ← hfb]
  refine ⟨m1, hok1, ?_, ?_⟩
  · rw [hok2, h21]
  · rw [hok3, h31]

/-- C29: the backward pruning pass of `FillClusterMergeMaps` changes nothing.
Started with empty output maps, the function gives what it gives without its
backward pass (the same maps, or the same exception of the dense part); and
whenever the dense maps are built, the test of the forward pass over
`fullForwardMergeMap` and the test of the backward pass over
`fullBackwardMergeMap` keep the same edges, the backward pass returns the maps
of the forward pass unchanged, and the backward pass alone would give these
maps as well. -/
theorem C29_backward_pass_redundant (alg : TransverseAssociationAlgorithm)
    (transverseClusterList : List LArTransverseCluster) :
    FillClusterMergeMaps alg transverseClusterList [] []
        = FillClusterMergeMapsForwardOnly alg transverseClusterList [] []
    ∧ ∀ fullForwardMergeMap fullBackwardMergeMap,
        fillFullMergeMaps alg transverseClusterList
            = Except.ok (fullForwardMergeMap, fullBackwardMergeMap) →
        (∀ pInner pOuter,
          (∃ e ∈ fullForwardMergeMap, e.1 = pInner ∧ pOuter ∈ e.2
              ∧ isNeighbouringLoop fullForwardMergeMap pOuter e.2 = true)
            ↔ ∃ e ∈ fullBackwardMergeMap, e.1 = pOuter ∧ pInner ∈ e.2
                ∧ isNeighbouringLoop fullBackwardMergeMap pInner e.2 = true)
        ∧ ∃ maps,
            pruneForward fullForwardMergeMap fullForwardMergeMap ([], []) = Except.ok maps
            ∧ pruneBackward fullBackwardMergeMap fullBackwardMergeMap maps = Except.ok maps
            ∧ pruneBackward fullBackwardMergeMap fullBackwardMergeMap ([], []) = Except.ok maps
            ∧ FillClusterMergeMaps alg transverseClusterList [] [] = Except.ok maps := by
  have key : ∀ F B, fillFullMergeMaps alg transverseClusterList = Except.ok (F, B) →
      ∃ maps, pruneForward F F ([], []) = Except.ok maps
        ∧ pruneBackward B B maps = Except.ok maps
        ∧ pruneBackward B B ([], []) = Except.ok maps
        ∧ FillClusterMergeMaps alg transverseClusterList [] [] = Except.ok maps
        ∧ FillClusterMergeMapsForwardOnly alg transverseClusterList [] [] = Except.ok maps := by
    intro F B hfill
    have hinv := fillFullMergeMaps_inv alg transverseClusterList (F, B) hfill
    obtain ⟨maps, h1, h2, h3⟩ := prune_passes_agree F B hinv
    refine ⟨maps, h1, h2, h3, ?_, ?_⟩
    · unfold FillClusterMergeMaps
      simp only [hfill, h1, h2]
    · unfold FillClusterMergeMapsForwardOnly
      simp only [hfill, h1]
  constructor
  · cases hfill : fillFullMergeMaps alg transverseClusterList with
    | error e =>
      unfold FillClusterMergeMaps FillClusterMergeMapsForwardOnly
      simp only [hfill]
    | ok full =>
      obtain ⟨F, B⟩ := full
      obtain ⟨maps, _, _, _, h4, h5⟩ := key F B hfill
      rw [h4, h5]
  · intro F B hfill
    have hinv := fillFullMergeMaps_inv alg transverseClusterList (F, B) hfill
    obtain ⟨maps, h1, h2, h3, h4, _⟩ := key F B hfill
    refine ⟨?_, maps, h1, h2, h3, h4⟩
    intro pInner pOuter
    exact (kept_edge_iff F B hinv pInner pOuter).1.trans
      (kept_edge_iff F B hinv pInner pOuter).2.symm

/-- C29 at the scenario X, Y, Z: the forward pass alone, the backward pass
alone and the whole function give the maps with the edges X→Y and Y→Z. -/
theorem C29_witness :
    (fillFullMergeMaps defaultSettings scenarioXYZ).toOption
        = some ([(1, [2, 3]), (2, [3])], [(2, [1]), (3, [1, 2])])
    ∧ (FillClusterMergeMapsForwardOnly defaultSettings scenarioXYZ [] []).toOption
        = some ([(1, [2]), (2, [3])], [(2, [1]), (3, [2])])
    ∧ (pruneBackward [(2, [1]), (3, [1, 2])] [(2, [1]), (3, [1, 2])] ([], [])).toOption
        = some ([(1, [2]), (2, [3])], [(2, [1]), (3, [2])])
    ∧ (FillClusterMergeMaps defaultSettings scenarioXYZ [] []
        = FillClusterMergeMapsForwardOnly defaultSettings scenarioXYZ [] []
      ∧ ∀ fullForwardMergeMap fullBackwardMergeMap,
          fillFullMergeMaps defaultSettings scenarioXYZ
              = Except.ok (fullForwardMergeMap, fullBackwardMergeMap) →
          (∀ pInner pOuter,
            (∃ e ∈ fullForwardMergeMap, e.1 = pInner ∧ pOuter ∈ e.2
                ∧ isNeighbouringLoop fullForwardMergeMap pOuter e.2 = true)
              ↔ ∃ e ∈ fullBackwardMergeMap, e.1 = pOuter ∧ pInner ∈ e.2
                  ∧ isNeighbouringLoop fullBackwardMergeMap pInner e.2 = true)
          ∧ ∃ maps,
              pruneForward fullForwardMergeMap fullForwardMergeMap ([], []) = Except.ok maps
              ∧ pruneBackward fullBackwardMergeMap fullBackwardMergeMap maps = Except.ok maps
              ∧ pruneBackward fullBackwardMergeMap fullBackwardMergeMap ([], []) = Except.ok maps
              ∧ FillClusterMergeMaps defaultSettings scenarioXYZ [] [] = Except.ok maps) :=
  ⟨by decide!, by decide!, by decide!, C29_backward_pass_redundant defaultSettings scenarioXYZ⟩

/-! ## The dense edges and the X extent of the seed clusters -/

theorem IsExtremalCluster_error (isForward : Bool) (c t : Cluster) (e : StatusCode)
    (h : IsExtremalCluster isForward c t = Except.error e) :
    e = StatusCode.STATUS_CODE_FAILURE := by
  unfold IsExtremalCluster at h
  cases hc : GetExtremalCoordinatesX c with
  | error e' =>
    have he' := GetExtremalCoordinatesXZ_error c true e' hc
    rw [hc] at h
    cases h
    exact he'
  | ok rc =>
    rw [hc] at h
    simp only at h
    cases ht : GetExtremalCoordinatesX t with
    | error e' =>
      have he' := GetExtremalCoordinatesXZ_error t true e' ht
      rw [ht] at h
      cases h
      exact he'
    | ok rt =>
      rw [ht] at h
      simp only at h
      split_ifs at h

/-- What a positive answer of `IsExtremalCluster` says about the X extents. -/
theorem IsExtremalCluster_true (isForward : Bool) (c t : Cluster)
    (h : IsExtremalCluster isForward c t = Except.ok true) :
    ∃ current test : ℚ × ℚ,
      GetExtremalCoordinatesX c = Except.ok current ∧ GetExtremalCoordinatesX t = Except.ok test
      ∧ (if isForward then current.2 < test.2 else test.1 < current.1) := by
  unfold IsExtremalCluster at h
  cases hc : GetExtremalCoordinatesX c with
  | error e' => rw [hc] at h; cases h
  | ok rc =>
    rw [hc] at h
    simp only at h
    cases ht : GetExtremalCoordinatesX t with
    | error e' => rw [ht] at h; cases h
    | ok rt =>
      rw [ht] at h
      simp only at h
      refine ⟨rc, rt, rfl, rfl, ?_⟩
      cases isForward with
      | true =>
        simp only [if_true, Except.ok.injEq, decide_eq_true_eq] at h
        simpa using h
      | false =>
        simp only [Bool.false_eq_true, if_false, Except.ok.injEq, decide_eq_true_eq] at h
        simpa using h

/-- The body of the inner loop either leaves the dense maps as they are or adds
the edge between the two seed clusters, and then both extremal tests were
positive. -/
theorem fullMergeStep_extremal (alg : TransverseAssociationAlgorithm)
    (tI tO : LArTransverseCluster) (maps maps' : LArClusterMergeMap × LArClusterMergeMap)
    (h : fullMergeStep alg tI tO maps = Except.ok maps') :
    maps' = maps
    ∨ (IsExtremalCluster true tI.m_pSeedCluster tO.m_pSeedCluster = Except.ok true
      ∧ IsExtremalCluster false tO.m_pSeedCluster tI.m_pSeedCluster = Except.ok true
      ∧ maps' = (LArClusterMergeMap.insertInto tI.m_pSeedCluster.addr tO.m_pSeedCluster.addr maps.1,
          LArClusterMergeMap.insertInto tO.m_pSeedCluster.addr tI.m_pSeedCluster.addr maps.2)) := by
  unfold fullMergeStep at h
  simp only [LArTransverseCluster.GetSeedCluster] at h
  by_cases h1 : tI.m_pSeedCluster.addr = tO.m_pSeedCluster.addr
  · rw [if_pos h1] at h
    cases h; exact Or.inl rfl
  · rw [if_neg h1] at h
    cases hb₁ : IsExtremalCluster true tI.m_pSeedCluster tO.m_pSeedCluster with
    | error e => rw [hb₁] at h; cases h
    | ok b₁ =>
      rw [hb₁] at h
      cases b₁ with
      | false => cases h; exact Or.inl rfl
      | true =>
        simp only at h
        cases hb₂ : IsExtremalCluster false tO.m_pSeedCluster tI.m_pSeedCluster with
        | error e => rw [hb₂] at h; cases h
        | ok b₂ =>
          rw [hb₂] at h
          cases b₂ with
          | false => cases h; exact Or.inl rfl
          | true =>
            simp only at h
            by_cases h2 : IsTransverseAssociated alg tI tO = true
            · rw [if_pos h2] at h
              cases h
              exact Or.inr ⟨rfl, rfl, rfl⟩
            · rw [if_neg h2] at h
              cases h; exact Or.inl rfl

theorem fullMergeStep_error (alg : TransverseAssociationAlgorithm)
    (tI tO : LArTransverseCluster) (maps : LArClusterMergeMap × LArClusterMergeMap)
    (e : StatusCode) (h : fullMergeStep alg tI tO maps = Except.error e) :
    e = StatusCode.STATUS_CODE_FAILURE := by
  unfold fullMergeStep at h
  simp only [LArTransverseCluster.GetSeedCluster] at h
  by_cases h1 : tI.m_pSeedCluster.addr = tO.m_pSeedCluster.addr
  · rw [if_pos h1] at h
    cases h
  · rw [if_neg h1] at h
    cases hb₁ : IsExtremalCluster true tI.m_pSeedCluster tO.m_pSeedCluster with
    | error e' =>
      have he' := IsExtremalCluster_error _ _ _ e' hb₁
      rw [hb₁] at h
      cases h
      exact he'
    | ok b₁ =>
      rw [hb₁] at h
      cases b₁ with
      | false => cases h
      | true =>
        simp only at h
        cases hb₂ : IsExtremalCluster false tO.m_pSeedCluster tI.m_pSeedCluster with
        | error e' =>
          have he' := IsExtremalCluster_error _ _ _ e' hb₂
          rw [hb₂] at h
          cases h
          exact he'
        | ok b₂ =>
          rw [hb₂] at h
          cases b₂ with
          | false => cases h
          | true =>
            simp only at h
            split_ifs at h

theorem fullMergeInner_error (alg : TransverseAssociationAlgorithm) (tI : LArTransverseCluster)
    (l : List LArTransverseCluster) :
    ∀ (maps : LArClusterMergeMap × LArClusterMergeMap) (e : StatusCode),
      fullMergeInner alg tI l maps = Except.error e → e = StatusCode.STATUS_CODE_FAILURE := by
  induction l with
  | nil => intro maps e h; simp only [fullMergeInner] at h; cases h
  | cons tO rest ih =>
    intro maps e h
    simp only [fullMergeInner] at h
    cases hs : fullMergeStep alg tI tO maps with
    | error e' =>
      have he' := fullMergeStep_error alg tI tO maps e' hs
      rw [hs] at h
      cases h
      exact he'
    | ok m1 =>
      rw [hs] at h
      exact ih m1 e h

theorem fullMergeOuter_error (alg : TransverseAssociationAlgorithm)
    (tcl l : List LArTransverseCluster) :
    ∀ (maps : LArClusterMergeMap × LArClusterMergeMap) (e : StatusCode),
      fullMergeOuter alg tcl l maps = Except.error e → e = StatusCode.STATUS_CODE_FAILURE := by
  induction l with
  | nil => intro maps e h; simp only [fullMergeOuter] at h; cases h
  | cons tI rest ih =>
    intro maps e h
    simp only [fullMergeOuter] at h
    cases hs : fullMergeInner alg tI tcl maps with
    | error e' =>
      have he' := fullMergeInner_error alg tI tcl maps e' hs
      rw [hs] at h
      cases h
      exact he'
    | ok m1 =>
      rw [hs] at h
      exact ih m1 e h

theorem EdgesIncrease_step (alg : TransverseAssociationAlgorithm)
    (tcl : List LArTransverseCluster) (tI tO : LArTransverseCluster) (hI : tI ∈ tcl)
    (hO : tO ∈ tcl) (maps maps' : LArClusterMergeMap × LArClusterMergeMap)
    (hinv : DenseInv maps) (hedges : EdgesIncrease tcl maps.1)
    (h : fullMergeStep alg tI tO maps = Except.ok maps') : EdgesIncrease tcl maps'.1 := by
  rcases fullMergeStep_extremal alg tI tO maps maps' h with h1 | ⟨hf, hb, h2⟩
  · rw [h1]; exact hedges
  · rw [h2]
    intro pInner pOuter hedge
    rcases (LArClusterMergeMap.hasEdge_insertInto _ _ _ hinv.1 _ _).mp hedge with ⟨ha, hb'⟩ | hold
    · obtain ⟨c₁, t₁, hc₁, ht₁, hlt₁⟩ := IsExtremalCluster_true true _ _ hf
      obtain ⟨c₂, t₂, hc₂, ht₂, hlt₂⟩ := IsExtremalCluster_true false _ _ hb
      rw [hc₁] at ht₂
      rw [ht₁] at hc₂
      cases ht₂
      cases hc₂
      simp only [if_true] at hlt₁
      simp only [Bool.false_eq_true, if_false] at hlt₂
      exact ⟨tI, hI, tO, hO, ha.symm, hb'.symm, c₁, t₁, hc₁, ht₁, hlt₁, hlt₂⟩
    · exact hedges pInner pOuter hold

theorem EdgesIncrease_inner (alg : TransverseAssociationAlgorithm)
    (tcl : List LArTransverseCluster) (tI : LArTransverseCluster) (hI : tI ∈ tcl)
    (l : List LArTransverseCluster) (hl : ∀ t ∈ l, t ∈ tcl) :
    ∀ maps maps' : LArClusterMergeMap × LArClusterMergeMap,
      DenseInv maps → EdgesIncrease tcl maps.1 →
      fullMergeInner alg tI l maps = Except.ok maps' → EdgesIncrease tcl maps'.1 := by
  induction l with
  | nil =>
    intro maps maps' _ hedges h
    simp only [fullMergeInner] at h
    cases h; exact hedges
  | cons tO rest ih =>
    intro maps maps' hinv hedges h
    simp only [fullMergeInner] at h
    cases hs : fullMergeStep alg tI tO maps with
    | error e => rw [hs] at h; cases h
    | ok m1 =>
      rw [hs] at h
      exact ih (fun t ht => hl t (List.mem_cons_of_mem _ ht)) m1 maps'
        (fullMergeStep_inv alg tI tO maps m1 hinv hs)
        (EdgesIncrease_step alg tcl tI tO hI (hl tO (List.mem_cons_self _ _)) maps m1 hinv
          hedges hs) h

theorem EdgesIncrease_outer (alg : TransverseAssociationAlgorithm)
    (tcl l : List LArTransverseCluster) (hl : ∀ t ∈ l, t ∈ tcl) :
    ∀ maps maps' : LArClusterMergeMap × LArClusterMergeMap,
      DenseInv maps → EdgesIncrease tcl maps.1 →
      fullMergeOuter alg tcl l maps = Except.ok maps' → EdgesIncrease tcl maps'.1 := by
  induction l with
  | nil =>
    intro maps maps' _ hedges h
    simp only [fullMergeOuter] at h
    cases h; exact hedges
  | cons tI rest ih =>
    intro maps maps' hinv hedges h
    simp only [fullMergeOuter] at h
    cases hs : fullMergeInner alg tI tcl maps with
    | error e => rw [hs] at h; cases h
    | ok m1 =>
      rw [hs] at h
      exact ih (fun t ht => hl t (List.mem_cons_of_mem _ ht)) m1 maps'
        (fullMergeInner_inv alg tI tcl maps m1 hinv hs)
        (EdgesIncrease_inner alg tcl tI (hl tI (List.mem_cons_self _ _)) tcl (fun _ ht => ht)
          maps m1 hinv hedges hs) h

/-- Every edge of the dense forward map goes to a seed cluster with a larger
maximal and a larger minimal X coordinate. -/
theorem fillFullMergeMaps_edges (alg : TransverseAssociationAlgorithm)
    (tcl : List LArTransverseCluster) (maps : LArClusterMergeMap × LArClusterMergeMap)
    (h : fillFullMergeMaps alg tcl = Except.ok maps) : EdgesIncrease tcl maps.1 :=
  EdgesIncrease_outer alg tcl tcl (fun _ ht => ht) _ _ DenseInv_nil
    (fun _ _ hedge => by cases hedge) h

/-- Along a path of edges of a map whose edges increase the X extent, the
maximal X coordinate of the seed cluster increases, when an address stands
for one seed cluster only. -/
theorem EdgesIncrease_path (tcl : List LArTransverseCluster) (m : LArClusterMergeMap)
    (hedges : EdgesIncrease tcl m)
    (hptr : ∀ t ∈ tcl, ∀ t' ∈ tcl, t.m_pSeedCluster.addr = t'.m_pSeedCluster.addr →
      t.m_pSeedCluster = t'.m_pSeedCluster)
    (p q : Nat) (hpath : Relation.TransGen (fun a b => m.hasEdge a b = true) p q) :
    ∃ tP ∈ tcl, ∃ tQ ∈ tcl, tP.m_pSeedCluster.addr = p ∧ tQ.m_pSeedCluster.addr = q
      ∧ ∃ xP xQ : ℚ × ℚ, GetExtremalCoordinatesX tP.m_pSeedCluster = Except.ok xP
          ∧ GetExtremalCoordinatesX tQ.m_pSeedCluster = Except.ok xQ ∧ xP.2 < xQ.2 := by
  induction hpath with
  | single hedge =>
    obtain ⟨tI, hI, tO, hO, ha, hb, xI, xO, hxI, hxO, hlt, _⟩ := hedges _ _ hedge
    exact ⟨tI, hI, tO, hO, ha, hb, xI, xO, hxI, hxO, hlt⟩
  | tail _ hedge ih =>
    obtain ⟨tP, hP, tQ, hQ, ha, hb, xP, xQ, hxP, hxQ, hlt⟩ := ih
    obtain ⟨tI, hI, tO, hO, ha', hb', xI, xO, hxI, hxO, hlt', _⟩ := hedges _ _ hedge
    have hseed : tQ.m_pSeedCluster = tI.m_pSeedCluster := hptr tQ hQ tI hI (hb.trans ha'.symm)
    rw [hseed, hxI] at hxQ
    cases hxQ
    exact ⟨tP, hP, tO, hO, ha, hb', xP, xO, hxP, hxO, lt_trans hlt hlt'⟩

theorem EdgesIncrease_acyclic (tcl : List LArTransverseCluster) (m : LArClusterMergeMap)
    (hedges : EdgesIncrease tcl m)
    (hptr : ∀ t ∈ tcl, ∀ t' ∈ tcl, t.m_pSeedCluster.addr = t'.m_pSeedCluster.addr →
      t.m_pSeedCluster = t'.m_pSeedCluster)
    (p : Nat) : ¬ Relation.TransGen (fun a b => m.hasEdge a b = true) p p := by
  intro hpath
  obtain ⟨tP, hP, tQ, hQ, ha, hb, xP, xQ, hxP, hxQ, hlt⟩ :=
    EdgesIncrease_path tcl m hedges hptr p p hpath
  have hseed : tP.m_pSeedCluster = tQ.m_pSeedCluster := hptr tP hP tQ hQ (ha.trans hb.symm)
  rw [hseed, hxQ] at hxP
  cases hxP
  exact lt_irrefl _ hlt

/-- C30: whenever the first part of `FillClusterMergeMaps` builds the dense maps,
every dense edge inner→outer joins two seed clusters of the list with
`maxX(inner) < maxX(outer)` and `minX(inner) < minX(outer)`; the dense forward
map has no edge from a cluster to itself and, when an address stands for one
seed cluster only, no pair of opposite edges and no directed cycle.  The
function, started with empty output maps, then returns, and
`FillClusterAssociationMap` returns normally on the maps it returns.  An
exception that leaves `FillClusterMergeMaps` is never the
`STATUS_CODE_INVALID_PARAMETER` of the self-association tests: it is the
`STATUS_CODE_FAILURE` of an extremal-coordinate query. -/
theorem C30_dense_edges_increase (alg : TransverseAssociationAlgorithm)
    (transverseClusterList : List LArTransverseCluster) :
    (∀ e, FillClusterMergeMaps alg transverseClusterList [] [] = Except.error e →
      e = StatusCode.STATUS_CODE_FAILURE)
    ∧ ∀ fullForwardMergeMap fullBackwardMergeMap,
        fillFullMergeMaps alg transverseClusterList
            = Except.ok (fullForwardMergeMap, fullBackwardMergeMap) →
        EdgesIncrease transverseClusterList fullForwardMergeMap
        ∧ (∀ p, fullForwardMergeMap.hasEdge p p = false)
        ∧ ((∀ t ∈ transverseClusterList, ∀ t' ∈ transverseClusterList,
              t.m_pSeedCluster.addr = t'.m_pSeedCluster.addr →
              t.m_pSeedCluster = t'.m_pSeedCluster) →
            (∀ p q, fullForwardMergeMap.hasEdge p q = true →
              fullForwardMergeMap.hasEdge q p = false)
            ∧ ∀ p, ¬ Relation.TransGen (fun a b => fullForwardMergeMap.hasEdge a b = true) p p)
        ∧ ∃ forwardMergeMap backwardMergeMap,
            FillClusterMergeMaps alg transverseClusterList [] []
              = Except.ok (forwardMergeMap, backwardMergeMap)
            ∧ ∀ clusterAssociationMap,
                (FillClusterAssociationMap forwardMergeMap backwardMergeMap
                  clusterAssociationMap).2 = none := by
  have key : ∀ F B, fillFullMergeMaps alg transverseClusterList = Except.ok (F, B) →
      ∃ f b, FillClusterMergeMaps alg transverseClusterList [] [] = Except.ok (f, b)
        ∧ ∀ cam, (FillClusterAssociationMap f b cam).2 = none := by
    intro F B hfill
    have hinv := fillFullMergeMaps_inv alg transverseClusterList (F, B) hfill
    obtain ⟨f, b, hok, cf, cb, hf, hb⟩ := pruneFullMergeMaps_spec F B hinv
    have hselfF : ∀ p, F.hasEdge p p = false := hinv.2.2.1
    have hselff : ∀ p, f.hasEdge p p = false := by
      intro p
      cases hh : f.hasEdge p p
      · rfl
      · have := ((hf p p).mp hh).1
        rw [hselfF p] at this
        cases this
    have hselfb : ∀ p, b.hasEdge p p = false := fun p => by rw [hb p p]; exact hselff p
    have hirrf := LArClusterMergeMap.entries_irreflexive f cf.1 hselff
    have hirrb := LArClusterMergeMap.entries_irreflexive b cb.1 hselfb
    refine ⟨f, b, ?_, ?_⟩
    · rw [FillClusterMergeMaps_eq, hfill]
      exact hok
    · intro cam
      apply (FillClusterAssociationMap_status f b cam).2
      rintro (⟨e, he, hself⟩ | ⟨e, he, hself⟩)
      · exact hirrf e he e.1 hself rfl
      · exact hirrb e he e.1 hself rfl
  constructor
  · intro e herr
    cases hfill : fillFullMergeMaps alg transverseClusterList with
    | error e' =>
      have he' := fullMergeOuter_error alg transverseClusterList transverseClusterList _ e' hfill
      rw [FillClusterMergeMaps_eq, hfill] at herr
      cases herr
      exact he'
    | ok full =>
      obtain ⟨F, B⟩ := full
      obtain ⟨f, b, hok, _⟩ := key F B hfill
      rw [hok] at herr
      cases herr
  · intro F B hfill
    have hinv := fillFullMergeMaps_inv alg transverseClusterList (F, B) hfill
    have hedges := fillFullMergeMaps_edges alg transverseClusterList (F, B) hfill
    refine ⟨hedges, hinv.2.2.1, ?_, key F B hfill⟩
    intro hptr
    have hacyclic := EdgesIncrease_acyclic transverseClusterList F hedges hptr
    refine ⟨?_, hacyclic⟩
    intro p q hpq
    cases hqp : F.hasEdge q p
    · rfl
    · have h1 : Relation.TransGen (fun a b => F.hasEdge a b = true) p q :=
        Relation.TransGen.single hpq
      have h2 : Relation.TransGen (fun a b => F.hasEdge a b = true) p p :=
        Relation.TransGen.tail h1 hqp
      exact absurd h2 (hacyclic p)

/-- C30 at the scenario X, Y, Z: the seed clusters span `[0, 1]`, `[2, 3]` and
`[4, 5]` in X, the dense forward map holds X→Y, X→Z and Y→Z, and no two of
the transverse clusters share a seed address. -/
theorem C30_witness :
    (scenarioXYZ.map (fun t => (GetExtremalCoordinatesX t.m_pSeedCluster).toOption))
        = [some (0, 1), some (2, 3), some (4, 5)]
    ∧ (fillFullMergeMaps defaultSettings scenarioXYZ).toOption
        = some ([(1, [2, 3]), (2, [3])], [(2, [1]), (3, [1, 2])])
    ∧ (∀ t ∈ scenarioXYZ, ∀ t' ∈ scenarioXYZ,
        t.m_pSeedCluster.addr = t'.m_pSeedCluster.addr → t.m_pSeedCluster = t'.m_pSeedCluster)
    ∧ ((∀ e, FillClusterMergeMaps defaultSettings scenarioXYZ [] [] = Except.error e →
        e = StatusCode.STATUS_CODE_FAILURE)
      ∧ ∀ fullForwardMergeMap fullBackwardMergeMap,
          fillFullMergeMaps defaultSettings scenarioXYZ
              = Except.ok (fullForwardMergeMap, fullBackwardMergeMap) →
          EdgesIncrease scenarioXYZ fullForwardMergeMap
          ∧ (∀ p, fullForwardMergeMap.hasEdge p p = false)
          ∧ ((∀ t ∈ scenarioXYZ, ∀ t' ∈ scenarioXYZ,
                t.m_pSeedCluster.addr = t'.m_pSeedCluster.addr →
                t.m_pSeedCluster = t'.m_pSeedCluster) →
              (∀ p q, fullForwardMergeMap.hasEdge p q = true →
                fullForwardMergeMap.hasEdge q p = false)
              ∧ ∀ p, ¬ Relation.TransGen (fun a b => fullForwardMergeMap.hasEdge a b = true) p p)
          ∧ ∃ forwardMergeMap backwardMergeMap,
              FillClusterMergeMaps defaultSettings scenarioXYZ [] []
                = Except.ok (forwardMergeMap, backwardMergeMap)
              ∧ ∀ clusterAssociationMap,
                  (FillClusterAssociationMap forwardMergeMap backwardMergeMap
                    clusterAssociationMap).2 = none) := by
  refine ⟨by decide!, by decide!, ?_, C30_dense_edges_increase defaultSettings scenarioXYZ⟩
  intro t ht t' ht' haddr
  simp only [scenarioXYZ, List.mem_cons, List.mem_singleton, List.not_mem_nil, or_false] at ht ht'
  rcases ht with rfl | rfl | rfl <;> rcases ht' with rfl | rfl | rfl <;>
    first
      | rfl
      | exact absurd haddr (by decide)

/-! ## Failure of the association build -/

/-- The only exception that leaves the loop of `FillTransverseClusterList` is
the `STATUS_CODE_FAILURE` of an extremal-coordinate query. -/
theorem fillTransverseLoop_error (alg : TransverseAssociationAlgorithm) (sqrt : ℚ → ℚ)
    (tv lv : List Cluster) (l : List Cluster) :
    ∀ (tcl : List LArTransverseCluster) (e : StatusCode),
      fillTransverseLoop alg sqrt tv lv l tcl = Except.error e →
      e = StatusCode.STATUS_CODE_FAILURE := by
  induction l with
  | nil => intro tcl e h; simp only [fillTransverseLoop] at h; cases h
  | cons p rest ih =>
    intro tcl e h
    simp only [fillTransverseLoop] at h
    cases ha : GetAssociatedClusters alg p tv lv [] with
    | error e' =>
      have he' := GetAssociatedClusters_error alg p tv lv [] e' ha
      rw [ha] at h
      cases h
      exact he'
    | ok associated =>
      have hhits := GetAssociatedClusters_hits alg p tv lv [] associated ha
      rw [ha] at h
      simp only at h
      cases hl : GetTransverseLength p associated with
      | error e' =>
        have he' := GetTransverseLength_error p associated e' hl
        rw [hl] at h
        cases h
        exact he'
      | ok len =>
        rw [hl] at h
        simp only at h
        split_ifs at h
        · exact ih tcl e h
        · obtain ⟨t, ht⟩ := LArTransverseCluster.create_ok sqrt p associated hhits
          rw [ht] at h
          exact ih _ e h

/-- The only exception that leaves `FillClusterMergeMaps`, started with empty
output maps, is the `STATUS_CODE_FAILURE` of an extremal-coordinate query. -/
theorem FillClusterMergeMaps_error (alg : TransverseAssociationAlgorithm)
    (tcl : List LArTransverseCluster) (e : StatusCode)
    (h : FillClusterMergeMaps alg tcl [] [] = Except.error e) :
    e = StatusCode.STATUS_CODE_FAILURE := by
  cases hfill : fillFullMergeMaps alg tcl with
  | error e' =>
    have he' := fullMergeOuter_error alg tcl tcl _ e' hfill
    rw [FillClusterMergeMaps_eq, hfill] at h
    cases h
    exact he'
  | ok full =>
    obtain ⟨F, B⟩ := full
    have hinv := fillFullMergeMaps_inv alg tcl (F, B) hfill
    obtain ⟨f, b, hok, _⟩ := pruneFullMergeMaps_spec F B hinv
    rw [FillClusterMergeMaps_eq, hfill] at h
    simp only at h
    rw [hok] at h
    cases h

/-- The maps that `FillClusterMergeMaps` returns, started with empty output
maps, are in canonical form, hold no cluster in its own merge set, and the
backward map holds the edges of the forward map reversed. -/
theorem FillClusterMergeMaps_output (alg : TransverseAssociationAlgorithm)
    (tcl : List LArTransverseCluster) (f b : LArClusterMergeMap)
    (h : FillClusterMergeMaps alg tcl [] [] = Except.ok (f, b)) :
    f.Canonical ∧ b.Canonical
    ∧ (∀ e ∈ f, e.1 ∉ e.2) ∧ (∀ e ∈ b, e.1 ∉ e.2)
    ∧ ∀ pInner pOuter, b.hasEdge pOuter pInner = f.hasEdge pInner pOuter := by
  cases hfill : fillFullMergeMaps alg tcl with
  | error e' =>
    rw [FillClusterMergeMaps_eq, hfill] at h
    cases h
  | ok full =>
    obtain ⟨F, B⟩ := full
    have hinv := fillFullMergeMaps_inv alg tcl (F, B) hfill
    obtain ⟨f', b', hok, cf, cb, hf, hb⟩ := pruneFullMergeMaps_spec F B hinv
    rw [FillClusterMergeMaps_eq, hfill] at h
    simp only at h
    rw [hok] at h
    cases h
    have hselfF : ∀ p, F.hasEdge p p = false := hinv.2.2.1
    have hselff : ∀ p, f.hasEdge p p = false := by
      intro p
      cases hh : f.hasEdge p p
      · rfl
      · have := ((hf p p).mp hh).1
        rw [hselfF p] at this
        cases this
    have hselfb : ∀ p, b.hasEdge p p = false := fun p => by rw [hb p p]; exact hselff p
    have hirrf := LArClusterMergeMap.entries_irreflexive f cf.1 hselff
    have hirrb := LArClusterMergeMap.entries_irreflexive b cb.1 hselfb
    exact ⟨cf, cb, fun e he hself => hirrf e he e.1 hself rfl,
      fun e he hself => hirrb e he e.1 hself rfl, hb⟩

/-- C40: whenever the `try` block of `PopulateClusterAssociationMap` is left by
an exception, the exception is the `STATUS_CODE_FAILURE` of an
extremal-coordinate query, raised in `FillTransverseClusterList` or in
`FillClusterMergeMaps`, and the association map is what it was on entry; the
maps that `FillClusterMergeMaps` hands on hold no cluster in its own merge
set, so that `FillClusterAssociationMap` returns normally on them. -/
theorem C40_atomic_on_failure (alg : TransverseAssociationAlgorithm) (sqrt : ℚ → ℚ)
    (inputClusters : List Cluster) (clusterAssociationMap : ClusterAssociationMap) :
    (∀ e, (populateTryBlock alg sqrt inputClusters clusterAssociationMap).2 = some e →
      e = StatusCode.STATUS_CODE_FAILURE
      ∧ (populateTryBlock alg sqrt inputClusters clusterAssociationMap).1 = clusterAssociationMap
      ∧ PopulateClusterAssociationMap alg sqrt inputClusters clusterAssociationMap
          = clusterAssociationMap
      ∧ (FillTransverseClusterList alg sqrt (SeparateInputClusters alg inputClusters [] []).1
            (SeparateInputClusters alg inputClusters [] []).2 [] = Except.error e
        ∨ ∃ transverseClusterList,
            FillTransverseClusterList alg sqrt (SeparateInputClusters alg inputClusters [] []).1
              (SeparateInputClusters alg inputClusters [] []).2 [] = Except.ok transverseClusterList
            ∧ FillClusterMergeMaps alg transverseClusterList [] [] = Except.error e))
    ∧ ∀ transverseClusterList forwardMergeMap backwardMergeMap,
        FillClusterMergeMaps alg transverseClusterList [] []
            = Except.ok (forwardMergeMap, backwardMergeMap) →
        (∀ e ∈ forwardMergeMap, e.1 ∉ e.2) ∧ (∀ e ∈ backwardMergeMap, e.1 ∉ e.2)
        ∧ ∀ associationMap,
            (FillClusterAssociationMap forwardMergeMap backwardMergeMap associationMap).2
              = none := by
  have hnone : ∀ tcl f b, FillClusterMergeMaps alg tcl [] [] = Except.ok (f, b) →
      (∀ e ∈ f, e.1 ∉ e.2) ∧ (∀ e ∈ b, e.1 ∉ e.2)
      ∧ ∀ cam, (FillClusterAssociationMap f b cam).2 = none := by
    intro tcl f b hok
    obtain ⟨_, _, hf, hb, _⟩ := FillClusterMergeMaps_output alg tcl f b hok
    refine ⟨hf, hb, fun cam => ?_⟩
    apply (FillClusterAssociationMap_status f b cam).2
    rintro (⟨e, he, hself⟩ | ⟨e, he, hself⟩)
    · exact hf e he hself
    · exact hb e he hself
  refine ⟨?_, hnone⟩
  intro e he
  unfold PopulateClusterAssociationMap
  unfold populateTryBlock at he ⊢
  simp only at he ⊢
  cases hfill : FillTransverseClusterList alg sqrt (SeparateInputClusters alg inputClusters [] []).1
      (SeparateInputClusters alg inputClusters [] []).2 [] with
  | error e' =>
    have he' := fillTransverseLoop_error alg sqrt _ _ _ [] e' hfill
    rw [hfill] at he
    simp only [Option.some.injEq] at he
    subst he
    simp only
    exact ⟨he', trivial, trivial, Or.inl trivial⟩
  | ok tcl =>
    rw [hfill] at he
    simp only at he ⊢
    cases hmerge : FillClusterMergeMaps alg tcl [] [] with
    | error e' =>
      have he' := FillClusterMergeMaps_error alg tcl e' hmerge
      rw [hmerge] at he
      simp only [Option.some.injEq] at he
      subst he
      simp only
      exact ⟨he', trivial, trivial, Or.inr ⟨tcl, rfl, hmerge⟩⟩
    | ok maps =>
      obtain ⟨f, b⟩ := maps
      rw [hmerge] at he
      simp only at he
      rw [(hnone tcl f b hmerge).2.2 clusterAssociationMap] at he
      cases he

/-- C40 at the clusters `seedAt 1 0` and `emptySeed`, with an association map
that holds an entry on entry: the build is left with `STATUS_CODE_FAILURE`
and the map is returned as it was. -/
theorem C40_witness :
    populateTryBlock defaultSettings exampleSqrt [seedAt 1 0, emptySeed]
        [(9, { m_forwardAssociations := [8] })]
      = ([(9, { m_forwardAssociations := [8] })], some StatusCode.STATUS_CODE_FAILURE)
    ∧ ((∀ e, (populateTryBlock defaultSettings exampleSqrt [seedAt 1 0, emptySeed]
          [(9, { m_forwardAssociations := [8] })]).2 = some e →
        e = StatusCode.STATUS_CODE_FAILURE
        ∧ (populateTryBlock defaultSettings exampleSqrt [seedAt 1 0, emptySeed]
            [(9, { m_forwardAssociations := [8] })]).1 = [(9, { m_forwardAssociations := [8] })]
        ∧ PopulateClusterAssociationMap defaultSettings exampleSqrt [seedAt 1 0, emptySeed]
            [(9, { m_forwardAssociations := [8] })] = [(9, { m_forwardAssociations := [8] })]
        ∧ (FillTransverseClusterList defaultSettings exampleSqrt
              (SeparateInputClusters defaultSettings [seedAt 1 0, emptySeed] [] []).1
              (SeparateInputClusters defaultSettings [seedAt 1 0, emptySeed] [] []).2 []
              = Except.error e
          ∨ ∃ transverseClusterList,
              FillTransverseClusterList defaultSettings exampleSqrt
                (SeparateInputClusters defaultSettings [seedAt 1 0, emptySeed] [] []).1
                (SeparateInputClusters defaultSettings [seedAt 1 0, emptySeed] [] []).2 []
                = Except.ok transverseClusterList
              ∧ FillClusterMergeMaps defaultSettings transverseClusterList [] []
                  = Except.error e))
      ∧ ∀ transverseClusterList forwardMergeMap backwardMergeMap,
          FillClusterMergeMaps defaultSettings transverseClusterList [] []
              = Except.ok (forwardMergeMap, backwardMergeMap) →
          (∀ e ∈ forwardMergeMap, e.1 ∉ e.2) ∧ (∀ e ∈ backwardMergeMap, e.1 ∉ e.2)
          ∧ ∀ associationMap,
              (FillClusterAssociationMap forwardMergeMap backwardMergeMap associationMap).2
                = none) :=
  ⟨by decide!, C40_atomic_on_failure defaultSettings exampleSqrt [seedAt 1 0, emptySeed]
    [(9, { m_forwardAssociations := [8] })]⟩

/-! ## The association map -/

theorem ClusterAssociationMap.get_of_lt (m : ClusterAssociationMap) (k : Nat)
    (h : ∀ x ∈ m.map Prod.fst, k < x) : ClusterAssociationMap.get m k = {} := by
  induction m with
  | nil => rfl
  | cons e rest ih =>
    simp only [ClusterAssociationMap.get]
    have h1 : k < e.1 := h e.1 (by simp)
    rw [if_neg (by omega)]
    exact ih (fun x hx => h x (by simp only [List.map_cons, List.mem_cons]; exact Or.inr hx))

/-- The keys of the map after `map[key]` and a change of the value. -/
theorem ClusterAssociationMap.keys_update (k : Nat) (c : ClusterAssociation → ClusterAssociation)
    (m : ClusterAssociationMap) :
    ∀ x, x ∈ (ClusterAssociationMap.update k c m).map Prod.fst ↔ x = k ∨ x ∈ m.map Prod.fst := by
  induction m with
  | nil => intro x; simp [ClusterAssociationMap.update]
  | cons e rest ih =>
    intro x
    simp only [ClusterAssociationMap.update]
    split_ifs with h1 h2
    · simp
    · simp only [List.map_cons, List.mem_cons]
      constructor
      · rintro (h | h)
        · exact Or.inr (Or.inl h)
        · exact Or.inr (Or.inr h)
      · rintro (h | h | h)
        · exact Or.inl (h.trans h2)
        · exact Or.inl h
        · exact Or.inr h
    · simp only [List.map_cons, List.mem_cons, ih]
      tauto

theorem ClusterAssociationMap.ordered_update (k : Nat) (c : ClusterAssociation → ClusterAssociation)
    (m : ClusterAssociationMap) (hm : (m.map Prod.fst).Pairwise (· < ·)) :
    ((ClusterAssociationMap.update k c m).map Prod.fst).Pairwise (· < ·) := by
  induction m with
  | nil => simp [ClusterAssociationMap.update]
  | cons e rest ih =>
    simp only [List.map_cons, List.pairwise_cons] at hm
    obtain ⟨hhead, htail⟩ := hm
    simp only [ClusterAssociationMap.update]
    split_ifs with h1 h2
    · simp only [List.map_cons, List.pairwise_cons, List.mem_cons]
      refine ⟨?_, hhead, htail⟩
      rintro x (hx | hx)
      · omega
      · have := hhead x hx; omega
    · simp only [List.map_cons, List.pairwise_cons]
      exact ⟨hhead, htail⟩
    · simp only [List.map_cons, List.pairwise_cons]
      refine ⟨?_, ih htail⟩
      intro x hx
      rcases (ClusterAssociationMap.keys_update k c rest x).mp hx with h | h
      · omega
      · exact hhead x h

/-- The value of a key after `map[key]` and a change of the value. -/
theorem ClusterAssociationMap.get_update (k : Nat) (c : ClusterAssociation → ClusterAssociation)
    (m : ClusterAssociationMap) (hm : (m.map Prod.fst).Pairwise (· < ·)) (k' : Nat) :
    (ClusterAssociationMap.update k c m).get k'
      = if k' = k then c (m.get k) else m.get k' := by
  induction m with
  | nil =>
    simp only [ClusterAssociationMap.update, ClusterAssociationMap.get]
    by_cases h : k' = k
    · rw [if_pos h.symm, if_pos h]
    · rw [if_neg (fun h' => h h'.symm), if_neg h]
  | cons e rest ih =>
    simp only [List.map_cons, List.pairwise_cons] at hm
    obtain ⟨hhead, htail⟩ := hm
    simp only [ClusterAssociationMap.update]
    by_cases h1 : k < e.1
    · rw [if_pos h1]
      simp only [ClusterAssociationMap.get]
      rw [if_neg (show ¬ e.1 = k by omega)]
      have hk : ClusterAssociationMap.get rest k = {} :=
        ClusterAssociationMap.get_of_lt rest k (fun x hx => by have := hhead x hx; omega)
      rw [hk]
      by_cases h3 : k' = k
      · rw [if_pos h3.symm, if_pos h3]
      · rw [if_neg (fun h' => h3 h'.symm), if_neg h3]
    · rw [if_neg h1]
      by_cases h2 : k = e.1
      · rw [if_pos h2]
        simp only [ClusterAssociationMap.get]
        rw [if_pos h2.symm]
        by_cases h3 : k' = k
        · rw [if_pos (h2.symm.trans h3.symm), if_pos h3]
        · rw [if_neg (fun h' => h3 (h'.symm.trans h2.symm)), if_neg h3,
            if_neg (fun h' => h3 (h'.symm.trans h2.symm))]
      · rw [if_neg h2]
        simp only [ClusterAssociationMap.get]
        rw [if_neg (fun h' : e.1 = k => h2 h'.symm), ih htail]
        by_cases h3 : e.1 = k'
        · rw [if_pos h3, if_neg (fun h' : k' = k => h2 (h'.symm.trans h3.symm)), if_pos h3]
        · rw [if_neg h3, if_neg h3]

theorem ClusterAssociationMap.represents_nil :
    ClusterAssociationMap.Represents [] (fun _ _ => False) := by
  refine ⟨by simp, fun a b => ?_⟩
  simp [ClusterAssociationMap.get]

/-- The two insertions for a pair add the pair to the relation that the map
holds. -/
theorem addAssociation_represents (pInner pOuter : Nat) (m : ClusterAssociationMap)
    (R : Nat → Nat → Prop) (h : m.Represents R) :
    (addAssociation pInner pOuter m).Represents
      (fun a b => R a b ∨ (a = pInner ∧ b = pOuter)) := by
  obtain ⟨ho, hR⟩ := h
  have ho1 := ClusterAssociationMap.ordered_update pInner
    (fun a => { a with m_forwardAssociations := ClusterList.insert pOuter a.m_forwardAssociations })
    m ho
  have hget : ∀ k, (addAssociation pInner pOuter m).get k
      = { m_forwardAssociations :=
            if k = pInner then ClusterList.insert pOuter (m.get k).m_forwardAssociations
            else (m.get k).m_forwardAssociations
          m_backwardAssociations :=
            if k = pOuter then ClusterList.insert pInner (m.get k).m_backwardAssociations
            else (m.get k).m_backwardAssociations } := by
    intro k
    unfold addAssociation
    simp only [ClusterAssociationMap.get_update _ _ _ ho1,
      ClusterAssociationMap.get_update _ _ _ ho]
    by_cases h1 : k = pOuter
    · by_cases h2 : k = pInner
      · have h3 : pOuter = pInner := h1.symm.trans h2
        simp only [h1, h3, if_true]
      · have h3 : ¬ pOuter = pInner := fun h' => h2 (h1.trans h')
        simp only [h1, h3, if_true, if_false]
    · by_cases h2 : k = pInner
      · subst h2
        simp only [h1, if_true, if_false]
      · simp only [h1, h2, if_false]
  refine ⟨ClusterAssociationMap.ordered_update _ _ _ ho1, fun a b => ⟨?_, ?_⟩⟩
  · rw [hget a]
    simp only
    by_cases h2 : a = pInner
    · rw [if_pos h2, ClusterList.mem_insert, (hR a b).1]
      constructor
      · rintro (h | h)
        · exact Or.inr ⟨h2, h⟩
        · exact Or.inl h
      · rintro (h | ⟨_, h⟩)
        · exact Or.inr h
        · exact Or.inl h
    · rw [if_neg h2, (hR a b).1]
      constructor
      · exact Or.inl
      · rintro (h | ⟨h, _⟩)
        · exact h
        · exact absurd h h2
  · rw [hget b]
    simp only
    by_cases h1 : b = pOuter
    · rw [if_pos h1, ClusterList.mem_insert, (hR a b).2]
      constructor
      · rintro (h | h)
        · exact Or.inr ⟨h, h1⟩
        · exact Or.inl h
      · rintro (h | ⟨h, _⟩)
        · exact Or.inr h
        · exact Or.inl h
    · rw [if_neg h1, (hR a b).2]
      constructor
      · exact Or.inl
      · rintro (h | ⟨_, h⟩)
        · exact h
        · exact absurd h h1

theorem ClusterAssociationMap.represents_congr (m : ClusterAssociationMap)
    (R R' : Nat → Nat → Prop) (hiff : ∀ a b, R a b ↔ R' a b) (h : m.Represents R) :
    m.Represents R' :=
  ⟨h.1, fun a b => ⟨(h.2 a b).1.trans (hiff a b), (h.2 a b).2.trans (hiff a b)⟩⟩

/-- The loop over the merge set of one entry of the forward merge map adds the
pairs of the entry that it gets to; when it is not left by an exception,
these are all pairs of the entry. -/
theorem associateForwardEntry_represents (pInnerCluster : Nat) (l : ClusterList) :
    ∀ (cam : ClusterAssociationMap) (R : Nat → Nat → Prop), cam.Represents R →
      ∃ done : List Nat, (∀ x ∈ done, x ∈ l)
        ∧ (associateForwardEntry pInnerCluster l cam).1.Represents
            (fun a b => R a b ∨ (a = pInnerCluster ∧ b ∈ done))
        ∧ ((associateForwardEntry pInnerCluster l cam).2 = none → ∀ x ∈ l, x ∈ done) := by
  induction l with
  | nil =>
    intro cam R h
    refine ⟨[], fun x hx => hx, ?_, fun _ x hx => hx⟩
    exact ClusterAssociationMap.represents_congr cam R _ (fun a b => by simp) h
  | cons o rest ih =>
    intro cam R h
    simp only [associateForwardEntry]
    by_cases ho : o = pInnerCluster
    · rw [if_pos ho]
      refine ⟨[], fun x hx => absurd hx (List.not_mem_nil x), ?_, fun hn => by cases hn⟩
      exact ClusterAssociationMap.represents_congr cam R _ (fun a b => by simp) h
    · rw [if_neg ho]
      obtain ⟨done, hsub, hrep, hall⟩ :=
        ih _ _ (addAssociation_represents pInnerCluster o cam R h)
      refine ⟨o :: done, ?_, ?_, ?_⟩
      · intro x hx
        rcases List.mem_cons.mp hx with h1 | h1
        · rw [h1]; exact List.mem_cons_self _ _
        · exact List.mem_cons_of_mem _ (hsub x h1)
      · refine ClusterAssociationMap.represents_congr _ _ _ (fun a b => ?_) hrep
        simp only [List.mem_cons]
        tauto
      · intro hn x hx
        rcases List.mem_cons.mp hx with h1 | h1
        · rw [h1]; exact List.mem_cons_self _ _
        · exact List.mem_cons_of_mem _ (hall hn x h1)

/-- The loop over the merge set of one entry of the backward merge map. -/
theorem associateBackwardEntry_represents (pOuterCluster : Nat) (l : ClusterList) :
    ∀ (cam : ClusterAssociationMap) (R : Nat → Nat → Prop), cam.Represents R →
      ∃ done : List Nat, (∀ x ∈ done, x ∈ l)
        ∧ (associateBackwardEntry pOuterCluster l cam).1.Represents
            (fun a b => R a b ∨ (b = pOuterCluster ∧ a ∈ done))
        ∧ ((associateBackwardEntry pOuterCluster l cam).2 = none → ∀ x ∈ l, x ∈ done) := by
  induction l with
  | nil =>
    intro cam R h
    refine ⟨[], fun x hx => hx, ?_, fun _ x hx => hx⟩
    exact ClusterAssociationMap.represents_congr cam R _ (fun a b => by simp) h
  | cons i rest ih =>
    intro cam R h
    simp only [associateBackwardEntry]
    by_cases hi : i = pOuterCluster
    · rw [if_pos hi]
      refine ⟨[], fun x hx => absurd hx (List.not_mem_nil x), ?_, fun hn => by cases hn⟩
      exact ClusterAssociationMap.represents_congr cam R _ (fun a b => by simp) h
    · rw [if_neg hi]
      obtain ⟨done, hsub, hrep, hall⟩ :=
        ih _ _ (addAssociation_represents i pOuterCluster cam R h)
      refine ⟨i :: done, ?_, ?_, ?_⟩
      · intro x hx
        rcases List.mem_cons.mp hx with h1 | h1
        · rw [h1]; exact List.mem_cons_self _ _
        · exact List.mem_cons_of_mem _ (hsub x h1)
      · refine ClusterAssociationMap.represents_congr _ _ _ (fun a b => ?_) hrep
        simp only [List.mem_cons]
        tauto
      · intro hn x hx
        rcases List.mem_cons.mp hx with h1 | h1
        · rw [h1]; exact List.mem_cons_self _ _
        · exact List.mem_cons_of_mem _ (hall hn x h1)

/-- The first part of `FillClusterAssociationMap` adds pairs of the forward
merge map to the relation that the association map holds; when it is not left
by an exception, it adds all of them. -/
theorem associateForward_represents (m : LArClusterMergeMap) :
    ∀ (cam : ClusterAssociationMap) (R : Nat → Nat → Prop), cam.Represents R →
      ∃ S : Nat → Nat → Prop,
        (associateForward m cam).1.Represents (fun a b => R a b ∨ S a b)
        ∧ (∀ a b, S a b → ∃ e ∈ m, e.1 = a ∧ b ∈ e.2)
        ∧ ((associateForward m cam).2 = none → ∀ a b, (∃ e ∈ m, e.1 = a ∧ b ∈ e.2) → S a b) := by
  induction m with
  | nil =>
    intro cam R h
    refine ⟨fun _ _ => False, ?_, fun a b hS => absurd hS id, ?_⟩
    · exact ClusterAssociationMap.represents_congr cam R _ (fun a b => by simp) h
    · rintro _ a b ⟨e, he, _⟩
      exact absurd he (List.not_mem_nil e)
  | cons e rest ih =>
    intro cam R h
    obtain ⟨done, hsub, hrep, hall⟩ := associateForwardEntry_represents e.1 e.2 cam R h
    simp only [associateForward]
    cases hr : associateForwardEntry e.1 e.2 cam with
    | mk cam' st =>
      rw [hr] at hrep hall
      simp only at hrep hall
      cases st with
      | some err =>
        simp only
        refine ⟨fun a b => a = e.1 ∧ b ∈ done, hrep, ?_, fun hn => by cases hn⟩
        rintro a b ⟨ha, hb⟩
        exact ⟨e, List.mem_cons_self _ _, ha.symm, hsub b hb⟩
      | none =>
        simp only
        obtain ⟨S, hrepS, hS1, hS2⟩ := ih cam' _ hrep
        refine ⟨fun a b => (a = e.1 ∧ b ∈ done) ∨ S a b, ?_, ?_, ?_⟩
        · exact ClusterAssociationMap.represents_congr _ _ _ (fun a b => by tauto) hrepS
        · rintro a b (⟨ha, hb⟩ | hS)
          · exact ⟨e, List.mem_cons_self _ _, ha.symm, hsub b hb⟩
          · obtain ⟨e', he', h1, h2⟩ := hS1 a b hS
            exact ⟨e', List.mem_cons_of_mem _ he', h1, h2⟩
        · rintro hn a b ⟨e', he', h1, h2⟩
          rcases List.mem_cons.mp he' with h3 | h3
          · subst h3
            exact Or.inl ⟨h1.symm, hall rfl b h2⟩
          · exact Or.inr (hS2 hn a b ⟨e', h3, h1, h2⟩)

/-- The second part of `FillClusterAssociationMap`, for the backward merge map. -/
theorem associateBackward_represents (m : LArClusterMergeMap) :
    ∀ (cam : ClusterAssociationMap) (R : Nat → Nat → Prop), cam.Represents R →
      ∃ S : Nat → Nat → Prop,
        (associateBackward m cam).1.Represents (fun a b => R a b ∨ S a b)
        ∧ (∀ a b, S a b → ∃ e ∈ m, e.1 = b ∧ a ∈ e.2)
        ∧ ((associateBackward m cam).2 = none → ∀ a b, (∃ e ∈ m, e.1 = b ∧ a ∈ e.2) → S a b) := by
  induction m with
  | nil =>
    intro cam R h
    refine ⟨fun _ _ => False, ?_, fun a b hS => absurd hS id, ?_⟩
    · exact ClusterAssociationMap.represents_congr cam R _ (fun a b => by simp) h
    · rintro _ a b ⟨e, he, _⟩
      exact absurd he (List.not_mem_nil e)
  | cons e rest ih =>
    intro cam R h
    obtain ⟨done, hsub, hrep, hall⟩ := associateBackwardEntry_represents e.1 e.2 cam R h
    simp only [associateBackward]
    cases hr : associateBackwardEntry e.1 e.2 cam with
    | mk cam' st =>
      rw [hr] at hrep hall
      simp only at hrep hall
      cases st with
      | some err =>
        simp only
        refine ⟨fun a b => b = e.1 ∧ a ∈ done, hrep, ?_, fun hn => by cases hn⟩
        rintro a b ⟨hb, ha⟩
        exact ⟨e, List.mem_cons_self _ _, hb.symm, hsub a ha⟩
      | none =>
        simp only
        obtain ⟨S, hrepS, hS1, hS2⟩ := ih cam' _ hrep
        refine ⟨fun a b => (b = e.1 ∧ a ∈ done) ∨ S a b, ?_, ?_, ?_⟩
        · exact ClusterAssociationMap.represents_congr _ _ _ (fun a b => by tauto) hrepS
        · rintro a b (⟨hb, ha⟩ | hS)
          · exact ⟨e, List.mem_cons_self _ _, hb.symm, hsub a ha⟩
          · obtain ⟨e', he', h1, h2⟩ := hS1 a b hS
            exact ⟨e', List.mem_cons_of_mem _ he', h1, h2⟩
        · rintro hn a b ⟨e', he', h1, h2⟩
          rcases List.mem_cons.mp he' with h3 | h3
          · subst h3
            exact Or.inl ⟨h1.symm, hall rfl a h2⟩
          · exact Or.inr (hS2 hn a b ⟨e', h3, h1, h2⟩)

/-- The function `FillClusterAssociationMap` adds pairs of the two merge maps to the
relation that the association map holds; when it returns normally, it adds
all of them. -/
theorem FillClusterAssociationMap_represents (f b : LArClusterMergeMap)
    (cam : ClusterAssociationMap) (R : Nat → Nat → Prop) (h : cam.Represents R) :
    ∃ S : Nat → Nat → Prop,
      (FillClusterAssociationMap f b cam).1.Represents (fun x y => R x y ∨ S x y)
      ∧ (∀ x y, S x y → (∃ e ∈ f, e.1 = x ∧ y ∈ e.2) ∨ ∃ e ∈ b, e.1 = y ∧ x ∈ e.2)
      ∧ ((FillClusterAssociationMap f b cam).2 = none →
          ∀ x y, ((∃ e ∈ f, e.1 = x ∧ y ∈ e.2) ∨ ∃ e ∈ b, e.1 = y ∧ x ∈ e.2) → S x y) := by
  obtain ⟨S1, hrep1, hS1, hS1'⟩ := associateForward_represents f cam R h
  unfold FillClusterAssociationMap
  cases hr : associateForward f cam with
  | mk cam' st =>
    rw [hr] at hrep1 hS1'
    simp only at hrep1 hS1'
    cases st with
    | some err =>
      simp only
      exact ⟨S1, hrep1, fun x y hS => Or.inl (hS1 x y hS), fun hn => by cases hn⟩
    | none =>
      simp only
      obtain ⟨S2, hrep2, hS2, hS2'⟩ := associateBackward_represents b cam' _ hrep1
      refine ⟨fun x y => S1 x y ∨ S2 x y, ?_, ?_, ?_⟩
      · exact ClusterAssociationMap.represents_congr _ _ _ (fun x y => by tauto) hrep2
      · rintro x y (hS | hS)
        · exact Or.inl (hS1 x y hS)
        · exact Or.inr (hS2 x y hS)
      · rintro hn x y (hxy | hxy)
        · exact Or.inl (hS1' rfl x y hxy)
        · exact Or.inr (hS2' hn x y hxy)

/-- C39: after `FillClusterMergeMaps` on empty output maps, `pOuter` is in the set
of `pInner` in the forward merge map if and only if `pInner` is in the set of
`pOuter` in the backward merge map.  After `FillClusterAssociationMap` on an
empty association map, for all merge maps, `B` is a forward association of
`A` if and only if `A` is a backward association of `B`; and for merge maps
in which no cluster lies in its own merge set the function returns normally
and these associations are the pairs of the forward merge map together with
the reversed pairs of the backward merge map. -/
theorem C39_relations_mutual (alg : TransverseAssociationAlgorithm)
    (transverseClusterList : List LArTransverseCluster)
    (forwardMergeMap backwardMergeMap : LArClusterMergeMap) :
    (∀ f b, FillClusterMergeMaps alg transverseClusterList [] [] = Except.ok (f, b) →
      ∀ pInner pOuter, pOuter ∈ f.get pInner ↔ pInner ∈ b.get pOuter)
    ∧ (∀ A B,
        B ∈ ((FillClusterAssociationMap forwardMergeMap backwardMergeMap []).1.get
              A).m_forwardAssociations
          ↔ A ∈ ((FillClusterAssociationMap forwardMergeMap backwardMergeMap []).1.get
              B).m_backwardAssociations)
    ∧ ((∀ e ∈ forwardMergeMap, e.1 ∉ e.2) → (∀ e ∈ backwardMergeMap, e.1 ∉ e.2) →
        (FillClusterAssociationMap forwardMergeMap backwardMergeMap []).2 = none
        ∧ ∀ A B,
            B ∈ ((FillClusterAssociationMap forwardMergeMap backwardMergeMap []).1.get
                  A).m_forwardAssociations
              ↔ (∃ e ∈ forwardMergeMap, e.1 = A ∧ B ∈ e.2)
                ∨ ∃ e ∈ backwardMergeMap, e.1 = B ∧ A ∈ e.2) := by
  obtain ⟨S, hrep, hS, hS'⟩ := FillClusterAssociationMap_represents forwardMergeMap
    backwardMergeMap [] _ ClusterAssociationMap.represents_nil
  refine ⟨?_, ?_, ?_⟩
  · intro f b hok pInner pOuter
    obtain ⟨_, _, _, _, hb⟩ := FillClusterMergeMaps_output alg transverseClusterList f b hok
    have := hb pInner pOuter
    unfold LArClusterMergeMap.hasEdge at this
    rw [Bool.eq_iff_iff] at this
    simp only [decide_eq_true_eq] at this
    exact this.symm
  · intro A B
    exact (hrep.2 A B).1.trans (hrep.2 A B).2.symm
  · intro hf hb
    have hnone : (FillClusterAssociationMap forwardMergeMap backwardMergeMap []).2 = none := by
      apply (FillClusterAssociationMap_status forwardMergeMap backwardMergeMap []).2
      rintro (⟨e, he, hself⟩ | ⟨e, he, hself⟩)
      · exact hf e he hself
      · exact hb e he hself
    refine ⟨hnone, fun A B => ?_⟩
    rw [(hrep.2 A B).1]
    constructor
    · rintro (h | h)
      · exact absurd h id
      · exact hS A B h
    · intro h
      exact Or.inr (hS' hnone A B h)

/-- C39 at the scenario X, Y, Z and at its pruned maps. -/
theorem C39_witness :
    (FillClusterMergeMaps defaultSettings scenarioXYZ [] []).toOption
        = some ([(1, [2]), (2, [3])], [(2, [1]), (3, [2])])
    ∧ (FillClusterAssociationMap [(1, [2]), (2, [3])] [(2, [1]), (3, [2])] []).1
        = [(1, { m_forwardAssociations := [2], m_backwardAssociations := [] }),
            (2, { m_forwardAssociations := [3], m_backwardAssociations := [1] }),
            (3, { m_forwardAssociations := [], m_backwardAssociations := [2] })]
    ∧ ((∀ f b, FillClusterMergeMaps defaultSettings scenarioXYZ [] [] = Except.ok (f, b) →
        ∀ pInner pOuter, pOuter ∈ f.get pInner ↔ pInner ∈ b.get pOuter)
      ∧ (∀ A B,
          B ∈ ((FillClusterAssociationMap [(1, [2]), (2, [3])] [(2, [1]), (3, [2])] []).1.get
                A).m_forwardAssociations
            ↔ A ∈ ((FillClusterAssociationMap [(1, [2]), (2, [3])] [(2, [1]), (3, [2])] []).1.get
                B).m_backwardAssociations)
      ∧ ((∀ e ∈ ([(1, [2]), (2, [3])] : LArClusterMergeMap), e.1 ∉ e.2) →
          (∀ e ∈ ([(2, [1]), (3, [2])] : LArClusterMergeMap), e.1 ∉ e.2) →
          (FillClusterAssociationMap [(1, [2]), (2, [3])] [(2, [1]), (3, [2])] []).2 = none
          ∧ ∀ A B,
              B ∈ ((FillClusterAssociationMap [(1, [2]), (2, [3])] [(2, [1]), (3, [2])] []).1.get
                    A).m_forwardAssociations
                ↔ (∃ e ∈ ([(1, [2]), (2, [3])] : LArClusterMergeMap), e.1 = A ∧ B ∈ e.2)
                  ∨ ∃ e ∈ ([(2, [1]), (3, [2])] : LArClusterMergeMap), e.1 = B ∧ A ∈ e.2)) :=
  ⟨by decide!, by decide,
    C39_relations_mutual defaultSettings scenarioXYZ [(1, [2]), (2, [3])] [(2, [1]), (3, [2])]⟩

/-! ## Pruning and reachability -/

/-- In a graph without directed cycles whose edges end in the vertices of a
finite list, every edge can be replaced by a path of edges that have no
vertex in between (no `M` with edges from the start to `M` and from `M` to
the end). -/
theorem path_of_immediate_edges (E : Nat → Nat → Prop) (V : List Nat)
    (hV : ∀ a b, E a b → b ∈ V) (hacyclic : ∀ p, ¬ Relation.TransGen E p p)
    (i o : Nat) (hio : E i o) :
    Relation.TransGen
      (fun a b => E a b ∧ ¬ ∃ M, M ≠ a ∧ M ≠ b ∧ E a M ∧ E M b) i o := by
  classical
  have key : ∀ n i o, E i o →
      (V.toFinset.filter (fun v => Relation.TransGen E i v ∧ Relation.TransGen E v o)).card = n →
      Relation.TransGen
        (fun a b => E a b ∧ ¬ ∃ M, M ≠ a ∧ M ≠ b ∧ E a M ∧ E M b) i o := by
    intro n
    induction n using Nat.strong_induction_on with
    | _ n ih =>
      intro i o hio hcard
      by_cases hmid : ∃ M, M ≠ i ∧ M ≠ o ∧ E i M ∧ E M o
      · obtain ⟨M, _, _, hiM, hMo⟩ := hmid
        have hMmem : M ∈ V.toFinset.filter
            (fun v => Relation.TransGen E i v ∧ Relation.TransGen E v o) := by
          rw [Finset.mem_filter, List.mem_toFinset]
          exact ⟨hV i M hiM, Relation.TransGen.single hiM, Relation.TransGen.single hMo⟩
        have h1 : (V.toFinset.filter
            (fun v => Relation.TransGen E i v ∧ Relation.TransGen E v M)).card < n := by
          rw [← hcard]
          apply Finset.card_lt_card
          rw [Finset.ssubset_iff_of_subset]
          · refine ⟨M, hMmem, ?_⟩
            rw [Finset.mem_filter]
            rintro ⟨_, _, hMM⟩
            exact hacyclic M hMM
          · intro v hv
            rw [Finset.mem_filter] at hv ⊢
            exact ⟨hv.1, hv.2.1, Relation.TransGen.tail hv.2.2 hMo⟩
        have h2 : (V.toFinset.filter
            (fun v => Relation.TransGen E M v ∧ Relation.TransGen E v o)).card < n := by
          rw [← hcard]
          apply Finset.card_lt_card
          rw [Finset.ssubset_iff_of_subset]
          · refine ⟨M, hMmem, ?_⟩
            rw [Finset.mem_filter]
            rintro ⟨_, hMM, _⟩
            exact hacyclic M hMM
          · intro v hv
            rw [Finset.mem_filter] at hv ⊢
            exact ⟨hv.1, Relation.TransGen.head hiM hv.2.1, hv.2.2⟩
        exact Relation.TransGen.trans (ih _ h1 i M hiM rfl) (ih _ h2 M o hMo rfl)
      · exact Relation.TransGen.single ⟨hio, hmid⟩
  exact key _ i o hio rfl

/-- C31: pruning keeps the connections.  When `FillClusterMergeMaps`, started
with empty output maps, builds the dense maps and returns, and an address
stands for one seed cluster only, then for every edge inner→outer of the
dense forward map there is a directed path from inner to outer along edges
of the final forward merge map; so a cluster is reachable from another along
dense edges exactly when it is along edges of the final map. -/
theorem C31_pruning_preserves_paths (alg : TransverseAssociationAlgorithm)
    (transverseClusterList : List LArTransverseCluster)
    (fullForwardMergeMap fullBackwardMergeMap forwardMergeMap backwardMergeMap : LArClusterMergeMap)
    (hptr : ∀ t ∈ transverseClusterList, ∀ t' ∈ transverseClusterList,
      t.m_pSeedCluster.addr = t'.m_pSeedCluster.addr → t.m_pSeedCluster = t'.m_pSeedCluster)
    (hfill : fillFullMergeMaps alg transverseClusterList
      = Except.ok (fullForwardMergeMap, fullBackwardMergeMap))
    (hok : FillClusterMergeMaps alg transverseClusterList [] []
      = Except.ok (forwardMergeMap, backwardMergeMap)) :
    (∀ pInner pOuter, fullForwardMergeMap.hasEdge pInner pOuter = true →
      Relation.TransGen (fun a b => forwardMergeMap.hasEdge a b = true) pInner pOuter)
    ∧ ∀ p q, Relation.TransGen (fun a b => fullForwardMergeMap.hasEdge a b = true) p q
        ↔ Relation.TransGen (fun a b => forwardMergeMap.hasEdge a b = true) p q := by
  have hinv := fillFullMergeMaps_inv alg transverseClusterList _ hfill
  have hedges := fillFullMergeMaps_edges alg transverseClusterList _ hfill
  simp only at hedges
  obtain ⟨f, b, hprune, _, _, hf, _⟩ :=
    pruneFullMergeMaps_spec fullForwardMergeMap fullBackwardMergeMap hinv
  rw [FillClusterMergeMaps_eq, hfill] at hok
  simp only at hok
  rw [hprune] at hok
  cases hok
  have hacyclic := EdgesIncrease_acyclic transverseClusterList fullForwardMergeMap hedges hptr
  have hV : ∀ a b, fullForwardMergeMap.hasEdge a b = true →
      b ∈ transverseClusterList.map (fun t => t.m_pSeedCluster.addr) := by
    intro a b hab
    obtain ⟨_, _, tO, hO, _, hb, _⟩ := hedges a b hab
    exact List.mem_map.mpr ⟨tO, hO, hb⟩
  have hpath : ∀ pInner pOuter, fullForwardMergeMap.hasEdge pInner pOuter = true →
      Relation.TransGen (fun a b => forwardMergeMap.hasEdge a b = true) pInner pOuter := by
    intro pInner pOuter hedge
    have := path_of_immediate_edges (fun a b => fullForwardMergeMap.hasEdge a b = true) _ hV
      hacyclic pInner pOuter hedge
    refine Relation.TransGen.mono ?_ this
    intro a b hab
    exact (hf a b).mpr hab
  refine ⟨hpath, fun p q => ⟨?_, ?_⟩⟩
  · intro h
    induction h with
    | single hedge => exact hpath _ _ hedge
    | tail _ hedge ih => exact Relation.TransGen.trans ih (hpath _ _ hedge)
  · intro h
    refine Relation.TransGen.mono ?_ h
    intro a b hab
    exact ((hf a b).mp hab).1

/-- C31 at the scenario X, Y, Z: the dense edge X→Z is not in the final map, and
Z is reached from X along X→Y and Y→Z. -/
theorem C31_witness :
    (∀ t ∈ scenarioXYZ, ∀ t' ∈ scenarioXYZ,
      t.m_pSeedCluster.addr = t'.m_pSeedCluster.addr → t.m_pSeedCluster = t'.m_pSeedCluster)
    ∧ fillFullMergeMaps defaultSettings scenarioXYZ
        = Except.ok ([(1, [2, 3]), (2, [3])], [(2, [1]), (3, [1, 2])])
    ∧ FillClusterMergeMaps defaultSettings scenarioXYZ [] []
        = Except.ok ([(1, [2]), (2, [3])], [(2, [1]), (3, [2])])
    ∧ LArClusterMergeMap.hasEdge [(1, [2, 3]), (2, [3])] 1 3 = true
    ∧ LArClusterMergeMap.hasEdge [(1, [2]), (2, [3])] 1 3 = false
    ∧ ((∀ pInner pOuter,
          LArClusterMergeMap.hasEdge [(1, [2, 3]), (2, [3])] pInner pOuter = true →
          Relation.TransGen
            (fun a b => LArClusterMergeMap.hasEdge [(1, [2]), (2, [3])] a b = true) pInner pOuter)
      ∧ ∀ p q,
          Relation.TransGen
              (fun a b => LArClusterMergeMap.hasEdge [(1, [2, 3]), (2, [3])] a b = true) p q
            ↔ Relation.TransGen
                (fun a b => LArClusterMergeMap.hasEdge [(1, [2]), (2, [3])] a b = true) p q) := by
  have hptr : ∀ t ∈ scenarioXYZ, ∀ t' ∈ scenarioXYZ,
      t.m_pSeedCluster.addr = t'.m_pSeedCluster.addr →
      t.m_pSeedCluster = t'.m_pSeedCluster := by
    intro t ht t' ht' haddr
    simp only [scenarioXYZ, List.mem_cons, List.mem_singleton, List.not_mem_nil,
      or_false] at ht ht'
    rcases ht with rfl | rfl | rfl <;> rcases ht' with rfl | rfl | rfl <;>
      first
        | rfl
        | exact absurd haddr (by decide)
  have hfill : fillFullMergeMaps defaultSettings scenarioXYZ
      = Except.ok ([(1, [2, 3]), (2, [3])], [(2, [1]), (3, [1, 2])]) :=
    Except.eq_ok_of_toOption _ _ (by decide!)
  have hok : FillClusterMergeMaps defaultSettings scenarioXYZ [] []
      = Except.ok ([(1, [2]), (2, [3])], [(2, [1]), (3, [2])]) :=
    Except.eq_ok_of_toOption _ _ (by decide!)
  exact ⟨hptr, hfill, hok, by decide, by decide,
    C31_pruning_preserves_paths defaultSettings scenarioXYZ _ _ _ _ hptr hfill hok⟩

/-! ## The rendering of the hierarchies -/

theorem indent_zero (spaces : Nat) : indent spaces 0 = "" := by
  simp [indent]

theorem indent_succ (d : Nat) : indent 3 (d + 1) = "   " ++ indent 3 d := by
  unfold indent
  have h : 3 * (d + 1) = 3 + 3 * d := by ring
  rw [h, List.replicate_add]
  rfl

theorem concatLines_append (a b : List String) :
    concatLines (a ++ b) = concatLines a ++ concatLines b := by
  induction a with
  | nil => simp [concatLines]
  | cons x rest ih => simp [concatLines, ih, String.append_assoc]

mutual
theorem Node.withDepth_succ (d : Nat) (n : Node) :
    Node.withDepth (d + 1) n = (Node.withDepth d n).map (fun e => (e.1 + 1, e.2)) := by
  cases n with
  | mk a p ps hs cs =>
    simp only [Node.withDepth, List.map_cons]
    rw [Node.withDepthList_succ (d + 1) cs]
theorem Node.withDepthList_succ (d : Nat) (l : List Node) :
    Node.withDepthList (d + 1) l = (Node.withDepthList d l).map (fun e => (e.1 + 1, e.2)) := by
  cases l with
  | nil => simp [Node.withDepthList]
  | cons n ns =>
    simp only [Node.withDepthList, List.map_append]
    rw [Node.withDepth_succ d n, Node.withDepthList_succ d ns]
end

/-- The lines of the nodes below the depth of the roots, rendered with the
prefix of the roots, are the lines rendered with the prefix of the children. -/
theorem lines_shift (body : Node → String) (pre : String) (l : List (Nat × Node)) :
    (l.map (fun e => (e.1 + 1, e.2))).map (fun e => pre ++ indent 3 e.1 ++ body e.2)
      = l.map (fun e => (pre ++ "   ") ++ indent 3 e.1 ++ body e.2) := by
  rw [List.map_map]
  apply List.map_congr_left
  intro e _
  simp only [Function.comp, indent_succ, String.append_assoc]

mutual
theorem Node.ToStringReco_eq (pre : String) (n : Node) :
    Node.ToStringReco pre n
      = concatLines ((Node.withDepth 0 n).map (fun e => pre ++ indent 3 e.1 ++ recoLineBody e.2)) := by
  cases n with
  | mk a p ps hs cs =>
    simp only [Node.ToStringReco, Node.withDepth, List.map_cons, concatLines]
    rw [Node.childrenToStringReco_eq (pre ++ "   ") cs, Node.withDepthList_succ 0 cs, lines_shift]
    simp only [indent_zero, recoLineBody, Node.GetParticleId, Node.GetCaloHits,
      String.append_assoc, String.append_empty, String.empty_append]
theorem Node.childrenToStringReco_eq (pre : String) (l : List Node) (str : String) :
    Node.childrenToStringReco pre l str
      = str ++ concatLines ((Node.withDepthList 0 l).map
          (fun e => pre ++ indent 3 e.1 ++ recoLineBody e.2)) := by
  cases l with
  | nil => simp [Node.childrenToStringReco, Node.withDepthList, concatLines]
  | cons n ns =>
    simp only [Node.childrenToStringReco, Node.withDepthList, List.map_append, concatLines_append]
    rw [Node.childrenToStringReco_eq pre ns, Node.ToStringReco_eq pre n, String.append_assoc]
end

mutual
theorem Node.ToStringMC_eq (energyText : Nat → String) (pre : String) (n : Node)
    (h : ∀ m ∈ Node.nodes n, m.GetParticles ≠ []) :
    Node.ToStringMC energyText pre n
      = some (concatLines ((Node.withDepth 0 n).map
          (fun e => pre ++ indent 3 e.1 ++ mcLineBody energyText e.2))) := by
  cases n with
  | mk a p ps hs cs =>
    have hps : ps ≠ [] := h (Node.mk a p ps hs cs) (by simp [Node.nodes])
    have hcs : ∀ m ∈ Node.nodesList cs, m.GetParticles ≠ [] :=
      fun m hm => h m (by simp only [Node.nodes, List.mem_cons]; exact Or.inr hm)
    cases ps with
    | nil => exact absurd rfl hps
    | cons front rest =>
      simp only [Node.ToStringMC, Node.withDepth, List.map_cons, concatLines]
      rw [Node.childrenToStringMC_eq energyText (pre ++ "   ") cs _ hcs,
        Node.withDepthList_succ 0 cs, lines_shift]
      simp only [indent_zero, mcLineBody, Node.GetParticleId, Node.GetCaloHits,
        Node.GetParticles, List.headD_cons, String.append_assoc, String.append_empty,
        String.empty_append]
theorem Node.childrenToStringMC_eq (energyText : Nat → String) (pre : String) (l : List Node)
    (str : String) (h : ∀ m ∈ Node.nodesList l, m.GetParticles ≠ []) :
    Node.childrenToStringMC energyText pre l str
      = some (str ++ concatLines ((Node.withDepthList 0 l).map
          (fun e => pre ++ indent 3 e.1 ++ mcLineBody energyText e.2))) := by
  cases l with
  | nil => simp [Node.childrenToStringMC, Node.withDepthList, concatLines]
  | cons n ns =>
    have hn : ∀ m ∈ Node.nodes n, m.GetParticles ≠ [] :=
      fun m hm => h m (by simp only [Node.nodesList, List.mem_append]; exact Or.inl hm)
    have hns : ∀ m ∈ Node.nodesList ns, m.GetParticles ≠ [] :=
      fun m hm => h m (by simp only [Node.nodesList, List.mem_append]; exact Or.inr hm)
    simp only [Node.childrenToStringMC, Node.withDepthList, List.map_append, concatLines_append]
    rw [Node.ToStringMC_eq energyText pre n hn]
    simp only
    rw [Node.childrenToStringMC_eq energyText pre ns _ hns, String.append_assoc]
end

theorem rootsToStringReco_eq (l : List Node) :
    ∀ str : String,
      l.foldl (fun str pNode => str ++ (Node.ToStringReco "" pNode ++ "\n")) str
        = str ++ renderForest 3 recoLineBody l := by
  induction l with
  | nil => intro str; simp [renderForest, concatLines]
  | cons n ns ih =>
    intro str
    rw [List.foldl_cons, ih]
    simp only [renderForest, List.map_cons, concatLines, Node.ToStringReco_eq,
      String.empty_append, String.append_assoc]

theorem rootsToStringMC_eq (energyText : Nat → String) (l : List Node) :
    ∀ str : String, (∀ m ∈ Node.nodesList l, m.GetParticles ≠ []) →
      rootsToStringMC energyText l str
        = some (str ++ renderForest 3 (mcLineBody energyText) l) := by
  induction l with
  | nil => intro str _; simp [rootsToStringMC, renderForest, concatLines]
  | cons n ns ih =>
    intro str h
    have hn : ∀ m ∈ Node.nodes n, m.GetParticles ≠ [] :=
      fun m hm => h m (by simp only [Node.nodesList, List.mem_append]; exact Or.inl hm)
    have hns : ∀ m ∈ Node.nodesList ns, m.GetParticles ≠ [] :=
      fun m hm => h m (by simp only [Node.nodesList, List.mem_append]; exact Or.inr hm)
    simp only [rootsToStringMC]
    rw [Node.ToStringMC_eq energyText "" n hn]
    simp only
    rw [ih _ hns]
    simp only [renderForest, List.map_cons, concatLines, String.empty_append,
      String.append_assoc]

/-- C38, refuted as stated: in the rendering of `renderedReco` and of
`renderedMC` the line of the node at depth 1 starts with three spaces and
that of the node at depth 2 with six, and each tree is followed by an empty
line; the rendering with two spaces per level is a different text. -/
theorem C38_counterexample :
    renderedReco.ToString
        = "PDG: 13 Hits: 2\n   PDG: 211 Hits: 1\n      PDG: -11 Hits: 0\n\nPDG: 2212 Hits: 3\n\n"
    ∧ renderForest 2 recoLineBody renderedReco.m_rootNodes
        = "PDG: 13 Hits: 2\n  PDG: 211 Hits: 1\n    PDG: -11 Hits: 0\n\nPDG: 2212 Hits: 3\n\n"
    ∧ renderedReco.ToString ≠ renderForest 2 recoLineBody renderedReco.m_rootNodes
    ∧ renderedMC.ToString exampleEnergyText
        = some ("PDG: 13 Energy: 1.000000 Hits: 2\n   PDG: 211 Energy: 1.000000 Hits: 1\n"
            ++ "      PDG: -11 Energy: 1.000000 Hits: 0\n\nPDG: 2212 Energy: 1.000000 Hits: 3\n\n")
    ∧ renderedMC.ToString exampleEnergyText
        ≠ some (renderForest 2 (mcLineBody exampleEnergyText) renderedMC.m_rootNodes) := by
  refine ⟨by decide, by decide, by decide, by decide, by decide⟩

/-- C38 (amended): `ToString` of the reconstructed hierarchy renders, for each
root in order, the nodes of its tree in pre-order with one line per node,
the line of a node at depth `d` indented by `3 * d` spaces, and an empty line
after the tree; `ToString` of the truth hierarchy does the same, with the
energy in the line, when every node has a constituent.  The indentation at
depth `d` consists of `3 * d` spaces. -/
theorem C38_rendering (energyText : Nat → String) (mcHierarchy : MCHierarchy)
    (recoHierarchy : RecoHierarchy)
    (hmc : ∀ n ∈ Node.nodesList mcHierarchy.m_rootNodes, n.GetParticles ≠ []) :
    recoHierarchy.ToString = renderForest 3 recoLineBody recoHierarchy.m_rootNodes
    ∧ mcHierarchy.ToString energyText
        = some (renderForest 3 (mcLineBody energyText) mcHierarchy.m_rootNodes)
    ∧ ∀ d, (indent 3 d).data = List.replicate (3 * d) ' ' := by
  refine ⟨?_, ?_, fun d => rfl⟩
  · unfold RecoHierarchy.ToString
    rw [rootsToStringReco_eq, String.empty_append]
  · unfold MCHierarchy.ToString
    rw [rootsToStringMC_eq energyText _ _ hmc, String.empty_append]

/-- C38 (amended) at `renderedMC` and `renderedReco`. -/
theorem C38_witness :
    (∀ n ∈ Node.nodesList renderedMC.m_rootNodes, n.GetParticles ≠ [])
    ∧ (Node.withDepthList 0 renderedReco.m_rootNodes).map (fun e => (e.1, e.2.addr))
        = [(0, 500), (1, 501), (2, 502), (0, 503)]
    ∧ (renderedReco.ToString = renderForest 3 recoLineBody renderedReco.m_rootNodes
      ∧ renderedMC.ToString exampleEnergyText
          = some (renderForest 3 (mcLineBody exampleEnergyText) renderedMC.m_rootNodes)
      ∧ ∀ d, (indent 3 d).data = List.replicate (3 * d) ' ') :=
  ⟨by decide, by decide, C38_rendering exampleEnergyText renderedMC renderedReco (by decide)⟩

/-! ## The root node of a track-like primary with both fold flags set -/

mutual
theorem MCParticle.classified_track (p : MCParticle) :
    ∀ e ∈ MCParticle.classified p, e.1 = DescendentKind.track →
      isShowerPdg e.2.GetParticleId = false ∧ isNeutronPdg e.2.GetParticleId = false := by
  cases p with
  | mk a pdg dds =>
    intro e he hk
    simp only [MCParticle.classified] at he
    by_cases hs : isShowerPdg pdg = true
    · rw [if_pos hs] at he
      simp only [List.mem_singleton] at he
      rw [he] at hk
      cases hk
    · rw [if_neg hs] at he
      by_cases hn : isNeutronPdg pdg = true
      · rw [if_pos hn] at he
        simp only [List.mem_singleton] at he
        rw [he] at hk
        cases hk
      · rw [if_neg hn] at he
        rcases List.mem_cons.mp he with h1 | h1
        · rw [h1]
          simp only [MCParticle.GetParticleId]
          exact ⟨by simpa using hs, by simpa using hn⟩
        · exact MCParticle.classifiedList_track dds e h1 hk
theorem MCParticle.classifiedList_track (l : List MCParticle) :
    ∀ e ∈ MCParticle.classifiedList l, e.1 = DescendentKind.track →
      isShowerPdg e.2.GetParticleId = false ∧ isNeutronPdg e.2.GetParticleId = false := by
  cases l with
  | nil => intro e he; simp [MCParticle.classifiedList] at he
  | cons d ds =>
    intro e he hk
    simp only [MCParticle.classifiedList, List.mem_append] at he
    rcases he with h1 | h1
    · exact MCParticle.classified_track d e h1 hk
    · exact MCParticle.classifiedList_track ds e h1 hk
end

/-- A track-like particle is the first entry of its own walk. -/
theorem MCParticle.classified_self (d : MCParticle) (hs : isShowerPdg d.GetParticleId = false)
    (hn : isNeutronPdg d.GetParticleId = false) :
    (DescendentKind.track, d) ∈ MCParticle.classified d := by
  cases d with
  | mk a pdg dds =>
    simp only [MCParticle.GetParticleId] at hs hn
    simp only [MCParticle.classified, hs, hn, Bool.false_eq_true, if_false]
    exact List.mem_cons_self _ _

theorem MCParticle.mem_classifiedList (l : List MCParticle) (d : MCParticle) (hd : d ∈ l)
    (e : DescendentKind × MCParticle) (he : e ∈ MCParticle.classified d) :
    e ∈ MCParticle.classifiedList l := by
  induction l with
  | nil => exact absurd hd (List.not_mem_nil d)
  | cons x rest ih =>
    simp only [MCParticle.classifiedList, List.mem_append]
    rcases List.mem_cons.mp hd with h1 | h1
    · rw [← h1]; exact Or.inl he
    · exact Or.inr (ih h1)

/-- A daughter list of shower-type and neutron-type particles has no track
particle in its walk. -/
theorem MCParticle.classifiedList_no_track (l : List MCParticle)
    (h : ∀ d ∈ l, isShowerPdg d.GetParticleId = true ∨ isNeutronPdg d.GetParticleId = true) :
    ∀ e ∈ MCParticle.classifiedList l, e.1 ≠ DescendentKind.track := by
  induction l with
  | nil => intro e he; simp [MCParticle.classifiedList] at he
  | cons d ds ih =>
    intro e he
    simp only [MCParticle.classifiedList, List.mem_append] at he
    rcases he with h1 | h1
    · cases d with
      | mk a pdg dds =>
        have hd := h (MCParticle.mk a pdg dds) (List.mem_cons_self _ _)
        simp only [MCParticle.GetParticleId] at hd
        simp only [MCParticle.classified] at h1
        by_cases hs : isShowerPdg pdg = true
        · rw [if_pos hs] at h1
          simp only [List.mem_singleton] at h1
          rw [h1]; simp
        · rw [if_neg hs] at h1
          have hn : isNeutronPdg pdg = true := hd.resolve_left hs
          rw [if_pos hn] at h1
          simp only [List.mem_singleton] at h1
          rw [h1]; simp
    · exact ih (fun d' hd' => h d' (List.mem_cons_of_mem _ hd')) e h1

mutual
theorem ParticleFlowObject.classified_trackPfo (p : ParticleFlowObject) :
    ∀ e ∈ ParticleFlowObject.classified p, e.1 = DescendentKind.track →
      isShowerPfoPdg e.2.GetParticleId = false := by
  cases p with
  | mk a pdg dds =>
    intro e he hk
    simp only [ParticleFlowObject.classified] at he
    by_cases hs : isShowerPfoPdg pdg = true
    · rw [if_pos hs] at he
      simp only [List.mem_singleton] at he
      rw [he] at hk
      cases hk
    · rw [if_neg hs] at he
      rcases List.mem_cons.mp he with h1 | h1
      · rw [h1]
        simp only [ParticleFlowObject.GetParticleId]
        simpa using hs
      · exact ParticleFlowObject.classifiedList_trackPfo dds e h1 hk
theorem ParticleFlowObject.classifiedList_trackPfo (l : List ParticleFlowObject) :
    ∀ e ∈ ParticleFlowObject.classifiedList l, e.1 = DescendentKind.track →
      isShowerPfoPdg e.2.GetParticleId = false := by
  cases l with
  | nil => intro e he; simp [ParticleFlowObject.classifiedList] at he
  | cons d ds =>
    intro e he hk
    simp only [ParticleFlowObject.classifiedList, List.mem_append] at he
    rcases he with h1 | h1
    · exact ParticleFlowObject.classified_trackPfo d e h1 hk
    · exact ParticleFlowObject.classifiedList_trackPfo ds e h1 hk
end

/-- A daughter list of shower-type objects has no track object in its walk. -/
theorem ParticleFlowObject.classifiedList_no_trackPfo (l : List ParticleFlowObject)
    (h : ∀ d ∈ l, isShowerPfoPdg d.GetParticleId = true) :
    ∀ e ∈ ParticleFlowObject.classifiedList l, e.1 ≠ DescendentKind.track := by
  induction l with
  | nil => intro e he; simp [ParticleFlowObject.classifiedList] at he
  | cons d ds ih =>
    intro e he
    simp only [ParticleFlowObject.classifiedList, List.mem_append] at he
    rcases he with h1 | h1
    · cases d with
      | mk a pdg dds =>
        have hd := h (ParticleFlowObject.mk a pdg dds) (List.mem_cons_self _ _)
        simp only [ParticleFlowObject.GetParticleId] at hd
        simp only [ParticleFlowObject.classified] at h1
        rw [if_pos hd] at h1
        simp only [List.mem_singleton] at h1
        rw [h1]; simp
    · exact ih (fun d' hd' => h d' (List.mem_cons_of_mem _ hd')) e h1

/-- The track particles of the four-argument walk are neither shower-type nor
neutron-type. -/
theorem MCParticle.descendentsOfKind_track (p q : MCParticle)
    (hq : q ∈ p.descendentsOfKind [DescendentKind.track]) :
    isShowerPdg q.GetParticleId = false ∧ isNeutronPdg q.GetParticleId = false := by
  unfold MCParticle.descendentsOfKind MCParticle.classifiedDescendents at hq
  obtain ⟨e, he, rfl⟩ := List.mem_map.mp hq
  obtain ⟨he1, he2⟩ := List.mem_filter.mp he
  exact MCParticle.classifiedList_track _ e he1 (by simpa using he2)

/-- Without a track-like daughter the walk finds no track particle. -/
theorem MCParticle.descendentsOfKind_track_nil (p : MCParticle)
    (h : ∀ d ∈ p.GetDaughterList,
      isShowerPdg d.GetParticleId = true ∨ isNeutronPdg d.GetParticleId = true) :
    p.descendentsOfKind [DescendentKind.track] = [] := by
  unfold MCParticle.descendentsOfKind MCParticle.classifiedDescendents
  rw [List.map_eq_nil_iff, List.filter_eq_nil_iff]
  intro e he
  have := MCParticle.classifiedList_no_track _ h e he
  simpa using this

/-- A track-like daughter is a track particle of the walk. -/
theorem MCParticle.daughter_mem_descendentsOfKind (p d : MCParticle)
    (hd : d ∈ p.GetDaughterList) (hs : isShowerPdg d.GetParticleId = false)
    (hn : isNeutronPdg d.GetParticleId = false) :
    d ∈ p.descendentsOfKind [DescendentKind.track] := by
  unfold MCParticle.descendentsOfKind MCParticle.classifiedDescendents
  refine List.mem_map.mpr ⟨(DescendentKind.track, d), List.mem_filter.mpr ⟨?_, by simp⟩, rfl⟩
  exact MCParticle.mem_classifiedList _ d hd _ (MCParticle.classified_self d hs hn)

/-- The track objects of the three-argument walk are not shower-type. -/
theorem ParticleFlowObject.downstreamOfKind_track (p q : ParticleFlowObject)
    (hq : q ∈ p.downstreamOfKind DescendentKind.track) :
    isShowerPfoPdg q.GetParticleId = false := by
  unfold ParticleFlowObject.downstreamOfKind ParticleFlowObject.classifiedDownstream at hq
  obtain ⟨e, he, rfl⟩ := List.mem_map.mp hq
  obtain ⟨he1, he2⟩ := List.mem_filter.mp he
  exact ParticleFlowObject.classifiedList_trackPfo _ e he1 (by simpa using he2)

/-- Without a track-like daughter the walk finds no track object. -/
theorem ParticleFlowObject.downstreamOfKind_track_nil (p : ParticleFlowObject)
    (h : ∀ d ∈ p.GetDaughterPfoList, isShowerPfoPdg d.GetParticleId = true) :
    p.downstreamOfKind DescendentKind.track = [] := by
  unfold ParticleFlowObject.downstreamOfKind ParticleFlowObject.classifiedDownstream
  rw [List.map_eq_nil_iff, List.filter_eq_nil_iff]
  intro e he
  have := ParticleFlowObject.classifiedList_no_trackPfo _ h e he
  simpa using this

/-- The constituents and hits of the truth root node of a track-like primary
with both fold flags set. -/
theorem rootNode_foldBoth_track (crit : ReconstructabilityCriteria) (m : MCToHitsMap)
    (p : MCParticle) (alloc : Nat) (hs : isShowerPdg p.GetParticleId = false)
    (hn : isNeutronPdg p.GetParticleId = false) :
    (rootNode crit m true true p alloc).GetParticles
      = sortByAddress ((p :: p.descendentsOfKind [DescendentKind.track]).map MCParticle.addr)
    ∧ (rootNode crit m true true p alloc).GetCaloHits.Perm
        ((rootNode crit m true true p alloc).GetParticles.flatMap m.hitsOf) := by
  refine ⟨?_, (created_hits m _ _ _).2.1⟩
  unfold rootNode
  rw [Node.addChildren_particles, Node.create_particles]
  simp only [rootParticles, hs, hn, GetAllDescendentMCParticles4, Bool.and_self, Bool.not_true,
    Bool.and_false, Bool.false_eq_true, if_false, if_true, Bool.or_self, List.singleton_append]

/-- The constituents of the reconstructed root node of a track-like primary
with both fold flags set. -/
theorem recoRootNode_foldBoth_track (gc gi : Nat → HitType → List CaloHit)
    (p : ParticleFlowObject) (alloc : Nat) (hs : isShowerPfoPdg p.GetParticleId = false) :
    (recoRootNode gc gi true true p alloc).GetParticles
      = sortByAddress ((p :: p.downstreamOfKind DescendentKind.track).map
          ParticleFlowObject.addr) := by
  unfold recoRootNode
  rw [Node.addChildren_particles, Node.createReco_particles]
  simp only [recoRootParticles, hs, GetAllDownstreamPfos3, Bool.and_self, Bool.not_true,
    Bool.and_false, Bool.false_eq_true, if_false, if_true, List.nil_append]

/-- C37 as stated fails under the modelled walks: with both fold flags set the
root node of the pion primary (address 3, PDG 211) of `showerEvent` holds the
pion and its muon daughter (address 9) with the hits of both, and the root
node of the reconstructed muon (address 2) holds the muon and its pion
daughter (address 6). -/
theorem C37_counterexample :
    ((MCHierarchy.FillHierarchy exampleOwner showerEventPrimaryOf
        (fun p => decide (p.addr = 1)) {} (showerEvent :: showerEvent.descendents)
        showerEventHits true true 1000).1.m_rootNodes.map
      (fun n => (n.GetParticleId, n.GetParticles, n.GetCaloHits)))
      = [(13, [2], [200]), (211, [3, 9], [300, 900])]
    ∧ ((RecoHierarchy.FillHierarchy examplePfoHits examplePfoIsolatedHits examplePfoIsNeutrino
        examplePfoParent {} examplePfoList true true 2000).map
      (fun r => r.1.m_rootNodes.map (fun n => (n.GetParticleId, n.GetParticles))))
      = some [(13, [2, 6]), (-11, [3, 7])] := by
  constructor
  · decide!
  · decide!

/-- C37, amended (`GetAllDescendentMCParticles` with four arguments and
`GetAllDownstreamPfos` with three are modelled): with both fold flags set, in
hierarchies built into empty ones, the root node built for a track-like
primary (neither shower-type nor neutron-type; reconstructed: not shower-type)
has as constituents the primary together with the track particles of the
walk below it, in address order.  Each of these is neither shower-type nor
neutron-type, every track-like daughter of the primary is among them, and
the primary is the only constituent when none of its daughters is
track-like.  The hit list of the truth root is a rearrangement of the mapped
hits of its constituents. -/
theorem C37_track_primary_root (GetMainMCParticle : CaloHit → Option Nat)
    (GetPrimaryMCParticle : MCParticle → Option MCParticle) (IsNeutrino : MCParticle → Bool)
    (h : MCHierarchy) (mcParticleList : List MCParticle) (caloHitList : List CaloHit)
    (alloc : Nat)
    (GetCaloHits GetIsolatedCaloHits : Nat → HitType → List CaloHit)
    (IsNeutrinoPfo : ParticleFlowObject → Bool)
    (GetParentPfo : ParticleFlowObject → ParticleFlowObject)
    (hReco : RecoHierarchy) (pfoList : List ParticleFlowObject) (allocReco : Nat)
    (hempty : h.m_rootNodes = []) (hemptyReco : hReco.m_rootNodes = []) :
    List.Forall₂
      (fun p r =>
        isShowerPdg p.GetParticleId = false → isNeutronPdg p.GetParticleId = false →
          r.GetParticles = sortByAddress
              ((p :: p.descendentsOfKind [DescendentKind.track]).map MCParticle.addr)
          ∧ r.GetCaloHits.Perm (r.GetParticles.flatMap
              (MCToHitsMap.hitsOf (fillMcToHitsMap GetMainMCParticle caloHitList [])))
          ∧ (∀ q ∈ p.descendentsOfKind [DescendentKind.track],
              isShowerPdg q.GetParticleId = false ∧ isNeutronPdg q.GetParticleId = false)
          ∧ (∀ d ∈ p.GetDaughterList, isShowerPdg d.GetParticleId = false →
              isNeutronPdg d.GetParticleId = false → d.addr ∈ r.GetParticles)
          ∧ ((∀ d ∈ p.GetDaughterList,
                isShowerPdg d.GetParticleId = true ∨ isNeutronPdg d.GetParticleId = true) →
              r.GetParticles = [p.addr]))
      (retainedPrimaries h.m_recoCriteria
        (GetMCPrimaries GetPrimaryMCParticle IsNeutrino mcParticleList (none, [])).2)
      (MCHierarchy.FillHierarchy GetMainMCParticle GetPrimaryMCParticle IsNeutrino h
        mcParticleList caloHitList true true alloc).1.m_rootNodes
    ∧ ∀ result, RecoHierarchy.FillHierarchy GetCaloHits GetIsolatedCaloHits IsNeutrinoPfo
        GetParentPfo hReco pfoList true true allocReco = some result →
        ∃ pRoot primaries,
          GetRecoPrimaries IsNeutrinoPfo GetParentPfo pfoList [] = some (pRoot, primaries)
          ∧ List.Forall₂
              (fun p r =>
                isShowerPfoPdg p.GetParticleId = false →
                  r.GetParticles = sortByAddress
                      ((p :: p.downstreamOfKind DescendentKind.track).map
                        ParticleFlowObject.addr)
                  ∧ (∀ q ∈ p.downstreamOfKind DescendentKind.track,
                      isShowerPfoPdg q.GetParticleId = false)
                  ∧ ((∀ d ∈ p.GetDaughterPfoList, isShowerPfoPdg d.GetParticleId = true) →
                      r.GetParticles = [p.addr]))
              primaries result.1.m_rootNodes := by
  constructor
  · refine List.Forall₂.imp ?_ (FillHierarchy_roots GetMainMCParticle GetPrimaryMCParticle
      IsNeutrino h mcParticleList caloHitList true true alloc hempty)
    rintro p r ⟨a, rfl⟩ hs hn
    obtain ⟨h1, h2⟩ := rootNode_foldBoth_track h.m_recoCriteria
      (fillMcToHitsMap GetMainMCParticle caloHitList []) p a hs hn
    refine ⟨h1, h2, fun q hq => MCParticle.descendentsOfKind_track p q hq, ?_, ?_⟩
    · intro d hd hds hdn
      rw [h1]
      refine (sortByAddress_perm _).symm.subset ?_
      exact List.mem_map_of_mem _ (List.mem_cons_of_mem _
        (MCParticle.daughter_mem_descendentsOfKind p d hd hds hdn))
    · intro hall
      rw [h1, MCParticle.descendentsOfKind_track_nil p hall]
      rfl
  · intro result hres
    obtain ⟨pRoot, primaries, hprim, _, hroots⟩ := RecoFillHierarchy_roots GetCaloHits
      GetIsolatedCaloHits IsNeutrinoPfo GetParentPfo hReco pfoList true true allocReco
      hemptyReco result hres
    refine ⟨pRoot, primaries, hprim, List.Forall₂.imp ?_ hroots⟩
    rintro p r ⟨a, rfl⟩ hs
    have h1 := recoRootNode_foldBoth_track GetCaloHits GetIsolatedCaloHits p a hs
    refine ⟨h1, fun q hq => ParticleFlowObject.downstreamOfKind_track p q hq, ?_⟩
    intro hall
    rw [h1, ParticleFlowObject.downstreamOfKind_track_nil p hall]
    rfl

/-- The amended C37 on `showerEvent` and on the reconstructed example, built
into empty hierarchies. -/
theorem C37_witness :
    ((({} : MCHierarchy).m_rootNodes = [] ∧ ({} : RecoHierarchy).m_rootNodes = []))
    ∧ (List.Forall₂
        (fun p r =>
          isShowerPdg p.GetParticleId = false → isNeutronPdg p.GetParticleId = false →
            r.GetParticles = sortByAddress
                ((p :: p.descendentsOfKind [DescendentKind.track]).map MCParticle.addr)
            ∧ r.GetCaloHits.Perm (r.GetParticles.flatMap
                (MCToHitsMap.hitsOf (fillMcToHitsMap exampleOwner showerEventHits [])))
            ∧ (∀ q ∈ p.descendentsOfKind [DescendentKind.track],
                isShowerPdg q.GetParticleId = false ∧ isNeutronPdg q.GetParticleId = false)
            ∧ (∀ d ∈ p.GetDaughterList, isShowerPdg d.GetParticleId = false →
                isNeutronPdg d.GetParticleId = false → d.addr ∈ r.GetParticles)
            ∧ ((∀ d ∈ p.GetDaughterList,
                  isShowerPdg d.GetParticleId = true ∨ isNeutronPdg d.GetParticleId = true) →
                r.GetParticles = [p.addr]))
        (retainedPrimaries ({} : MCHierarchy).m_recoCriteria
          (GetMCPrimaries showerEventPrimaryOf (fun p => decide (p.addr = 1))
            (showerEvent :: showerEvent.descendents) (none, [])).2)
        (MCHierarchy.FillHierarchy exampleOwner showerEventPrimaryOf
          (fun p => decide (p.addr = 1)) {} (showerEvent :: showerEvent.descendents)
          showerEventHits true true 1000).1.m_rootNodes
      ∧ ∀ result, RecoHierarchy.FillHierarchy examplePfoHits examplePfoIsolatedHits
          examplePfoIsNeutrino examplePfoParent {} examplePfoList true true 2000 = some result →
          ∃ pRoot primaries,
            GetRecoPrimaries examplePfoIsNeutrino examplePfoParent examplePfoList []
              = some (pRoot, primaries)
            ∧ List.Forall₂
                (fun p r =>
                  isShowerPfoPdg p.GetParticleId = false →
                    r.GetParticles = sortByAddress
                        ((p :: p.downstreamOfKind DescendentKind.track).map
                          ParticleFlowObject.addr)
                    ∧ (∀ q ∈ p.downstreamOfKind DescendentKind.track,
                        isShowerPfoPdg q.GetParticleId = false)
                    ∧ ((∀ d ∈ p.GetDaughterPfoList, isShowerPfoPdg d.GetParticleId = true) →
                        r.GetParticles = [p.addr]))
                primaries result.1.m_rootNodes)
    ∧ ((retainedPrimaries ({} : MCHierarchy).m_recoCriteria
          (GetMCPrimaries showerEventPrimaryOf (fun p => decide (p.addr = 1))
            (showerEvent :: showerEvent.descendents) (none, [])).2).map
        (fun p => (p.addr, (p.descendentsOfKind [DescendentKind.track]).map MCParticle.addr)))
        = [(2, []), (3, [9])]
    ∧ (RecoHierarchy.FillHierarchy examplePfoHits examplePfoIsolatedHits examplePfoIsNeutrino
          examplePfoParent {} examplePfoList true true 2000).isSome = true :=
  ⟨⟨rfl, rfl⟩,
    C37_track_primary_root exampleOwner showerEventPrimaryOf
      (fun p => decide (p.addr = 1)) {} (showerEvent :: showerEvent.descendents)
      showerEventHits 1000 examplePfoHits examplePfoIsolatedHits examplePfoIsNeutrino
      examplePfoParent {} examplePfoList 2000 rfl rfl,
    by decide!, by decide!⟩

/-! ## Running minimum and maximum of the hit coordinates -/

theorem le_foldl_min_iff (xs : List ℚ) :
    ∀ a c : ℚ, c ≤ xs.foldl min a ↔ c ≤ a ∧ ∀ x ∈ xs, c ≤ x := by
  induction xs with
  | nil => intro a c; simp
  | cons x rest ih =>
    intro a c
    rw [List.foldl_cons, ih, le_min_iff]
    constructor
    · rintro ⟨⟨h1, h2⟩, h3⟩
      refine ⟨h1, ?_⟩
      intro y hy
      rcases List.mem_cons.mp hy with h | h
      · rw [h]; exact h2
      · exact h3 y h
    · rintro ⟨h1, h2⟩
      exact ⟨⟨h1, h2 x (List.mem_cons_self _ _)⟩, fun y hy => h2 y (List.mem_cons_of_mem _ hy)⟩

theorem foldl_max_le_iff (xs : List ℚ) :
    ∀ a c : ℚ, xs.foldl max a ≤ c ↔ a ≤ c ∧ ∀ x ∈ xs, x ≤ c := by
  induction xs with
  | nil => intro a c; simp
  | cons x rest ih =>
    intro a c
    rw [List.foldl_cons, ih, max_le_iff]
    constructor
    · rintro ⟨⟨h1, h2⟩, h3⟩
      refine ⟨h1, ?_⟩
      intro y hy
      rcases List.mem_cons.mp hy with h | h
      · rw [h]; exact h2
      · exact h3 y h
    · rintro ⟨h1, h2⟩
      exact ⟨⟨h1, h2 x (List.mem_cons_self _ _)⟩, fun y hy => h2 y (List.mem_cons_of_mem _ hy)⟩

theorem foldl_min_mem (xs : List ℚ) :
    ∀ a : ℚ, xs.foldl min a = a ∨ xs.foldl min a ∈ xs := by
  induction xs with
  | nil => intro a; exact Or.inl rfl
  | cons x rest ih =>
    intro a
    rw [List.foldl_cons]
    rcases ih (min a x) with h | h
    · rw [h]
      rcases min_choice a x with h1 | h1
      · exact Or.inl h1
      · exact Or.inr (by rw [h1]; exact List.mem_cons_self _ _)
    · exact Or.inr (List.mem_cons_of_mem _ h)

theorem foldl_max_mem (xs : List ℚ) :
    ∀ a : ℚ, xs.foldl max a = a ∨ xs.foldl max a ∈ xs := by
  induction xs with
  | nil => intro a; exact Or.inl rfl
  | cons x rest ih =>
    intro a
    rw [List.foldl_cons]
    rcases ih (max a x) with h | h
    · rw [h]
      rcases max_choice a x with h1 | h1
      · exact Or.inl h1
      · exact Or.inr (by rw [h1]; exact List.mem_cons_self _ _)
    · exact Or.inr (List.mem_cons_of_mem _ h)

/-- The update `if x < m then x else m` of a running minimum. -/
theorem ite_lt_eq_min (x m : ℚ) : (if x < m then x else m) = min m x := by
  by_cases h : x < m
  · rw [if_pos h, min_eq_right (le_of_lt h)]
  · rw [if_neg h, min_eq_left (not_lt.mp h)]

/-- The update `if x > m then x else m` of a running maximum. -/
theorem ite_gt_eq_max (x m : ℚ) : (if x > m then x else m) = max m x := by
  by_cases h : x > m
  · rw [if_pos h, max_eq_right (le_of_lt h)]
  · rw [if_neg h, max_eq_left (not_lt.mp h)]

/-- The loop of `GetExtremalCoordinatesXZ` computes the running minimum and
maximum of the chosen coordinate. -/
theorem extremalLoop_eq (useX : Bool) (hits : List CartesianVector) :
    ∀ mn mx : ℚ, extremalLoop useX hits mn mx
      = ((hits.map (fun hit => if useX then hit.x else hit.z)).foldl min mn,
          (hits.map (fun hit => if useX then hit.x else hit.z)).foldl max mx) := by
  induction hits with
  | nil => intro mn mx; rfl
  | cons hit rest ih =>
    intro mn mx
    simp only [extremalLoop, List.map_cons, List.foldl_cons]
    rw [ih, ite_lt_eq_min, ite_gt_eq_max]

/-- The query for the extremal coordinates of a cluster with a hit returns the
minimum and the maximum along with `FLT_MAX` and `-FLT_MAX`. -/
theorem GetExtremalCoordinatesXZ_minmax (c : Cluster) (useX : Bool) (h : c.hitPositions ≠ []) :
    GetExtremalCoordinatesXZ c useX
      = Except.ok ((c.hitPositions.map (fun hit => if useX then hit.x else hit.z)).foldl min
            FLT_MAX,
          (c.hitPositions.map (fun hit => if useX then hit.x else hit.z)).foldl max
            (-FLT_MAX)) := by
  unfold GetExtremalCoordinatesXZ
  simp only
  rw [extremalLoop_eq]
  obtain ⟨hit, rest, hc⟩ := List.exists_cons_of_ne_nil h
  have hmem : (if useX then hit.x else hit.z)
      ∈ c.hitPositions.map (fun hit => if useX then hit.x else hit.z) := by
    rw [hc]; exact List.mem_map_of_mem _ (List.mem_cons_self _ _)
  have h1 := ((le_foldl_min_iff _ FLT_MAX _).mp (le_refl _)).2 _ hmem
  have h2 := ((foldl_max_le_iff _ (-FLT_MAX) _).mp (le_refl _)).2 _ hmem
  rw [if_neg (not_lt.mpr (le_trans h1 h2))]

/-- The value of a successful query for the extremal coordinates. -/
theorem GetExtremalCoordinatesXZ_value (c : Cluster) (useX : Bool) (r : ℚ × ℚ)
    (h : GetExtremalCoordinatesXZ c useX = Except.ok r) :
    r = ((c.hitPositions.map (fun hit => if useX then hit.x else hit.z)).foldl min FLT_MAX,
          (c.hitPositions.map (fun hit => if useX then hit.x else hit.z)).foldl max
            (-FLT_MAX)) := by
  have hne := GetExtremalCoordinatesXZ_hits c useX r h
  rw [GetExtremalCoordinatesXZ_minmax c useX hne] at h
  cases h
  rfl

/-! ## The associated clusters of a seed when no projection is found -/

/-- Every exception of `GetProjectedCoordinateX` is `STATUS_CODE_NOT_FOUND`. -/
theorem GetProjectedCoordinateX_error (alg : TransverseAssociationAlgorithm) (l : Cluster)
    (z : ℚ) (e : StatusCode) (h : GetProjectedCoordinateX alg l z = Except.error e) :
    e = StatusCode.STATUS_CODE_NOT_FOUND := by
  unfold GetProjectedCoordinateX at h
  simp only at h
  split_ifs at h
  · cases h; rfl
  · cases hp : projectionLoop z l.hitPositions alg.m_maxLongitudinalDisplacement none with
    | none => rw [hp] at h; cases h; rfl
    | some x => rw [hp] at h; cases h

/-- A failed projection leaves the window as it is. -/
theorem updateWindow_failed (alg : TransverseAssociationAlgorithm) (l : Cluster)
    (z clusterMinX clusterMaxX : ℚ) (window : ℚ × ℚ)
    (h : (GetProjectedCoordinateX alg l z).toOption = none) :
    updateWindow alg l z clusterMinX clusterMaxX window = window := by
  unfold updateWindow
  cases hp : GetProjectedCoordinateX alg l z with
  | error e => rfl
  | ok x => rw [hp] at h; cases h

/-- The window is left as it is when every projection fails. -/
theorem windowLoop_failed (alg : TransverseAssociationAlgorithm) (pCluster : Cluster)
    (clusterMinX clusterMaxX clusterMinZ clusterMaxZ : ℚ) (lv : List Cluster)
    (hproj : ∀ l ∈ lv, pCluster.addr ≠ l.addr →
      (GetProjectedCoordinateX alg l clusterMinZ).toOption = none
      ∧ (GetProjectedCoordinateX alg l clusterMaxZ).toOption = none) :
    ∀ window : ℚ × ℚ,
      windowLoop alg pCluster clusterMinX clusterMaxX clusterMinZ clusterMaxZ lv window
        = window := by
  induction lv with
  | nil => intro window; rfl
  | cons l rest ih =>
    intro window
    have hrest := ih (fun l' hl' => hproj l' (List.mem_cons_of_mem _ hl'))
    simp only [windowLoop]
    by_cases h1 : pCluster.addr = l.addr
    · rw [if_pos h1]; exact hrest window
    · rw [if_neg h1]
      obtain ⟨h2, h3⟩ := hproj l (List.mem_cons_self _ _) h1
      rw [updateWindow_failed alg l clusterMinZ _ _ _ h2,
        updateWindow_failed alg l clusterMaxZ _ _ _ h3]
      exact hrest window

/-- With the unconstrained window the loop over the transverse clusters keeps
the clusters other than the seed that are associated with it. -/
theorem associatedLoop_unconstrained (alg : TransverseAssociationAlgorithm) (pCluster : Cluster)
    (tv : List Cluster) (hhits : ∀ t ∈ tv, pCluster.addr ≠ t.addr → t.hitPositions ≠ []) :
    ∀ av : List Cluster,
      associatedLoop alg pCluster (-FLT_MAX) FLT_MAX tv av
        = Except.ok (av ++ tv.filter (fun t =>
            decide (pCluster.addr ≠ t.addr) && IsTransverseAssociatedClusters alg pCluster t)) := by
  induction tv with
  | nil => intro av; simp [associatedLoop]
  | cons t rest ih =>
    intro av
    have hrest := ih (fun t' ht' => hhits t' (List.mem_cons_of_mem _ ht'))
    simp only [associatedLoop]
    by_cases h1 : pCluster.addr = t.addr
    · rw [if_pos h1, hrest, List.filter_cons_of_neg (by simp [h1])]
    · rw [if_neg h1]
      have hne := hhits t (List.mem_cons_self _ _) h1
      have hx : GetExtremalCoordinatesX t = _ := GetExtremalCoordinatesXZ_minmax t true hne
      rw [hx]
      simp only
      have hmin := ((le_foldl_min_iff
        (t.hitPositions.map (fun hit => if true = true then hit.x else hit.z)) FLT_MAX _).mp
        (le_refl _)).1
      have hmax := ((foldl_max_le_iff
        (t.hitPositions.map (fun hit => if true = true then hit.x else hit.z)) (-FLT_MAX) _).mp
        (le_refl _)).1
      rw [if_neg (by
        rintro (h | h)
        · exact absurd hmin (not_le.mpr h)
        · exact absurd hmax (not_le.mpr h))]
      by_cases h2 : IsTransverseAssociatedClusters alg pCluster t = true
      · rw [if_pos h2, hrest, List.filter_cons_of_pos (by simp [h1, h2]), List.append_assoc]
        rfl
      · rw [if_neg h2, hrest, List.filter_cons_of_neg (by simp [h2])]

/-- The loop over the transverse clusters throws when a cluster other than the
seed has no hits. -/
theorem associatedLoop_hitless (alg : TransverseAssociationAlgorithm) (pCluster : Cluster)
    (windowMinX windowMaxX : ℚ) (t : Cluster) (hne : pCluster.addr ≠ t.addr)
    (ht : t.hitPositions = []) (tv : List Cluster) :
    t ∈ tv → ∀ av : List Cluster,
      associatedLoop alg pCluster windowMinX windowMaxX tv av
        = Except.error StatusCode.STATUS_CODE_FAILURE := by
  induction tv with
  | nil => intro hmem; exact absurd hmem (List.not_mem_nil t)
  | cons p rest ih =>
    intro hmem av
    simp only [associatedLoop]
    by_cases h1 : pCluster.addr = p.addr
    · rw [if_pos h1]
      rcases List.mem_cons.mp hmem with h | h
      · rw [h] at hne; exact absurd h1 hne
      · exact ih h av
    · rw [if_neg h1]
      cases hx : GetExtremalCoordinatesX p with
      | error e => rw [GetExtremalCoordinatesXZ_error p true e hx]
      | ok r =>
        have hp := GetExtremalCoordinatesXZ_hits p true r hx
        have hrest : t ∈ rest := by
          rcases List.mem_cons.mp hmem with h | h
          · rw [h] at ht; exact absurd ht hp
          · exact h
        simp only
        split_ifs
        · exact ih hrest _
        · exact ih hrest _
        · exact ih hrest _

/-- C36 as stated fails: with an empty longitudinal vector the call fails with
`STATUS_CODE_FAILURE` for a seed without hits, and for a seed with hits when
another transverse cluster has no hits. -/
theorem C36_counterexample :
    GetAssociatedClusters defaultSettings emptySeed [emptySeed] [] []
      = Except.error StatusCode.STATUS_CODE_FAILURE
    ∧ GetAssociatedClusters defaultSettings (seedAt 1 0) [seedAt 1 0, emptySeed] [] []
      = Except.error StatusCode.STATUS_CODE_FAILURE := by
  constructor
  · exact GetAssociatedClusters_empty defaultSettings emptySeed [emptySeed] [] [] rfl
  · unfold GetAssociatedClusters
    have hx : GetExtremalCoordinatesX (seedAt 1 0) = _ :=
      GetExtremalCoordinatesXZ_minmax (seedAt 1 0) true (by simp [seedAt])
    have hz : GetExtremalCoordinatesZ (seedAt 1 0) = _ :=
      GetExtremalCoordinatesXZ_minmax (seedAt 1 0) false (by simp [seedAt])
    rw [hx, hz]
    exact associatedLoop_hitless defaultSettings (seedAt 1 0) _ _ emptySeed (by decide) rfl _
      (List.mem_cons_of_mem _ (List.mem_cons_self _ _)) []

/-- C36, amended: for a seed whose extremal Z coordinates are found (it has a
hit), when every projection of every longitudinal cluster other than the seed
to the minimum and to the maximum Z of the seed fails (in particular when the
longitudinal vector is empty), `GetAssociatedClusters` returns normally
provided every transverse cluster other than the seed has a hit, and it
appends to the associated vector exactly the transverse clusters other than
the seed that `IsTransverseAssociated` accepts for the seed, in input order;
none of them is the seed.  When a transverse cluster other than the seed has
no hits the call fails with `STATUS_CODE_FAILURE`.  Every failure of
`GetProjectedCoordinateX` is `STATUS_CODE_NOT_FOUND`. -/
theorem C36_projection_failure_non_fatal (alg : TransverseAssociationAlgorithm)
    (pCluster : Cluster) (transverseVector longitudinalVector associatedVector : List Cluster)
    (zs : ℚ × ℚ) (hz : GetExtremalCoordinatesZ pCluster = Except.ok zs)
    (hproj : ∀ l ∈ longitudinalVector, pCluster.addr ≠ l.addr →
      (GetProjectedCoordinateX alg l zs.1).toOption = none
      ∧ (GetProjectedCoordinateX alg l zs.2).toOption = none) :
    ((∀ t ∈ transverseVector, pCluster.addr ≠ t.addr → t.hitPositions ≠ []) →
      GetAssociatedClusters alg pCluster transverseVector longitudinalVector associatedVector
        = Except.ok (associatedVector ++ transverseVector.filter (fun t =>
            decide (pCluster.addr ≠ t.addr)
              && IsTransverseAssociatedClusters alg pCluster t)))
    ∧ (∀ t ∈ transverseVector.filter (fun t =>
          decide (pCluster.addr ≠ t.addr) && IsTransverseAssociatedClusters alg pCluster t),
        t.addr ≠ pCluster.addr ∧ t ∈ transverseVector
          ∧ IsTransverseAssociatedClusters alg pCluster t = true)
    ∧ ((∃ t ∈ transverseVector, pCluster.addr ≠ t.addr ∧ t.hitPositions = []) →
        GetAssociatedClusters alg pCluster transverseVector longitudinalVector
          associatedVector = Except.error StatusCode.STATUS_CODE_FAILURE)
    ∧ (∀ (l : Cluster) (z : ℚ) (e : StatusCode),
        GetProjectedCoordinateX alg l z = Except.error e →
          e = StatusCode.STATUS_CODE_NOT_FOUND) := by
  have hne : pCluster.hitPositions ≠ [] := GetExtremalCoordinatesXZ_hits pCluster false zs hz
  have hx : GetExtremalCoordinatesX pCluster = _ :=
    GetExtremalCoordinatesXZ_minmax pCluster true hne
  refine ⟨?_, ?_, ?_, fun l z e h => GetProjectedCoordinateX_error alg l z e h⟩
  · intro hhits
    unfold GetAssociatedClusters
    rw [hx, hz]
    simp only
    rw [windowLoop_failed alg pCluster _ _ zs.1 zs.2 longitudinalVector hproj]
    exact associatedLoop_unconstrained alg pCluster transverseVector hhits associatedVector
  · intro t ht
    obtain ⟨h1, h2⟩ := List.mem_filter.mp ht
    simp only [Bool.and_eq_true, decide_eq_true_eq] at h2
    exact ⟨fun h => h2.1 h.symm, h1, h2.2⟩
  · rintro ⟨t, ht, hta, hth⟩
    unfold GetAssociatedClusters
    rw [hx, hz]
    exact associatedLoop_hitless alg pCluster _ _ t hta hth transverseVector ht associatedVector

/-- The amended C36 for the seed at `x = 0` among three seeds, with a
longitudinal cluster too far in Z for any projection: the seed at `x = 1` is
the one associated cluster. -/
theorem C36_witness :
    (GetExtremalCoordinatesZ (seedAt 1 0)).toOption = some (0, 0)
    ∧ (∀ l ∈ [farLongitudinal], (seedAt 1 0).addr ≠ l.addr →
        (GetProjectedCoordinateX defaultSettings l ((0 : ℚ), (0 : ℚ)).1).toOption = none
        ∧ (GetProjectedCoordinateX defaultSettings l ((0 : ℚ), (0 : ℚ)).2).toOption = none)
    ∧ (∀ t ∈ [seedAt 1 0, seedAt 2 1, seedAt 3 10], (seedAt 1 0).addr ≠ t.addr →
        t.hitPositions ≠ [])
    ∧ (GetAssociatedClusters defaultSettings (seedAt 1 0)
          [seedAt 1 0, seedAt 2 1, seedAt 3 10] [farLongitudinal] []).toOption.map
        (fun l => l.map Cluster.addr) = some [2] := by
  have hz : GetExtremalCoordinatesZ (seedAt 1 0) = Except.ok (0, 0) := by
    have h := GetExtremalCoordinatesXZ_minmax (seedAt 1 0) false (by simp [seedAt])
    rw [GetExtremalCoordinatesZ, h]
    congr 1
  have hproj : ∀ l ∈ [farLongitudinal], (seedAt 1 0).addr ≠ l.addr →
      (GetProjectedCoordinateX defaultSettings l ((0 : ℚ), (0 : ℚ)).1).toOption = none
      ∧ (GetProjectedCoordinateX defaultSettings l ((0 : ℚ), (0 : ℚ)).2).toOption = none := by
    decide!
  have hhits : ∀ t ∈ [seedAt 1 0, seedAt 2 1, seedAt 3 10], (seedAt 1 0).addr ≠ t.addr →
      t.hitPositions ≠ [] := by
    intro t ht _
    simp only [List.mem_cons, List.mem_singleton, List.not_mem_nil, or_false] at ht
    rcases ht with h | h | h <;> rw [h] <;> simp [seedAt]
  refine ⟨by rw [hz]; rfl, hproj, hhits, ?_⟩
  rw [(C36_projection_failure_non_fatal defaultSettings (seedAt 1 0)
    [seedAt 1 0, seedAt 2 1, seedAt 3 10] [farLongitudinal] [] (0, 0) hz hproj).1 hhits]
  decide!

/-! ## The loop of `FillTransverseClusterList` -/

theorem associatedLoop_ok (alg : TransverseAssociationAlgorithm) (pCluster : Cluster)
    (windowMinX windowMaxX : ℚ) (tv : List Cluster)
    (hhits : ∀ t ∈ tv, t.hitPositions ≠ []) :
    ∀ av : List Cluster, ∃ r, associatedLoop alg pCluster windowMinX windowMaxX tv av
      = Except.ok r := by
  induction tv with
  | nil => intro av; exact ⟨av, rfl⟩
  | cons t rest ih =>
    intro av
    have hrest := ih (fun t' ht' => hhits t' (List.mem_cons_of_mem _ ht'))
    simp only [associatedLoop]
    by_cases h1 : pCluster.addr = t.addr
    · rw [if_pos h1]; exact hrest av
    · rw [if_neg h1]
      have hx : GetExtremalCoordinatesX t = _ :=
        GetExtremalCoordinatesXZ_minmax t true (hhits t (List.mem_cons_self _ _))
      rw [hx]
      simp only
      split_ifs <;> exact hrest _

theorem associatedLoop_subset (alg : TransverseAssociationAlgorithm) (pCluster : Cluster)
    (windowMinX windowMaxX : ℚ) (tv : List Cluster) :
    ∀ av r : List Cluster,
      associatedLoop alg pCluster windowMinX windowMaxX tv av = Except.ok r →
      ∀ c ∈ r, c ∈ av ∨ c ∈ tv := by
  induction tv with
  | nil =>
    intro av r h c hc
    simp only [associatedLoop] at h
    cases h
    exact Or.inl hc
  | cons t rest ih =>
    intro av r h c hc
    simp only [associatedLoop] at h
    by_cases h1 : pCluster.addr = t.addr
    · rw [if_pos h1] at h
      exact (ih av r h c hc).imp id (List.mem_cons_of_mem _)
    · rw [if_neg h1] at h
      cases hx : GetExtremalCoordinatesX t with
      | error e => rw [hx] at h; cases h
      | ok rx =>
        rw [hx] at h
        simp only at h
        split_ifs at h
        · exact (ih av r h c hc).imp id (List.mem_cons_of_mem _)
        · rcases ih _ r h c hc with h2 | h2
          · rcases List.mem_append.mp h2 with h3 | h3
            · exact Or.inl h3
            · rw [List.mem_singleton.mp h3]; exact Or.inr (List.mem_cons_self _ _)
          · exact Or.inr (List.mem_cons_of_mem _ h2)
        · exact (ih av r h c hc).imp id (List.mem_cons_of_mem _)

/-- The query for the associated clusters returns when the seed and the
transverse clusters have hits. -/
theorem GetAssociatedClusters_ok (alg : TransverseAssociationAlgorithm) (pCluster : Cluster)
    (tv lv av : List Cluster) (hseed : pCluster.hitPositions ≠ [])
    (hhits : ∀ t ∈ tv, t.hitPositions ≠ []) :
    ∃ r, GetAssociatedClusters alg pCluster tv lv av = Except.ok r := by
  unfold GetAssociatedClusters
  have hx : GetExtremalCoordinatesX pCluster = _ :=
    GetExtremalCoordinatesXZ_minmax pCluster true hseed
  have hz : GetExtremalCoordinatesZ pCluster = _ :=
    GetExtremalCoordinatesXZ_minmax pCluster false hseed
  rw [hx, hz]
  exact associatedLoop_ok alg pCluster _ _ tv hhits av

/-- The associated clusters of a seed, started empty, are transverse clusters. -/
theorem GetAssociatedClusters_subset (alg : TransverseAssociationAlgorithm) (pCluster : Cluster)
    (tv lv r : List Cluster) (h : GetAssociatedClusters alg pCluster tv lv [] = Except.ok r) :
    ∀ c ∈ r, c ∈ tv := by
  unfold GetAssociatedClusters at h
  cases hx : GetExtremalCoordinatesX pCluster with
  | error e => rw [hx] at h; cases h
  | ok rx =>
    rw [hx] at h
    simp only at h
    cases hz : GetExtremalCoordinatesZ pCluster with
    | error e => rw [hz] at h; cases h
    | ok rz =>
      rw [hz] at h
      simp only at h
      intro c hc
      rcases associatedLoop_subset alg pCluster _ _ tv [] r h c hc with h1 | h1
      · exact absurd h1 (List.not_mem_nil c)
      · exact h1

theorem transverseLengthLoop_ok (l : List Cluster) (hhits : ∀ t ∈ l, t.hitPositions ≠ []) :
    ∀ overall : ℚ × ℚ, ∃ r, transverseLengthLoop l overall = Except.ok r := by
  induction l with
  | nil => intro o; exact ⟨o, rfl⟩
  | cons t rest ih =>
    intro o
    simp only [transverseLengthLoop]
    have hx : GetExtremalCoordinatesX t = _ :=
      GetExtremalCoordinatesXZ_minmax t true (hhits t (List.mem_cons_self _ _))
    rw [hx]
    exact ih (fun t' ht' => hhits t' (List.mem_cons_of_mem _ ht')) _

/-- The transverse length is computed when the seed and the associated
clusters have hits. -/
theorem GetTransverseLength_ok (pCentralCluster : Cluster) (associatedClusters : List Cluster)
    (hseed : pCentralCluster.hitPositions ≠ [])
    (hhits : ∀ t ∈ associatedClusters, t.hitPositions ≠ []) :
    ∃ len, GetTransverseLength pCentralCluster associatedClusters = Except.ok len := by
  unfold GetTransverseLength
  obtain ⟨r0, hr0⟩ : ∃ r0, GetExtremalCoordinatesX pCentralCluster = Except.ok r0 :=
    ⟨_, GetExtremalCoordinatesXZ_minmax pCentralCluster true hseed⟩
  obtain ⟨r, hr⟩ := transverseLengthLoop_ok associatedClusters hhits r0
  rw [hr0]
  simp only
  rw [hr]
  exact ⟨_, rfl⟩

/-- The seed and the associated clusters that the constructor stores. -/
theorem LArTransverseCluster.create_fields (sqrt : ℚ → ℚ) (pSeedCluster : Cluster)
    (associatedClusters : List Cluster) (t : LArTransverseCluster)
    (h : LArTransverseCluster.create sqrt pSeedCluster associatedClusters = Except.ok t) :
    t.m_pSeedCluster = pSeedCluster ∧ t.m_associatedClusters = associatedClusters := by
  unfold LArTransverseCluster.create at h
  simp only at h
  split_ifs at h
  · cases h; exact ⟨rfl, rfl⟩
  · cases h; exact ⟨rfl, rfl⟩

/-- The test of the loop body on a seed whose transverse length is computed. -/
theorem reachesMinTransverseDisplacement_iff (alg : TransverseAssociationAlgorithm)
    (tv lv : List Cluster) (c : Cluster) (len : ℚ)
    (h : combinedExtent alg tv lv c = Except.ok len) :
    reachesMinTransverseDisplacement alg tv lv c = true
      ↔ alg.m_minTransverseDisplacement ≤ len := by
  unfold reachesMinTransverseDisplacement
  rw [h]
  simp

/-- The transverse clusters that the loop of `FillTransverseClusterList` appends:
one for each seed still to be visited that passes the test, in order, built
by the constructor from the seed and its associated clusters. -/
theorem fillTransverseLoop_spec (alg : TransverseAssociationAlgorithm) (sqrt : ℚ → ℚ)
    (tv lv : List Cluster) (l : List Cluster) :
    ∀ (tcl out : List LArTransverseCluster),
      fillTransverseLoop alg sqrt tv lv l tcl = Except.ok out →
      ∃ new, out = tcl ++ new
        ∧ List.Forall₂
            (fun c t => ∃ assoc len,
              GetAssociatedClusters alg c tv lv [] = Except.ok assoc
              ∧ GetTransverseLength c assoc = Except.ok len
              ∧ alg.m_minTransverseDisplacement ≤ len
              ∧ LArTransverseCluster.create sqrt c assoc = Except.ok t)
            (l.filter (reachesMinTransverseDisplacement alg tv lv)) new := by
  induction l with
  | nil =>
    intro tcl out h
    simp only [fillTransverseLoop] at h
    cases h
    exact ⟨[], (List.append_nil _).symm, List.Forall₂.nil⟩
  | cons c rest ih =>
    intro tcl out h
    simp only [fillTransverseLoop] at h
    cases ha : GetAssociatedClusters alg c tv lv [] with
    | error e => rw [ha] at h; cases h
    | ok assoc =>
      rw [ha] at h
      simp only at h
      cases hl : GetTransverseLength c assoc with
      | error e => rw [hl] at h; cases h
      | ok len =>
        rw [hl] at h
        simp only at h
        have hext : combinedExtent alg tv lv c = Except.ok len := by
          unfold combinedExtent
          rw [ha]
          exact hl
        have hiff := reachesMinTransverseDisplacement_iff alg tv lv c len hext
        by_cases hlt : len < alg.m_minTransverseDisplacement
        · rw [if_pos hlt] at h
          obtain ⟨new, hnew, hall⟩ := ih tcl out h
          refine ⟨new, hnew, ?_⟩
          rw [List.filter_cons_of_neg (by rw [hiff]; exact not_le.mpr hlt)]
          exact hall
        · rw [if_neg hlt] at h
          cases hc : LArTransverseCluster.create sqrt c assoc with
          | error e => rw [hc] at h; cases h
          | ok t =>
            rw [hc] at h
            simp only at h
            obtain ⟨new, hnew, hall⟩ := ih _ out h
            refine ⟨t :: new, by rw [hnew, List.append_assoc]; rfl, ?_⟩
            rw [List.filter_cons_of_pos (hiff.mpr (not_lt.mp hlt))]
            exact List.Forall₂.cons ⟨assoc, len, ha, hl, not_lt.mp hlt, hc⟩ hall

/-- The loop of `FillTransverseClusterList` returns when every transverse
cluster has a hit. -/
theorem fillTransverseLoop_ok (alg : TransverseAssociationAlgorithm) (sqrt : ℚ → ℚ)
    (tv lv : List Cluster) (hhits : ∀ t ∈ tv, t.hitPositions ≠ []) (l : List Cluster) :
    (∀ c ∈ l, c ∈ tv) → ∀ tcl : List LArTransverseCluster,
      ∃ out, fillTransverseLoop alg sqrt tv lv l tcl = Except.ok out := by
  induction l with
  | nil => intro _ tcl; exact ⟨tcl, rfl⟩
  | cons c rest ih =>
    intro hsub tcl
    have hrest := ih (fun c' hc' => hsub c' (List.mem_cons_of_mem _ hc'))
    have hc := hhits c (hsub c (List.mem_cons_self _ _))
    obtain ⟨assoc, ha⟩ := GetAssociatedClusters_ok alg c tv lv [] hc hhits
    obtain ⟨len, hl⟩ := GetTransverseLength_ok c assoc hc
      (fun t ht => hhits t (GetAssociatedClusters_subset alg c tv lv assoc ha t ht))
    obtain ⟨t, ht⟩ := LArTransverseCluster.create_ok sqrt c assoc hc
    simp only [fillTransverseLoop]
    rw [ha]
    simp only
    rw [hl]
    simp only
    rw [ht]
    simp only
    split_ifs
    · exact hrest _
    · exact hrest _

/-- The transverse length of a seed is computed when every transverse cluster
has a hit. -/
theorem combinedExtent_ok (alg : TransverseAssociationAlgorithm) (tv lv : List Cluster)
    (hhits : ∀ t ∈ tv, t.hitPositions ≠ []) (c : Cluster) (hc : c ∈ tv) :
    ∃ len, combinedExtent alg tv lv c = Except.ok len := by
  obtain ⟨assoc, ha⟩ := GetAssociatedClusters_ok alg c tv lv [] (hhits c hc) hhits
  obtain ⟨len, hl⟩ := GetTransverseLength_ok c assoc (hhits c hc)
    (fun t ht => hhits t (GetAssociatedClusters_subset alg c tv lv assoc ha t ht))
  refine ⟨len, ?_⟩
  unfold combinedExtent
  rw [ha]
  exact hl

/-! ## The value of `GetTransverseLength` -/

theorem foldl_min_init (xs : List ℚ) (a b : ℚ) (h : a ≤ b) :
    min a (xs.foldl min b) = xs.foldl min a := by
  refine eq_of_forall_le_iff (fun c => ?_)
  rw [le_min_iff, le_foldl_min_iff, le_foldl_min_iff]
  constructor
  · rintro ⟨h1, _, h3⟩; exact ⟨h1, h3⟩
  · rintro ⟨h1, h3⟩; exact ⟨h1, le_trans h1 h, h3⟩

theorem foldl_max_init (xs : List ℚ) (a b : ℚ) (h : b ≤ a) :
    max a (xs.foldl max b) = xs.foldl max a := by
  refine eq_of_forall_ge_iff (fun c => ?_)
  rw [max_le_iff, foldl_max_le_iff, foldl_max_le_iff]
  constructor
  · rintro ⟨h1, _, h3⟩; exact ⟨h1, h3⟩
  · rintro ⟨h1, h3⟩; exact ⟨h1, le_trans h h1, h3⟩

theorem foldl_min_le_init (xs : List ℚ) (a : ℚ) : xs.foldl min a ≤ a :=
  ((le_foldl_min_iff xs a _).mp (le_refl _)).1

theorem init_le_foldl_max (xs : List ℚ) (a : ℚ) : a ≤ xs.foldl max a :=
  ((foldl_max_le_iff xs a _).mp (le_refl _)).1

/-- The X coordinates of the hits of a list of clusters, in order. -/
theorem hitsX_cons (t : Cluster) (l : List Cluster) :
    ((t :: l).flatMap Cluster.hitPositions).map (fun hit => hit.x)
      = t.hitPositions.map (fun hit => hit.x)
        ++ (l.flatMap Cluster.hitPositions).map (fun hit => hit.x) := by
  rw [List.flatMap_cons, List.map_append]

/-- The loop of `GetTransverseLength` extends the running minimum and maximum
by the X coordinates of the hits of the associated clusters. -/
theorem transverseLengthLoop_value (l : List Cluster) :
    ∀ overall r : ℚ × ℚ, overall.1 ≤ FLT_MAX → -FLT_MAX ≤ overall.2 →
      transverseLengthLoop l overall = Except.ok r →
      r = (((l.flatMap Cluster.hitPositions).map (fun hit => hit.x)).foldl min overall.1,
            ((l.flatMap Cluster.hitPositions).map (fun hit => hit.x)).foldl max overall.2) := by
  induction l with
  | nil =>
    intro o r _ _ h
    simp only [transverseLengthLoop] at h
    cases h
    rfl
  | cons t rest ih =>
    intro o r h1 h2 h
    simp only [transverseLengthLoop] at h
    cases hx : GetExtremalCoordinatesX t with
    | error e => rw [hx] at h; cases h
    | ok rx =>
      have hv := GetExtremalCoordinatesXZ_value t true rx hx
      simp only [if_true] at hv
      rw [hx] at h
      simp only at h
      rw [ite_lt_eq_min, ite_gt_eq_max] at h
      have h3 := ih _ r (le_trans (min_le_left _ _) h1) (le_trans h2 (le_max_left _ _)) h
      rw [h3, hitsX_cons, List.foldl_append, List.foldl_append, hv]
      simp only
      rw [foldl_min_init _ _ _ h1, foldl_max_init _ _ _ h2]

/-- The value of `GetTransverseLength`: the running maximum minus the running
minimum, started at `-FLT_MAX` and `FLT_MAX`, of the X coordinates of the hits
of the seed and of the associated clusters. -/
theorem GetTransverseLength_value (pCentralCluster : Cluster) (associatedClusters : List Cluster)
    (len : ℚ) (h : GetTransverseLength pCentralCluster associatedClusters = Except.ok len) :
    len = (((pCentralCluster :: associatedClusters).flatMap Cluster.hitPositions).map
            (fun hit => hit.x)).foldl max (-FLT_MAX)
          - (((pCentralCluster :: associatedClusters).flatMap Cluster.hitPositions).map
            (fun hit => hit.x)).foldl min FLT_MAX := by
  unfold GetTransverseLength at h
  cases hx : GetExtremalCoordinatesX pCentralCluster with
  | error e => rw [hx] at h; cases h
  | ok rx =>
    have hv := GetExtremalCoordinatesXZ_value pCentralCluster true rx hx
    simp only [if_true] at hv
    rw [hx] at h
    simp only at h
    cases hl : transverseLengthLoop associatedClusters rx with
    | error e => rw [hl] at h; cases h
    | ok r =>
      rw [hl] at h
      simp only at h
      have hr := transverseLengthLoop_value associatedClusters rx r
        (by rw [hv]; exact foldl_min_le_init _ _) (by rw [hv]; exact init_le_foldl_max _ _) hl
      cases h
      rw [hr, hitsX_cons, List.foldl_append, List.foldl_append, hv]

/-- C32: when `FillTransverseClusterList` returns, it has appended to the list,
in the order of the transverse vector, exactly one transverse cluster for
each seed that passes the test of the loop body, and none for the other
seeds: the new cluster holds the seed and the associated clusters that
`GetAssociatedClusters` returns for it, and the transverse length of the seed
(the running maximum minus the running minimum of the X coordinates of the
hits of the seed and of the associated clusters, as `GetTransverseLength`
computes it) is at least `m_minTransverseDisplacement`.  A seed whose
transverse length is computed passes the test exactly when the length is at
least `m_minTransverseDisplacement`.  The function returns, and the
transverse length of every seed is computed, when every transverse cluster
has a hit. -/
theorem C32_emits_seeds_reaching_displacement (alg : TransverseAssociationAlgorithm)
    (sqrt : ℚ → ℚ) (transverseVector longitudinalVector : List Cluster)
    (transverseClusterList : List LArTransverseCluster) :
    (∀ out, FillTransverseClusterList alg sqrt transverseVector longitudinalVector
        transverseClusterList = Except.ok out →
      ∃ new, out = transverseClusterList ++ new
        ∧ List.Forall₂
            (fun c t => t.m_pSeedCluster = c
              ∧ ∃ assoc len,
                  GetAssociatedClusters alg c transverseVector longitudinalVector []
                    = Except.ok assoc
                  ∧ t.m_associatedClusters = assoc
                  ∧ GetTransverseLength c assoc = Except.ok len
                  ∧ len = (((c :: assoc).flatMap Cluster.hitPositions).map
                              (fun hit => hit.x)).foldl max (-FLT_MAX)
                          - (((c :: assoc).flatMap Cluster.hitPositions).map
                              (fun hit => hit.x)).foldl min FLT_MAX
                  ∧ alg.m_minTransverseDisplacement ≤ len)
            (transverseVector.filter
              (reachesMinTransverseDisplacement alg transverseVector longitudinalVector))
            new)
    ∧ (∀ c len, combinedExtent alg transverseVector longitudinalVector c = Except.ok len →
        (reachesMinTransverseDisplacement alg transverseVector longitudinalVector c = true
          ↔ alg.m_minTransverseDisplacement ≤ len))
    ∧ ((∀ c ∈ transverseVector, c.hitPositions ≠ []) →
        (∃ out, FillTransverseClusterList alg sqrt transverseVector longitudinalVector
          transverseClusterList = Except.ok out)
        ∧ ∀ c ∈ transverseVector,
            ∃ len, combinedExtent alg transverseVector longitudinalVector c = Except.ok len) := by
  refine ⟨?_, ?_, ?_⟩
  · intro out hout
    obtain ⟨new, hnew, hall⟩ := fillTransverseLoop_spec alg sqrt transverseVector
      longitudinalVector transverseVector transverseClusterList out hout
    refine ⟨new, hnew, List.Forall₂.imp ?_ hall⟩
    rintro c t ⟨assoc, len, ha, hl, hmin, hc⟩
    obtain ⟨h1, h2⟩ := LArTransverseCluster.create_fields sqrt c assoc t hc
    exact ⟨h1, assoc, len, ha, h2, hl, GetTransverseLength_value c assoc len hl, hmin⟩
  · intro c len h
    exact reachesMinTransverseDisplacement_iff alg transverseVector longitudinalVector c len h
  · intro hhits
    exact ⟨fillTransverseLoop_ok alg sqrt transverseVector longitudinalVector hhits
        transverseVector (fun c hc => hc) transverseClusterList,
      fun c hc => combinedExtent_ok alg transverseVector longitudinalVector hhits c hc⟩

/-- The statement C32 on three seeds: the seeds at `x = 0` and `x = 1` are
associated with each other and span two units of X, the seed at `x = 10` is
alone and spans one unit, below the minimum displacement `3 / 2`. -/
theorem C32_witness :
    (∀ c ∈ [seedAt 1 0, seedAt 2 1, seedAt 3 10], c.hitPositions ≠ [])
    ∧ (∃ out, FillTransverseClusterList defaultSettings fitSqrt
        [seedAt 1 0, seedAt 2 1, seedAt 3 10] [] [] = Except.ok out)
    ∧ (FillTransverseClusterList defaultSettings fitSqrt
        [seedAt 1 0, seedAt 2 1, seedAt 3 10] [] []).toOption.map
        (fun out => out.map
          (fun t => (t.m_pSeedCluster.addr, t.m_associatedClusters.map Cluster.addr)))
        = some [(1, [2]), (2, [1])]
    ∧ ([seedAt 1 0, seedAt 2 1, seedAt 3 10].map
        (fun c => (combinedExtent defaultSettings [seedAt 1 0, seedAt 2 1, seedAt 3 10] []
          c).toOption)) = [some 2, some 2, some 1] := by
  have hhits : ∀ c ∈ [seedAt 1 0, seedAt 2 1, seedAt 3 10], c.hitPositions ≠ [] := by
    intro t ht
    simp only [List.mem_cons, List.mem_singleton, List.not_mem_nil, or_false] at ht
    rcases ht with h | h | h <;> rw [h] <;> simp [seedAt]
  exact ⟨hhits,
    ((C32_emits_seeds_reaching_displacement defaultSettings fitSqrt
      [seedAt 1 0, seedAt 2 1, seedAt 3 10] [] []).2.2 hhits).1,
    by decide!, by decide!⟩

/-! ## The sums of the constructor of the transverse cluster -/

/-- The two outer loops of the constructor visit the hits of the clusters in
order. -/
theorem accumulate_flatMap (l : List Cluster) :
    ∀ s : FitSums,
      l.foldl (fun s pCluster => pCluster.hitPositions.foldl FitSums.addHit s) s
        = (l.flatMap Cluster.hitPositions).foldl FitSums.addHit s := by
  induction l with
  | nil => intro s; rfl
  | cons c rest ih =>
    intro s
    rw [List.foldl_cons, ih, List.flatMap_cons, List.foldl_append]

/-- The sums and the extremal X coordinates after the loop over the hits. -/
theorem FitSums.foldl_addHit_fields (hits : List CartesianVector) :
    ∀ s : FitSums,
      (hits.foldl FitSums.addHit s).Swzz = s.Swzz + (hits.map (fun hit => hit.z * hit.z)).sum
      ∧ (hits.foldl FitSums.addHit s).Swxx = s.Swxx + (hits.map (fun hit => hit.x * hit.x)).sum
      ∧ (hits.foldl FitSums.addHit s).Swzx = s.Swzx + (hits.map (fun hit => hit.z * hit.x)).sum
      ∧ (hits.foldl FitSums.addHit s).Swz = s.Swz + (hits.map (fun hit => hit.z)).sum
      ∧ (hits.foldl FitSums.addHit s).Swx = s.Swx + (hits.map (fun hit => hit.x)).sum
      ∧ (hits.foldl FitSums.addHit s).Sw = s.Sw + hits.length
      ∧ (hits.foldl FitSums.addHit s).minX = (hits.map (fun hit => hit.x)).foldl min s.minX
      ∧ (hits.foldl FitSums.addHit s).maxX = (hits.map (fun hit => hit.x)).foldl max s.maxX := by
  induction hits with
  | nil => intro s; simp
  | cons hit rest ih =>
    intro s
    obtain ⟨h1, h2, h3, h4, h5, h6, h7, h8⟩ := ih (s.addHit hit)
    rw [List.foldl_cons, h1, h2, h3, h4, h5, h6, h7, h8]
    simp only [FitSums.addHit, List.map_cons, List.sum_cons, List.length_cons, Nat.cast_add,
      Nat.cast_one, List.foldl_cons, ite_lt_eq_min, ite_gt_eq_max]
    refine ⟨?_, ?_, ?_, ?_, ?_, ?_, ?_, ?_⟩ <;> first | trivial | rfl | ring

/-- The sums that the constructor holds after its loops, over the hits that
it visits. -/
theorem accumulateFit_fields (pSeedCluster : Cluster) (associatedClusters : List Cluster) :
    (accumulateFit (associatedClusters.foldl
        (fun set pCluster => ClusterSet.insert pCluster set) [pSeedCluster])).Swzz
      = ((LArTransverseCluster.constituentHits pSeedCluster associatedClusters).map
          (fun hit => hit.z * hit.z)).sum
    ∧ (accumulateFit (associatedClusters.foldl
        (fun set pCluster => ClusterSet.insert pCluster set) [pSeedCluster])).Swxx
      = ((LArTransverseCluster.constituentHits pSeedCluster associatedClusters).map
          (fun hit => hit.x * hit.x)).sum
    ∧ (accumulateFit (associatedClusters.foldl
        (fun set pCluster => ClusterSet.insert pCluster set) [pSeedCluster])).Swzx
      = ((LArTransverseCluster.constituentHits pSeedCluster associatedClusters).map
          (fun hit => hit.z * hit.x)).sum
    ∧ (accumulateFit (associatedClusters.foldl
        (fun set pCluster => ClusterSet.insert pCluster set) [pSeedCluster])).Swz
      = ((LArTransverseCluster.constituentHits pSeedCluster associatedClusters).map
          (fun hit => hit.z)).sum
    ∧ (accumulateFit (associatedClusters.foldl
        (fun set pCluster => ClusterSet.insert pCluster set) [pSeedCluster])).Swx
      = ((LArTransverseCluster.constituentHits pSeedCluster associatedClusters).map
          (fun hit => hit.x)).sum
    ∧ (accumulateFit (associatedClusters.foldl
        (fun set pCluster => ClusterSet.insert pCluster set) [pSeedCluster])).Sw
      = ((LArTransverseCluster.constituentHits pSeedCluster associatedClusters).length : ℚ)
    ∧ (accumulateFit (associatedClusters.foldl
        (fun set pCluster => ClusterSet.insert pCluster set) [pSeedCluster])).minX
      = ((LArTransverseCluster.constituentHits pSeedCluster associatedClusters).map
          (fun hit => hit.x)).foldl min FLT_MAX
    ∧ (accumulateFit (associatedClusters.foldl
        (fun set pCluster => ClusterSet.insert pCluster set) [pSeedCluster])).maxX
      = ((LArTransverseCluster.constituentHits pSeedCluster associatedClusters).map
          (fun hit => hit.x)).foldl max (-FLT_MAX) := by
  unfold accumulateFit LArTransverseCluster.constituentHits
  rw [accumulate_flatMap]
  obtain ⟨h1, h2, h3, h4, h5, h6, h7, h8⟩ := FitSums.foldl_addHit_fields
    ((associatedClusters.foldl (fun set pCluster => ClusterSet.insert pCluster set)
      [pSeedCluster]).flatMap Cluster.hitPositions) {}
  rw [h1, h2, h3, h4, h5, h6, h7, h8]
  refine ⟨?_, ?_, ?_, ?_, ?_, ?_, ?_, ?_⟩ <;> first | rfl | exact zero_add _

/-! ## The horizontal variance -/

/-- The sum of the squared X distances of the hits to a value. -/
theorem sum_sq_dist (hits : List CartesianVector) (a : ℚ) :
    (hits.map (fun hit => (hit.x - a) * (hit.x - a))).sum
      = (hits.map (fun hit => hit.x * hit.x)).sum - 2 * a * (hits.map (fun hit => hit.x)).sum
        + hits.length * (a * a) := by
  induction hits with
  | nil => simp
  | cons hit rest ih =>
    simp only [List.map_cons, List.sum_cons, List.length_cons, Nat.cast_add, Nat.cast_one]
    rw [ih]
    ring

theorem sum_sq_dist_nonneg (hits : List CartesianVector) (a : ℚ) :
    0 ≤ (hits.map (fun hit => (hit.x - a) * (hit.x - a))).sum := by
  apply List.sum_nonneg
  intro y hy
  obtain ⟨hit, _, rfl⟩ := List.mem_map.mp hy
  exact mul_self_nonneg _

theorem sum_sq_dist_pos (hits : List CartesianVector) (a : ℚ) (g : CartesianVector)
    (hg : g ∈ hits) (hne : g.x ≠ a) :
    0 < (hits.map (fun hit => (hit.x - a) * (hit.x - a))).sum := by
  induction hits with
  | nil => exact absurd hg (List.not_mem_nil g)
  | cons hit rest ih =>
    simp only [List.map_cons, List.sum_cons]
    rcases List.mem_cons.mp hg with h | h
    · rw [← h]
      have h1 : 0 < (g.x - a) * (g.x - a) := mul_self_pos.mpr (sub_ne_zero.mpr hne)
      have h2 := sum_sq_dist_nonneg rest a
      linarith
    · have h1 : 0 ≤ (hit.x - a) * (hit.x - a) := mul_self_nonneg _
      have h2 := ih h
      linarith

/-- One more hit adds its squared X distances to the other hits to the
quantity `Sw * Swxx - Swx * Swx`. -/
theorem variance_cons (hit : CartesianVector) (hits : List CartesianVector) :
    ((hit :: hits).length : ℚ) * ((hit :: hits).map (fun hit => hit.x * hit.x)).sum
        - ((hit :: hits).map (fun hit => hit.x)).sum * ((hit :: hits).map (fun hit => hit.x)).sum
      = ((hits.length : ℚ) * (hits.map (fun hit => hit.x * hit.x)).sum
          - (hits.map (fun hit => hit.x)).sum * (hits.map (fun hit => hit.x)).sum)
        + (hits.map (fun g => (g.x - hit.x) * (g.x - hit.x))).sum := by
  rw [sum_sq_dist]
  simp only [List.map_cons, List.sum_cons, List.length_cons, Nat.cast_add, Nat.cast_one]
  ring

theorem variance_nonneg (hits : List CartesianVector) :
    0 ≤ (hits.length : ℚ) * (hits.map (fun hit => hit.x * hit.x)).sum
        - (hits.map (fun hit => hit.x)).sum * (hits.map (fun hit => hit.x)).sum := by
  induction hits with
  | nil => simp
  | cons hit rest ih =>
    rw [variance_cons]
    have := sum_sq_dist_nonneg rest hit.x
    linarith

/-- The quantity `Sw * Swxx - Swx * Swx` is positive when two hits have
different X coordinates. -/
theorem variance_pos (hits : List CartesianVector)
    (h : ∃ h1 ∈ hits, ∃ h2 ∈ hits, h1.x ≠ h2.x) :
    0 < (hits.length : ℚ) * (hits.map (fun hit => hit.x * hit.x)).sum
        - (hits.map (fun hit => hit.x)).sum * (hits.map (fun hit => hit.x)).sum := by
  cases hits with
  | nil =>
    obtain ⟨h1, hm, _⟩ := h
    exact absurd hm (List.not_mem_nil h1)
  | cons hit rest =>
    rw [variance_cons]
    have hv := variance_nonneg rest
    by_cases hall : ∀ g ∈ rest, g.x = hit.x
    · exfalso
      obtain ⟨h1, hm1, h2, hm2, hne⟩ := h
      have e1 : h1.x = hit.x := by
        rcases List.mem_cons.mp hm1 with h' | h'
        · rw [h']
        · exact hall h1 h'
      have e2 : h2.x = hit.x := by
        rcases List.mem_cons.mp hm2 with h' | h'
        · rw [h']
        · exact hall h2 h'
      exact hne (e1.trans e2.symm)
    · push_neg at hall
      obtain ⟨g, hg, hne⟩ := hall
      have := sum_sq_dist_pos rest hit.x g hg hne
      linarith

/-- The sums of hits that share the X coordinate `x0`, and the quantity
`Sw * Swxx - Swx * Swx`, which is zero. -/
theorem variance_zero (hits : List CartesianVector) (x0 : ℚ) (h : ∀ g ∈ hits, g.x = x0) :
    (hits.map (fun hit => hit.x)).sum = hits.length * x0
    ∧ (hits.length : ℚ) * (hits.map (fun hit => hit.x * hit.x)).sum
        - (hits.map (fun hit => hit.x)).sum * (hits.map (fun hit => hit.x)).sum = 0 := by
  have h1 : (hits.map (fun hit => hit.x)).sum = hits.length * x0
      ∧ (hits.map (fun hit => hit.x * hit.x)).sum = hits.length * (x0 * x0) := by
    induction hits with
    | nil => simp
    | cons hit rest ih =>
      obtain ⟨i1, i2⟩ := ih (fun g hg => h g (List.mem_cons_of_mem _ hg))
      simp only [List.map_cons, List.sum_cons, List.length_cons, Nat.cast_add, Nat.cast_one]
      rw [i1, i2, h hit (List.mem_cons_self _ _)]
      constructor <;> ring
  refine ⟨h1.1, ?_⟩
  rw [h1.1, h1.2]
  ring

/-- The object that the constructor builds in its degenerate branch: the sum of
the weights is positive and `Sw * Swxx - Swx * Swx` is not. -/
theorem LArTransverseCluster.create_degenerate (sqrt : ℚ → ℚ) (pSeedCluster : Cluster)
    (associatedClusters : List Cluster)
    (hne : LArTransverseCluster.constituentHits pSeedCluster associatedClusters ≠ [])
    (hD : ¬ ((LArTransverseCluster.constituentHits pSeedCluster associatedClusters).length : ℚ)
          * ((LArTransverseCluster.constituentHits pSeedCluster associatedClusters).map
              (fun hit => hit.x * hit.x)).sum
        - ((LArTransverseCluster.constituentHits pSeedCluster associatedClusters).map
              (fun hit => hit.x)).sum
          * ((LArTransverseCluster.constituentHits pSeedCluster associatedClusters).map
              (fun hit => hit.x)).sum > 0) :
    LArTransverseCluster.create sqrt pSeedCluster associatedClusters
      = Except.ok
          { m_pSeedCluster := pSeedCluster
            m_associatedClusters := associatedClusters
            m_innerVertex :=
              ⟨((LArTransverseCluster.constituentHits pSeedCluster associatedClusters).map
                  (fun hit => hit.x)).sum
                / (LArTransverseCluster.constituentHits pSeedCluster associatedClusters).length,
                0,
                ((LArTransverseCluster.constituentHits pSeedCluster associatedClusters).map
                  (fun hit => hit.z)).sum
                / (LArTransverseCluster.constituentHits pSeedCluster associatedClusters).length⟩
            m_outerVertex :=
              ⟨((LArTransverseCluster.constituentHits pSeedCluster associatedClusters).map
                  (fun hit => hit.x)).sum
                / (LArTransverseCluster.constituentHits pSeedCluster associatedClusters).length,
                0,
                ((LArTransverseCluster.constituentHits pSeedCluster associatedClusters).map
                  (fun hit => hit.z)).sum
                / (LArTransverseCluster.constituentHits pSeedCluster associatedClusters).length⟩
            m_direction := ⟨1, 0, 0⟩ } := by
  obtain ⟨_, h2, _, h4, h5, h6, _, _⟩ := accumulateFit_fields pSeedCluster associatedClusters
  have hpos : (0 : ℚ)
      < ((LArTransverseCluster.constituentHits pSeedCluster associatedClusters).length : ℚ) := by
    exact_mod_cast List.length_pos.mpr hne
  unfold LArTransverseCluster.create
  simp only
  rw [h2, h4, h5, h6, if_pos hpos, if_neg hD]

/-- The object that the constructor builds in its main branch:
`Sw * Swxx - Swx * Swx` is positive. -/
theorem LArTransverseCluster.create_fitted (sqrt : ℚ → ℚ) (pSeedCluster : Cluster)
    (associatedClusters : List Cluster)
    (hD : ((LArTransverseCluster.constituentHits pSeedCluster associatedClusters).length : ℚ)
          * ((LArTransverseCluster.constituentHits pSeedCluster associatedClusters).map
              (fun hit => hit.x * hit.x)).sum
        - ((LArTransverseCluster.constituentHits pSeedCluster associatedClusters).map
              (fun hit => hit.x)).sum
          * ((LArTransverseCluster.constituentHits pSeedCluster associatedClusters).map
              (fun hit => hit.x)).sum > 0) :
    LArTransverseCluster.create sqrt pSeedCluster associatedClusters
      = Except.ok
          { m_pSeedCluster := pSeedCluster
            m_associatedClusters := associatedClusters
            m_innerVertex :=
              ⟨((LArTransverseCluster.constituentHits pSeedCluster associatedClusters).map
                  (fun hit => hit.x)).foldl min FLT_MAX,
                0,
                specMeanZ (LArTransverseCluster.constituentHits pSeedCluster associatedClusters)
                  + specSlope
                      (LArTransverseCluster.constituentHits pSeedCluster associatedClusters)
                    * (((LArTransverseCluster.constituentHits pSeedCluster
                          associatedClusters).map (fun hit => hit.x)).foldl min FLT_MAX
                      - specMeanX
                          (LArTransverseCluster.constituentHits pSeedCluster
                            associatedClusters))⟩
            m_outerVertex :=
              ⟨((LArTransverseCluster.constituentHits pSeedCluster associatedClusters).map
                  (fun hit => hit.x)).foldl max (-FLT_MAX),
                0,
                specMeanZ (LArTransverseCluster.constituentHits pSeedCluster associatedClusters)
                  + specSlope
                      (LArTransverseCluster.constituentHits pSeedCluster associatedClusters)
                    * (((LArTransverseCluster.constituentHits pSeedCluster
                          associatedClusters).map (fun hit => hit.x)).foldl max (-FLT_MAX)
                      - specMeanX
                          (LArTransverseCluster.constituentHits pSeedCluster
                            associatedClusters))⟩
            m_direction :=
              ⟨1 / sqrt (1 + specSlope
                    (LArTransverseCluster.constituentHits pSeedCluster associatedClusters)
                  * specSlope
                    (LArTransverseCluster.constituentHits pSeedCluster associatedClusters)),
                0,
                specSlope (LArTransverseCluster.constituentHits pSeedCluster associatedClusters)
                  / sqrt (1 + specSlope
                      (LArTransverseCluster.constituentHits pSeedCluster associatedClusters)
                    * specSlope
                      (LArTransverseCluster.constituentHits pSeedCluster
                        associatedClusters))⟩ } := by
  obtain ⟨_, h2, h3, h4, h5, h6, h7, h8⟩ := accumulateFit_fields pSeedCluster associatedClusters
  have hne : LArTransverseCluster.constituentHits pSeedCluster associatedClusters ≠ [] := by
    intro hnil
    rw [hnil] at hD
    simp at hD
  have hpos : (0 : ℚ)
      < ((LArTransverseCluster.constituentHits pSeedCluster associatedClusters).length : ℚ) := by
    exact_mod_cast List.length_pos.mpr hne
  unfold LArTransverseCluster.create
  simp only
  rw [h2, h3, h4, h5, h6, h7, h8, if_pos hpos, if_pos hD]
  rfl

/-! ## The fitted line is the least-squares line -/

/-- The sum of the squared residuals to a line, in terms of the sums. -/
theorem sumSquaredResiduals_expand {K : Type} [LinearOrderedField K]
    (hits : List CartesianVector) (a b : K) :
    sumSquaredResiduals hits a b
      = (((hits.map (fun hit => hit.z * hit.z)).sum : ℚ) : K)
        - 2 * a * (((hits.map (fun hit => hit.z * hit.x)).sum : ℚ) : K)
        - 2 * b * (((hits.map (fun hit => hit.z)).sum : ℚ) : K)
        + a * a * (((hits.map (fun hit => hit.x * hit.x)).sum : ℚ) : K)
        + 2 * a * b * (((hits.map (fun hit => hit.x)).sum : ℚ) : K)
        + ((hits.length : ℚ) : K) * (b * b) := by
  unfold sumSquaredResiduals
  induction hits with
  | nil => simp
  | cons hit rest ih =>
    simp only [List.map_cons, List.sum_cons, List.length_cons]
    rw [ih]
    push_cast
    ring

/-- The excess of the squared residuals of any line over those of the line
with the slope and the intercept of the normal equations. -/
theorem least_squares_excess {K : Type} [LinearOrderedField K]
    (n Sx Sz Sxx Szx Szz a b m c : K)
    (hm : m * (n * Sxx - Sx * Sx) = n * Szx - Sx * Sz) (hc : c * n = Sz - m * Sx) :
    n * ((Szz - 2 * a * Szx - 2 * b * Sz + a * a * Sxx + 2 * a * b * Sx + n * (b * b))
        - (Szz - 2 * m * Szx - 2 * c * Sz + m * m * Sxx + 2 * m * c * Sx + n * (c * c)))
      = (n * (b - c) + (a - m) * Sx) * (n * (b - c) + (a - m) * Sx)
        + (a - m) * (a - m) * (n * Sxx - Sx * Sx) := by
  linear_combination (2 * (a - m)) * hm + (2 * (a - m) * Sx + 2 * n * (b - c)) * hc

/-- With two different X coordinates among the hits, the line with the slope
of the specification through the centroid has the least sum of squared
residuals in Z among the lines with coefficients in an ordered field (the
rationals, the reals), and is the only line with that sum. -/
theorem least_squares {K : Type} [LinearOrderedField K] (hits : List CartesianVector)
    (hD : 0 < (hits.length : ℚ) * (hits.map (fun hit => hit.x * hit.x)).sum
        - (hits.map (fun hit => hit.x)).sum * (hits.map (fun hit => hit.x)).sum) (a b : K) :
    sumSquaredResiduals hits (specSlope hits : K)
        ((specMeanZ hits - specSlope hits * specMeanX hits : ℚ) : K)
      ≤ sumSquaredResiduals hits a b
    ∧ (sumSquaredResiduals hits a b
        ≤ sumSquaredResiduals hits (specSlope hits : K)
            ((specMeanZ hits - specSlope hits * specMeanX hits : ℚ) : K)
        → a = (specSlope hits : K)
          ∧ b = ((specMeanZ hits - specSlope hits * specMeanX hits : ℚ) : K)) := by
  have hne : hits ≠ [] := by
    intro hnil
    rw [hnil] at hD
    simp at hD
  have hnQ : (0 : ℚ) < (hits.length : ℚ) := by exact_mod_cast List.length_pos.mpr hne
  have hn : (0 : K) < ((hits.length : ℚ) : K) := by exact_mod_cast hnQ
  have hDK : (0 : K) < ((hits.length : ℚ) : K)
        * (((hits.map (fun hit => hit.x * hit.x)).sum : ℚ) : K)
      - (((hits.map (fun hit => hit.x)).sum : ℚ) : K)
        * (((hits.map (fun hit => hit.x)).sum : ℚ) : K) := by exact_mod_cast hD
  have hmQ : specSlope hits * ((hits.length : ℚ) * (hits.map (fun hit => hit.x * hit.x)).sum
        - (hits.map (fun hit => hit.x)).sum * (hits.map (fun hit => hit.x)).sum)
      = (hits.length : ℚ) * (hits.map (fun hit => hit.z * hit.x)).sum
        - (hits.map (fun hit => hit.x)).sum * (hits.map (fun hit => hit.z)).sum := by
    unfold specSlope
    exact div_mul_cancel₀ _ (ne_of_gt hD)
  have hcQ : (specMeanZ hits - specSlope hits * specMeanX hits) * (hits.length : ℚ)
      = (hits.map (fun hit => hit.z)).sum
        - specSlope hits * (hits.map (fun hit => hit.x)).sum := by
    unfold specMeanZ specMeanX
    field_simp
  have hm : (specSlope hits : K) * (((hits.length : ℚ) : K)
        * (((hits.map (fun hit => hit.x * hit.x)).sum : ℚ) : K)
        - (((hits.map (fun hit => hit.x)).sum : ℚ) : K)
          * (((hits.map (fun hit => hit.x)).sum : ℚ) : K))
      = ((hits.length : ℚ) : K) * (((hits.map (fun hit => hit.z * hit.x)).sum : ℚ) : K)
        - (((hits.map (fun hit => hit.x)).sum : ℚ) : K)
          * (((hits.map (fun hit => hit.z)).sum : ℚ) : K) := by exact_mod_cast hmQ
  have hc : ((specMeanZ hits - specSlope hits * specMeanX hits : ℚ) : K)
        * ((hits.length : ℚ) : K)
      = (((hits.map (fun hit => hit.z)).sum : ℚ) : K)
        - (specSlope hits : K) * (((hits.map (fun hit => hit.x)).sum : ℚ) : K) := by
    exact_mod_cast hcQ
  have hex := least_squares_excess ((hits.length : ℚ) : K)
    (((hits.map (fun hit => hit.x)).sum : ℚ) : K)
    (((hits.map (fun hit => hit.z)).sum : ℚ) : K)
    (((hits.map (fun hit => hit.x * hit.x)).sum : ℚ) : K)
    (((hits.map (fun hit => hit.z * hit.x)).sum : ℚ) : K)
    (((hits.map (fun hit => hit.z * hit.z)).sum : ℚ) : K)
    a b (specSlope hits : K) ((specMeanZ hits - specSlope hits * specMeanX hits : ℚ) : K) hm hc
  rw [← sumSquaredResiduals_expand, ← sumSquaredResiduals_expand] at hex
  have hsq1 := mul_self_nonneg (((hits.length : ℚ) : K)
    * (b - ((specMeanZ hits - specSlope hits * specMeanX hits : ℚ) : K))
    + (a - (specSlope hits : K)) * (((hits.map (fun hit => hit.x)).sum : ℚ) : K))
  have hsq2 := mul_self_nonneg (a - (specSlope hits : K))
  have hsq3 := mul_nonneg hsq2 (le_of_lt hDK)
  constructor
  · have h0 : 0 ≤ ((hits.length : ℚ) : K) * (sumSquaredResiduals hits a b
        - sumSquaredResiduals hits (specSlope hits : K)
          ((specMeanZ hits - specSlope hits * specMeanX hits : ℚ) : K)) := by
      rw [hex]; linarith
    have h1 := nonneg_of_mul_nonneg_right h0 hn
    linarith
  · intro hle
    have h0 : ((hits.length : ℚ) : K) * (sumSquaredResiduals hits a b
        - sumSquaredResiduals hits (specSlope hits : K)
          ((specMeanZ hits - specSlope hits * specMeanX hits : ℚ) : K)) ≤ 0 :=
      mul_nonpos_of_nonneg_of_nonpos (le_of_lt hn) (by linarith)
    rw [hex] at h0
    have h3 : (a - (specSlope hits : K)) * (a - (specSlope hits : K))
        * (((hits.length : ℚ) : K) * (((hits.map (fun hit => hit.x * hit.x)).sum : ℚ) : K)
          - (((hits.map (fun hit => hit.x)).sum : ℚ) : K)
            * (((hits.map (fun hit => hit.x)).sum : ℚ) : K)) = 0 := by
      linarith
    have h4 : (a - (specSlope hits : K)) * (a - (specSlope hits : K)) = 0 := by
      rcases mul_eq_zero.mp h3 with h | h
      · exact h
      · exact absurd h (ne_of_gt hDK)
    have ha : a = (specSlope hits : K) := sub_eq_zero.mp (mul_self_eq_zero.mp h4)
    have h5 : (((hits.length : ℚ) : K)
        * (b - ((specMeanZ hits - specSlope hits * specMeanX hits : ℚ) : K))
        + (a - (specSlope hits : K)) * (((hits.map (fun hit => hit.x)).sum : ℚ) : K))
        * (((hits.length : ℚ) : K)
        * (b - ((specMeanZ hits - specSlope hits * specMeanX hits : ℚ) : K))
        + (a - (specSlope hits : K)) * (((hits.map (fun hit => hit.x)).sum : ℚ) : K)) = 0 := by
      linarith
    have h6 := mul_self_eq_zero.mp h5
    rw [ha, sub_self, zero_mul, add_zero] at h6
    rcases mul_eq_zero.mp h6 with h | h
    · exact absurd h (ne_of_gt hn)
    · exact ⟨ha, sub_eq_zero.mp h⟩

/-- The running minimum started at a bound of the values is one of the values. -/
theorem foldl_min_attained (xs : List ℚ) (a : ℚ) (hne : xs ≠ []) (hle : ∀ x ∈ xs, x ≤ a) :
    xs.foldl min a ∈ xs := by
  rcases foldl_min_mem xs a with h | h
  · obtain ⟨x, rest, hx⟩ := List.exists_cons_of_ne_nil hne
    have hxm : x ∈ xs := by rw [hx]; exact List.mem_cons_self _ _
    have h1 := ((le_foldl_min_iff xs a _).mp (le_refl _)).2 x hxm
    rw [h] at h1
    have h2 : x = a := le_antisymm (hle x hxm) h1
    rw [h, ← h2]
    exact hxm
  · exact h

/-- The running maximum started at a bound of the values is one of the values. -/
theorem foldl_max_attained (xs : List ℚ) (a : ℚ) (hne : xs ≠ []) (hle : ∀ x ∈ xs, a ≤ x) :
    xs.foldl max a ∈ xs := by
  rcases foldl_max_mem xs a with h | h
  · obtain ⟨x, rest, hx⟩ := List.exists_cons_of_ne_nil hne
    have hxm : x ∈ xs := by rw [hx]; exact List.mem_cons_self _ _
    have h1 := ((foldl_max_le_iff xs a _).mp (le_refl _)).2 x hxm
    rw [h] at h1
    have h2 : x = a := le_antisymm h1 (hle x hxm)
    rw [h, ← h2]
    exact hxm
  · exact h

/-! ## The hits of an emitted transverse cluster -/

theorem ClusterSet.mem_insert_cases (p c : Cluster) (set : List Cluster)
    (h : c ∈ ClusterSet.insert p set) : c = p ∨ c ∈ set := by
  induction set with
  | nil =>
    simp only [ClusterSet.insert, List.mem_singleton] at h
    exact Or.inl h
  | cons q rest ih =>
    simp only [ClusterSet.insert] at h
    split_ifs at h
    · rcases List.mem_cons.mp h with h1 | h1
      · exact Or.inl h1
      · exact Or.inr h1
    · exact Or.inr h
    · rcases List.mem_cons.mp h with h1 | h1
      · exact Or.inr (by rw [h1]; exact List.mem_cons_self _ _)
      · exact (ih h1).imp id (List.mem_cons_of_mem _)

theorem ClusterSet.mem_foldl (c : Cluster) (l : List Cluster) :
    ∀ set : List Cluster,
      c ∈ l.foldl (fun set pCluster => ClusterSet.insert pCluster set) set → c ∈ set ∨ c ∈ l := by
  induction l with
  | nil => intro set h; exact Or.inl h
  | cons p rest ih =>
    intro set h
    rw [List.foldl_cons] at h
    rcases ih _ h with h1 | h1
    · rcases ClusterSet.mem_insert_cases p c set h1 with h2 | h2
      · exact Or.inr (by rw [h2]; exact List.mem_cons_self _ _)
      · exact Or.inl h2
    · exact Or.inr (List.mem_cons_of_mem _ h1)

/-- After the insertion the set holds a cluster at the address of the
inserted one. -/
theorem ClusterSet.addr_insert (p : Cluster) (set : List Cluster) :
    ∃ c ∈ ClusterSet.insert p set, c.addr = p.addr := by
  induction set with
  | nil => exact ⟨p, by simp [ClusterSet.insert], rfl⟩
  | cons q rest ih =>
    simp only [ClusterSet.insert]
    split_ifs with h1 h2
    · exact ⟨p, List.mem_cons_self _ _, rfl⟩
    · exact ⟨q, List.mem_cons_self _ _, h2.symm⟩
    · obtain ⟨c, hc, hca⟩ := ih
      exact ⟨c, List.mem_cons_of_mem _ hc, hca⟩

theorem ClusterSet.addr_foldl (c : Cluster) (l : List Cluster) :
    c ∈ l → ∀ set : List Cluster,
      ∃ d ∈ l.foldl (fun set pCluster => ClusterSet.insert pCluster set) set,
        d.addr = c.addr := by
  induction l with
  | nil => intro h; exact absurd h (List.not_mem_nil c)
  | cons p rest ih =>
    intro h set
    rw [List.foldl_cons]
    rcases List.mem_cons.mp h with h1 | h1
    · obtain ⟨d, hd, hda⟩ := ClusterSet.addr_insert p set
      exact ⟨d, ClusterSet.mem_foldl_insert d rest _ hd, by rw [hda, h1]⟩
    · exact ih h1 _

/-- When an address stands for one cluster, the hits that the constructor
visits are the hits of the seed and of the associated clusters. -/
theorem constituentHits_mem (pSeedCluster : Cluster) (associatedClusters : List Cluster)
    (hptr : ∀ a ∈ pSeedCluster :: associatedClusters,
      ∀ b ∈ pSeedCluster :: associatedClusters, a.addr = b.addr → a = b)
    (hit : CartesianVector) :
    hit ∈ LArTransverseCluster.constituentHits pSeedCluster associatedClusters
      ↔ hit ∈ (pSeedCluster :: associatedClusters).flatMap Cluster.hitPositions := by
  have hsub : ∀ c ∈ associatedClusters.foldl
      (fun set pCluster => ClusterSet.insert pCluster set) [pSeedCluster],
      c ∈ pSeedCluster :: associatedClusters := by
    intro c hc
    rcases ClusterSet.mem_foldl c associatedClusters _ hc with h | h
    · rw [List.mem_singleton.mp h]; exact List.mem_cons_self _ _
    · exact List.mem_cons_of_mem _ h
  unfold LArTransverseCluster.constituentHits
  rw [List.mem_flatMap, List.mem_flatMap]
  constructor
  · rintro ⟨c, hc, hhit⟩
    exact ⟨c, hsub c hc, hhit⟩
  · rintro ⟨c, hc, hhit⟩
    have hex : ∃ d ∈ associatedClusters.foldl
        (fun set pCluster => ClusterSet.insert pCluster set) [pSeedCluster],
        d.addr = c.addr := by
      rcases List.mem_cons.mp hc with h | h
      · exact ⟨pSeedCluster, ClusterSet.mem_foldl_insert pSeedCluster associatedClusters _
          (List.mem_singleton_self _), by rw [h]⟩
      · exact ClusterSet.addr_foldl c associatedClusters h _
    obtain ⟨d, hd, hda⟩ := hex
    have hdc : d = c := hptr d (hsub d hd) c hc hda
    exact ⟨d, hd, by rw [hdc]; exact hhit⟩

theorem foldl_min_congr (xs ys : List ℚ) (a : ℚ) (h : ∀ x, x ∈ xs ↔ x ∈ ys) :
    xs.foldl min a = ys.foldl min a := by
  refine eq_of_forall_le_iff (fun c => ?_)
  rw [le_foldl_min_iff, le_foldl_min_iff]
  exact ⟨fun ⟨h1, h2⟩ => ⟨h1, fun x hx => h2 x ((h x).mpr hx)⟩,
    fun ⟨h1, h2⟩ => ⟨h1, fun x hx => h2 x ((h x).mp hx)⟩⟩

theorem foldl_max_congr (xs ys : List ℚ) (a : ℚ) (h : ∀ x, x ∈ xs ↔ x ∈ ys) :
    xs.foldl max a = ys.foldl max a := by
  refine eq_of_forall_ge_iff (fun c => ?_)
  rw [foldl_max_le_iff, foldl_max_le_iff]
  exact ⟨fun ⟨h1, h2⟩ => ⟨h1, fun x hx => h2 x ((h x).mpr hx)⟩,
    fun ⟨h1, h2⟩ => ⟨h1, fun x hx => h2 x ((h x).mp hx)⟩⟩

/-- A transverse cluster built for a seed of positive transverse length is
fitted by the main branch of the constructor: two of its hits have different
X coordinates, and its vertices are at the extremal X coordinates that
`GetTransverseLength` subtracts. -/
theorem create_of_positive_length (sqrt : ℚ → ℚ) (pSeedCluster : Cluster)
    (associatedClusters : List Cluster) (len : ℚ) (t : LArTransverseCluster)
    (hptr : ∀ a ∈ pSeedCluster :: associatedClusters,
      ∀ b ∈ pSeedCluster :: associatedClusters, a.addr = b.addr → a = b)
    (hrange : ∀ c ∈ pSeedCluster :: associatedClusters, ∀ hit ∈ c.hitPositions,
      -FLT_MAX ≤ hit.x ∧ hit.x ≤ FLT_MAX)
    (hl : GetTransverseLength pSeedCluster associatedClusters = Except.ok len)
    (hpos : 0 < len)
    (hc : LArTransverseCluster.create sqrt pSeedCluster associatedClusters = Except.ok t) :
    (∃ h1 ∈ LArTransverseCluster.constituentHits pSeedCluster associatedClusters,
      ∃ h2 ∈ LArTransverseCluster.constituentHits pSeedCluster associatedClusters,
        h1.x ≠ h2.x)
    ∧ 0 < ((LArTransverseCluster.constituentHits pSeedCluster associatedClusters).length : ℚ)
          * ((LArTransverseCluster.constituentHits pSeedCluster associatedClusters).map
              (fun hit => hit.x * hit.x)).sum
        - ((LArTransverseCluster.constituentHits pSeedCluster associatedClusters).map
              (fun hit => hit.x)).sum
          * ((LArTransverseCluster.constituentHits pSeedCluster associatedClusters).map
              (fun hit => hit.x)).sum
    ∧ t.m_outerVertex.x - t.m_innerVertex.x = len
    ∧ t.m_direction
      = ⟨1 / sqrt (1 + specSlope
            (LArTransverseCluster.constituentHits pSeedCluster associatedClusters)
          * specSlope (LArTransverseCluster.constituentHits pSeedCluster associatedClusters)),
          0,
          specSlope (LArTransverseCluster.constituentHits pSeedCluster associatedClusters)
            / sqrt (1 + specSlope
                (LArTransverseCluster.constituentHits pSeedCluster associatedClusters)
              * specSlope
                (LArTransverseCluster.constituentHits pSeedCluster associatedClusters))⟩ := by
  have hmem := constituentHits_mem pSeedCluster associatedClusters hptr
  have hxmem : ∀ x : ℚ,
      x ∈ (LArTransverseCluster.constituentHits pSeedCluster associatedClusters).map
          (fun hit => hit.x)
      ↔ x ∈ ((pSeedCluster :: associatedClusters).flatMap Cluster.hitPositions).map
          (fun hit => hit.x) := by
    intro x
    rw [List.mem_map, List.mem_map]
    exact ⟨fun ⟨hit, h1, h2⟩ => ⟨hit, (hmem hit).mp h1, h2⟩,
      fun ⟨hit, h1, h2⟩ => ⟨hit, (hmem hit).mpr h1, h2⟩⟩
  have hlen := GetTransverseLength_value pSeedCluster associatedClusters len hl
  rw [← foldl_min_congr _ _ FLT_MAX hxmem, ← foldl_max_congr _ _ (-FLT_MAX) hxmem] at hlen
  have hrangeH : ∀ hit ∈ LArTransverseCluster.constituentHits pSeedCluster associatedClusters,
      -FLT_MAX ≤ hit.x ∧ hit.x ≤ FLT_MAX := by
    intro hit hhit
    obtain ⟨c, hc', hh⟩ := List.mem_flatMap.mp ((hmem hit).mp hhit)
    exact hrange c hc' hit hh
  have hxne : (LArTransverseCluster.constituentHits pSeedCluster associatedClusters).map
      (fun hit => hit.x) ≠ [] := by
    intro hnil
    rw [hnil] at hlen
    simp only [List.foldl_nil] at hlen
    rw [hlen] at hpos
    unfold FLT_MAX at hpos
    norm_num at hpos
  have hmin := foldl_min_attained _ FLT_MAX hxne (by
    intro x hx
    obtain ⟨hit, hhit, rfl⟩ := List.mem_map.mp hx
    exact (hrangeH hit hhit).2)
  have hmax := foldl_max_attained _ (-FLT_MAX) hxne (by
    intro x hx
    obtain ⟨hit, hhit, rfl⟩ := List.mem_map.mp hx
    exact (hrangeH hit hhit).1)
  obtain ⟨g1, hg1, he1⟩ := List.mem_map.mp hmin
  obtain ⟨g2, hg2, he2⟩ := List.mem_map.mp hmax
  have hdist : ∃ h1 ∈ LArTransverseCluster.constituentHits pSeedCluster associatedClusters,
      ∃ h2 ∈ LArTransverseCluster.constituentHits pSeedCluster associatedClusters,
        h1.x ≠ h2.x := by
    refine ⟨g1, hg1, g2, hg2, ?_⟩
    rw [he1, he2]
    intro heq
    rw [heq] at hlen
    linarith
  have hD := variance_pos _ hdist
  have hcreate := LArTransverseCluster.create_fitted sqrt pSeedCluster associatedClusters hD
  rw [hcreate] at hc
  cases hc
  exact ⟨hdist, hD, hlen.symm, rfl⟩

/-- The seeds for which the loop of `FillTransverseClusterList` builds a
transverse cluster are transverse clusters. -/
theorem filter_reaches_subset (alg : TransverseAssociationAlgorithm) (tv lv l : List Cluster) :
    ∀ c ∈ l.filter (reachesMinTransverseDisplacement alg tv lv), c ∈ l :=
  fun _ hc => (List.mem_filter.mp hc).1

/-- C33 (exact arithmetic on rationals; an address stands for one cluster; the
X coordinates are values of type `float`, between `-FLT_MAX` and `FLT_MAX`):
with `m_minTransverseDisplacement > 0`, every transverse cluster that
`FillTransverseClusterList` appends is fitted by the main branch of the
constructor.  Two of its hits have different X coordinates, so the test
`Sw * Swxx - Swx * Swx > 0` holds and the direction is
`(1, 0, m) / sqrt (1 + m * m)`; `outerVertex.x - innerVertex.x` is the
transverse length that `GetTransverseLength` returns for the seed and its
associated clusters, and is at least `m_minTransverseDisplacement`.  The only
exception that can leave the function is `STATUS_CODE_FAILURE`, never the
`STATUS_CODE_NOT_INITIALIZED` of the constructor, and the function returns
when every transverse cluster has a hit. -/
theorem C33_emitted_clusters_non_degenerate (alg : TransverseAssociationAlgorithm)
    (sqrt : ℚ → ℚ) (transverseVector longitudinalVector : List Cluster)
    (transverseClusterList : List LArTransverseCluster)
    (hmin : 0 < alg.m_minTransverseDisplacement)
    (hptr : ∀ a ∈ transverseVector, ∀ b ∈ transverseVector, a.addr = b.addr → a = b)
    (hrange : ∀ c ∈ transverseVector, ∀ hit ∈ c.hitPositions,
      -FLT_MAX ≤ hit.x ∧ hit.x ≤ FLT_MAX) :
    (∀ out, FillTransverseClusterList alg sqrt transverseVector longitudinalVector
        transverseClusterList = Except.ok out →
      ∃ new, out = transverseClusterList ++ new
        ∧ ∀ t ∈ new,
          (∃ h1 ∈ LArTransverseCluster.constituentHits t.m_pSeedCluster t.m_associatedClusters,
            ∃ h2 ∈ LArTransverseCluster.constituentHits t.m_pSeedCluster
                t.m_associatedClusters,
              h1.x ≠ h2.x)
          ∧ 0 < ((LArTransverseCluster.constituentHits t.m_pSeedCluster
                    t.m_associatedClusters).length : ℚ)
                * ((LArTransverseCluster.constituentHits t.m_pSeedCluster
                    t.m_associatedClusters).map (fun hit => hit.x * hit.x)).sum
              - ((LArTransverseCluster.constituentHits t.m_pSeedCluster
                    t.m_associatedClusters).map (fun hit => hit.x)).sum
                * ((LArTransverseCluster.constituentHits t.m_pSeedCluster
                    t.m_associatedClusters).map (fun hit => hit.x)).sum
          ∧ (∃ len, GetTransverseLength t.m_pSeedCluster t.m_associatedClusters = Except.ok len
              ∧ t.m_outerVertex.x - t.m_innerVertex.x = len
              ∧ alg.m_minTransverseDisplacement ≤ len)
          ∧ t.m_direction
            = ⟨1 / sqrt (1 + specSlope (LArTransverseCluster.constituentHits t.m_pSeedCluster
                    t.m_associatedClusters)
                  * specSlope (LArTransverseCluster.constituentHits t.m_pSeedCluster
                    t.m_associatedClusters)),
                0,
                specSlope (LArTransverseCluster.constituentHits t.m_pSeedCluster
                    t.m_associatedClusters)
                  / sqrt (1 + specSlope (LArTransverseCluster.constituentHits t.m_pSeedCluster
                      t.m_associatedClusters)
                    * specSlope (LArTransverseCluster.constituentHits t.m_pSeedCluster
                      t.m_associatedClusters))⟩)
    ∧ (∀ e, FillTransverseClusterList alg sqrt transverseVector longitudinalVector
        transverseClusterList = Except.error e →
        e = StatusCode.STATUS_CODE_FAILURE ∧ e ≠ StatusCode.STATUS_CODE_NOT_INITIALIZED)
    ∧ ((∀ c ∈ transverseVector, c.hitPositions ≠ []) →
        ∃ out, FillTransverseClusterList alg sqrt transverseVector longitudinalVector
          transverseClusterList = Except.ok out) := by
  refine ⟨?_, ?_, ?_⟩
  · intro out hout
    obtain ⟨new, hnew, hall⟩ := fillTransverseLoop_spec alg sqrt transverseVector
      longitudinalVector transverseVector transverseClusterList out hout
    refine ⟨new, hnew, ?_⟩
    intro t ht
    obtain ⟨c, hc, assoc, len, ha, hl, hlen, hcreate⟩ := forall₂_right_mem _ _ _ hall t ht
    have hctv : c ∈ transverseVector :=
      filter_reaches_subset alg transverseVector longitudinalVector transverseVector c hc
    have hsub : ∀ d ∈ c :: assoc, d ∈ transverseVector := by
      intro d hd
      rcases List.mem_cons.mp hd with h | h
      · rw [h]; exact hctv
      · exact GetAssociatedClusters_subset alg c transverseVector longitudinalVector assoc ha d h
    obtain ⟨hf1, hf2⟩ := LArTransverseCluster.create_fields sqrt c assoc t hcreate
    obtain ⟨h1, h2, h3, h4⟩ := create_of_positive_length sqrt c assoc len t
      (fun a ha' b hb' hab => hptr a (hsub a ha') b (hsub b hb') hab)
      (fun d hd hit hhit => hrange d (hsub d hd) hit hhit) hl (lt_of_lt_of_le hmin hlen) hcreate
    rw [hf1, hf2]
    exact ⟨h1, h2, ⟨len, hl, h3, hlen⟩, h4⟩
  · intro e he
    have h := fillTransverseLoop_error alg sqrt transverseVector longitudinalVector
      transverseVector transverseClusterList e he
    rw [h]
    exact ⟨rfl, by decide⟩
  · intro hhits
    exact fillTransverseLoop_ok alg sqrt transverseVector longitudinalVector hhits
      transverseVector (fun c hc => hc) transverseClusterList

/-- The statement C33 on three seeds with the default settings: the two
transverse clusters that are built go from `x = 0` to `x = 2`. -/
theorem C33_witness :
    (0 < defaultSettings.m_minTransverseDisplacement
      ∧ (∀ a ∈ [seedAt 1 0, seedAt 2 1, seedAt 3 10],
          ∀ b ∈ [seedAt 1 0, seedAt 2 1, seedAt 3 10], a.addr = b.addr → a = b)
      ∧ (∀ c ∈ [seedAt 1 0, seedAt 2 1, seedAt 3 10], ∀ hit ∈ c.hitPositions,
          -FLT_MAX ≤ hit.x ∧ hit.x ≤ FLT_MAX))
    ∧ (∀ e, FillTransverseClusterList defaultSettings fitSqrt
        [seedAt 1 0, seedAt 2 1, seedAt 3 10] [] [] = Except.error e →
        e = StatusCode.STATUS_CODE_FAILURE ∧ e ≠ StatusCode.STATUS_CODE_NOT_INITIALIZED)
    ∧ (FillTransverseClusterList defaultSettings fitSqrt
        [seedAt 1 0, seedAt 2 1, seedAt 3 10] [] []).toOption.map
        (fun out => out.map (fun t => (t.m_pSeedCluster.addr, t.m_innerVertex, t.m_outerVertex,
          t.m_direction)))
        = some [(1, ⟨0, 0, 0⟩, ⟨2, 0, 0⟩, ⟨1, 0, 0⟩), (2, ⟨0, 0, 0⟩, ⟨2, 0, 0⟩, ⟨1, 0, 0⟩)] := by
  have hmin : 0 < defaultSettings.m_minTransverseDisplacement := by decide!
  have hptr : ∀ a ∈ [seedAt 1 0, seedAt 2 1, seedAt 3 10],
      ∀ b ∈ [seedAt 1 0, seedAt 2 1, seedAt 3 10], a.addr = b.addr → a = b := by
    intro a ha b hb hab
    simp only [List.mem_cons, List.mem_singleton, List.not_mem_nil, or_false] at ha hb
    rcases ha with rfl | rfl | rfl <;> rcases hb with rfl | rfl | rfl <;>
      first
        | rfl
        | exact absurd hab (by decide)
  have hrange : ∀ c ∈ [seedAt 1 0, seedAt 2 1, seedAt 3 10], ∀ hit ∈ c.hitPositions,
      -FLT_MAX ≤ hit.x ∧ hit.x ≤ FLT_MAX := by decide!
  exact ⟨⟨hmin, hptr, hrange⟩,
    (C33_emitted_clusters_non_degenerate defaultSettings fitSqrt
      [seedAt 1 0, seedAt 2 1, seedAt 3 10] [] [] hmin hptr hrange).2.1,
    by decide!⟩

/-! ## The constructor over an exact arithmetic -/

/-- The loops of the constructor visit the constituent hits in order. -/
theorem sumsOver_flatMap {F : Type} (A : FloatArithmetic F) (pSeedCluster : Cluster)
    (associatedClusters : List Cluster) :
    LArTransverseCluster.sumsOver A pSeedCluster associatedClusters
      = (LArTransverseCluster.constituentHits pSeedCluster associatedClusters).foldl
          (FloatFitSums.addHit A) (FloatFitSums.start A) := by
  unfold LArTransverseCluster.sumsOver LArTransverseCluster.constituentHits
  generalize FloatFitSums.start A = s
  generalize associatedClusters.foldl (fun set pCluster => ClusterSet.insert pCluster set)
    [pSeedCluster] = l
  induction l generalizing s with
  | nil => rfl
  | cons c rest ih => rw [List.foldl_cons, ih, List.flatMap_cons, List.foldl_append]

/-- In an exact arithmetic one pass of the loop body gives the values of the
rational model. -/
theorem addHit_toFloat {K : Type} [LinearOrderedField K] (A : FloatArithmetic K)
    (hA : A.IsExact) (s : FitSums) (hit : CartesianVector) :
    FloatFitSums.addHit A (FitSums.toFloat K s) hit = FitSums.toFloat K (s.addHit hit) := by
  obtain ⟨hof, hadd, hsub, hmul, hdiv, hlt⟩ := hA
  have hmin : (if A.lt (hit.x : K) (s.minX : K) = true then (hit.x : K) else (s.minX : K))
      = ((if hit.x < s.minX then hit.x else s.minX : ℚ) : K) := by
    by_cases h : hit.x < s.minX
    · rw [if_pos h, if_pos ((hlt _ _).mpr (by exact_mod_cast h))]
    · rw [if_neg h, if_neg (by
        rw [hlt]
        intro h'
        exact h (by exact_mod_cast h'))]
  have hmax : (if A.lt (s.maxX : K) (hit.x : K) = true then (hit.x : K) else (s.maxX : K))
      = ((if hit.x > s.maxX then hit.x else s.maxX : ℚ) : K) := by
    by_cases h : hit.x > s.maxX
    · rw [if_pos h, if_pos ((hlt _ _).mpr (by exact_mod_cast h))]
    · rw [if_neg h, if_neg (by
        rw [hlt]
        intro h'
        exact h (by exact_mod_cast h'))]
  simp only [FloatFitSums.addHit, FitSums.toFloat, FitSums.addHit, hadd, hmul, hof, hmin, hmax,
    Rat.cast_add, Rat.cast_mul, Rat.cast_one]

theorem foldl_addHit_toFloat {K : Type} [LinearOrderedField K] (A : FloatArithmetic K)
    (hA : A.IsExact) (hits : List CartesianVector) :
    ∀ s : FitSums, hits.foldl (FloatFitSums.addHit A) (FitSums.toFloat K s)
      = FitSums.toFloat K (hits.foldl FitSums.addHit s) := by
  induction hits with
  | nil => intro s; rfl
  | cons hit rest ih =>
    intro s
    rw [List.foldl_cons, List.foldl_cons, addHit_toFloat A hA, ih]

/-- In an exact arithmetic the local variables of the constructor hold the
values of the rational model. -/
theorem sumsOver_exact {K : Type} [LinearOrderedField K] (A : FloatArithmetic K)
    (hA : A.IsExact) (pSeedCluster : Cluster) (associatedClusters : List Cluster) :
    LArTransverseCluster.sumsOver A pSeedCluster associatedClusters
      = FitSums.toFloat K (accumulateFit (associatedClusters.foldl
          (fun set pCluster => ClusterSet.insert pCluster set) [pSeedCluster])) := by
  have hstart : FloatFitSums.start A = FitSums.toFloat K {} := by
    simp only [FloatFitSums.start, FitSums.toFloat, hA.1]
  rw [sumsOver_flatMap, hstart, foldl_addHit_toFloat A hA]
  unfold accumulateFit
  rw [accumulate_flatMap]
  rfl
theorem createOver_exact_fitted {K : Type} [LinearOrderedField K] (A : FloatArithmetic K)
    (hA : A.IsExact) (pSeedCluster : Cluster) (associatedClusters : List Cluster)
    (hits : List CartesianVector)
    (hhits : hits = LArTransverseCluster.constituentHits pSeedCluster associatedClusters)
    (hD : 0 < (hits.length : ℚ) * (hits.map (fun hit => hit.x * hit.x)).sum
        - (hits.map (fun hit => hit.x)).sum * (hits.map (fun hit => hit.x)).sum) :
    LArTransverseCluster.createOver A pSeedCluster associatedClusters
      = Except.ok
          { m_pSeedCluster := pSeedCluster
            m_associatedClusters := associatedClusters
            m_innerVertex :=
              ⟨(((hits.map (fun hit => hit.x)).foldl min FLT_MAX : ℚ) : K), 0,
                ((specMeanZ hits + specSlope hits
                  * ((hits.map (fun hit => hit.x)).foldl min FLT_MAX - specMeanX hits) : ℚ) : K)⟩
            m_outerVertex :=
              ⟨(((hits.map (fun hit => hit.x)).foldl max (-FLT_MAX) : ℚ) : K), 0,
                ((specMeanZ hits + specSlope hits
                  * ((hits.map (fun hit => hit.x)).foldl max (-FLT_MAX) - specMeanX hits) : ℚ)
                  : K)⟩
            m_direction :=
              ⟨1 / A.sqrt (1 + (specSlope hits : K) * (specSlope hits : K)), 0,
                (specSlope hits : K) / A.sqrt (1 + (specSlope hits : K) * (specSlope hits : K))⟩ } := by
  obtain ⟨_, h2, h3, h4, h5, h6, h7, h8⟩ := accumulateFit_fields pSeedCluster associatedClusters
  rw [← hhits] at h2 h3 h4 h5 h6 h7 h8
  obtain ⟨hof, hadd, hsub, hmul, hdiv, hlt⟩ := hA
  have hne : hits ≠ [] := by
    intro hnil
    rw [hnil] at hD
    simp at hD
  have hpos : (0 : ℚ) < (hits.length : ℚ) := by exact_mod_cast List.length_pos.mpr hne
  unfold LArTransverseCluster.createOver
  rw [sumsOver_exact A ⟨hof, hadd, hsub, hmul, hdiv, hlt⟩]
  simp only [FitSums.toFloat]
  rw [h2, h3, h4, h5, h6, h7, h8]
  simp only [hof, hadd, hsub, hmul, hdiv]
  have hc1 : A.lt ((0 : ℚ) : K) (((hits.length : ℚ)) : K) = true :=
    (hlt _ _).mpr (by exact_mod_cast hpos)
  have hc2 : A.lt ((0 : ℚ) : K) ((((hits.length : ℚ)) : K)
        * (((hits.map (fun hit => hit.x * hit.x)).sum : ℚ) : K)
      - (((hits.map (fun hit => hit.x)).sum : ℚ) : K)
        * (((hits.map (fun hit => hit.x)).sum : ℚ) : K)) = true :=
    (hlt _ _).mpr (by exact_mod_cast hD)
  rw [if_pos hc1, if_pos hc2]
  simp only [specSlope, specMeanX, specMeanZ]
  push_cast
  rfl

/-- The degenerate branch of the constructor over an exact arithmetic. -/
theorem createOver_exact_degenerate {K : Type} [LinearOrderedField K] (A : FloatArithmetic K)
    (hA : A.IsExact) (pSeedCluster : Cluster) (associatedClusters : List Cluster)
    (hits : List CartesianVector)
    (hhits : hits = LArTransverseCluster.constituentHits pSeedCluster associatedClusters)
    (hne : hits ≠ [])
    (hD : ¬ 0 < (hits.length : ℚ) * (hits.map (fun hit => hit.x * hit.x)).sum
        - (hits.map (fun hit => hit.x)).sum * (hits.map (fun hit => hit.x)).sum) :
    LArTransverseCluster.createOver A pSeedCluster associatedClusters
      = Except.ok
          { m_pSeedCluster := pSeedCluster
            m_associatedClusters := associatedClusters
            m_innerVertex := ⟨(specMeanX hits : K), 0, (specMeanZ hits : K)⟩
            m_outerVertex := ⟨(specMeanX hits : K), 0, (specMeanZ hits : K)⟩
            m_direction := ⟨1, 0, 0⟩ } := by
  obtain ⟨_, h2, h3, h4, h5, h6, h7, h8⟩ := accumulateFit_fields pSeedCluster associatedClusters
  rw [← hhits] at h2 h3 h4 h5 h6 h7 h8
  obtain ⟨hof, hadd, hsub, hmul, hdiv, hlt⟩ := hA
  have hpos : (0 : ℚ) < (hits.length : ℚ) := by exact_mod_cast List.length_pos.mpr hne
  unfold LArTransverseCluster.createOver
  rw [sumsOver_exact A ⟨hof, hadd, hsub, hmul, hdiv, hlt⟩]
  simp only [FitSums.toFloat]
  rw [h2, h3, h4, h5, h6, h7, h8]
  simp only [hof, hadd, hsub, hmul, hdiv]
  have hc1 : A.lt ((0 : ℚ) : K) (((hits.length : ℚ)) : K) = true :=
    (hlt _ _).mpr (by exact_mod_cast hpos)
  have hc2 : ¬ A.lt ((0 : ℚ) : K) ((((hits.length : ℚ)) : K)
        * (((hits.map (fun hit => hit.x * hit.x)).sum : ℚ) : K)
      - (((hits.map (fun hit => hit.x)).sum : ℚ) : K)
        * (((hits.map (fun hit => hit.x)).sum : ℚ) : K)) = true := by
    rw [hlt]
    intro h
    exact hD (by exact_mod_cast h)
  rw [if_pos hc1, if_neg hc2]
  simp only [specMeanX, specMeanZ]
  push_cast
  rfl

/-- The exact arithmetic of the rationals is exact. -/
theorem exactArithmetic_isExact (sqrt : ℚ → ℚ) : (exactArithmetic sqrt).IsExact := by
  refine ⟨fun q => (Rat.cast_id q).symm, fun _ _ => rfl, fun _ _ => rfl, fun _ _ => rfl,
    fun _ _ => rfl, fun a b => ?_⟩
  simp [exactArithmetic]

/-- Over any arithmetic, the object that the constructor returns when its test
`Sw * Swxx - Swx * Swx > 0` is false: both vertices at `(Swx / Sw, 0, Swz / Sw)`
and the direction `(1, 0, 0)`. -/
theorem createOver_test_false {F : Type} (A : FloatArithmetic F) (pSeedCluster : Cluster)
    (associatedClusters : List Cluster) (t : FloatTransverseCluster F)
    (h : LArTransverseCluster.createOver A pSeedCluster associatedClusters = Except.ok t)
    (htest : A.lt (A.ofRat 0)
      (A.sub
        (A.mul (LArTransverseCluster.sumsOver A pSeedCluster associatedClusters).Sw
          (LArTransverseCluster.sumsOver A pSeedCluster associatedClusters).Swxx)
        (A.mul (LArTransverseCluster.sumsOver A pSeedCluster associatedClusters).Swx
          (LArTransverseCluster.sumsOver A pSeedCluster associatedClusters).Swx)) = false) :
    t.m_innerVertex
      = ⟨A.div (LArTransverseCluster.sumsOver A pSeedCluster associatedClusters).Swx
            (LArTransverseCluster.sumsOver A pSeedCluster associatedClusters).Sw,
          A.ofRat 0,
          A.div (LArTransverseCluster.sumsOver A pSeedCluster associatedClusters).Swz
            (LArTransverseCluster.sumsOver A pSeedCluster associatedClusters).Sw⟩
    ∧ t.m_outerVertex = t.m_innerVertex
    ∧ t.m_direction = ⟨A.ofRat 1, A.ofRat 0, A.ofRat 0⟩ := by
  unfold LArTransverseCluster.createOver at h
  simp only at h
  by_cases h1 : A.lt (A.ofRat 0)
      (LArTransverseCluster.sumsOver A pSeedCluster associatedClusters).Sw = true
  · rw [if_pos h1, if_neg (by rw [htest]; exact Bool.false_ne_true)] at h
    cases h
    exact ⟨rfl, rfl, rfl⟩
  · rw [if_neg h1] at h
    cases h

/-- Over any arithmetic, the constructor throws exactly when its test `Sw > 0`
is false, and then `STATUS_CODE_NOT_INITIALIZED`. -/
theorem createOver_error {F : Type} (A : FloatArithmetic F) (pSeedCluster : Cluster)
    (associatedClusters : List Cluster) (e : StatusCode) :
    LArTransverseCluster.createOver A pSeedCluster associatedClusters = Except.error e
      ↔ e = StatusCode.STATUS_CODE_NOT_INITIALIZED
        ∧ A.lt (A.ofRat 0)
            (LArTransverseCluster.sumsOver A pSeedCluster associatedClusters).Sw = false := by
  unfold LArTransverseCluster.createOver
  simp only
  by_cases h1 : A.lt (A.ofRat 0)
      (LArTransverseCluster.sumsOver A pSeedCluster associatedClusters).Sw = true
  · rw [if_pos h1]
    constructor
    · intro h
      split_ifs at h
    · rintro ⟨_, h2⟩
      rw [h1] at h2
      cases h2
  · rw [if_neg h1]
    constructor
    · intro h
      cases h
      exact ⟨rfl, by simpa using h1⟩
    · rintro ⟨rfl, _⟩
      rfl

/-- The constructor of the rational model throws for a cluster list without
hits. -/
theorem LArTransverseCluster.create_empty (sqrt : ℚ → ℚ) (pSeedCluster : Cluster)
    (associatedClusters : List Cluster)
    (hnil : LArTransverseCluster.constituentHits pSeedCluster associatedClusters = []) :
    LArTransverseCluster.create sqrt pSeedCluster associatedClusters
      = Except.error StatusCode.STATUS_CODE_NOT_INITIALIZED := by
  obtain ⟨_, _, _, _, _, h6, _, _⟩ := accumulateFit_fields pSeedCluster associatedClusters
  unfold LArTransverseCluster.create
  simp only
  rw [h6, hnil, if_neg (by simp)]

/-- The constructor over an exact arithmetic throws for a cluster list without
hits. -/
theorem createOver_exact_empty {K : Type} [LinearOrderedField K] (A : FloatArithmetic K)
    (hA : A.IsExact) (pSeedCluster : Cluster) (associatedClusters : List Cluster)
    (hnil : LArTransverseCluster.constituentHits pSeedCluster associatedClusters = []) :
    LArTransverseCluster.createOver A pSeedCluster associatedClusters
      = Except.error StatusCode.STATUS_CODE_NOT_INITIALIZED := by
  refine (createOver_error A pSeedCluster associatedClusters _).mpr ⟨rfl, ?_⟩
  obtain ⟨_, _, _, _, _, h6, _, _⟩ := accumulateFit_fields pSeedCluster associatedClusters
  rw [sumsOver_exact A hA]
  simp only [FitSums.toFloat]
  rw [h6, hnil]
  cases hb : A.lt (A.ofRat 0) (((([] : List CartesianVector).length : ℚ)) : K) with
  | false => rfl
  | true =>
    have := (hA.2.2.2.2.2 _ _).mp hb
    rw [hA.1] at this
    simp at this

/-- The rational model of the constructor is the constructor over the exact
arithmetic of the rationals: the same vertices and direction, or an exception
in both. -/
theorem createOver_exactArithmetic (sqrt : ℚ → ℚ) (pSeedCluster : Cluster)
    (associatedClusters : List Cluster) :
    (LArTransverseCluster.createOver (exactArithmetic sqrt) pSeedCluster
        associatedClusters).toOption.map
        (fun t => ((t.m_innerVertex.x, t.m_innerVertex.y, t.m_innerVertex.z),
          (t.m_outerVertex.x, t.m_outerVertex.y, t.m_outerVertex.z),
          (t.m_direction.x, t.m_direction.y, t.m_direction.z)))
      = (LArTransverseCluster.create sqrt pSeedCluster associatedClusters).toOption.map
        (fun t => ((t.m_innerVertex.x, t.m_innerVertex.y, t.m_innerVertex.z),
          (t.m_outerVertex.x, t.m_outerVertex.y, t.m_outerVertex.z),
          (t.m_direction.x, t.m_direction.y, t.m_direction.z))) := by
  have hA := exactArithmetic_isExact sqrt
  by_cases hnil : LArTransverseCluster.constituentHits pSeedCluster associatedClusters = []
  · rw [createOver_exact_empty _ hA _ _ hnil,
      LArTransverseCluster.create_empty sqrt _ _ hnil]
    rfl
  · by_cases hD : 0 < ((LArTransverseCluster.constituentHits pSeedCluster
          associatedClusters).length : ℚ)
          * ((LArTransverseCluster.constituentHits pSeedCluster associatedClusters).map
              (fun hit => hit.x * hit.x)).sum
        - ((LArTransverseCluster.constituentHits pSeedCluster associatedClusters).map
              (fun hit => hit.x)).sum
          * ((LArTransverseCluster.constituentHits pSeedCluster associatedClusters).map
              (fun hit => hit.x)).sum
    · rw [createOver_exact_fitted _ hA _ _ _ rfl hD,
        LArTransverseCluster.create_fitted sqrt _ _ hD]
      simp only [Except.toOption, Option.map_some', Rat.cast_id]
      rfl
    · rw [createOver_exact_degenerate _ hA _ _ _ rfl hnil hD,
        LArTransverseCluster.create_degenerate sqrt _ _ hnil hD]
      simp only [Except.toOption, Option.map_some', Rat.cast_id, specMeanX, specMeanZ]

/-- The quantity `Sw * Swxx - Swx * Swx` of a list of hits is positive exactly
when two of the hits have different X coordinates. -/
theorem variance_pos_iff (hits : List CartesianVector) :
    0 < (hits.length : ℚ) * (hits.map (fun hit => hit.x * hit.x)).sum
        - (hits.map (fun hit => hit.x)).sum * (hits.map (fun hit => hit.x)).sum
      ↔ ∃ h1 ∈ hits, ∃ h2 ∈ hits, h1.x ≠ h2.x := by
  constructor
  · intro hD
    by_contra hno
    push_neg at hno
    cases hits with
    | nil => simp at hD
    | cons hit rest =>
      have hall : ∀ g ∈ hit :: rest, g.x = hit.x :=
        fun g hg => hno g hg hit (List.mem_cons_self _ _)
      rw [(variance_zero (hit :: rest) hit.x hall).2] at hD
      exact lt_irrefl 0 hD
  · exact variance_pos hits

/-- Over an exact arithmetic the test `Sw * Swxx - Swx * Swx > 0` of the
constructor is true exactly when the quantity is positive over the rationals. -/
theorem createOver_exact_test {K : Type} [LinearOrderedField K] (A : FloatArithmetic K)
    (hA : A.IsExact) (pSeedCluster : Cluster) (associatedClusters : List Cluster) :
    A.lt (A.ofRat 0)
      (A.sub
        (A.mul (LArTransverseCluster.sumsOver A pSeedCluster associatedClusters).Sw
          (LArTransverseCluster.sumsOver A pSeedCluster associatedClusters).Swxx)
        (A.mul (LArTransverseCluster.sumsOver A pSeedCluster associatedClusters).Swx
          (LArTransverseCluster.sumsOver A pSeedCluster associatedClusters).Swx)) = true
      ↔ 0 < ((LArTransverseCluster.constituentHits pSeedCluster associatedClusters).length : ℚ)
          * ((LArTransverseCluster.constituentHits pSeedCluster associatedClusters).map
              (fun hit => hit.x * hit.x)).sum
        - ((LArTransverseCluster.constituentHits pSeedCluster associatedClusters).map
              (fun hit => hit.x)).sum
          * ((LArTransverseCluster.constituentHits pSeedCluster associatedClusters).map
              (fun hit => hit.x)).sum := by
  obtain ⟨_, h2, _, _, h5, h6, _, _⟩ := accumulateFit_fields pSeedCluster associatedClusters
  rw [sumsOver_exact A hA]
  obtain ⟨hof, hadd, hsub, hmul, hdiv, hlt⟩ := hA
  simp only [FitSums.toFloat]
  rw [h2, h5, h6, hlt, hof, hsub, hmul, hmul]
  constructor
  · intro h
    exact_mod_cast h
  · intro h
    exact_mod_cast h

/-- C34 as stated fails: for the cluster of the two hits `(2, 0, 0)` and
`(2, 0, 4)` both vertices are the centroid `(2, 0, 2)`, and the direction is
`(1, 0, 0)`, the X axis, not the axis `(0, 0, 1)`. -/
theorem C34_counterexample :
    (LArTransverseCluster.create fitSqrt columnSeed []).toOption.map
        (fun t => (t.m_innerVertex, t.m_outerVertex, t.m_direction))
      = some (⟨2, 0, 2⟩, ⟨2, 0, 2⟩, ⟨1, 0, 0⟩)
    ∧ (⟨1, 0, 0⟩ : CartesianVector) ≠ ⟨0, 0, 1⟩ := by
  constructor
  · decide!
  · decide

/-- C34, amended.  Over every arithmetic `A` (binary32 with its rounding
included): whenever the constructor returns and its test
`Sw * Swxx - Swx * Swx > 0` is false, both vertices are
`(Swx / Sw, 0, Swz / Sw)` and the direction is `(1, 0, 0)`.  Over every exact
arithmetic `E` the test is false exactly when all hits share their X
coordinate.  For a transverse cluster built from at least one hit whose hits
all share the X coordinate `x0`, in exact arithmetic:
`n * sum(x^2) - (sum x)^2` is zero, the constructor returns, both vertices
are the centroid `(mean X, 0, mean Z)` with `mean X = x0`, and the direction
is `(1, 0, 0)`, the X axis, which is perpendicular to the axis `(0, 0, 1)` of
`SeparateInputClusters`. -/
theorem C34_degenerate_fit {F : Type} (A : FloatArithmetic F) (sqrt : ℚ → ℚ)
    (pSeedCluster : Cluster) (associatedClusters : List Cluster) :
    (∀ t, LArTransverseCluster.createOver A pSeedCluster associatedClusters = Except.ok t →
      A.lt (A.ofRat 0)
        (A.sub
          (A.mul (LArTransverseCluster.sumsOver A pSeedCluster associatedClusters).Sw
            (LArTransverseCluster.sumsOver A pSeedCluster associatedClusters).Swxx)
          (A.mul (LArTransverseCluster.sumsOver A pSeedCluster associatedClusters).Swx
            (LArTransverseCluster.sumsOver A pSeedCluster associatedClusters).Swx)) = false →
      t.m_innerVertex
        = ⟨A.div (LArTransverseCluster.sumsOver A pSeedCluster associatedClusters).Swx
              (LArTransverseCluster.sumsOver A pSeedCluster associatedClusters).Sw,
            A.ofRat 0,
            A.div (LArTransverseCluster.sumsOver A pSeedCluster associatedClusters).Swz
              (LArTransverseCluster.sumsOver A pSeedCluster associatedClusters).Sw⟩
      ∧ t.m_outerVertex = t.m_innerVertex
      ∧ t.m_direction = ⟨A.ofRat 1, A.ofRat 0, A.ofRat 0⟩)
    ∧ (∀ (K : Type) [LinearOrderedField K] (E : FloatArithmetic K), E.IsExact →
        (E.lt (E.ofRat 0)
          (E.sub
            (E.mul (LArTransverseCluster.sumsOver E pSeedCluster associatedClusters).Sw
              (LArTransverseCluster.sumsOver E pSeedCluster associatedClusters).Swxx)
            (E.mul (LArTransverseCluster.sumsOver E pSeedCluster associatedClusters).Swx
              (LArTransverseCluster.sumsOver E pSeedCluster associatedClusters).Swx)) = false
          ↔ ∀ h1 ∈ LArTransverseCluster.constituentHits pSeedCluster associatedClusters,
              ∀ h2 ∈ LArTransverseCluster.constituentHits pSeedCluster associatedClusters,
                h1.x = h2.x))
    ∧ ∀ x0 : ℚ, LArTransverseCluster.constituentHits pSeedCluster associatedClusters ≠ [] →
        (∀ hit ∈ LArTransverseCluster.constituentHits pSeedCluster associatedClusters,
          hit.x = x0) →
        ((LArTransverseCluster.constituentHits pSeedCluster associatedClusters).length : ℚ)
            * ((LArTransverseCluster.constituentHits pSeedCluster associatedClusters).map
                (fun hit => hit.x * hit.x)).sum
          - ((LArTransverseCluster.constituentHits pSeedCluster associatedClusters).map
                (fun hit => hit.x)).sum
            * ((LArTransverseCluster.constituentHits pSeedCluster associatedClusters).map
                (fun hit => hit.x)).sum = 0
        ∧ (∀ (K : Type) [LinearOrderedField K] (E : FloatArithmetic K), E.IsExact →
            ∃ t, LArTransverseCluster.createOver E pSeedCluster associatedClusters = Except.ok t
              ∧ t.m_innerVertex
                = ⟨(x0 : K), 0,
                    (specMeanZ (LArTransverseCluster.constituentHits pSeedCluster
                      associatedClusters) : K)⟩
              ∧ t.m_outerVertex = t.m_innerVertex
              ∧ t.m_direction = ⟨1, 0, 0⟩)
        ∧ ∃ t, LArTransverseCluster.create sqrt pSeedCluster associatedClusters = Except.ok t
            ∧ t.m_innerVertex
              = ⟨specMeanX (LArTransverseCluster.constituentHits pSeedCluster
                    associatedClusters),
                  0,
                  specMeanZ (LArTransverseCluster.constituentHits pSeedCluster
                    associatedClusters)⟩
            ∧ t.m_outerVertex = t.m_innerVertex
            ∧ specMeanX (LArTransverseCluster.constituentHits pSeedCluster associatedClusters)
              = x0
            ∧ t.m_direction = ⟨1, 0, 0⟩
            ∧ t.m_direction.GetDotProduct ⟨0, 0, 1⟩ = 0 := by
  refine ⟨fun t ht htest => createOver_test_false A pSeedCluster associatedClusters t ht htest,
    ?_, ?_⟩
  · intro K _ E hE
    have htest := createOver_exact_test E hE pSeedCluster associatedClusters
    have hvar := variance_pos_iff
      (LArTransverseCluster.constituentHits pSeedCluster associatedClusters)
    constructor
    · intro hfalse h1 hm1 h2 hm2
      by_contra hne12
      have hpos := hvar.mpr ⟨h1, hm1, h2, hm2, hne12⟩
      rw [htest.mpr hpos] at hfalse
      cases hfalse
    · intro hall
      cases hb : E.lt (E.ofRat 0)
          (E.sub
            (E.mul (LArTransverseCluster.sumsOver E pSeedCluster associatedClusters).Sw
              (LArTransverseCluster.sumsOver E pSeedCluster associatedClusters).Swxx)
            (E.mul (LArTransverseCluster.sumsOver E pSeedCluster associatedClusters).Swx
              (LArTransverseCluster.sumsOver E pSeedCluster associatedClusters).Swx)) with
      | false => rfl
      | true =>
        obtain ⟨h1, hm1, h2, hm2, hne12⟩ := hvar.mp (htest.mp hb)
        exact absurd (hall h1 hm1 h2 hm2) hne12
  · intro x0 hne hx
    obtain ⟨hsum, hzero⟩ := variance_zero
      (LArTransverseCluster.constituentHits pSeedCluster associatedClusters) x0 hx
    have hnot : ¬ 0 < ((LArTransverseCluster.constituentHits pSeedCluster
          associatedClusters).length : ℚ)
          * ((LArTransverseCluster.constituentHits pSeedCluster associatedClusters).map
              (fun hit => hit.x * hit.x)).sum
        - ((LArTransverseCluster.constituentHits pSeedCluster associatedClusters).map
              (fun hit => hit.x)).sum
          * ((LArTransverseCluster.constituentHits pSeedCluster associatedClusters).map
              (fun hit => hit.x)).sum := by
      rw [hzero]; exact lt_irrefl 0
    have hpos : (0 : ℚ)
        < ((LArTransverseCluster.constituentHits pSeedCluster associatedClusters).length : ℚ) := by
      exact_mod_cast List.length_pos.mpr hne
    have hmean : specMeanX (LArTransverseCluster.constituentHits pSeedCluster
        associatedClusters) = x0 := by
      unfold specMeanX
      rw [hsum]
      field_simp
    refine ⟨hzero, ?_, ?_⟩
    · intro K _ E hE
      refine ⟨_, createOver_exact_degenerate E hE pSeedCluster associatedClusters _ rfl hne hnot,
        ?_, rfl, rfl⟩
      rw [hmean]
    · have hcreate := LArTransverseCluster.create_degenerate sqrt pSeedCluster
        associatedClusters hne hnot
      refine ⟨_, hcreate, rfl, rfl, hmean, rfl, ?_⟩
      simp [CartesianVector.GetDotProduct]

/-- The amended C34 for the cluster of the two hits `(2, 0, 0)` and `(2, 0, 4)`,
in the exact arithmetic of the rationals. -/
theorem C34_witness :
    LArTransverseCluster.constituentHits columnSeed [] ≠ []
    ∧ (∀ hit ∈ LArTransverseCluster.constituentHits columnSeed [], hit.x = 2)
    ∧ (LArTransverseCluster.createOver (exactArithmetic fitSqrt) columnSeed []).toOption.map
        (fun t => ((t.m_innerVertex.x, t.m_innerVertex.y, t.m_innerVertex.z),
          (t.m_outerVertex.x, t.m_outerVertex.y, t.m_outerVertex.z),
          (t.m_direction.x, t.m_direction.y, t.m_direction.z)))
        = some ((2, 0, 2), (2, 0, 2), (1, 0, 0))
    ∧ ((LArTransverseCluster.constituentHits columnSeed []).length : ℚ)
        * ((LArTransverseCluster.constituentHits columnSeed []).map
            (fun hit => hit.x * hit.x)).sum
      - ((LArTransverseCluster.constituentHits columnSeed []).map (fun hit => hit.x)).sum
        * ((LArTransverseCluster.constituentHits columnSeed []).map (fun hit => hit.x)).sum = 0
    ∧ ∃ t, LArTransverseCluster.create fitSqrt columnSeed [] = Except.ok t
        ∧ t.m_innerVertex
          = ⟨specMeanX (LArTransverseCluster.constituentHits columnSeed []), 0,
              specMeanZ (LArTransverseCluster.constituentHits columnSeed [])⟩
        ∧ t.m_outerVertex = t.m_innerVertex
        ∧ specMeanX (LArTransverseCluster.constituentHits columnSeed []) = 2
        ∧ t.m_direction = ⟨1, 0, 0⟩
        ∧ t.m_direction.GetDotProduct ⟨0, 0, 1⟩ = 0 := by
  have h := (C34_degenerate_fit (exactArithmetic fitSqrt) fitSqrt columnSeed []).2.2 2
    (by decide) (by decide!)
  exact ⟨by decide, by decide!, by decide!, h.1, h.2.2⟩

/-- C35 (the X coordinates are values of type `float`, between `-FLT_MAX` and
`FLT_MAX`): for a transverse cluster whose hits `hits`, the hits of the seed
and of the associated clusters with weight 1 each, have two different X
coordinates, the denominator `n * sum(x^2) - (sum x)^2` is positive and the
slope `m` of the specification is the least-squares slope of z on x over the
reals: the line of slope `m` through the centroid has the least sum of
squared residuals, and no other line has that sum.  In the rational model,
whatever `sqrt` stands for `std::sqrt`, the constructor returns; the
direction is `(1, 0, m) / sqrt (1 + m * m)`; the inner and the outer vertex
are on the line of slope `m` through the centroid, at the least and at the
greatest X coordinate of the hits, and the X coordinate of the inner vertex
is below that of the outer vertex.  Over the exact arithmetic of the reals
with the real square root the constructor returns the same vertices and the
direction `(1, 0, m) / sqrt (1 + m * m)`, which has unit length and a
positive X component. -/
theorem C35_least_squares_fit (sqrt : ℚ → ℚ) (pSeedCluster : Cluster)
    (associatedClusters : List Cluster) (hits : List CartesianVector) (m : ℚ)
    (hhits : hits = LArTransverseCluster.constituentHits pSeedCluster associatedClusters)
    (hm : m = specSlope hits)
    (hdist : ∃ h1 ∈ hits, ∃ h2 ∈ hits, h1.x ≠ h2.x)
    (hrange : ∀ hit ∈ hits, -FLT_MAX ≤ hit.x ∧ hit.x ≤ FLT_MAX) :
    0 < (hits.length : ℚ) * (hits.map (fun hit => hit.x * hit.x)).sum
        - (hits.map (fun hit => hit.x)).sum * (hits.map (fun hit => hit.x)).sum
    ∧ (∀ a b : ℝ,
        sumSquaredResiduals hits (m : ℝ) ((specMeanZ hits - m * specMeanX hits : ℚ) : ℝ)
          ≤ sumSquaredResiduals hits a b
        ∧ (sumSquaredResiduals hits a b
            ≤ sumSquaredResiduals hits (m : ℝ) ((specMeanZ hits - m * specMeanX hits : ℚ) : ℝ)
          → a = (m : ℝ) ∧ b = ((specMeanZ hits - m * specMeanX hits : ℚ) : ℝ)))
    ∧ (∃ t, LArTransverseCluster.create sqrt pSeedCluster associatedClusters = Except.ok t
        ∧ t.m_direction = ⟨1 / sqrt (1 + m * m), 0, m / sqrt (1 + m * m)⟩
        ∧ (0 < sqrt (1 + m * m) ∧ sqrt (1 + m * m) * sqrt (1 + m * m) = 1 + m * m →
            t.m_direction.GetMagnitudeSquared = 1 ∧ 0 < t.m_direction.x)
        ∧ t.m_innerVertex
          = ⟨t.m_innerVertex.x, 0, specMeanZ hits + m * (t.m_innerVertex.x - specMeanX hits)⟩
        ∧ t.m_outerVertex
          = ⟨t.m_outerVertex.x, 0, specMeanZ hits + m * (t.m_outerVertex.x - specMeanX hits)⟩
        ∧ (∀ hit ∈ hits, t.m_innerVertex.x ≤ hit.x ∧ hit.x ≤ t.m_outerVertex.x)
        ∧ (∃ hit ∈ hits, hit.x = t.m_innerVertex.x)
        ∧ (∃ hit ∈ hits, hit.x = t.m_outerVertex.x)
        ∧ t.m_innerVertex.x < t.m_outerVertex.x
        ∧ ∀ R : FloatArithmetic ℝ, R.IsExact → (∀ q : ℝ, R.sqrt q = Real.sqrt q) →
            ∃ r, LArTransverseCluster.createOver R pSeedCluster associatedClusters = Except.ok r
              ∧ r.m_direction
                = ⟨1 / Real.sqrt (1 + (m : ℝ) * (m : ℝ)), 0,
                    (m : ℝ) / Real.sqrt (1 + (m : ℝ) * (m : ℝ))⟩
              ∧ r.m_direction.x * r.m_direction.x + r.m_direction.y * r.m_direction.y
                  + r.m_direction.z * r.m_direction.z = 1
              ∧ 0 < r.m_direction.x
              ∧ r.m_direction.z = (m : ℝ) * r.m_direction.x
              ∧ r.m_innerVertex
                = ⟨(t.m_innerVertex.x : ℝ), 0, (t.m_innerVertex.z : ℝ)⟩
              ∧ r.m_outerVertex
                = ⟨(t.m_outerVertex.x : ℝ), 0, (t.m_outerVertex.z : ℝ)⟩) := by
  have hD := variance_pos hits hdist
  have hne : hits ≠ [] := by
    obtain ⟨h1, hm1, _⟩ := hdist
    exact List.ne_nil_of_mem hm1
  have hxne : hits.map (fun hit => hit.x) ≠ [] := by
    intro h
    exact hne (List.map_eq_nil_iff.mp h)
  have hlow : ∀ hit ∈ hits, (hits.map (fun hit => hit.x)).foldl min FLT_MAX ≤ hit.x :=
    fun hit hhit => ((le_foldl_min_iff _ FLT_MAX _).mp (le_refl _)).2 _
      (List.mem_map_of_mem _ hhit)
  have hup : ∀ hit ∈ hits, hit.x ≤ (hits.map (fun hit => hit.x)).foldl max (-FLT_MAX) :=
    fun hit hhit => ((foldl_max_le_iff _ (-FLT_MAX) _).mp (le_refl _)).2 _
      (List.mem_map_of_mem _ hhit)
  have hmin := foldl_min_attained (hits.map (fun hit => hit.x)) FLT_MAX hxne (by
    intro x hx
    obtain ⟨hit, hhit, rfl⟩ := List.mem_map.mp hx
    exact (hrange hit hhit).2)
  have hmax := foldl_max_attained (hits.map (fun hit => hit.x)) (-FLT_MAX) hxne (by
    intro x hx
    obtain ⟨hit, hhit, rfl⟩ := List.mem_map.mp hx
    exact (hrange hit hhit).1)
  refine ⟨hD, ?_, ?_⟩
  · intro a b
    rw [hm]
    exact least_squares hits hD a b
  · have hcreate := LArTransverseCluster.create_fitted sqrt pSeedCluster associatedClusters
      (by rw [← hhits]; exact hD)
    rw [← hhits, ← hm] at hcreate
    refine ⟨_, hcreate, rfl, ?_, rfl, rfl, fun hit hhit => ⟨hlow hit hhit, hup hit hhit⟩,
      ?_, ?_, ?_, ?_⟩
    · intro hsqrt
      constructor
      · have hdiv : 1 / sqrt (1 + m * m) * (1 / sqrt (1 + m * m)) + 0 * 0
            + m / sqrt (1 + m * m) * (m / sqrt (1 + m * m))
            = (1 + m * m) / (sqrt (1 + m * m) * sqrt (1 + m * m)) := by
          ring
        have hpos : (0 : ℚ) < 1 + m * m := by nlinarith [mul_self_nonneg m]
        show 1 / sqrt (1 + m * m) * (1 / sqrt (1 + m * m)) + 0 * 0
            + m / sqrt (1 + m * m) * (m / sqrt (1 + m * m)) = 1
        rw [hdiv, hsqrt.2, div_self (ne_of_gt hpos)]
      · exact one_div_pos.mpr hsqrt.1
    · obtain ⟨hit, hhit, he⟩ := List.mem_map.mp hmin
      exact ⟨hit, hhit, he⟩
    · obtain ⟨hit, hhit, he⟩ := List.mem_map.mp hmax
      exact ⟨hit, hhit, he⟩
    · obtain ⟨h1, hm1, h2, hm2, hne12⟩ := hdist
      show (hits.map (fun hit => hit.x)).foldl min FLT_MAX
        < (hits.map (fun hit => hit.x)).foldl max (-FLT_MAX)
      rcases lt_or_gt_of_ne hne12 with h | h
      · exact lt_of_le_of_lt (hlow h1 hm1) (lt_of_lt_of_le h (hup h2 hm2))
      · exact lt_of_le_of_lt (hlow h2 hm2) (lt_of_lt_of_le h (hup h1 hm1))
    · intro R hR hRsqrt
      have hreal := createOver_exact_fitted R hR pSeedCluster associatedClusters hits hhits hD
      rw [← hm, hRsqrt] at hreal
      have hpos : (0 : ℝ) < 1 + (m : ℝ) * (m : ℝ) := by nlinarith [mul_self_nonneg (m : ℝ)]
      have hs : 0 < Real.sqrt (1 + (m : ℝ) * (m : ℝ)) := Real.sqrt_pos.mpr hpos
      have hss : Real.sqrt (1 + (m : ℝ) * (m : ℝ)) * Real.sqrt (1 + (m : ℝ) * (m : ℝ))
          = 1 + (m : ℝ) * (m : ℝ) := Real.mul_self_sqrt (le_of_lt hpos)
      refine ⟨_, hreal, rfl, ?_, one_div_pos.mpr hs, ?_, rfl, rfl⟩
      · have hdiv : 1 / Real.sqrt (1 + (m : ℝ) * (m : ℝ))
              * (1 / Real.sqrt (1 + (m : ℝ) * (m : ℝ))) + 0 * 0
            + (m : ℝ) / Real.sqrt (1 + (m : ℝ) * (m : ℝ))
              * ((m : ℝ) / Real.sqrt (1 + (m : ℝ) * (m : ℝ)))
            = (1 + (m : ℝ) * (m : ℝ))
              / (Real.sqrt (1 + (m : ℝ) * (m : ℝ)) * Real.sqrt (1 + (m : ℝ) * (m : ℝ))) := by
          ring
        show 1 / Real.sqrt (1 + (m : ℝ) * (m : ℝ))
              * (1 / Real.sqrt (1 + (m : ℝ) * (m : ℝ))) + 0 * 0
            + (m : ℝ) / Real.sqrt (1 + (m : ℝ) * (m : ℝ))
              * ((m : ℝ) / Real.sqrt (1 + (m : ℝ) * (m : ℝ))) = 1
        rw [hdiv, hss, div_self (ne_of_gt hpos)]
      · show (m : ℝ) / Real.sqrt (1 + (m : ℝ) * (m : ℝ))
            = (m : ℝ) * (1 / Real.sqrt (1 + (m : ℝ) * (m : ℝ)))
        ring

/-- The statement C35 for the cluster of the two hits `(0, 0, 0)` and
`(4, 0, 3)` (slope `3 / 4`, direction `(4 / 5, 0, 3 / 5)`, the vertices are
the two hits) and for the cluster of the two hits `(0, 0, 0)` and `(1, 0, 1)`
(slope 1, vertices at the two hits, unit direction over the reals); an exact
arithmetic of the reals with the real square root exists. -/
theorem C35_witness :
    ([⟨0, 0, 0⟩, ⟨4, 0, 3⟩] = LArTransverseCluster.constituentHits slopedSeed []
      ∧ (3 / 4 : ℚ) = specSlope [⟨0, 0, 0⟩, ⟨4, 0, 3⟩]
      ∧ (∃ h1 ∈ ([⟨0, 0, 0⟩, ⟨4, 0, 3⟩] : List CartesianVector),
          ∃ h2 ∈ ([⟨0, 0, 0⟩, ⟨4, 0, 3⟩] : List CartesianVector), h1.x ≠ h2.x)
      ∧ (∀ hit ∈ ([⟨0, 0, 0⟩, ⟨4, 0, 3⟩] : List CartesianVector),
          -FLT_MAX ≤ hit.x ∧ hit.x ≤ FLT_MAX))
    ∧ (LArTransverseCluster.create fitSqrt slopedSeed []).toOption.map
        (fun t => (t.m_innerVertex, t.m_outerVertex, t.m_direction))
        = some (⟨0, 0, 0⟩, ⟨4, 0, 3⟩, ⟨4 / 5, 0, 3 / 5⟩)
    ∧ (∃ t, LArTransverseCluster.create fitSqrt slopedSeed [] = Except.ok t
        ∧ t.m_direction.GetMagnitudeSquared = 1 ∧ t.m_innerVertex.x < t.m_outerVertex.x)
    ∧ ([⟨0, 0, 0⟩, ⟨1, 0, 1⟩] = LArTransverseCluster.constituentHits diagonalSeed []
      ∧ (1 : ℚ) = specSlope [⟨0, 0, 0⟩, ⟨1, 0, 1⟩]
      ∧ (∃ h1 ∈ ([⟨0, 0, 0⟩, ⟨1, 0, 1⟩] : List CartesianVector),
          ∃ h2 ∈ ([⟨0, 0, 0⟩, ⟨1, 0, 1⟩] : List CartesianVector), h1.x ≠ h2.x)
      ∧ (∀ hit ∈ ([⟨0, 0, 0⟩, ⟨1, 0, 1⟩] : List CartesianVector),
          -FLT_MAX ≤ hit.x ∧ hit.x ≤ FLT_MAX))
    ∧ (LArTransverseCluster.create fitSqrt diagonalSeed []).toOption.map
        (fun t => (t.m_innerVertex, t.m_outerVertex))
        = some (⟨0, 0, 0⟩, ⟨1, 0, 1⟩)
    ∧ (∃ R : FloatArithmetic ℝ, R.IsExact ∧ ∀ q : ℝ, R.sqrt q = Real.sqrt q)
    ∧ (∀ R : FloatArithmetic ℝ, R.IsExact → (∀ q : ℝ, R.sqrt q = Real.sqrt q) →
        ∃ r, LArTransverseCluster.createOver R diagonalSeed [] = Except.ok r
          ∧ r.m_direction
            = ⟨1 / Real.sqrt (1 + ((1 : ℚ) : ℝ) * ((1 : ℚ) : ℝ)), 0,
                ((1 : ℚ) : ℝ) / Real.sqrt (1 + ((1 : ℚ) : ℝ) * ((1 : ℚ) : ℝ))⟩
          ∧ r.m_direction.x * r.m_direction.x + r.m_direction.y * r.m_direction.y
              + r.m_direction.z * r.m_direction.z = 1
          ∧ 0 < r.m_direction.x) := by
  have h1 : ([⟨0, 0, 0⟩, ⟨4, 0, 3⟩] : List CartesianVector)
      = LArTransverseCluster.constituentHits slopedSeed [] := by decide
  have h2 : (3 / 4 : ℚ) = specSlope [⟨0, 0, 0⟩, ⟨4, 0, 3⟩] := by decide!
  have h3 : ∃ h1 ∈ ([⟨0, 0, 0⟩, ⟨4, 0, 3⟩] : List CartesianVector),
      ∃ h2 ∈ ([⟨0, 0, 0⟩, ⟨4, 0, 3⟩] : List CartesianVector), h1.x ≠ h2.x := by decide!
  have h4 : ∀ hit ∈ ([⟨0, 0, 0⟩, ⟨4, 0, 3⟩] : List CartesianVector),
      -FLT_MAX ≤ hit.x ∧ hit.x ≤ FLT_MAX := by decide!
  have g1 : ([⟨0, 0, 0⟩, ⟨1, 0, 1⟩] : List CartesianVector)
      = LArTransverseCluster.constituentHits diagonalSeed [] := by decide
  have g2 : (1 : ℚ) = specSlope [⟨0, 0, 0⟩, ⟨1, 0, 1⟩] := by decide!
  have g3 : ∃ h1 ∈ ([⟨0, 0, 0⟩, ⟨1, 0, 1⟩] : List CartesianVector),
      ∃ h2 ∈ ([⟨0, 0, 0⟩, ⟨1, 0, 1⟩] : List CartesianVector), h1.x ≠ h2.x := by decide!
  have g4 : ∀ hit ∈ ([⟨0, 0, 0⟩, ⟨1, 0, 1⟩] : List CartesianVector),
      -FLT_MAX ≤ hit.x ∧ hit.x ≤ FLT_MAX := by decide!
  obtain ⟨_, _, s, hs, _, hunit, _, _, _, _, _, hlt, _⟩ :=
    C35_least_squares_fit fitSqrt slopedSeed [] [⟨0, 0, 0⟩, ⟨4, 0, 3⟩] (3 / 4) h1 h2 h3 h4
  obtain ⟨_, _, t, _, _, _, _, _, _, _, _, _, hreal⟩ :=
    C35_least_squares_fit fitSqrt diagonalSeed [] [⟨0, 0, 0⟩, ⟨1, 0, 1⟩] 1 g1 g2 g3 g4
  refine ⟨⟨h1, h2, h3, h4⟩, by decide!, ⟨s, hs, (hunit (by decide!)).1, hlt⟩,
    ⟨g1, g2, g3, g4⟩, by decide!, ?_, ?_⟩
  · exact ⟨{ ofRat := fun q => (q : ℝ)
             add := fun a b => a + b
             sub := fun a b => a - b
             mul := fun a b => a * b
             div := fun a b => a / b
             lt := fun a b => decide (a < b)
             sqrt := Real.sqrt },
      ⟨fun _ => rfl, fun _ _ => rfl, fun _ _ => rfl, fun _ _ => rfl, fun _ _ => rfl,
        fun _ _ => decide_eq_true_iff⟩,
      fun _ => rfl⟩
  · intro R hR hRsqrt
    obtain ⟨r, hr, hdir, hunit, hposx, _⟩ := hreal R hR hRsqrt
    exact ⟨r, hr, hdir, hunit, hposx⟩

end lar_content
